import Mathlib

/-!
pioasm-compiler: lexer, expression parser and top-level compiler

A shallow embedding of `src/compiler/lexer.go`, `src/compiler/expression.go` and
`src/compiler/compiler.go`, followed by theorems about it.

Conventions of the embedding.

* Sources are modelled over the ASCII alphabet: a source is a `List Char` in which one rune
  is one byte, so a byte offset is an index into the list.  `unicode.IsLetter`,
  `unicode.IsNumber` and `unicode.ToUpper` are modelled by their restriction to ASCII.  On a
  source whose characters are all below 128 the model reads the runes, widths and classes
  that the code reads; the theorems on line numbers, on keyword spellings and on token
  spans take this as a hypothesis.
* Go panics are explicit results (`Res`): `raise` is `panic(*CompileError)`, `crash` is a
  Go runtime panic (index out of range, nil dereference, integer division by zero), and
  `timeout` is exhausted fuel, the only way the model represents a loop that never ends.
* The lexer goroutine and its unbuffered channel are modelled by a pull: each `compiler.next`
  runs the state machine until it sends one item or closes the channel.
* `*AstDefine` pointers are addresses into an explicit heap, because a define is shared
  between the symbol tables and the AST and `evaluateDefine` writes through the pointer.
-/

namespace Pioasm

/-! ## lexer.go -/

/-- Token classes, in the order of the `iota` block. -/
inductive itemType where
  | itemError | itemEOF | itemEOL | itemNumber | itemSymbol
  | itemDirDefine | itemDirProgram | itemDirOrigin | itemDirSideSet | itemDirWrapTarget
  | itemDirWrap | itemDirLangOpt | itemDirWord
  | itemInstrJMP | itemInstrWAIT | itemInstrIN | itemInstrOUT | itemInstrPUSH | itemInstrPULL
  | itemInstrMOV | itemInstrIRQ | itemInstrSET | itemInstrNOP
  | itemPublic | itemOptional | itemSide | itemPin | itemGPIO | itemOSRE
  | itemReverse | itemComma | itemLabel | itemLBracket | itemRBracket | itemLParent | itemRParent
  | itemPlus | itemMinus | itemStar | itemSlash | itemBinAnd | itemBinOr | itemBinXor
  | itemBang | itemEqual
  deriving DecidableEq, Repr

open itemType

/-- A token: class, literal text, and the byte offsets `start` and `end` of its span. -/
structure lexItem where
  typ : itemType
  val : String
  end_ : Nat
  start : Nat
  deriving DecidableEq, Repr

/-- The rune Go's `next` and `peek` return at end of input (`eof = 0`). -/
def eof : Char := Char.ofNat 0

def eol : Char := '\n'

/-- The slice `whites`. -/
def whites : List Char := ['\t', '\n', '\r', ' ']

/-- ASCII restriction of `unicode.IsLetter`: the value of `unicode.IsLetter` on a rune below
128, and `false` on the others, where Go consults the Unicode tables. -/
def unicodeIsLetter (r : Char) : Bool :=
  (65 ≤ r.toNat && r.toNat ≤ 90) || (97 ≤ r.toNat && r.toNat ≤ 122)

/-- ASCII restriction of `unicode.IsNumber`: the value of `unicode.IsNumber` on a rune below
128, and `false` on the others, where Go consults the Unicode tables. -/
def unicodeIsNumber (r : Char) : Bool :=
  48 ≤ r.toNat && r.toNat ≤ 57

/-- ASCII restriction of `unicode.ToUpper`: the value of `unicode.ToUpper` on a rune below
128, and the rune itself on the others, where Go consults the Unicode tables. -/
def unicodeToUpper (r : Char) : Char :=
  if 97 ≤ r.toNat && r.toNat ≤ 122 then Char.ofNat (r.toNat - 32) else r

def isWhite (r : Char) : Bool :=
  if r = eof || r = eol then true else whites.contains r

def isWordEnd (r : Char) : Bool := isWhite r

def isSymbol (r : Char) : Bool := unicodeIsLetter r || r = '_'

def isValue (r : Char) : Bool := unicodeIsNumber r

def isDirective (r : Char) : Bool := r = '.'

def isEOF (r : Char) : Bool := r = eof

def isEOL (r : Char) : Bool := r = eol

/-- The lexer's mutable fields.  `name` is never read and the channel `items` is the
result of `compiler.next`, so neither is a field here. -/
structure lexer where
  input : List Char
  lines : List Nat
  start : Nat
  pos : Nat
  width : Nat
  lastItem : Option lexItem
  deriving DecidableEq, Repr

/-- The state functions of the lexer; Go's `nil` state is `none : Option stateFn`. -/
inductive stateFn where
  | lexContent | lexSymbolOrLabel | lexDirective | lexValue | lexComment
  deriving DecidableEq, Repr

/-- The loop of `sort.Search`: binary search for the least index in `[i, j)` at which `f`
holds.  The interval halves at every turn, so `n` turns are enough for an interval of
length `n`. -/
def sortSearchLoop (f : Nat → Bool) : Nat → Nat → Nat → Nat
  | 0, i, _ => i
  | fuel + 1, i, j =>
    if i < j then
      let h := (i + j) / 2
      if !f h then sortSearchLoop f fuel (h + 1) j else sortSearchLoop f fuel i h
    else i

def sortSearch (n : Nat) (f : Nat → Bool) : Nat := sortSearchLoop f n 0 n

namespace lexer

/-- Translation of `lexer.position`: line and column of the byte offset `pos`. -/
def position (l : lexer) (pos : Nat) : Int × Int :=
  let linesLen := l.lines.length
  let line : Int := (sortSearch linesLen (fun i => decide (l.lines.getD i 0 > pos)) : Int) - 1
  let line : Int := if line ≥ linesLen then (linesLen : Int) - 1 else line
  let lineOffset : Int := if line ≥ 0 then (l.lines.getD line.toNat 0 : Int) else 0
  let offset : Int := (pos : Int) - lineOffset
  let offset : Int := if lineOffset = 0 then offset + 1 else offset
  (line + 2, offset)

def addLine (l : lexer) (pos : Nat) : lexer :=
  match l.lines.getLast? with
  | none => { l with lines := l.lines ++ [pos] }
  | some last => if last < pos then { l with lines := l.lines ++ [pos] } else l

/-- Translation of `lexer.next`: the rune at `pos` (or `eof`), recording a newline.  The
width is 1: on an ASCII source `utf8.DecodeRuneInString` returns the byte at `pos` and the
width 1. -/
def next (l : lexer) : Char × lexer :=
  match l.input[l.pos]? with
  | none => (eof, { l with width := 0 })
  | some rune =>
    let l := { l with width := 1 }
    let l := if rune = '\n' then l.addLine l.pos else l
    (rune, { l with pos := l.pos + l.width })

def peek (l : lexer) : Char :=
  match l.input[l.pos]? with
  | none => eof
  | some rune => rune

def back (l : lexer) : lexer := { l with pos := l.start, width := 0 }

def ignore (l : lexer) : lexer := { l with start := l.pos }

def backup (l : lexer) : lexer := { l with pos := l.pos - l.width }

/-- Translation of `lexer.emit`: the item sent on the channel (none when an end-of-line is
dropped) and the lexer afterwards. -/
def emit (l : lexer) (t : itemType) : Option lexItem × lexer :=
  let item : lexItem :=
    { typ := t, val := String.mk ((l.input.drop l.start).take (l.pos - l.start)),
      start := l.start, end_ := l.pos }
  let dropped : Bool :=
    decide (item.typ = itemEOL) &&
      (match l.lastItem with
       | none => true
       | some last => decide (last.typ = itemEOL))
  (if dropped then none else some item, { l with lastItem := some item, start := l.pos })

/-- The `for _, r := range s` loop of `acceptStringCI` followed by its word-end test. -/
def acceptStringCILoop : List Char → lexer → Bool × lexer
  | [], l => if isWordEnd l.peek then (true, l) else (false, l.back)
  | r :: rs, l =>
    let (n, l) := l.next
    if unicodeToUpper n ≠ unicodeToUpper r then (false, l.back) else acceptStringCILoop rs l

def acceptStringCI (l : lexer) (s : String) : Bool × lexer := acceptStringCILoop s.data l

end lexer

/-- What one call of a state function yields: the next state (`none` for Go's `nil`), the
item it sent on the channel if any, and the lexer afterwards. -/
structure lexStep where
  state : Option stateFn
  sent : Option lexItem
  lex : lexer
  deriving DecidableEq, Repr

/-- An `emit` followed by `return state`. -/
def emitThen (l : lexer) (t : itemType) (state : Option stateFn) : lexStep :=
  let (sent, l) := l.emit t
  { state := state, sent := sent, lex := l }

/-- The keyword chain at the head of `lexContent`: each entry is tried in order with
`acceptStringCI` and the first that matches decides the item type. -/
def keywords : List (String × itemType) :=
  [("jmp", itemInstrJMP), ("WAIT", itemInstrWAIT), ("IN", itemInstrIN), ("OUT", itemInstrOUT),
   ("PUSH", itemInstrPUSH), ("PULL", itemInstrPULL), ("MOV", itemInstrMOV),
   ("IRQ", itemInstrIRQ), ("SET", itemInstrSET), ("NOP", itemInstrNOP),
   ("PUBLIC", itemPublic), ("OPTIONAL", itemOptional), ("OPT", itemOptional),
   ("SIDE", itemSide), ("SIDESET", itemSide), ("SIDE_SET", itemSide), ("PIN", itemPin),
   ("GPIO", itemGPIO), ("OSRE", itemOSRE)]

/-- Runs the `if l.acceptStringCI(..) { .. } else if ..` chain: the matched item type, if
any, and the lexer after the calls made. -/
def acceptKeyword : List (String × itemType) → lexer → Option itemType × lexer
  | [], l => (none, l)
  | (s, t) :: rest, l =>
    let (ok, l) := l.acceptStringCI s
    if ok then (some t, l) else acceptKeyword rest l

/-- One turn of the `for` loop of `lexContent`.  A turn that ends without `return` goes
round the loop again, which is the same as entering `lexContent` afresh. -/
def lexContent (l : lexer) : lexStep :=
  match acceptKeyword keywords l with
  | (some t, l) => emitThen l t (some stateFn.lexContent)
  | (none, l) =>
    let (next, l) := l.next
    if isEOF next then emitThen l itemEOF none
    else if isEOL next then emitThen l itemEOL (some stateFn.lexContent)
    else if next = ';' || (next = '/' && l.peek = '/') then
      { state := some stateFn.lexComment, sent := none, lex := l.ignore }
    else if next = eol then emitThen l itemEOL (some stateFn.lexContent)
    else if isWhite next then { state := some stateFn.lexContent, sent := none, lex := l.ignore }
    else if isSymbol next then { state := some stateFn.lexSymbolOrLabel, sent := none, lex := l }
    else if isDirective next then { state := some stateFn.lexDirective, sent := none, lex := l }
    else if isValue next then { state := some stateFn.lexValue, sent := none, lex := l }
    else if next = '[' then emitThen l itemLBracket (some stateFn.lexContent)
    else if next = ']' then emitThen l itemRBracket (some stateFn.lexContent)
    else if next = '(' then emitThen l itemLParent (some stateFn.lexContent)
    else if next = ')' then emitThen l itemRParent (some stateFn.lexContent)
    else if next = '+' then emitThen l itemPlus (some stateFn.lexContent)
    else if next = '-' then emitThen l itemMinus (some stateFn.lexContent)
    else if next = '*' then emitThen l itemStar (some stateFn.lexContent)
    else if next = '/' then emitThen l itemSlash (some stateFn.lexContent)
    else if next = '&' then emitThen l itemBinAnd (some stateFn.lexContent)
    else if next = '|' then emitThen l itemBinOr (some stateFn.lexContent)
    else if next = '^' then emitThen l itemBinXor (some stateFn.lexContent)
    else if next = '!' then emitThen l itemBang (some stateFn.lexContent)
    else if next = '=' then emitThen l itemEqual (some stateFn.lexContent)
    else if next = ',' then emitThen l itemComma (some stateFn.lexContent)
    else { state := some stateFn.lexContent, sent := none, lex := l }

/-- One turn of the loop of `lexSymbolOrLabel`. -/
def lexSymbolOrLabel (l : lexer) : lexStep :=
  let (next, l) := l.next
  if next ≠ '.' && !unicodeIsNumber next && !isSymbol next then
    if next = ':' then emitThen l itemLabel (some stateFn.lexContent)
    else emitThen l.backup itemSymbol (some stateFn.lexContent)
  else { state := some stateFn.lexSymbolOrLabel, sent := none, lex := l }

/-- The `switch directive` of `lexDirective`. -/
def directiveType (directive : String) : Option itemType :=
  if directive = ".define" then some itemDirDefine
  else if directive = ".program" then some itemDirProgram
  else if directive = ".origin" then some itemDirOrigin
  else if directive = ".side_set" then some itemDirSideSet
  else if directive = ".wrap_target" then some itemDirWrapTarget
  else if directive = ".wrap" then some itemDirWrap
  else if directive = ".lang_opt" then some itemDirLangOpt
  else if directive = ".word" then some itemDirWord
  else none

/-- One turn of the loop of `lexDirective`. -/
def lexDirective (l : lexer) : lexStep :=
  let (next, l) := l.next
  if !isSymbol next then
    let l := l.backup
    let directive := String.mk ((l.input.drop l.start).take (l.pos - l.start))
    match directiveType directive with
    | some t => emitThen l t (some stateFn.lexContent)
    | none => { state := some stateFn.lexContent, sent := none, lex := l }
  else { state := some stateFn.lexDirective, sent := none, lex := l }

/-- One turn of the loop of `lexValue`. -/
def lexValue (l : lexer) : lexStep :=
  let (next, l) := l.next
  if !isValue next then
    if isSymbol next then emitThen l itemError none
    else emitThen l.backup itemNumber (some stateFn.lexContent)
  else { state := some stateFn.lexValue, sent := none, lex := l }

/-- One turn of the loop of `lexComment`. -/
def lexComment (l : lexer) : lexStep :=
  let peek := l.peek
  if isEOL peek || isEOF peek then { state := some stateFn.lexContent, sent := none, lex := l }
  else
    let (_, l) := l.next
    { state := some stateFn.lexComment, sent := none, lex := l.ignore }

/-- Dispatch of a state function. -/
def stateFn.step : stateFn → lexer → lexStep
  | stateFn.lexContent, l => Pioasm.lexContent l
  | stateFn.lexSymbolOrLabel, l => Pioasm.lexSymbolOrLabel l
  | stateFn.lexDirective, l => Pioasm.lexDirective l
  | stateFn.lexValue, l => Pioasm.lexValue l
  | stateFn.lexComment, l => Pioasm.lexComment l

/-- The lexer as the compiler holds it: the state function `run` is about to call and the
lexer's fields. -/
structure lexHandle where
  state : Option stateFn
  lex : lexer
  deriving DecidableEq, Repr

/-- Translation of `lex`: a fresh lexer about to run `lexContent`. -/
def lex (input : List Char) : lexHandle :=
  { state := some stateFn.lexContent,
    lex := { input := input, lines := [], start := 0, pos := 0, width := 0, lastItem := none } }

/-- The loop of `lexer.run` up to its next channel send.  `some (some item, h)`: an item
was sent; `some (none, h)`: the channel was closed; `none`: the fuel ran out before either
happened. -/
def lexHandle.receive : Nat → lexHandle → Option (Option lexItem × lexHandle)
  | 0, _ => none
  | fuel + 1, h =>
    match h.state with
    | none => some (none, h)
    | some state =>
      let s := state.step h.lex
      match s.sent with
      | some item => some (some item, { state := s.state, lex := s.lex })
      | none => lexHandle.receive fuel { state := s.state, lex := s.lex }

/-- All items the lexer sends until it closes the channel, for inspecting the stream. -/
def lexAll (fuel : Nat) : Nat → lexHandle → Option (List lexItem)
  | 0, _ => none
  | n + 1, h =>
    match h.receive fuel with
    | none => none
    | some (none, _) => some []
    | some (some item, h) => (lexAll fuel n h).map (fun items => item :: items)

/-! ## Results of code that can panic -/

/-- The error value of `Compile`. -/
structure CompileError where
  line : Int
  offset : Int
  message : String
  deriving DecidableEq, Repr

/-- Outcome of a piece of Go code that may panic.  `raise e` is `panic(e)` with
`e : *CompileError`; `crash` is a runtime panic; `timeout` is exhausted fuel. -/
inductive Res (α : Type) where
  | ok (a : α)
  | raise (e : CompileError)
  | crash
  | timeout
  deriving DecidableEq, Repr

namespace Res

def bind {α β : Type} (x : Res α) (f : α → Res β) : Res β :=
  match x with
  | ok a => f a
  | raise e => raise e
  | crash => crash
  | timeout => timeout

instance : Monad Res where
  pure := Res.ok
  bind := Res.bind

end Res

/-! ## expression.go -/

/-- The operator constants `opPlus` .. `opBinOr`.  The parser builds no other operator, so
the `default` branch of `AstBinOp.eval` has no counterpart. -/
inductive operator where
  | opPlus | opMinus | opMul | opDiv | opBinAnd | opBinXor | opBinOr
  deriving DecidableEq, Repr

open operator

/-- The string an operator constant stands for. -/
def operator.text : operator → String
  | opPlus => "+"
  | opMinus => "-"
  | opMul => "*"
  | opDiv => "/"
  | opBinAnd => "&"
  | opBinXor => "^"
  | opBinOr => "|"

/-- A value of `pioInt` (`int32`) is an integer in `[-2^31, 2^31)`. -/
abbrev pioInt := Int

/-- The bit pattern of an integer as an unsigned 32-bit word. -/
def toUint32 (x : Int) : Nat := (x % 2 ^ 32).toNat

/-- The signed reading of a 32-bit word. -/
def ofUint32 (n : Nat) : Int :=
  if n % 2 ^ 32 < 2 ^ 31 then ((n % 2 ^ 32 : Nat) : Int) else ((n % 2 ^ 32 : Nat) : Int) - 2 ^ 32

/-- Conversion of an integer to `int32`: keep the low 32 bits. -/
def toInt32 (x : Int) : Int := ofUint32 (toUint32 x)

/-- The three node types `AstValue`, `AstBinOp` and `AstIdentifier` behind the interface
`AstExpr`. -/
inductive AstExpr where
  | AstValue (inParenthesisVal : Bool) (value : pioInt)
  | AstBinOp (inParenthesisVal : Bool) (name : operator) (left : AstExpr) (right : AstExpr)
  | AstIdentifier (inParenthesisVal : Bool) (name : String)
  deriving DecidableEq, Repr

namespace AstExpr

def inParenthesis : AstExpr → Bool
  | AstValue p _ => p
  | AstBinOp p _ _ _ => p
  | AstIdentifier p _ => p

/-- The three `ToSource` methods; `%d` prints a decimal with a leading `-` when negative. -/
def ToSource : AstExpr → String
  | AstValue _ value => toString value
  | AstBinOp p name left right =>
    let result := left.ToSource ++ " " ++ name.text ++ " " ++ right.ToSource
    if p then "(" ++ result ++ ")" else result
  | AstIdentifier _ name => name

end AstExpr

/-- The `switch a.name` of `AstBinOp.eval` on two evaluated operands, in `int32`
arithmetic.  Division by zero is a runtime panic. -/
def binOpEval (name : operator) (left right : pioInt) : Res pioInt :=
  match name with
  | opPlus => Res.ok (toInt32 (left + right))
  | opMinus => Res.ok (toInt32 (left - right))
  | opMul => Res.ok (toInt32 (left * right))
  | opDiv => if right = 0 then Res.crash else Res.ok (toInt32 (Int.tdiv left right))
  | opBinOr => Res.ok (ofUint32 (toUint32 left ||| toUint32 right))
  | opBinXor => Res.ok (ofUint32 (toUint32 left ^^^ toUint32 right))
  | opBinAnd => Res.ok (ofUint32 (toUint32 left &&& toUint32 right))

/-! ## strconv.ParseInt, as called by the expression parser -/

/-- Width of Go's `int` (`strconv.IntSize`) on a 64-bit target. -/
def intSize : Nat := 64

/-- The failure kinds of `strconv`: `ErrSyntax` and `ErrRange`. -/
inductive numError where
  | errSyntax | errRange
  deriving DecidableEq, Repr

/-- Go's `lower(c)`, which is `c | ('x' - 'X')`. -/
def lowerByte (c : Nat) : Nat := c ||| 32

/-- The digit loop of `strconv.ParseUint` for a given base, with `bitSize` 64.  Returns the
value, the error if any, and whether an underscore was seen. -/
def parseUintLoop (base : Nat) (base0 : Bool) : List Char → Nat → Bool → Nat × Option numError × Bool
  | [], n, underscores => (n, none, underscores)
  | ch :: rest, n, underscores =>
    let c := ch.toNat
    if c = 95 && base0 then parseUintLoop base base0 rest n true
    else
      let digit : Option Nat :=
        if 48 ≤ c && c ≤ 57 then some (c - 48)
        else if 97 ≤ lowerByte c && lowerByte c ≤ 122 then some (lowerByte c - 97 + 10)
        else none
      match digit with
      | none => (0, some numError.errSyntax, underscores)
      | some d =>
        if d ≥ base then (0, some numError.errSyntax, underscores)
        else if n ≥ (2 ^ 64 - 1) / base + 1 then (2 ^ 64 - 1, some numError.errRange, underscores)
        else if n * base + d > 2 ^ 64 - 1 then (2 ^ 64 - 1, some numError.errRange, underscores)
        else parseUintLoop base base0 rest (n * base + d) underscores

/-- The loop of Go's `underscoreOK`; `saw` is the last character class seen. -/
def underscoreOKLoop (hex : Bool) : List Char → Char → Bool
  | [], saw => saw ≠ '_'
  | ch :: rest, saw =>
    let c := ch.toNat
    if (48 ≤ c && c ≤ 57) || (hex && 97 ≤ lowerByte c && lowerByte c ≤ 102) then
      underscoreOKLoop hex rest '0'
    else if c = 95 then
      if saw ≠ '0' then false else underscoreOKLoop hex rest '_'
    else if saw = '_' then false
    else underscoreOKLoop hex rest '!'

/-- Go's `underscoreOK`: underscores only between digits or after a base prefix. -/
def underscoreOK (s : List Char) : Bool :=
  let s := match s with
    | ch :: rest => if ch = '-' || ch = '+' then rest else s
    | [] => s
  match s with
  | z :: p :: rest =>
    if z = '0' && (lowerByte p.toNat = 98 || lowerByte p.toNat = 111 || lowerByte p.toNat = 120) then
      underscoreOKLoop (lowerByte p.toNat = 120) rest '0'
    else underscoreOKLoop false s '^'
  | _ => underscoreOKLoop false s '^'

/-- Go's `strconv.ParseUint(s, 0, 64)`: base taken from the prefix (`0b`, `0o`, `0x`, a bare
leading `0` for octal, decimal otherwise). -/
def parseUint (s : List Char) : Nat × Option numError :=
  match s with
  | [] => (0, some numError.errSyntax)
  | first :: _ =>
    let (base, digits) : Nat × List Char :=
      if first = '0' then
        match s with
        | _ :: p :: q :: rest =>
          if lowerByte p.toNat = 98 then (2, q :: rest)
          else if lowerByte p.toNat = 111 then (8, q :: rest)
          else if lowerByte p.toNat = 120 then (16, q :: rest)
          else (8, p :: q :: rest)
        | _ :: rest => (8, rest)
        | [] => (8, [])
      else (10, s)
    match parseUintLoop base true digits 0 false with
    | (n, some e, _) => (n, some e)
    | (n, none, underscores) =>
      if underscores && !underscoreOK s then (0, some numError.errSyntax) else (n, none)

/-- The value returned by Go's `strconv.ParseInt(s, 0, 0)`; the caller discards the error. -/
def parseInt (s : String) : Int :=
  match s.data with
  | [] => 0
  | first :: rest =>
    let neg : Bool := first = '-'
    let body := if first = '+' || first = '-' then rest else s.data
    match parseUint body with
    | (_, some numError.errSyntax) => 0
    | (un, _) =>
      let cutoff : Nat := 2 ^ (intSize - 1)
      if !neg && un ≥ cutoff then (cutoff : Int) - 1
      else if neg && un > cutoff then -(cutoff : Int)
      else if neg then -(toInt64 un) else toInt64 un
where
  /-- The conversion `int64(un)`. -/
  toInt64 (un : Nat) : Int := if un < 2 ^ 63 then (un : Int) else (un : Int) - 2 ^ 64

/-! ## compiler.go: data -/

structure Options where
  evalDefine : Bool
  deriving DecidableEq, Repr

/-- The object behind a `*AstDefine`. -/
structure AstDefine where
  name : String
  expr : AstExpr
  evaluated : Bool
  value : pioInt
  deriving DecidableEq, Repr

/-- The object behind a `*AstProgram`.  `sideSet` and `assembler` are never written or
read and are left out. -/
structure AstProgram where
  name : String
  defines : List AstDefine
  deriving DecidableEq, Repr

structure AstFile where
  defines : List AstDefine
  programs : List AstProgram
  deriving DecidableEq, Repr

def AstDefine.ToSource (a : AstDefine) : String :=
  let result := ".define " ++ a.name ++ " " ++ a.expr.ToSource
  let ok : Bool := match a.expr with
    | AstExpr.AstBinOp _ _ _ _ => true
    | _ => false
  if a.evaluated && ok then result ++ " ; = " ++ toString a.value else result

def AstProgram.ToSource (a : AstProgram) : String :=
  a.defines.foldl (fun b define => b ++ (define.ToSource ++ "\n")) (".program " ++ a.name ++ "\n")

def AstFile.ToSource (a : AstFile) : String :=
  let b := a.defines.foldl (fun b define => b ++ (define.ToSource ++ "\n")) ""
  a.programs.foldl (fun b program => b ++ program.ToSource) b

/-- A Go `map[string]V` as an association list with at most one entry per key. -/
abbrev goMap (V : Type) := List (String × V)

def goMap.get {V : Type} (m : goMap V) (k : String) : Option V := List.lookup k m

/-- The assignment `m[k] = v`. -/
def goMap.set {V : Type} (m : goMap V) (k : String) (v : V) : goMap V :=
  match m with
  | [] => [(k, v)]
  | (k', v') :: rest => if k' = k then (k, v) :: rest else (k', v') :: goMap.set rest k v

/-- The compiler's state.  A `*AstDefine` is an address into `heap`.  Of a `*AstProgram`
the compiler reads only `name`, so `currentProgram` holds that name (`none` for `nil`) and
`programs` the keys of the map.  The defines a program owns are collected by `parseFile`.
The fields `options`, `file`, `pos` and `error` are never read and are left out. -/
structure compiler where
  lex : lexHandle
  programs : List String
  currentProgram : Option String
  globalSymbols : goMap Nat
  programSymbols : goMap (goMap Nat)
  heap : List AstDefine
  deriving DecidableEq, Repr

/-- A slice of tokens, `type line []*lexItem`. -/
abbrev line := List lexItem

/-- Indexing `l[i]`, a runtime panic when out of range. -/
def line.index (l : line) (i : Nat) : Res lexItem :=
  match l[i]? with
  | some item => Res.ok item
  | none => Res.crash

namespace compiler

def position (c : compiler) (pos : Nat) : Int × Int := c.lex.lex.position pos

/-- Translation of `raiseError`: the panic carrying the positioned error. -/
def raiseError {α : Type} (c : compiler) (message : String) (item : lexItem) : Res α :=
  let (line, offset) := c.position item.start
  Res.raise { message := message, line := line, offset := offset }

/-- Translation of `getDefineDeclared`: the address of the define, `none` for `nil`. -/
def getDefineDeclared (c : compiler) (name : String) : Option Nat :=
  match c.globalSymbols.get name with
  | some d => some d
  | none =>
    match c.currentProgram with
    | some program =>
      match c.programSymbols.get program with
      | some symbols => symbols.get name
      | none => none
    | none => none

end compiler

/-- The three `eval` methods.  `getValue` is `compiler.getValueByIdentifier`, taken as a
parameter because the two functions call each other. -/
def AstExpr.eval (getValue : compiler → String → Res (pioInt × compiler)) :
    AstExpr → compiler → Res (pioInt × compiler)
  | AstExpr.AstValue _ value, c => Res.ok (value, c)
  | AstExpr.AstBinOp _ name left right, c => do
    let (l, c) ← left.eval getValue c
    let (r, c) ← right.eval getValue c
    let v ← binOpEval name l r
    pure (v, c)
  | AstExpr.AstIdentifier _ name, c => getValue c name

/-- The body of `evaluateDefine` on the define at address `define`. -/
def evaluateDefineWith (getValue : compiler → String → Res (pioInt × compiler))
    (c : compiler) (define : Nat) : Res compiler :=
  match c.heap[define]? with
  | none => Res.crash
  | some d => do
    let (v, c) ← d.expr.eval getValue c
    pure { c with heap := c.heap.modify (fun d => { d with value := v, evaluated := true }) define }

namespace compiler

/-- Translation of `getValueByIdentifier`.  The fuel bounds the chain of defines that are
evaluated on demand. -/
def getValueByIdentifier : Nat → compiler → String → Res (pioInt × compiler)
  | fuel, c, name =>
    match c.getDefineDeclared name with
    | none => Res.crash
    | some define =>
      match c.heap[define]? with
      | none => Res.crash
      | some d =>
        if !d.evaluated then
          match fuel with
          | 0 => Res.timeout
          | fuel + 1 => do
            let c ← evaluateDefineWith (getValueByIdentifier fuel) c define
            match c.heap[define]? with
            | none => Res.crash
            | some d => pure (d.value, c)
        else Res.ok (d.value, c)

def evaluateDefine (fuel : Nat) (c : compiler) (define : Nat) : Res compiler :=
  evaluateDefineWith (getValueByIdentifier fuel) c define

end compiler

/-! ## expression.go: the parser -/

namespace exprParser

/-- Translation of `exprParser.next`: the head of the line, a runtime panic when the line
is empty. -/
def next (l : line) : Res (lexItem × line) :=
  match l with
  | [] => Res.crash
  | item :: rest => Res.ok (item, rest)

/-- Translation of `exprParser.expect`. -/
def expect (c : compiler) (l : line) (t : itemType) : Res line := do
  let (lexItem, l) ← next l
  if lexItem.typ ≠ t then c.raiseError "Syntax error in expression" lexItem else pure l

/-- Translation of `parseExprSymbolsConsParens`.  `sub` is `parseExprBinOr`, taken as a
parameter because the two functions call each other. -/
def parseExprSymbolsConsParens (sub : Bool → line → Res (AstExpr × line)) (c : compiler)
    (l : line) : Res (AstExpr × line) := do
  let head ← line.index l 0
  if head.typ = itemNumber then
    let (lexItem, l) ← next l
    let value := parseInt lexItem.val
    pure (AstExpr.AstValue false (toInt32 value), l)
  else if head.typ = itemSymbol then
    let (lexItem, l) ← next l
    if c.getDefineDeclared lexItem.val = none then
      c.raiseError "Unknown identifier in expression" lexItem
    else pure (AstExpr.AstIdentifier false lexItem.val, l)
  else
    let l ← expect c l itemLParent
    let (result, l) ← sub true l
    let l ← expect c l itemRParent
    pure (result, l)

/-- The `for` loop of `parseExprMulDiv`; every turn consumes a token, so the fuel is a
bound on the turns. -/
def parseExprMulDivLoop (sub : Bool → line → Res (AstExpr × line)) (c : compiler) :
    Nat → AstExpr → line → Res (AstExpr × line)
  | 0, _, _ => Res.timeout
  | fuel + 1, left, l =>
    match l with
    | [] => Res.ok (left, l)
    | head :: _ =>
      if head.typ = itemStar || head.typ = itemSlash then do
        let (lexItem, l) ← next l
        let name := if lexItem.typ = itemStar then opMul else opDiv
        let (right, l) ← parseExprSymbolsConsParens sub c l
        parseExprMulDivLoop sub c fuel (AstExpr.AstBinOp false name left right) l
      else Res.ok (left, l)

def parseExprMulDiv (sub : Bool → line → Res (AstExpr × line)) (c : compiler) (l : line) :
    Res (AstExpr × line) := do
  let (left, l) ← parseExprSymbolsConsParens sub c l
  parseExprMulDivLoop sub c (l.length + 1) left l

def parseExprPlusMinusLoop (sub : Bool → line → Res (AstExpr × line)) (c : compiler)
    (inParen : Bool) : Nat → AstExpr → line → Res (AstExpr × line)
  | 0, _, _ => Res.timeout
  | fuel + 1, left, l =>
    match l with
    | [] => Res.ok (left, l)
    | head :: _ =>
      if head.typ = itemPlus || head.typ = itemMinus then do
        let (lexItem, l) ← next l
        let name := if lexItem.typ = itemPlus then opPlus else opMinus
        let (right, l) ← parseExprMulDiv sub c l
        parseExprPlusMinusLoop sub c inParen fuel (AstExpr.AstBinOp inParen name left right) l
      else Res.ok (left, l)

def parseExprPlusMinus (sub : Bool → line → Res (AstExpr × line)) (c : compiler)
    (inParen : Bool) (l : line) : Res (AstExpr × line) := do
  let (left, l) ← parseExprMulDiv sub c l
  parseExprPlusMinusLoop sub c inParen (l.length + 1) left l

def parseExprBinAndLoop (sub : Bool → line → Res (AstExpr × line)) (c : compiler)
    (inParent : Bool) : Nat → AstExpr → line → Res (AstExpr × line)
  | 0, _, _ => Res.timeout
  | fuel + 1, left, l =>
    match l with
    | [] => Res.ok (left, l)
    | head :: _ =>
      if head.typ = itemBinAnd then do
        let (_, l) ← next l
        let (right, l) ← parseExprPlusMinus sub c inParent l
        parseExprBinAndLoop sub c inParent fuel (AstExpr.AstBinOp inParent opBinAnd left right) l
      else Res.ok (left, l)

def parseExprBinAnd (sub : Bool → line → Res (AstExpr × line)) (c : compiler)
    (inParent : Bool) (l : line) : Res (AstExpr × line) := do
  let (left, l) ← parseExprPlusMinus sub c inParent l
  parseExprBinAndLoop sub c inParent (l.length + 1) left l

def parseExprBinXorLoop (sub : Bool → line → Res (AstExpr × line)) (c : compiler)
    (inParent : Bool) : Nat → AstExpr → line → Res (AstExpr × line)
  | 0, _, _ => Res.timeout
  | fuel + 1, left, l =>
    match l with
    | [] => Res.ok (left, l)
    | head :: _ =>
      if head.typ = itemBinXor then do
        let (_, l) ← next l
        let (right, l) ← parseExprBinAnd sub c inParent l
        parseExprBinXorLoop sub c inParent fuel (AstExpr.AstBinOp inParent opBinXor left right) l
      else Res.ok (left, l)

def parseExprBinXor (sub : Bool → line → Res (AstExpr × line)) (c : compiler)
    (inParent : Bool) (l : line) : Res (AstExpr × line) := do
  let (left, l) ← parseExprBinAnd sub c inParent l
  parseExprBinXorLoop sub c inParent (l.length + 1) left l

def parseExprBinOrLoop (sub : Bool → line → Res (AstExpr × line)) (c : compiler)
    (inParent : Bool) : Nat → AstExpr → line → Res (AstExpr × line)
  | 0, _, _ => Res.timeout
  | fuel + 1, left, l =>
    match l with
    | [] => Res.ok (left, l)
    | head :: _ =>
      if head.typ = itemBinOr then do
        let (_, l) ← next l
        let (right, l) ← parseExprBinXor sub c inParent l
        parseExprBinOrLoop sub c inParent fuel (AstExpr.AstBinOp inParent opBinOr left right) l
      else Res.ok (left, l)

/-- One level of `parseExprBinOr`: its body with the recursive call through the
parentheses left to `sub`. -/
def parseExprBinOrWith (sub : Bool → line → Res (AstExpr × line)) (c : compiler)
    (inParent : Bool) (l : line) : Res (AstExpr × line) := do
  let (left, l) ← parseExprBinXor sub c inParent l
  parseExprBinOrLoop sub c inParent (l.length + 1) left l

/-- Translation of `parseExprBinOr`.  The fuel bounds the nesting of parentheses. -/
def parseExprBinOr : Nat → compiler → Bool → line → Res (AstExpr × line)
  | 0, _, _, _ => Res.timeout
  | fuel + 1, c, inParent, l => parseExprBinOrWith (parseExprBinOr fuel c) c inParent l

end exprParser

/-- Translation of `compiler.parseExpr`.  Every level of parentheses consumes a token of
the line, so the length of the line bounds the nesting. -/
def compiler.parseExpr (c : compiler) (l : line) : Res AstExpr := do
  let (result, _) ← exprParser.parseExprBinOr (l.length + 1) c false l
  pure result

/-! ## compiler.go: the top-level parser -/

/-- What `parseLine` returns in its `interface{}` result besides `nil`.  A program under
construction is its name with the addresses of the defines appended to it so far. -/
inductive lineAst where
  | program (name : String) (defines : List Nat)
  | define (define : Nat)
  deriving DecidableEq, Repr

namespace compiler

/-- Translation of `compiler.next`: receive from the channel; `none` is Go's `nil`, the
channel being closed. -/
def next (fuel : Nat) (c : compiler) : Res (Option lexItem × compiler) :=
  match c.lex.receive fuel with
  | none => Res.timeout
  | some (item, h) => Res.ok (item, { c with lex := h })

/-- The `for` loop of `nextLine`. -/
def nextLineLoop (fuel : Nat) : Nat → compiler → line → Res (line × compiler)
  | 0, _, _ => Res.timeout
  | n + 1, c, result => do
    let (item, c) ← c.next fuel
    match item with
    | none => pure (result, c)
    | some item =>
      if item.typ = itemEOL then pure (result, c) else nextLineLoop fuel n c (result ++ [item])

def nextLine (fuel : Nat) (c : compiler) : Res (line × compiler) := nextLineLoop fuel fuel c []

/-- Translation of `registerProgram`. -/
def registerProgram (c : compiler) (name : String) (item : lexItem) : Res compiler :=
  if c.programs.any (fun k => k = name) then c.raiseError "Program already exists" item
  else pure { c with currentProgram := some name, programs := c.programs ++ [name] }

/-- Translation of `parseProgram`. -/
def parseProgram (c : compiler) (l : line) : Res (lineAst × compiler) := do
  let l0 ← line.index l 0
  let cond ← (if l0.typ = itemDirProgram then do
      let l1 ← line.index l 1
      pure (decide (l1.typ = itemSymbol))
    else pure false : Res Bool)
  let id ← (if cond then do
      let l1 ← line.index l 1
      pure l1.val
    else c.raiseError "Syntax error near .program" l0 : Res String)
  let c ← c.registerProgram id l0
  pure (lineAst.program id [], c)

def parseSymbol (item : lexItem) : String := item.val

/-- Translation of `registerDefine`; `define` is the address of the define. -/
def registerDefine (c : compiler) (define : Nat) (item : lexItem) : Res compiler :=
  match c.heap[define]? with
  | none => Res.crash
  | some d =>
    if (c.getDefineDeclared d.name).isSome then c.raiseError "Symbol already defined" item
    else
      match c.currentProgram with
      | some program =>
        let symbols := (c.programSymbols.get program).getD []
        pure { c with programSymbols := c.programSymbols.set program (symbols.set d.name define) }
      | none => pure { c with globalSymbols := c.globalSymbols.set d.name define }

/-- Translation of `parseDefine`. -/
def parseDefine (fuel : Nat) (c : compiler) (l : line) : Res (lineAst × compiler) := do
  let l0 ← line.index l 0
  let isPublic ← (if l0.typ = itemDirDefine then do
      let l1 ← line.index l 1
      if l1.typ = itemPublic then do
        let l2 ← line.index l 2
        pure (decide (l2.typ = itemSymbol))
      else pure false
    else pure false : Res Bool)
  let (name, value) ← (if isPublic then do
      let l2 ← line.index l 2
      let value ← c.parseExpr (l.drop 3)
      pure (parseSymbol l2, value)
    else do
      let isPlain ← (if l0.typ = itemDirDefine then do
          let l1 ← line.index l 1
          pure (decide (l1.typ = itemSymbol))
        else pure false : Res Bool)
      if isPlain then do
        let l1 ← line.index l 1
        let value ← c.parseExpr (l.drop 2)
        pure (parseSymbol l1, value)
      else c.raiseError "Syntax error near `.define`" l0 : Res (String × AstExpr))
  let ast := c.heap.length
  let define : AstDefine := { name := name, expr := value, evaluated := false, value := 0 }
  let c := { c with heap := c.heap ++ [define] }
  let c ← c.evaluateDefine fuel ast
  let c ← c.registerDefine ast l0
  pure (lineAst.define ast, c)

/-- Translation of `parseLine`; the `line` result is dropped by the only caller. -/
def parseLine (fuel : Nat) (c : compiler) : Res (Option lineAst × compiler) := do
  let (l, c) ← c.nextLine fuel
  match l with
  | [] => pure (none, c)
  | item :: _ =>
    if item.typ = itemDirProgram then do
      let (ast, c) ← c.parseProgram l
      pure (some ast, c)
    else if item.typ = itemDirDefine then do
      let (ast, c) ← c.parseDefine fuel l
      pure (some ast, c)
    else if item.typ = itemEOF then pure (none, c)
    else c.raiseError "Unexpected item" item

/-- Appends a define to the last program of the slice, `programs[len(programs)-1].defines =
append(..)`. -/
def appendToLast : List (String × List Nat) → Nat → List (String × List Nat)
  | [], _ => []
  | [(name, defines)], v => [(name, defines ++ [v])]
  | p :: rest, v => p :: appendToLast rest v

/-- The `for` loop of `parseFile`, collecting the programs and the file-level defines. -/
def parseFileLoop (fuel : Nat) :
    Nat → compiler → List (String × List Nat) → List Nat →
      Res (List (String × List Nat) × List Nat × compiler)
  | 0, _, _, _ => Res.timeout
  | n + 1, c, programs, fileDefines => do
    let (ast, c) ← c.parseLine fuel
    match ast with
    | none => pure (programs, fileDefines, c)
    | some (lineAst.define v) =>
      if programs.length > 0 then parseFileLoop fuel n c (appendToLast programs v) fileDefines
      else parseFileLoop fuel n c programs (fileDefines ++ [v])
    | some (lineAst.program name defines) =>
      parseFileLoop fuel n c (programs ++ [(name, defines)]) fileDefines

/-- The defines behind a slice of `*AstDefine`. -/
def deref (heap : List AstDefine) (defines : List Nat) : List AstDefine :=
  defines.filterMap (fun define => heap[define]?)

/-- Translation of `parseFile`: the AST as reachable from the returned `*AstFile`. -/
def parseFile (fuel : Nat) (c : compiler) : Res AstFile := do
  let (programs, fileDefines, c) ← parseFileLoop fuel fuel c [] []
  pure { defines := deref c.heap fileDefines,
         programs := programs.map (fun p => { name := p.1, defines := deref c.heap p.2 }) }

end compiler

/-- The compiler value `Compile` builds around a fresh lexer. -/
def compiler.new (source : String) : compiler :=
  { lex := Pioasm.lex source.data, programs := [], currentProgram := none, globalSymbols := [],
    programSymbols := [], heap := [] }

/-- Translation of `Compile`.  The result is the pair `(astFile, error)`, each `none` for
`nil`; the outer `none` means that the fuel ran out, which is how the model shows a call
that does not return.  The deferred function stores a recovered `*CompileError` and clears
the AST; any other recovered panic leaves both results `nil`. -/
def Compile (fuel : Nat) (source : String) (_options : Options) :
    Option (Option AstFile × Option CompileError) :=
  match (compiler.new source).parseFile fuel with
  | Res.ok astFile => some (some astFile, none)
  | Res.raise err => some (none, some err)
  | Res.crash => some (none, none)
  | Res.timeout => none

/-- The text `Compile(source).ToSource()`, when `Compile` returns an AST. -/
def regenerate (fuel : Nat) (source : String) : Option String :=
  match Compile fuel source { evalDefine := false } with
  | some (some astFile, _) => some astFile.ToSource
  | _ => none

/-! ## Notions used to state the properties -/

open AstExpr

/-- The range of `int32`. -/
def inInt32 (x : Int) : Prop := -2 ^ 31 ≤ x ∧ x < 2 ^ 31

/-- The name is a key of the global scope. -/
def declaredGlobal (c : compiler) (name : String) : Prop :=
  (c.globalSymbols.get name).isSome

/-- The name is a key of the scope of the program called `program`. -/
def declaredInProgram (c : compiler) (program name : String) : Prop :=
  ∃ symbols, c.programSymbols.get program = some symbols ∧ (symbols.get name).isSome

/-- The name is declared in the global scope or in the scope of the current program. -/
def declaredInScope (c : compiler) (name : String) : Prop :=
  declaredGlobal c name ∨ ∃ program, c.currentProgram = some program ∧ declaredInProgram c program name

/-- The error `raiseError` builds for a message and a token. -/
def compiler.errorAt (c : compiler) (message : String) (item : lexItem) : CompileError :=
  { message := message, line := (c.position item.start).1, offset := (c.position item.start).2 }

/-- The value of the define a name stands for: the global scope is looked up first, then
the scope of the current program. -/
def scopeValue (c : compiler) (name : String) : Option Int :=
  match c.globalSymbols.get name with
  | some define => (c.heap[define]?).map (fun d => d.value)
  | none =>
    match c.currentProgram with
    | some program =>
      match c.programSymbols.get program with
      | some symbols =>
        match symbols.get name with
        | some define => (c.heap[define]?).map (fun d => d.value)
        | none => none
      | none => none
    | none => none

/-- The expression evaluated with each identifier replaced by the value of the define it
names; `none` when a name stands for no define or a division has a zero divisor. -/
def substEval (c : compiler) : AstExpr → Option Int
  | AstValue _ value => some value
  | AstBinOp _ name left right =>
    match substEval c left, substEval c right with
    | some l, some r =>
      match binOpEval name l r with
      | Res.ok v => some v
      | _ => none
    | _, _ => none
  | AstIdentifier _ name => scopeValue c name

/-- The define at an address of the heap exists and is evaluated. -/
def evaluatedAt (c : compiler) (define : Nat) : Prop :=
  ∃ d, c.heap[define]? = some d ∧ d.evaluated = true

/-- Every define stored in the global scope or in a program scope is evaluated. -/
def tablesEvaluated (c : compiler) : Prop :=
  (∀ name define, c.globalSymbols.get name = some define → evaluatedAt c define) ∧
  (∀ program symbols name define, c.programSymbols.get program = some symbols →
    symbols.get name = some define → evaluatedAt c define)

/-- Everything but the heap is the same in the two compilers. -/
def sameTables (c c' : compiler) : Prop :=
  c'.lex = c.lex ∧ c'.programs = c.programs ∧ c'.currentProgram = c.currentProgram ∧
  c'.globalSymbols = c.globalSymbols ∧ c'.programSymbols = c.programSymbols

/-- The first outcome is the second one, unless the first ran out of fuel. -/
def Res.le {α : Type} (x y : Res α) : Prop := x = Res.timeout ∨ x = y

/-- The common shape of the five `for` loops of the expression parser: while the head of
the line is an operator token of the level (`isOp` gives its operator), consume it, parse
an operand of the next level and extend the tree to the left. -/
def levelLoop (isOp : itemType → Option operator) (flag : Bool)
    (operand : line → Res (AstExpr × line)) : Nat → AstExpr → line → Res (AstExpr × line)
  | 0, _, _ => Res.timeout
  | fuel + 1, left, l =>
    match l with
    | [] => Res.ok (left, l)
    | head :: rest =>
      match isOp head.typ with
      | some name =>
        Res.bind (operand rest) (fun r =>
          levelLoop isOp flag operand fuel (AstBinOp flag name left r.1) r.2)
      | none => Res.ok (left, l)

/-- The common shape of the five level functions: an operand, then the loop. -/
def levelParse (isOp : itemType → Option operator) (flag : Bool)
    (operand : line → Res (AstExpr × line)) (l : line) : Res (AstExpr × line) :=
  Res.bind (operand l) (fun r => levelLoop isOp flag operand (r.2.length + 1) r.1 r.2)

def mulDivOp (t : itemType) : Option operator :=
  if t = itemStar then some opMul else if t = itemSlash then some opDiv else none

def plusMinusOp (t : itemType) : Option operator :=
  if t = itemPlus then some opPlus else if t = itemMinus then some opMinus else none

def binAndOp (t : itemType) : Option operator := if t = itemBinAnd then some opBinAnd else none

def binXorOp (t : itemType) : Option operator := if t = itemBinXor then some opBinXor else none

def binOrOp (t : itemType) : Option operator := if t = itemBinOr then some opBinOr else none

/-- The operator an operator token stands for. -/
def opOf (t : itemType) : Option operator :=
  if t = itemBinOr then some opBinOr
  else if t = itemBinXor then some opBinXor
  else if t = itemBinAnd then some opBinAnd
  else if t = itemPlus then some opPlus
  else if t = itemMinus then some opMinus
  else if t = itemStar then some opMul
  else if t = itemSlash then some opDiv
  else none

/-- The precedence order: `|` lowest, then `^`, then `&`, then `+ -`, then `* /` highest. -/
def precedence : operator → Nat
  | opBinOr => 0
  | opBinXor => 1
  | opBinAnd => 2
  | opPlus => 3
  | opMinus => 3
  | opMul => 4
  | opDiv => 4

/-- An operand token: a number, or a symbol that is declared in scope. -/
def isOperand (c : compiler) (t : lexItem) : Prop :=
  t.typ = itemNumber ∨ (t.typ = itemSymbol ∧ (c.getDefineDeclared t.val).isSome)

/-- The leaf node an operand token stands for. -/
def leafOf (t : lexItem) : AstExpr :=
  if t.typ = itemNumber then AstValue false (toInt32 (parseInt t.val))
  else AstIdentifier false t.val

/-- A parenthesis-free token sequence that forms a valid expression: operands separated by
operators. -/
def validExpr (c : compiler) : line → Prop
  | [] => False
  | [t] => isOperand c t
  | t :: o :: rest => isOperand c t ∧ (opOf o.typ).isSome ∧ validExpr c rest

/-- An element of an expression read left to right: a leaf or an operator. -/
inductive exprSym where
  | leaf (e : AstExpr)
  | op (name : operator)
  deriving DecidableEq, Repr

/-- The leaves and operators of a tree from left to right. -/
def inorder : AstExpr → List exprSym
  | AstBinOp _ name left right => inorder left ++ exprSym.op name :: inorder right
  | e => [exprSym.leaf e]

/-- The leaves and operators a token sequence stands for. -/
def lineSyms (l : line) : List exprSym :=
  l.map (fun t => match opOf t.typ with
    | some name => exprSym.op name
    | none => exprSym.leaf (leafOf t))

/-- The precedence of the operator at the root; a leaf binds tighter than any operator. -/
def rootLevel : AstExpr → Nat
  | AstBinOp _ name _ _ => precedence name
  | _ => 5

/-- The tree groups by precedence, left to right among equals: at every node the left
subtree has a root of at least the node's precedence and the right subtree a root of higher
precedence; no node is marked as parenthesized. -/
def precTree : AstExpr → Prop
  | AstBinOp p name left right =>
    p = false ∧ precedence name ≤ rootLevel left ∧ precedence name < rootLevel right ∧
      precTree left ∧ precTree right
  | AstValue p _ => p = false
  | AstIdentifier p _ => p = false

/-- What is left of a valid line after an expression of level `k`: nothing, or an operator
of lower precedence followed by a valid line. -/
def tailAt (c : compiler) (k : Nat) (rem : line) : Prop :=
  rem = [] ∨ ∃ o rest name, rem = o :: rest ∧ opOf o.typ = some name ∧ precedence name < k ∧
    validExpr c rest

/-- The outcome of parsing a valid line at level `k`. -/
def goodAt (c : compiler) (k : Nat) (l : line) (t : AstExpr) (rem : line) : Prop :=
  precTree t ∧ k ≤ rootLevel t ∧ inorder t ++ lineSyms rem = lineSyms l ∧
    rem.length < l.length ∧ tailAt c k rem

/-- What may follow an expression on its line: nothing, or a token that is not an operator
(such as the end-of-file token). -/
def stopsExpr (tail : line) : Prop :=
  ∀ t, tail.head? = some t → opOf t.typ = none

/-- The operators of level `k` among all operators. -/
def opAt (k : Nat) (t : itemType) : Option operator :=
  match opOf t with
  | some name => if precedence name = k then some name else none
  | none => none

/-- The first symbol token of a line that is not declared in the global scope or in the
scope of the current program. -/
def firstUnknown (c : compiler) (l : line) : Option lexItem :=
  l.find? (fun t => decide (t.typ = itemSymbol) && (c.getDefineDeclared t.val).isNone)

/-- The outcome in `c` of a parse that succeeds with `(e, rest)` where every identifier is
declared, given the tokens it consumed: the same, unless one of them is an identifier
unknown to `c`, in which case the first such is reported. -/
def outcomeIn (c : compiler) (consumed : line) (e : AstExpr) (rest : line) :
    Res (AstExpr × line) :=
  match firstUnknown c consumed with
  | none => Res.ok (e, rest)
  | some tok => Res.raise (c.errorAt "Unknown identifier in expression" tok)

/-- The parser `P` of compiler `c` follows the parser `Q` of another compiler: wherever
`Q` succeeds, `P` does the same up to the first identifier unknown to `c`. -/
def follows (c : compiler) (P Q : line → Res (AstExpr × line)) : Prop :=
  ∀ l e rest, Q l = Res.ok (e, rest) →
    ∃ consumed, l = consumed ++ rest ∧ P l = outcomeIn c consumed e rest

/-- Decidable form of `evaluatedAt`. -/
def evaluatedAtCheck (c : compiler) (define : Nat) : Bool :=
  match c.heap[define]? with
  | some d => d.evaluated
  | none => false

/-- Decidable form of `tablesEvaluated`. -/
def tablesCheck (c : compiler) : Bool :=
  c.globalSymbols.all (fun entry => evaluatedAtCheck c entry.2) &&
    c.programSymbols.all (fun scope => scope.2.all (fun entry => evaluatedAtCheck c entry.2))

/-- A compiler in the middle of a file: `.define T1 1`, then `.program A` with
`.define TA 2`, then `.program B` with `.define TB1 T1 + 1`. -/
def scopesSample : compiler :=
  { lex := lex [], programs := ["A", "B"], currentProgram := some "B",
    globalSymbols := [("T1", 0)],
    programSymbols := [("A", [("TA", 1)]), ("B", [("TB1", 2)])],
    heap := [{ name := "T1", expr := AstValue false 1, evaluated := true, value := 1 },
             { name := "TA", expr := AstValue false 2, evaluated := true, value := 2 },
             { name := "TB1",
               expr := AstBinOp false opPlus (AstIdentifier false "T1") (AstValue false 1),
               evaluated := true, value := 2 }] }

/-- The tokens of the line `.define TB2 T1 + TB1 * 2`. -/
def defineSample : line :=
  [{ typ := itemDirDefine, val := ".define", start := 0, end_ := 7 },
   { typ := itemSymbol, val := "TB2", start := 8, end_ := 11 },
   { typ := itemSymbol, val := "T1", start := 12, end_ := 14 },
   { typ := itemPlus, val := "+", start := 15, end_ := 16 },
   { typ := itemSymbol, val := "TB1", start := 17, end_ := 20 },
   { typ := itemStar, val := "*", start := 21, end_ := 22 },
   { typ := itemNumber, val := "2", start := 23, end_ := 24 }]

/-- The tokens of the line `.define A A + 1` at the end of a file. -/
def selfReferenceSample : line :=
  [{ typ := itemDirDefine, val := ".define", start := 0, end_ := 7 },
   { typ := itemSymbol, val := "A", start := 8, end_ := 9 },
   { typ := itemSymbol, val := "A", start := 10, end_ := 11 },
   { typ := itemPlus, val := "+", start := 12, end_ := 13 },
   { typ := itemNumber, val := "1", start := 14, end_ := 15 },
   { typ := itemEOF, val := "", start := 15, end_ := 15 }]

/-- The tokens of `7 - 2 - 1 + 2 * 3 | 4 & 5`. -/
def exprSample : line :=
  [{ typ := itemNumber, val := "7", start := 0, end_ := 1 },
   { typ := itemMinus, val := "-", start := 2, end_ := 3 },
   { typ := itemNumber, val := "2", start := 4, end_ := 5 },
   { typ := itemMinus, val := "-", start := 6, end_ := 7 },
   { typ := itemNumber, val := "1", start := 8, end_ := 9 },
   { typ := itemPlus, val := "+", start := 10, end_ := 11 },
   { typ := itemNumber, val := "2", start := 12, end_ := 13 },
   { typ := itemStar, val := "*", start := 14, end_ := 15 },
   { typ := itemNumber, val := "3", start := 16, end_ := 17 },
   { typ := itemBinOr, val := "|", start := 18, end_ := 19 },
   { typ := itemNumber, val := "4", start := 20, end_ := 21 },
   { typ := itemBinAnd, val := "&", start := 22, end_ := 23 },
   { typ := itemNumber, val := "5", start := 24, end_ := 25 }]

/-! ## Notions used to state the properties of the lexer and of lines -/

/-- One call of a state function by `run` that sends nothing: the handle afterwards, or
`none` when the channel is closed or the call sends an item. -/
def lexHandle.silentStep (h : lexHandle) : Option lexHandle :=
  match h.state with
  | none => none
  | some state =>
    let s := state.step h.lex
    match s.sent with
    | some _ => none
    | none => some { state := s.state, lex := s.lex }

/-- A number of consecutive calls that send nothing. -/
def lexHandle.silentSteps : Nat → lexHandle → Option lexHandle
  | 0, h => some h
  | n + 1, h =>
    match h.silentStep with
    | none => none
    | some h' => lexHandle.silentSteps n h'

/-- The token classes and literal texts of the whole stream. -/
def lexKinds (fuel : Nat) (input : String) : Option (List (itemType × String)) :=
  (lexAll fuel fuel (lex input.data)).map (fun items => items.map (fun item => (item.typ, item.val)))

/-- The operator the first token of a line stands for, if the line starts with one. -/
def headOp (l : line) : Option operator := l.head?.bind (fun t => opOf t.typ)

/-- What a parser `P` of level `k` does with the tokens it leaves: the first of them is not
an operator of level `k` or higher, and the parser `P'` returns the same tree from the
tokens `P` consumed, whatever follows them, as long as what follows starts with the same
operator or with none alike.  `bound` limits the number of consumed tokens, for parsers
whose fuel depends on it. -/
def carries (k bound : Nat) (P P' : line → Res (AstExpr × line)) : Prop :=
  ∀ l e rest, P l = Res.ok (e, rest) →
    (∀ name, headOp rest = some name → precedence name < k) ∧
    ∃ consumed, l = consumed ++ rest ∧
      ∀ rest', headOp rest' = headOp rest → consumed.length < bound →
        P' (consumed ++ rest') = Res.ok (e, rest')

/-- The lexer `l'` is reached from `l` by reading and rewinding alone: calls of `next`,
`back` and `backup`, which leave `start` and `lastItem` as they are. -/
inductive scans (l : lexer) : lexer → Prop where
  | refl : scans l l
  | next {l' : lexer} : scans l l' → scans l l'.next.2
  | back {l' : lexer} : scans l l' → scans l l'.back
  | backup {l' : lexer} : scans l l' → scans l l'.backup

/-- What a call of a state function does to the lexer `l`: it reads and rewinds, reaching
some `l0`, and then does one of three things: nothing more, `ignore`, or `emit`.  A call
that ends with `ignore` goes on in `lexContent` or `lexComment`; one that ends with `emit`
goes on in `lexContent` or ends the run. -/
def stepShape (l : lexer) (s : lexStep) : Prop :=
  ∃ l0, scans l l0 ∧
    ((s.lex = l0 ∧ s.sent = none) ∨
     (s.lex = l0.ignore ∧ s.sent = none ∧
        (s.state = some stateFn.lexContent ∨ s.state = some stateFn.lexComment)) ∨
     ∃ t, s.lex = (l0.emit t).2 ∧ s.sent = (l0.emit t).1 ∧
        (s.state = some stateFn.lexContent ∨ s.state = none))

/-- The offsets below `hi` at which the input holds a newline, in increasing order. -/
def newlinesBelow (input : List Char) (hi : Nat) : List Nat :=
  (List.range hi).filter (fun i => decide (input[i]? = some '\n'))

/-- The index `lines` holds the offsets of all newlines the lexer has read so far: those
below some offset `hi` that `s`, `start` and `pos` do not exceed. -/
def linesUpTo (s : Nat) (l : lexer) : Prop :=
  ∃ hi, s ≤ hi ∧ l.start ≤ hi ∧ l.pos ≤ hi ∧ l.lines = newlinesBelow l.input hi

/-- The first `n` items the lexer sends, fewer when it closes the channel first, and the
handle afterwards. -/
def lexHandle.receiveMany (fuel : Nat) : Nat → lexHandle → Option (List lexItem × lexHandle)
  | 0, h => some ([], h)
  | n + 1, h =>
    match h.receive fuel with
    | none => none
    | some (none, h') => some ([], h')
    | some (some item, h') =>
      (lexHandle.receiveMany fuel n h').map (fun r => (item :: r.1, r.2))

/-- The character at `start` is not a newline, unless the lexer is about to call
`lexContent` or `lexComment` at the start of a token. -/
def startsOk (h : lexHandle) : Prop :=
  h.lex.input[h.lex.start]? ≠ some '\n' ∨
    (h.lex.pos = h.lex.start ∧
      (h.state = some stateFn.lexContent ∨ h.state = some stateFn.lexComment ∨ h.state = none))

/-- The invariant of the lexer on the source `input`. -/
def lexInv (input : List Char) (s : Nat) (h : lexHandle) : Prop :=
  h.lex.input = input ∧ linesUpTo s h.lex ∧ startsOk h

/-- The item is a token of the source whose first character is not a newline. -/
def offNewline (input : List Char) (item : lexItem) : Prop :=
  input[item.start]? ≠ some '\n'

/-- The lexer would drop an end-of-line token emitted now: no item was emitted yet, or the
last one emitted was an end-of-line. -/
def eolPending (l : lexer) : Prop :=
  ∀ last, l.lastItem = some last → last.typ = itemEOL

/-- Not both items are end-of-line tokens. -/
def notBothEOL (a b : lexItem) : Prop := ¬ (a.typ = itemEOL ∧ b.typ = itemEOL)

/-- The compiler is where a new line can start: the lexer would drop an end-of-line, or
has closed the channel. -/
def lineReady (c : compiler) : Prop := eolPending c.lex.lex ∨ c.lex.state = none

/-- The text is made only of blanks and comments.  The flag tells whether the text starts
inside a comment, which the next newline ends. -/
def blankOnly : Bool → List Char → Bool
  | _, [] => true
  | true, c :: rest => blankOnly (c != '\n') rest
  | false, c :: rest =>
    if c = ' ' || c = '\t' || c = '\r' || c = '\n' then blankOnly false rest
    else if c = ';' then blankOnly true rest
    else if c = '/' && rest.head? = some '/' then blankOnly true rest
    else false

/-- The compiler after `k` lines have been parsed, each giving a define or a program;
`none` when one of these lines fails, does not return, or ends the file. -/
def compiler.afterLines (fuel : Nat) : Nat → compiler → Option compiler
  | 0, c => some c
  | k + 1, c =>
    match c.parseLine fuel with
    | Res.ok (some _, c') => compiler.afterLines fuel k c'
    | _ => none

/-- The lines of the file in order: what the successive calls of `parseLine` return, up to
the call that returns `nil`, and the compiler afterwards. -/
def compiler.parseLines (fuel : Nat) : Nat → compiler → Res (List lineAst × compiler)
  | 0, _ => Res.timeout
  | n + 1, c =>
    Res.bind (c.parseLine fuel) (fun r =>
      match r.1 with
      | none => Res.ok ([], r.2)
      | some ast =>
        Res.bind (compiler.parseLines fuel n r.2) (fun rest => Res.ok (ast :: rest.1, rest.2)))

/-- The defines of the lines that come before the first `.program` line. -/
def definesBeforeProgram : List lineAst → List Nat
  | [] => []
  | lineAst.define v :: rest => v :: definesBeforeProgram rest
  | lineAst.program _ _ :: _ => []

/-- The programs of the lines, in order, each with the defines of the lines between its
`.program` line and the next one. -/
def programsOf : List lineAst → List (String × List Nat)
  | [] => []
  | lineAst.define _ :: rest => programsOf rest
  | lineAst.program name defines :: rest =>
    (name, defines ++ definesBeforeProgram rest) :: programsOf rest

/-- The text of a list of defines, one per line. -/
def definesText (defines : List AstDefine) : String :=
  String.join (defines.map (fun define => define.ToSource ++ "\n"))

/-- A source with a global define, a program with a define, and a second program. -/
def assemblySource : String := ".define A 1\n.program p\n.define B A\n.program q"

/-- The AST of `assemblySource`. -/
def assemblySample : AstFile :=
  { defines := [{ name := "A", expr := AstValue false 1, evaluated := true, value := 1 }],
    programs :=
      [{ name := "p",
         defines := [{ name := "B", expr := AstIdentifier false "A", evaluated := true,
                       value := 1 }] },
       { name := "q", defines := [] }] }

/-- The expression is a binary operation, the test `a.expr.(*AstBinOp)`. -/
def AstExpr.isBinOp : AstExpr → Bool
  | AstBinOp _ _ _ _ => true
  | _ => false

/-- The tokens of the line `.define A 1 2`. -/
def leftoverSample : line :=
  [{ typ := itemDirDefine, val := ".define", start := 0, end_ := 7 },
   { typ := itemSymbol, val := "A", start := 8, end_ := 9 },
   { typ := itemNumber, val := "1", start := 10, end_ := 11 },
   { typ := itemNumber, val := "2", start := 12, end_ := 13 }]

/-- The evaluated define `.define A 1 + 2`. -/
def sumDefineSample : AstDefine :=
  { name := "A", expr := AstBinOp false opPlus (AstValue false 1) (AstValue false 2),
    evaluated := true, value := 3 }

/-- The evaluated define `.define B A`, where `A` has the value 3. -/
def aliasDefineSample : AstDefine :=
  { name := "B", expr := AstIdentifier false "A", evaluated := true, value := 3 }

/-! ## Notions used to compare two runs of the compiler -/

/-- The two tokens have the same class and the same text; their offsets may differ. -/
def sameKind (a b : lexItem) : Prop := a.typ = b.typ ∧ a.val = b.val

/-- The two lines hold tokens of the same class and text, one by one. -/
def sameLine (l1 l2 : line) : Prop := List.Forall₂ sameKind l1 l2

/-- The compiler with its lexer replaced. -/
def compiler.withLex (c : compiler) (h : lexHandle) : compiler := { c with lex := h }

/-- The parser `Q` succeeds like the parser `P` on lines of the same tokens up to their
offsets: with the same tree, leaving lines of the same tokens. -/
def mirrors (P Q : line → Res (AstExpr × line)) : Prop :=
  ∀ l1 l2 e rest1, sameLine l1 l2 → P l1 = Res.ok (e, rest1) →
    ∃ rest2, sameLine rest1 rest2 ∧ Q l2 = Res.ok (e, rest2)

/-- The lexer `l2` stands on the text `s2` where the lexer `l1` stands on the text `s1`,
`d` characters further on: the offsets `pos` and `start` are shifted by `d`, the widths
are equal, and an end-of-line emitted now would be dropped by both or by neither.  The
index of newlines and the offsets of the last item are left aside. -/
def lexRel (s1 s2 : List Char) (d : Nat) (l1 l2 : lexer) : Prop :=
  l1.input = s1 ∧ l2.input = s2 ∧ l2.pos = l1.pos + d ∧ l2.start = l1.start + d ∧
    l2.width = l1.width ∧ (eolPending l2 ↔ eolPending l1)

/-- The text `s2` holds at `i + d` what `s1` holds at `i`, for the offsets `i` in `ok`. -/
def agreeOn (s1 s2 : List Char) (d : Nat) (ok : Nat → Prop) : Prop :=
  ∀ i, ok i → s2[i + d]? = s1[i]?

/-- Both calls send nothing, or they send tokens of the same class and text. -/
def sameSent (a b : Option lexItem) : Prop :=
  (a = none ∧ b = none) ∨ ∃ x y, a = some x ∧ b = some y ∧ sameKind x y

/-- The outcomes of a call of a state function on two lexers at matching places: the same
next state, items of the same class and text, and lexers at matching places again.  Of the
first outcome it says besides where the lexer stands: `start` is not below `lo`, and either a
token starts where the lexer stands, or `start` is `lo`, nothing was sent and `pos` is at most
`hi`. -/
def stepRel (s1 s2 : List Char) (d lo hi : Nat) (x y : lexStep) : Prop :=
  y.state = x.state ∧ sameSent x.sent y.sent ∧ lexRel s1 s2 d x.lex y.lex ∧
    lo ≤ x.lex.start ∧ x.lex.start ≤ x.lex.pos ∧
    ((x.lex.start = x.lex.pos ∧
        (x.state = some stateFn.lexContent ∨ x.state = some stateFn.lexComment ∨
          x.state = none)) ∨
      (x.sent = none ∧ x.lex.start = lo ∧ x.lex.pos ≤ hi))

/-- The last offset a call of the state function may read. -/
def readBound (state : stateFn) (l : lexer) : Nat :=
  match state with
  | stateFn.lexContent => max (l.pos + 3) (l.start + 8)
  | _ => l.pos

/-- The bound `hi` of `stepRel` for a call of the state function. -/
def stepBound (state : stateFn) (l : lexer) : Nat :=
  match state with
  | stateFn.lexContent => l.start + 1
  | _ => l.pos + 1

/-- One call made by `run`: the handle after the state function was called.  A lexer that
has closed the channel stays as it is. -/
def lexHandle.step (h : lexHandle) : lexHandle :=
  match h.state with
  | none => h
  | some state => { state := (state.step h.lex).state, lex := (state.step h.lex).lex }

/-- A number of calls made by `run`. -/
def lexHandle.steps : Nat → lexHandle → lexHandle
  | 0, h => h
  | n + 1, h => lexHandle.steps n h.step

/-- The item the next call made by `run` sends, if it sends one. -/
def lexHandle.sends (h : lexHandle) : Option lexItem :=
  match h.state with
  | none => none
  | some state => (state.step h.lex).sent

/-- The relation `Inv` between the handles of two lexers is kept by every call after which
the first lexer satisfies `E`, and the two calls send tokens of the same class and text. -/
def stepSim (Inv : lexHandle → lexHandle → Prop) (E : lexHandle → Prop) : Prop :=
  ∀ h1 h2, Inv h1 h2 → E h1.step →
    h2.state = h1.state ∧ sameSent h1.sends h2.sends ∧ Inv h1.step h2.step

/-- A lexer satisfies `E` when it does after its next call. -/
def backClosed (E : lexHandle → Prop) : Prop := ∀ h, E h.step → E h

/-- The lexer is about to call `lexContent` at the offset `q`, where a token starts. -/
def atDirective (q : Nat) (h : lexHandle) : Prop :=
  h.state = some stateFn.lexContent ∧ h.lex.start = q ∧ h.lex.pos = q

/-- The lexer has not read the offset `q` yet, and is not about to start a token there. -/
def beforeAt (q : Nat) (h : lexHandle) : Prop :=
  ∃ state, h.state = some state ∧ h.lex.pos ≤ q ∧
    ((state = stateFn.lexContent ∨ state = stateFn.lexDirective) → h.lex.start < q)

/-- The lexer can no longer start a token at the offset `q`: it has closed the channel, or
its current token starts after `q`, or it is reading a symbol or a number across `q`, or it
is reading the directive that starts at `q`, which is seven characters long. -/
def pastAt (q : Nat) (h : lexHandle) : Prop :=
  h.state = none ∨ q < h.lex.start ∨
    ((h.state = some stateFn.lexSymbolOrLabel ∨ h.state = some stateFn.lexValue) ∧
      q < h.lex.pos) ∨
    (h.state = some stateFn.lexDirective ∧ h.lex.start = q ∧ q < h.lex.pos ∧
      h.lex.pos ≤ q + 7)

/-- Where the lexer of the text `s` stands with respect to the offset `q`. -/
def placed (s : List Char) (q : Nat) (h : lexHandle) : Prop :=
  h.lex.input = s ∧ h.lex.start ≤ h.lex.pos ∧ (beforeAt q h ∨ atDirective q h ∨ pastAt q h)

/-- The text `s` holds `.define` at the offset `q`, followed by a character that is not
part of a symbol. -/
def defineAt (s : List Char) (q : Nat) : Prop :=
  ∃ b rest, s.drop q = ".define".data ++ b :: rest ∧ isSymbol b = false

/-- The lexer comes to be about to start a token at the offset `q`, after some calls. -/
def reaches (q : Nat) (h : lexHandle) : Prop := ∃ j, atDirective q (h.steps j)

/-- The relation between two lexers that read the common beginning of two texts. -/
def beforeInv (s1 s2 : List Char) (q : Nat) (h1 h2 : lexHandle) : Prop :=
  h2.state = h1.state ∧ lexRel s1 s2 0 h1.lex h2.lex ∧ placed s1 q h1

/-- The relation between two lexers that read the common end of two texts, which starts
at the offset `p0` of the first text and `d` characters further on in the second. -/
def afterInv (s1 s2 : List Char) (d p0 : Nat) (h1 h2 : lexHandle) : Prop :=
  h2.state = h1.state ∧ lexRel s1 s2 d h1.lex h2.lex ∧ p0 ≤ h1.lex.start ∧
    h1.lex.start ≤ h1.lex.pos

/-- Line `k + 1` of the source is a define line that starts at the offset `q` and has a
name: after `k` lines, the line read has the `.define` directive at the offset `q` as its
first token and a symbol as its second token. -/
def defineLineAt (fuel k : Nat) (source : String) (q : Nat) : Bool :=
  match (compiler.new source).afterLines fuel k with
  | none => false
  | some c =>
    match c.nextLine fuel with
    | Res.ok (l0 :: l1 :: _, _) =>
      decide (l0.typ = itemDirDefine ∧ l0.start = q ∧ l1.typ = itemSymbol)
    | _ => false

/-- The AST of `.define A 1 + 2`, `.program p`, `.define B A * 2`. -/
def publicSample : AstFile :=
  { defines :=
      [{ name := "A", expr := AstBinOp false opPlus (AstValue false 1) (AstValue false 2),
         evaluated := true, value := 3 }],
    programs :=
      [{ name := "p",
         defines :=
           [{ name := "B",
              expr := AstBinOp false opMul (AstIdentifier false "A") (AstValue false 2),
              evaluated := true, value := 6 }] }] }

/-! ## Notions used to state the properties of evaluation -/

/-- The tree with every parenthesis flag cleared. -/
def AstExpr.unmarked : AstExpr → AstExpr
  | AstValue _ value => AstValue false value
  | AstBinOp _ name left right => AstBinOp false name left.unmarked right.unmarked
  | AstIdentifier _ name => AstIdentifier false name

/-- The names of the identifier nodes of a tree, from left to right. -/
def AstExpr.identifiers : AstExpr → List String
  | AstValue _ _ => []
  | AstBinOp _ _ left right => left.identifiers ++ right.identifiers
  | AstIdentifier _ name => [name]

/-- The compiler with another current program: `none` for the global scope. -/
def compiler.inScope (c : compiler) (program : Option String) : compiler :=
  { c with currentProgram := program }

/-- The define at an address of the heap is evaluated and holds the value of its
expression, the identifiers of the expression being looked up in the scope of `program`. -/
def valuedAt (c : compiler) (program : Option String) (define : Nat) : Prop :=
  ∃ d, c.heap[define]? = some d ∧ d.evaluated = true ∧
    substEval (c.inScope program) d.expr = some d.value

/-- The invariant of the symbol tables: every define stored in the global scope or in the
scope of a program is evaluated and holds the value of its expression in that scope; no
program scope exists before the first program. -/
def tablesValued (c : compiler) : Prop :=
  (∀ name define, c.globalSymbols.get name = some define → valuedAt c none define) ∧
  (∀ program symbols name define, c.programSymbols.get program = some symbols →
    symbols.get name = some define → valuedAt c (some program) define) ∧
  (c.currentProgram = none → c.programSymbols = [])

/-- Every identifier of the tree is declared in the global scope or in the scope of the
current program. -/
def declaredIn (c : compiler) (e : AstExpr) : Prop :=
  ∀ name, name ∈ e.identifiers → (c.getDefineDeclared name).isSome

/-- Every tree the parser `P` returns satisfies `Q`. -/
def yields (Q : AstExpr → Prop) (P : line → Res (AstExpr × line)) : Prop :=
  ∀ l e rest, P l = Res.ok (e, rest) → Q e

/-- The expression divides by a sub-expression that evaluates to zero. -/
def dividesByZero (c : compiler) : AstExpr → Bool
  | AstBinOp _ name left right =>
    dividesByZero c left || dividesByZero c right ||
      (decide (name = opDiv) && decide (substEval c right = some 0))
  | _ => false

/-- A source whose second line divides by an expression that evaluates to zero. -/
def zeroDivisorSource : String := ".define Z 0\n.define A 8 / (Z * 3)"

/-- The compiler after the first line of `zeroDivisorSource`. -/
def zeroDivisorBefore : compiler :=
  { lex :=
      { state := some stateFn.lexContent,
        lex := { input := zeroDivisorSource.data, lines := [11], start := 12, pos := 12,
                 width := 1,
                 lastItem := some { typ := itemEOL, val := "\n", start := 11, end_ := 12 } } },
    programs := [], currentProgram := none, globalSymbols := [("Z", 0)], programSymbols := [],
    heap := [{ name := "Z", expr := AstValue false 0, evaluated := true, value := 0 }] }

/-- The compiler after the tokens of the second line of `zeroDivisorSource` were read. -/
def zeroDivisorAfter : compiler :=
  { zeroDivisorBefore with
    lex :=
      { state := none,
        lex := { input := zeroDivisorSource.data, lines := [11], start := 33, pos := 33,
                 width := 0,
                 lastItem := some { typ := itemEOF, val := "", start := 33, end_ := 33 } } } }

/-- The tokens of the expression `8 / (Z * 3)` in `zeroDivisorSource`, followed by the
end-of-file token. -/
def zeroDivisorTokens : line :=
  [{ typ := itemNumber, val := "8", start := 22, end_ := 23 },
   { typ := itemSlash, val := "/", start := 24, end_ := 25 },
   { typ := itemLParent, val := "(", start := 26, end_ := 27 },
   { typ := itemSymbol, val := "Z", start := 27, end_ := 28 },
   { typ := itemStar, val := "*", start := 29, end_ := 30 },
   { typ := itemNumber, val := "3", start := 31, end_ := 32 },
   { typ := itemRParent, val := ")", start := 32, end_ := 33 },
   { typ := itemEOF, val := "", start := 33, end_ := 33 }]

/-- A source with a global define and a define in a program that refers to it. -/
def valuedSource : String := ".define A 1 + 2\n.program p\n.define B A * 2"

/-- The compiler after the three lines of `valuedSource`. -/
def valuedSample : compiler :=
  { lex :=
      { state := none,
        lex := { input := valuedSource.data, lines := [15, 26], start := 42, pos := 42,
                 width := 0,
                 lastItem := some { typ := itemEOF, val := "", start := 42, end_ := 42 } } },
    programs := ["p"], currentProgram := some "p", globalSymbols := [("A", 0)],
    programSymbols := [("p", [("B", 1)])],
    heap := [{ name := "A", expr := AstBinOp false opPlus (AstValue false 1) (AstValue false 2),
               evaluated := true, value := 3 },
             { name := "B",
               expr := AstBinOp false opMul (AstIdentifier false "A") (AstValue false 2),
               evaluated := true, value := 6 }] }

/-! ## Notions used to state the properties of token spans -/

/-- The lexer stands inside its input: `start` is not after `pos`, and `pos` not after the
end of the input, so that the slice `input[start:pos]` that `emit` takes exists. -/
def spanInv (input : List Char) (h : lexHandle) : Prop :=
  h.lex.input = input ∧ h.lex.start ≤ h.lex.pos ∧ h.lex.pos ≤ input.length

/-- The token carries its span: its text is the slice of the input between its offsets
`start` and `end`, which are in order and inside the input. -/
def spanOf (input : List Char) (item : lexItem) : Prop :=
  item.start ≤ item.end_ ∧ item.end_ ≤ input.length ∧
    item.val = String.mk ((input.drop item.start).take (item.end_ - item.start))

/-! ## Notions used to state the properties of regenerated expressions -/

/-- The number a run of decimal digits stands for. -/
def decimalValue (s : List Char) : Nat := s.foldl (fun n c => n * 10 + (c.toNat - 48)) 0

/-- A canonical decimal literal: a run of digits that is not empty, has no leading zero
(the literal `0` apart) and stands for a number that is at most 2147483647. -/
def canonicalDecimal (s : String) : Bool :=
  match s.data with
  | [] => false
  | first :: rest =>
    s.data.all isValue && (first != '0' || rest.isEmpty) &&
      decide (decimalValue s.data ≤ 2147483647)

/-- The texts joined by single spaces. -/
def joinSpaced : List String → String
  | [] => ""
  | [s] => s
  | s :: t :: rest => s ++ " " ++ joinSpaced (t :: rest)

/-- The text of a leaf or of an operator. -/
def exprSym.text : exprSym → String
  | exprSym.leaf e => e.ToSource
  | exprSym.op name => name.text

/-! ## Notions used to state the properties of keywords -/

/-- The test `acceptStringCI` makes, told on the text that starts at the position of the
lexer: the characters of `s` are met one after the other, letter case apart, and a word end
follows.  Past the end of the text the lexer reads `eof`. -/
def matchCI : List Char → List Char → Bool
  | [], text => isWordEnd (text.headD eof)
  | r :: rs, [] => unicodeToUpper eof == unicodeToUpper r && matchCI rs []
  | r :: rs, c :: text => unicodeToUpper c == unicodeToUpper r && matchCI rs text

/-- The first entry of the keyword chain of `lexContent` that the text matches. -/
def keywordAt (text : List Char) : Option (String × itemType) :=
  keywords.find? (fun k => matchCI k.1.data text)

/-- A character that `lexSymbolOrLabel` takes into the symbol: a dot, a digit, a letter
or `_`. -/
def isSymbolChar (c : Char) : Bool := c = '.' || unicodeIsNumber c || isSymbol c

/-- An operator token carries the character of its operator as text. -/
def operatorText (item : lexItem) : Prop :=
  ∀ name, opOf item.typ = some name → item.val = name.text

/-- The token a call of a state function sends, if it is an operator token, carries the
character of its operator as text. -/
def sendsOperatorText (s : lexStep) : Prop :=
  ∀ item, s.sent = some item → operatorText item

/-! # Theorems -/

set_option maxRecDepth 1000000

/-! ## 32-bit arithmetic of `AstBinOp.eval` -/

theorem toUint32_cast (x : Int) : ((toUint32 x : Nat) : Int) = x % 2 ^ 32 := by
  unfold toUint32
  exact Int.toNat_of_nonneg (Int.emod_nonneg _ (by norm_num))

theorem toUint32_lt (x : Int) : toUint32 x < 2 ^ 32 := by
  have h := toUint32_cast x
  have h2 : x % 2 ^ 32 < 2 ^ 32 := Int.emod_lt_of_pos _ (by norm_num)
  omega

theorem ofUint32_of_lt {n : Nat} (h : n < 2 ^ 32) :
    ofUint32 n = if n < 2 ^ 31 then (n : Int) else (n : Int) - 2 ^ 32 := by
  unfold ofUint32
  rw [Nat.mod_eq_of_lt h]

theorem toInt32_range (x : Int) : inInt32 (toInt32 x) := by
  have h2 := toUint32_lt x
  unfold inInt32 toInt32
  rw [ofUint32_of_lt h2]
  split <;> omega

theorem toInt32_modEq (x : Int) : (toInt32 x - x) % 2 ^ 32 = 0 := by
  have h := toUint32_cast x
  have h2 := toUint32_lt x
  unfold toInt32
  rw [ofUint32_of_lt h2]
  split <;> omega

theorem toInt32_of_inInt32 {x : Int} (h : inInt32 x) : toInt32 x = x := by
  have h1 := toUint32_cast x
  have h2 := toUint32_lt x
  unfold inInt32 at h
  unfold toInt32
  rw [ofUint32_of_lt h2]
  split <;> omega

theorem toUint32_ofNat {m : Nat} (h : m < 2 ^ 31) : toUint32 (Int.ofNat m) = m := by
  have h1 := toUint32_cast (Int.ofNat m)
  have h3 : Int.ofNat m = (m : Int) := rfl
  rw [h3] at h1 ⊢
  omega

theorem toUint32_negSucc {m : Nat} (h : m < 2 ^ 31) :
    toUint32 (Int.negSucc m) = 2 ^ 32 - (m + 1) := by
  have h1 := toUint32_cast (Int.negSucc m)
  have h3 : Int.negSucc m = -(m : Int) - 1 := by
    rw [Int.negSucc_eq]; ring
  rw [h3] at h1 ⊢
  omega

theorem ofUint32_small {n : Nat} (h : n < 2 ^ 31) : ofUint32 n = (n : Int) := by
  rw [ofUint32_of_lt (by omega)]
  split <;> omega

theorem ofUint32_compl {k : Nat} (h : k < 2 ^ 31) : ofUint32 (2 ^ 32 - (k + 1)) = Int.negSucc k := by
  rw [ofUint32_of_lt (by omega), Int.negSucc_eq]
  split <;> omega

theorem testBit_high {m i : Nat} (hm : m < 2 ^ 31) (hi : ¬ i < 32) : m.testBit i = false :=
  Nat.testBit_lt_two_pow (lt_of_lt_of_le hm (Nat.pow_le_pow_right (by norm_num) (by omega)))


theorem ldiff_lt {m : Nat} (n : Nat) (hm : m < 2 ^ 31) : Nat.ldiff m n < 2 ^ 31 := by
  apply Nat.lt_pow_two_of_testBit
  intro i hi
  rw [Nat.testBit_ldiff, Nat.testBit_lt_two_pow
    (lt_of_lt_of_le hm (Nat.pow_le_pow_right (by norm_num) hi))]
  rfl

theorem and_compl_right {m n : Nat} (hm : m < 2 ^ 31) (hn : n < 2 ^ 31) :
    m &&& (2 ^ 32 - (n + 1)) = Nat.ldiff m n := by
  apply Nat.eq_of_testBit_eq
  intro i
  rw [Nat.testBit_and, Nat.testBit_two_pow_sub_succ (by omega), Nat.testBit_ldiff]
  by_cases hi : i < 32
  · simp [hi]
  · simp [hi, testBit_high hm hi]

theorem compl_and_compl {m n : Nat} (hm : m < 2 ^ 31) (hn : n < 2 ^ 31) :
    (2 ^ 32 - (m + 1)) &&& (2 ^ 32 - (n + 1)) = 2 ^ 32 - ((m ||| n) + 1) := by
  have hor : m ||| n < 2 ^ 31 := Nat.or_lt_two_pow hm hn
  apply Nat.eq_of_testBit_eq
  intro i
  rw [Nat.testBit_and, Nat.testBit_two_pow_sub_succ (by omega),
    Nat.testBit_two_pow_sub_succ (by omega), Nat.testBit_two_pow_sub_succ (by omega),
    Nat.testBit_or]
  by_cases hi : i < 32 <;> simp [hi]

theorem or_compl_right {m n : Nat} (hm : m < 2 ^ 31) (hn : n < 2 ^ 31) :
    m ||| (2 ^ 32 - (n + 1)) = 2 ^ 32 - (Nat.ldiff n m + 1) := by
  have hl : Nat.ldiff n m < 2 ^ 31 := ldiff_lt m hn
  apply Nat.eq_of_testBit_eq
  intro i
  rw [Nat.testBit_or, Nat.testBit_two_pow_sub_succ (by omega),
    Nat.testBit_two_pow_sub_succ (by omega), Nat.testBit_ldiff]
  by_cases hi : i < 32
  · cases m.testBit i <;> cases n.testBit i <;> simp [hi]
  · simp [hi, testBit_high hm hi]

theorem compl_or_compl {m n : Nat} (hm : m < 2 ^ 31) (hn : n < 2 ^ 31) :
    (2 ^ 32 - (m + 1)) ||| (2 ^ 32 - (n + 1)) = 2 ^ 32 - ((m &&& n) + 1) := by
  have hand : m &&& n < 2 ^ 31 := lt_of_le_of_lt Nat.and_le_left hm
  apply Nat.eq_of_testBit_eq
  intro i
  rw [Nat.testBit_or, Nat.testBit_two_pow_sub_succ (by omega),
    Nat.testBit_two_pow_sub_succ (by omega), Nat.testBit_two_pow_sub_succ (by omega),
    Nat.testBit_and]
  by_cases hi : i < 32
  · cases m.testBit i <;> cases n.testBit i <;> simp [hi]
  · simp [hi]

theorem xor_compl_right {m n : Nat} (hm : m < 2 ^ 31) (hn : n < 2 ^ 31) :
    m ^^^ (2 ^ 32 - (n + 1)) = 2 ^ 32 - ((m ^^^ n) + 1) := by
  have hx : m ^^^ n < 2 ^ 31 := Nat.xor_lt_two_pow hm hn
  apply Nat.eq_of_testBit_eq
  intro i
  rw [Nat.testBit_xor, Nat.testBit_two_pow_sub_succ (by omega),
    Nat.testBit_two_pow_sub_succ (by omega), Nat.testBit_xor]
  by_cases hi : i < 32
  · cases m.testBit i <;> cases n.testBit i <;> simp [hi]
  · simp [hi, testBit_high hm hi]

theorem compl_xor_compl {m n : Nat} (hm : m < 2 ^ 31) (hn : n < 2 ^ 31) :
    (2 ^ 32 - (m + 1)) ^^^ (2 ^ 32 - (n + 1)) = m ^^^ n := by
  apply Nat.eq_of_testBit_eq
  intro i
  rw [Nat.testBit_xor, Nat.testBit_two_pow_sub_succ (by omega),
    Nat.testBit_two_pow_sub_succ (by omega), Nat.testBit_xor]
  by_cases hi : i < 32
  · cases m.testBit i <;> cases n.testBit i <;> simp [hi]
  · simp [hi, testBit_high hm hi, testBit_high hn hi]

/-- An `int32` value is a natural below `2^31` or the negative successor of one. -/
theorem inInt32_cases {a : Int} (h : inInt32 a) :
    (∃ m : Nat, m < 2 ^ 31 ∧ a = Int.ofNat m) ∨ (∃ m : Nat, m < 2 ^ 31 ∧ a = Int.negSucc m) := by
  unfold inInt32 at h
  cases a with
  | ofNat m => exact Or.inl ⟨m, by have : Int.ofNat m = (m : Int) := rfl; omega, rfl⟩
  | negSucc m => exact Or.inr ⟨m, by have := Int.negSucc_eq m; omega, rfl⟩

theorem bitAnd_eq_land {a b : Int} (ha : inInt32 a) (hb : inInt32 b) :
    ofUint32 (toUint32 a &&& toUint32 b) = Int.land a b := by
  rcases inInt32_cases ha with ⟨m, hm, rfl⟩ | ⟨m, hm, rfl⟩ <;>
  rcases inInt32_cases hb with ⟨n, hn, rfl⟩ | ⟨n, hn, rfl⟩
  · rw [toUint32_ofNat hm, toUint32_ofNat hn,
      ofUint32_small (lt_of_le_of_lt Nat.and_le_left hm)]; rfl
  · rw [toUint32_ofNat hm, toUint32_negSucc hn, and_compl_right hm hn,
      ofUint32_small (ldiff_lt n hm)]; rfl
  · rw [toUint32_negSucc hm, toUint32_ofNat hn, Nat.and_comm, and_compl_right hn hm,
      ofUint32_small (ldiff_lt m hn)]; rfl
  · rw [toUint32_negSucc hm, toUint32_negSucc hn, compl_and_compl hm hn,
      ofUint32_compl (Nat.or_lt_two_pow hm hn)]; rfl

theorem bitOr_eq_lor {a b : Int} (ha : inInt32 a) (hb : inInt32 b) :
    ofUint32 (toUint32 a ||| toUint32 b) = Int.lor a b := by
  rcases inInt32_cases ha with ⟨m, hm, rfl⟩ | ⟨m, hm, rfl⟩ <;>
  rcases inInt32_cases hb with ⟨n, hn, rfl⟩ | ⟨n, hn, rfl⟩
  · rw [toUint32_ofNat hm, toUint32_ofNat hn, ofUint32_small (Nat.or_lt_two_pow hm hn)]; rfl
  · rw [toUint32_ofNat hm, toUint32_negSucc hn, or_compl_right hm hn,
      ofUint32_compl (ldiff_lt m hn)]; rfl
  · rw [toUint32_negSucc hm, toUint32_ofNat hn, Nat.or_comm, or_compl_right hn hm,
      ofUint32_compl (ldiff_lt n hm)]; rfl
  · rw [toUint32_negSucc hm, toUint32_negSucc hn, compl_or_compl hm hn,
      ofUint32_compl (lt_of_le_of_lt Nat.and_le_left hm)]; rfl

theorem bitXor_eq_xor {a b : Int} (ha : inInt32 a) (hb : inInt32 b) :
    ofUint32 (toUint32 a ^^^ toUint32 b) = Int.xor a b := by
  rcases inInt32_cases ha with ⟨m, hm, rfl⟩ | ⟨m, hm, rfl⟩ <;>
  rcases inInt32_cases hb with ⟨n, hn, rfl⟩ | ⟨n, hn, rfl⟩
  · rw [toUint32_ofNat hm, toUint32_ofNat hn, ofUint32_small (Nat.xor_lt_two_pow hm hn)]; rfl
  · rw [toUint32_ofNat hm, toUint32_negSucc hn, xor_compl_right hm hn,
      ofUint32_compl (Nat.xor_lt_two_pow hm hn)]; rfl
  · rw [toUint32_negSucc hm, toUint32_ofNat hn, Nat.xor_comm, xor_compl_right hn hm,
      ofUint32_compl (Nat.xor_lt_two_pow hn hm), Nat.xor_comm]; rfl
  · rw [toUint32_negSucc hm, toUint32_negSucc hn, compl_xor_compl hm hn,
      ofUint32_small (Nat.xor_lt_two_pow hm hn)]; rfl

/-- Truncated division of `int32` values stays in range except for `-2^31 / -1`. -/
theorem tdiv_inInt32 {a b : Int} (ha : inInt32 a) (hb : inInt32 b) (hb0 : b ≠ 0)
    (hne : ¬ (a = -2 ^ 31 ∧ b = -1)) : inInt32 (Int.tdiv a b) := by
  unfold inInt32 at *
  have habs : (Int.tdiv a b).natAbs = a.natAbs / b.natAbs := Int.natAbs_tdiv a b
  have hb1 : 1 ≤ b.natAbs := by omega
  have hle : a.natAbs / b.natAbs ≤ a.natAbs := Nat.div_le_self _ _
  by_cases h31 : a = -2 ^ 31
  · subst h31
    have hbne : b ≠ -1 := fun h => hne ⟨rfl, h⟩
    by_cases hb1' : b = 1
    · subst hb1'; simp
    · have hb2 : 2 ≤ b.natAbs := by omega
      have : (-2 ^ 31 : Int).natAbs / b.natAbs ≤ (-2 ^ 31 : Int).natAbs / 2 :=
        Nat.div_le_div_left hb2 (by norm_num)
      have h2 : (-2 ^ 31 : Int).natAbs = 2 ^ 31 := by norm_num
      omega
  · omega

theorem eval_binOp_values (g : compiler → String → Res (pioInt × compiler)) (c : compiler)
    (p pl pr : Bool) (name : operator) (a b : Int) :
    (AstBinOp p name (AstValue pl a) (AstValue pr b)).eval g c =
      Res.bind (binOpEval name a b) (fun v => Res.ok (v, c)) := rfl

/-- C4: `AstBinOp.eval` computes over signed 32-bit integers.  For operands `a` and `b` in
the `int32` range, `+`, `-` and `*` return a value in the range that is congruent to the
mathematical result modulo `2^32`; `&`, `|` and `^` return the two's-complement bitwise
result; and for `b ≠ 0`, `/` returns the quotient truncated toward zero, except that
`-2^31 / -1` wraps to `-2^31`. -/
theorem astBinOp_eval_int32 (g : compiler → String → Res (pioInt × compiler)) (c : compiler)
    (p pl pr : Bool) (a b : Int) (ha : inInt32 a) (hb : inInt32 b) :
    (∃ r : Int, (AstBinOp p opPlus (AstValue pl a) (AstValue pr b)).eval g c = Res.ok (r, c) ∧
      inInt32 r ∧ (r - (a + b)) % 2 ^ 32 = 0) ∧
    (∃ r : Int, (AstBinOp p opMinus (AstValue pl a) (AstValue pr b)).eval g c = Res.ok (r, c) ∧
      inInt32 r ∧ (r - (a - b)) % 2 ^ 32 = 0) ∧
    (∃ r : Int, (AstBinOp p opMul (AstValue pl a) (AstValue pr b)).eval g c = Res.ok (r, c) ∧
      inInt32 r ∧ (r - a * b) % 2 ^ 32 = 0) ∧
    (AstBinOp p opBinAnd (AstValue pl a) (AstValue pr b)).eval g c = Res.ok (Int.land a b, c) ∧
    (AstBinOp p opBinOr (AstValue pl a) (AstValue pr b)).eval g c = Res.ok (Int.lor a b, c) ∧
    (AstBinOp p opBinXor (AstValue pl a) (AstValue pr b)).eval g c = Res.ok (Int.xor a b, c) ∧
    (b ≠ 0 → (AstBinOp p opDiv (AstValue pl a) (AstValue pr b)).eval g c =
      Res.ok (if a = -2 ^ 31 ∧ b = -1 then -2 ^ 31 else Int.tdiv a b, c)) := by
  refine ⟨⟨toInt32 (a + b), rfl, toInt32_range _, toInt32_modEq _⟩,
    ⟨toInt32 (a - b), rfl, toInt32_range _, toInt32_modEq _⟩,
    ⟨toInt32 (a * b), rfl, toInt32_range _, toInt32_modEq _⟩, ?_, ?_, ?_, ?_⟩
  · rw [eval_binOp_values]; simp only [binOpEval, Res.bind]; rw [bitAnd_eq_land ha hb]
  · rw [eval_binOp_values]; simp only [binOpEval, Res.bind]; rw [bitOr_eq_lor ha hb]
  · rw [eval_binOp_values]; simp only [binOpEval, Res.bind]; rw [bitXor_eq_xor ha hb]
  · intro hb0
    rw [eval_binOp_values]
    simp only [binOpEval, if_neg hb0, Res.bind]
    by_cases h : a = -2 ^ 31 ∧ b = -1
    · rw [if_pos h]
      obtain ⟨rfl, rfl⟩ := h
      have hwrap : toInt32 (Int.tdiv (-2 ^ 31) (-1)) = -2 ^ 31 := by decide
      rw [hwrap]
    · rw [if_neg h, toInt32_of_inInt32 (tdiv_inInt32 ha hb hb0 h)]

/-- C4, at `-3 / 2`: the quotient is `-1`, truncated toward zero. -/
theorem astBinOp_eval_int32_witness :
    (AstBinOp false opDiv (AstValue false (-3)) (AstValue false 2)).eval
      (compiler.getValueByIdentifier 0) (compiler.new "") = Res.ok (-1, compiler.new "") :=
  (astBinOp_eval_int32 (compiler.getValueByIdentifier 0) (compiler.new "") false false false
    (-3) 2 (by unfold inInt32; omega) (by unfold inInt32; omega)).2.2.2.2.2.2 (by decide)

/-! ## Evaluations of `Compile` -/

/-- C1, at the source `.define A 8 / (4 / 2)`: `Compile` accepts it and regenerates
`.define A 8 / 4 / 2 ; = 4`, dropping the parentheses that `parseExprMulDiv` does not
record; compiling that text succeeds but regenerates `.define A 8 / 4 / 2 ; = 1`, so the
regenerated text is not a fixed point. -/
theorem regenerate_not_fixed_point :
    regenerate 100 ".define A 8 / (4 / 2)" = some ".define A 8 / 4 / 2 ; = 4\n" ∧
    regenerate 100 ".define A 8 / 4 / 2 ; = 4\n" = some ".define A 8 / 4 / 2 ; = 1\n" := by
  decide!

/-- C2, at the source `.define A 1 / 0`: `Compile` returns neither an AST nor a
`CompileError`. -/
theorem compile_returns_neither :
    Compile 100 ".define A 1 / 0" { evalDefine := false } = some (none, none) := by
  decide!

/-- C2, amended: whenever `Compile` returns, it returns an AST and no error when `parseFile`
completes, an error and no AST when a `CompileError` is raised, and neither when a runtime
panic is recovered; it never returns both. -/
theorem compile_never_both (fuel : Nat) (source : String) (options : Options)
    (r : Option AstFile × Option CompileError) (h : Compile fuel source options = some r) :
    (∃ astFile, (compiler.new source).parseFile fuel = Res.ok astFile ∧
        r = (some astFile, none)) ∨
    (∃ err, (compiler.new source).parseFile fuel = Res.raise err ∧ r = (none, some err)) ∨
    ((compiler.new source).parseFile fuel = Res.crash ∧ r = (none, none)) := by
  unfold Compile at h
  cases hp : (compiler.new source).parseFile fuel with
  | ok astFile =>
    rw [hp] at h
    exact Or.inl ⟨astFile, rfl, (Option.some.inj h).symm⟩
  | raise err =>
    rw [hp] at h
    exact Or.inr (Or.inl ⟨err, rfl, (Option.some.inj h).symm⟩)
  | crash =>
    rw [hp] at h
    exact Or.inr (Or.inr ⟨rfl, (Option.some.inj h).symm⟩)
  | timeout =>
    rw [hp] at h
    exact Option.noConfusion h

/-- C2, amended, at the source `bullshit`: the error is returned without an AST. -/
theorem compile_never_both_witness :
    Compile 100 "bullshit" { evalDefine := false } =
        some (none, some { line := 1, offset := 1, message := "Unexpected item" }) ∧
    ((∃ astFile, (compiler.new "bullshit").parseFile 100 = Res.ok astFile ∧
        ((none, some { line := 1, offset := 1, message := "Unexpected item" }) :
          Option AstFile × Option CompileError) = (some astFile, none)) ∨
    (∃ err, (compiler.new "bullshit").parseFile 100 = Res.raise err ∧
        ((none, some { line := 1, offset := 1, message := "Unexpected item" }) :
          Option AstFile × Option CompileError) = (none, some err)) ∨
    ((compiler.new "bullshit").parseFile 100 = Res.crash ∧
        ((none, some { line := 1, offset := 1, message := "Unexpected item" }) :
          Option AstFile × Option CompileError) = (none, none))) :=
  ⟨by decide!, compile_never_both 100 "bullshit" { evalDefine := false } _ (by decide!)⟩

/-- C5, at the number tokens `010` and `08`: the literal nodes hold eight and zero, not ten
and eight, because `strconv.ParseInt` is called with base 0 and its error is dropped. -/
theorem leading_zero_literal :
    Compile 100 ".define A 010\n.define B 08" { evalDefine := false } =
      some (some { defines :=
                     [{ name := "A", expr := AstValue false 8, evaluated := true, value := 8 },
                      { name := "B", expr := AstValue false 0, evaluated := true, value := 0 }],
                   programs := [] }, none) := by
  decide!

/-- C10, at the source made of a newline followed by `bullshit`: the token starts at offset 1,
the first column of line 2, and `position` reports column 2. -/
theorem column_after_leading_newline :
    lexer.position
        { input := "\nbullshit".data, lines := [0], start := 1, pos := 9,
          width := 0, lastItem := none } 1 = (2, 2) ∧
    Compile 100 "\nbullshit" { evalDefine := false } =
      some (none, some { line := 2, offset := 2, message := "Unexpected item" }) := by
  decide!

/-! ## Scopes and `registerDefine` -/

theorem raiseError_eq {α : Type} (c : compiler) (message : String) (item : lexItem) :
    (c.raiseError message item : Res α) = Res.raise (c.errorAt message item) := rfl

theorem goMap.get_set_self {V : Type} (m : goMap V) (k : String) (v : V) :
    (m.set k v).get k = some v := by
  induction m with
  | nil => simp [goMap.set, goMap.get, List.lookup]
  | cons e rest ih =>
    obtain ⟨k', v'⟩ := e
    unfold goMap.set
    by_cases h : k' = k
    · simp [h, goMap.get, List.lookup]
    · simp only [h, if_false]
      have hne : (k == k') = false := by simpa using fun h' => h h'.symm
      simp only [goMap.get, List.lookup, hne]
      exact ih

theorem goMap.get_set_other {V : Type} (m : goMap V) (k k' : String) (v : V) (h : k' ≠ k) :
    (m.set k v).get k' = m.get k' := by
  induction m with
  | nil =>
    have hne : (k' == k) = false := by simpa using h
    simp [goMap.set, goMap.get, List.lookup, hne]
  | cons e rest ih =>
    obtain ⟨k₁, v₁⟩ := e
    unfold goMap.set
    by_cases h1 : k₁ = k
    · subst h1
      have hne : (k' == k₁) = false := by simpa using h
      simp [goMap.get, List.lookup, hne]
    · simp only [h1, if_false]
      simp only [goMap.get, List.lookup]
      cases hk : (k' == k₁)
      · exact ih
      · rfl

theorem getDefineDeclared_isSome_iff (c : compiler) (name : String) :
    (c.getDefineDeclared name).isSome ↔ declaredInScope c name := by
  unfold compiler.getDefineDeclared declaredInScope declaredGlobal declaredInProgram
  cases hg : c.globalSymbols.get name with
  | some d => simp
  | none =>
    cases hp : c.currentProgram with
    | none => simp
    | some program =>
      cases hs : c.programSymbols.get program with
      | none => simp [hs]
      | some symbols => simp [hs]

/-- What `registerDefine` does, by whether the name is declared in scope. -/
theorem registerDefine_spec (c : compiler) (define : Nat) (d : AstDefine) (item : lexItem)
    (hd : c.heap[define]? = some d) :
    (c.registerDefine define item = Res.raise (c.errorAt "Symbol already defined" item) ↔
      declaredInScope c d.name) ∧
    (¬ declaredInScope c d.name →
      ∃ c', c.registerDefine define item = Res.ok c' ∧
        c'.heap = c.heap ∧ c'.currentProgram = c.currentProgram ∧
        c'.getDefineDeclared d.name = some define ∧
        (∀ item', c'.registerDefine define item' =
          Res.raise (c'.errorAt "Symbol already defined" item')) ∧
        (c.currentProgram = none → ∀ program,
          declaredInScope { c' with currentProgram := program } d.name)) ∧
    (∀ program other, c.currentProgram = some program → other ≠ program →
      declaredInProgram c other d.name → ¬ declaredGlobal c d.name →
      ¬ declaredInProgram c program d.name →
      ∃ c', c.registerDefine define item = Res.ok c') := by
  have hsucc : ¬ declaredInScope c d.name →
      ∃ c', c.registerDefine define item = Res.ok c' ∧
        c'.heap = c.heap ∧ c'.currentProgram = c.currentProgram ∧
        c'.getDefineDeclared d.name = some define ∧
        (∀ item', c'.registerDefine define item' =
          Res.raise (c'.errorAt "Symbol already defined" item')) ∧
        (c.currentProgram = none → ∀ program,
          declaredInScope { c' with currentProgram := program } d.name) := by
    intro hn
    have hnone : (c.getDefineDeclared d.name).isSome = false := by
      cases h : (c.getDefineDeclared d.name).isSome
      · rfl
      · exact absurd ((getDefineDeclared_isSome_iff c d.name).1 h) hn
    have hglobal : c.globalSymbols.get d.name = none := by
      cases h : c.globalSymbols.get d.name with
      | none => rfl
      | some a => exact absurd (Or.inl (by simp [declaredGlobal, h])) hn
    cases hp : c.currentProgram with
    | none =>
      simp only [compiler.registerDefine, hd, hnone, hp, Bool.false_eq_true, if_false]
      refine ⟨_, rfl, rfl, rfl, ?_, ?_, ?_⟩
      · simp [compiler.getDefineDeclared, goMap.get_set_self]
      · intro item'
        simp [hd, compiler.getDefineDeclared, goMap.get_set_self, raiseError_eq]
      · intro _ program
        exact Or.inl (by simp [declaredGlobal, goMap.get_set_self])
    | some program =>
      simp only [compiler.registerDefine, hd, hnone, hp, Bool.false_eq_true, if_false]
      refine ⟨_, rfl, rfl, rfl, ?_, ?_, ?_⟩
      · simp [compiler.getDefineDeclared, goMap.get_set_self, hglobal, hp]
      · intro item'
        simp [hd, compiler.getDefineDeclared, goMap.get_set_self, hglobal, hp, raiseError_eq]
      · intro h
        exact Option.noConfusion h
  refine ⟨⟨?_, ?_⟩, hsucc, ?_⟩
  · intro h
    by_contra hn
    obtain ⟨c', hc', _⟩ := hsucc hn
    rw [hc'] at h
    exact Res.noConfusion h
  · intro h
    have hsome := (getDefineDeclared_isSome_iff c d.name).2 h
    simp [compiler.registerDefine, hd, hsome, raiseError_eq]
  · intro program other hp _ _ hg hprog
    have hn : ¬ declaredInScope c d.name := by
      rintro (h | ⟨p, hp', h⟩)
      · exact hg h
      · rw [hp] at hp'
        cases hp'
        exact hprog h
    obtain ⟨c', hc', _⟩ := hsucc hn
    exact ⟨c', hc'⟩

/-! ## Evaluation when every stored define is evaluated -/

theorem Res.bind_eq_ok {α β : Type} {x : Res α} {f : α → Res β} {b : β} :
    Res.bind x f = Res.ok b ↔ ∃ a, x = Res.ok a ∧ f a = Res.ok b := by
  cases x <;> simp [Res.bind]

theorem Res.bind_ok {α β : Type} (a : α) (f : α → Res β) : Res.bind (Res.ok a) f = f a := rfl

theorem tablesEvaluated_declared {c : compiler} (h : tablesEvaluated c) {name : String}
    {define : Nat} (hd : c.getDefineDeclared name = some define) : evaluatedAt c define := by
  unfold compiler.getDefineDeclared at hd
  split at hd
  · next g hg =>
    cases hd
    exact h.1 _ _ hg
  · split at hd
    · split at hd
      · next symbols hs => exact h.2 _ _ _ _ hs hd
      · cases hd
    · cases hd

theorem scopeValue_eq (c : compiler) (name : String) :
    scopeValue c name = (c.getDefineDeclared name).bind (fun define =>
      (c.heap[define]?).map (fun d => d.value)) := by
  unfold scopeValue compiler.getDefineDeclared
  cases hg : c.globalSymbols.get name with
  | some g => simp
  | none =>
    cases hp : c.currentProgram with
    | none => simp
    | some program =>
      cases hs : c.programSymbols.get program with
      | none => simp [hs]
      | some symbols =>
        cases hn : symbols.get name <;> simp [hs, hn]

/-- With every define of the tables evaluated, `getValueByIdentifier` reads the stored
value and leaves the compiler as it is. -/
theorem getValueByIdentifier_evaluated (fuel : Nat) {c : compiler} (h : tablesEvaluated c)
    (name : String) :
    c.getValueByIdentifier fuel name =
      match scopeValue c name with
      | some v => Res.ok (v, c)
      | none => Res.crash := by
  rw [scopeValue_eq]
  unfold compiler.getValueByIdentifier
  cases hd : c.getDefineDeclared name with
  | none => rfl
  | some define =>
    obtain ⟨d, hd1, hd2⟩ := tablesEvaluated_declared h hd
    simp [hd1, hd2]

theorem binOpEval_cases (name : operator) (l r : Int) :
    (∃ v, binOpEval name l r = Res.ok v) ∨ binOpEval name l r = Res.crash := by
  cases name <;> simp [binOpEval]
  by_cases h : r = 0 <;> simp [h]

/-- With every define of the tables evaluated, evaluation is substitution of the stored
values, and it leaves the compiler as it is. -/
theorem eval_evaluated (fuel : Nat) {c : compiler} (h : tablesEvaluated c) (e : AstExpr) :
    e.eval (compiler.getValueByIdentifier fuel) c =
      match substEval c e with
      | some v => Res.ok (v, c)
      | none => Res.crash := by
  induction e with
  | AstValue p v => rfl
  | AstIdentifier p name =>
    show c.getValueByIdentifier fuel name = _
    rw [getValueByIdentifier_evaluated fuel h]
    rfl
  | AstBinOp p name left right ihl ihr =>
    show Res.bind (left.eval _ c) _ = _
    rw [ihl]
    cases hl : substEval c left with
    | none => simp [substEval, hl, Res.bind]
    | some l =>
      show Res.bind (right.eval _ c) _ = _
      rw [ihr]
      cases hr : substEval c right with
      | none => simp [substEval, hl, hr, Res.bind]
      | some r =>
        show Res.bind (binOpEval name l r) _ = _
        rcases binOpEval_cases name l r with ⟨v, hb⟩ | hb
        · simp [substEval, hl, hr, hb, Res.bind]; rfl
        · simp [substEval, hl, hr, hb, Res.bind]

/-! ## What a line leaves unchanged -/

theorem sameTables.refl (c : compiler) : sameTables c c := ⟨rfl, rfl, rfl, rfl, rfl⟩

theorem sameTables.trans {a b c : compiler} (h1 : sameTables a b) (h2 : sameTables b c) :
    sameTables a c :=
  ⟨h2.1.trans h1.1, h2.2.1.trans h1.2.1, h2.2.2.1.trans h1.2.2.1,
    h2.2.2.2.1.trans h1.2.2.2.1, h2.2.2.2.2.trans h1.2.2.2.2⟩

theorem Res.bind_def {α β : Type} (x : Res α) (f : α → Res β) : x >>= f = Res.bind x f := rfl

theorem Res.pure_def {α : Type} (a : α) : (pure a : Res α) = Res.ok a := rfl

theorem eval_sameTables (g : compiler → String → Res (pioInt × compiler))
    (hg : ∀ c name v c', g c name = Res.ok (v, c') → sameTables c c') (e : AstExpr) :
    ∀ c v c', e.eval g c = Res.ok (v, c') → sameTables c c' := by
  induction e with
  | AstValue p value =>
    intro c v c' h
    cases h
    exact sameTables.refl c
  | AstIdentifier p name =>
    intro c v c' h
    exact hg c name v c' h
  | AstBinOp p name left right ihl ihr =>
    intro c v c' h
    simp only [AstExpr.eval, Res.bind_def, Res.bind_eq_ok, Res.pure_def] at h
    obtain ⟨⟨l, c1⟩, h1, ⟨r, c2⟩, h2, w, _, h4⟩ := h
    cases h4
    exact (ihl c l c1 h1).trans (ihr c1 r c2 h2)

theorem evaluateDefineWith_sameTables (g : compiler → String → Res (pioInt × compiler))
    (hg : ∀ c name v c', g c name = Res.ok (v, c') → sameTables c c') (c : compiler)
    (define : Nat) (c' : compiler) (h : evaluateDefineWith g c define = Res.ok c') :
    sameTables c c' := by
  unfold evaluateDefineWith at h
  split at h
  · cases h
  · next d hd =>
    simp only [Res.bind_def, Res.bind_eq_ok, Res.pure_def] at h
    obtain ⟨⟨v, c1⟩, h1, h2⟩ := h
    cases h2
    exact eval_sameTables g hg d.expr c v c1 h1

theorem getValueByIdentifier_sameTables (fuel : Nat) :
    ∀ c name v c', compiler.getValueByIdentifier fuel c name = Res.ok (v, c') →
      sameTables c c' := by
  induction fuel with
  | zero =>
    intro c name v c' h
    unfold compiler.getValueByIdentifier at h
    split at h
    · cases h
    · split at h
      · cases h
      · split at h
        · cases h
        · cases h; exact sameTables.refl c
  | succ fuel ih =>
    intro c name v c' h
    unfold compiler.getValueByIdentifier at h
    split at h
    · cases h
    · split at h
      · cases h
      · split at h
        · simp only [Res.bind_def, Res.bind_eq_ok] at h
          obtain ⟨c1, h1, h2⟩ := h
          have hs := evaluateDefineWith_sameTables _ ih _ _ _ h1
          split at h2
          · cases h2
          · cases h2; exact hs
        · cases h; exact sameTables.refl c

theorem evaluateDefine_sameTables (fuel : Nat) (c : compiler) (define : Nat) (c' : compiler)
    (h : c.evaluateDefine fuel define = Res.ok c') : sameTables c c' :=
  evaluateDefineWith_sameTables _ (getValueByIdentifier_sameTables fuel) _ _ _ h

/-- The part of `parseDefine` after the name and the expression have been read. -/
theorem parseDefine_ok {fuel : Nat} {c : compiler} {l : line} {r : lineAst} {c' : compiler}
    (h : c.parseDefine fuel l = Res.ok (r, c')) :
    ∃ l0 name value c2,
      l[0]? = some l0 ∧
      ({ c with heap := c.heap ++
          [{ name := name, expr := value, evaluated := false, value := 0 }] } : compiler).evaluateDefine
        fuel c.heap.length = Res.ok c2 ∧
      c2.registerDefine c.heap.length l0 = Res.ok c' ∧ r = lineAst.define c.heap.length := by
  unfold compiler.parseDefine at h
  simp only [Res.bind_def, Res.bind_eq_ok, Res.pure_def] at h
  obtain ⟨l0, hl0, isPublic, _, ⟨name, value⟩, _, c2, h2, c3, h3, h4⟩ := h
  cases h4
  refine ⟨l0, name, value, c2, ?_, h2, h3, rfl⟩
  unfold line.index at hl0
  split at hl0
  · next item hi => cases hl0; exact hi
  · cases hl0

theorem registerDefine_frame {c : compiler} {define : Nat} {item : lexItem} {c' : compiler}
    (h : c.registerDefine define item = Res.ok c') :
    c'.lex = c.lex ∧ c'.programs = c.programs ∧ c'.currentProgram = c.currentProgram ∧
      c'.heap = c.heap := by
  unfold compiler.registerDefine at h
  split at h
  · cases h
  · split at h
    · cases h
    · split at h <;> (cases h; exact ⟨rfl, rfl, rfl, rfl⟩)

theorem parseDefine_frame {fuel : Nat} {c : compiler} {l : line} {r : lineAst} {c' : compiler}
    (h : c.parseDefine fuel l = Res.ok (r, c')) :
    c'.lex = c.lex ∧ c'.programs = c.programs ∧ c'.currentProgram = c.currentProgram := by
  obtain ⟨l0, name, value, c2, _, h2, h3, _⟩ := parseDefine_ok h
  have hs := evaluateDefine_sameTables _ _ _ _ h2
  have hr := registerDefine_frame h3
  exact ⟨hr.1.trans hs.1, hr.2.1.trans hs.2.1, hr.2.2.1.trans hs.2.2.1⟩

theorem next_frame {fuel : Nat} {c : compiler} {item : Option lexItem} {c' : compiler}
    (h : c.next fuel = Res.ok (item, c')) :
    c'.programs = c.programs ∧ c'.currentProgram = c.currentProgram ∧
      c'.globalSymbols = c.globalSymbols ∧ c'.programSymbols = c.programSymbols ∧
      c'.heap = c.heap := by
  unfold compiler.next at h
  split at h
  · cases h
  · cases h; exact ⟨rfl, rfl, rfl, rfl, rfl⟩

theorem nextLineLoop_frame (fuel : Nat) :
    ∀ (n : Nat) (c : compiler) (acc l : line) (c' : compiler),
      compiler.nextLineLoop fuel n c acc = Res.ok (l, c') →
      c'.programs = c.programs ∧ c'.currentProgram = c.currentProgram ∧
        c'.globalSymbols = c.globalSymbols ∧ c'.programSymbols = c.programSymbols ∧
        c'.heap = c.heap := by
  intro n
  induction n with
  | zero =>
    intro c acc l c' h
    cases h
  | succ n ih =>
    intro c acc l c' h
    unfold compiler.nextLineLoop at h
    simp only [Res.bind_def, Res.bind_eq_ok, Res.pure_def] at h
    obtain ⟨⟨item, c1⟩, h1, h2⟩ := h
    have hf := next_frame h1
    cases item with
    | none =>
      cases h2
      exact hf
    | some item =>
      simp only at h2
      split at h2
      · cases h2; exact hf
      · have := ih _ _ _ _ h2
        exact ⟨this.1.trans hf.1, this.2.1.trans hf.2.1, this.2.2.1.trans hf.2.2.1,
          this.2.2.2.1.trans hf.2.2.2.1, this.2.2.2.2.trans hf.2.2.2.2⟩

theorem parseProgram_ok {c : compiler} {l : line} {r : lineAst} {c' : compiler}
    (h : c.parseProgram l = Res.ok (r, c')) :
    ∃ name, r = lineAst.program name [] ∧ name ∉ c.programs ∧
      c'.programs = c.programs ++ [name] ∧ c'.currentProgram = some name := by
  unfold compiler.parseProgram at h
  simp only [Res.bind_def, Res.bind_eq_ok, Res.pure_def] at h
  obtain ⟨l0, _, cond, _, id, _, c1, h1, h2⟩ := h
  cases h2
  unfold compiler.registerProgram at h1
  split at h1
  · cases h1
  · next hn =>
    cases h1
    exact ⟨id, rfl, by simpa using hn, rfl, rfl⟩

/-- A line that `parseLine` accepts leaves the registered program names as they are, unless
it is a `.program` line, which appends its name. -/
theorem parseLine_programs {fuel : Nat} {c : compiler} {r : Option lineAst} {c' : compiler}
    (h : c.parseLine fuel = Res.ok (r, c')) :
    c'.programs = c.programs ∨
      ∃ name, r = some (lineAst.program name []) ∧ name ∉ c.programs ∧
        c'.programs = c.programs ++ [name] := by
  unfold compiler.parseLine at h
  simp only [Res.bind_def, Res.bind_eq_ok, Res.pure_def] at h
  obtain ⟨⟨l, c1⟩, h1, h2⟩ := h
  have hf := nextLineLoop_frame fuel fuel c [] l c1 h1
  cases l with
  | nil =>
    cases h2
    exact Or.inl hf.1
  | cons item rest =>
    simp only at h2
    split at h2
    · simp only [Res.bind_def, Res.bind_eq_ok, Res.pure_def] at h2
      obtain ⟨⟨ast, c2⟩, h3, h4⟩ := h2
      cases h4
      obtain ⟨name, hr, hn, hp, _⟩ := parseProgram_ok h3
      refine Or.inr ⟨name, by rw [hr], by rw [← hf.1]; exact hn, by rw [hp, hf.1]⟩
    · split at h2
      · simp only [Res.bind_def, Res.bind_eq_ok, Res.pure_def] at h2
        obtain ⟨⟨ast, c2⟩, h3, h4⟩ := h2
        cases h4
        exact Or.inl ((parseDefine_frame h3).2.1.trans hf.1)
      · split at h2
        · cases h2
          exact Or.inl hf.1
        · cases h2

/-- C9: a `.program NAME` line raises `Program already exists`, positioned at its
`.program` token, if and only if the name is among the registered program names; otherwise
the name is registered and becomes the current program.  The registered names are exactly
the names of the `.program` lines accepted so far: any accepted line keeps them, and only an
accepted `.program` line adds one, its own. -/
theorem parseProgram_iff (c : compiler) (l0 l1 : lexItem) (rest : line)
    (h0 : l0.typ = itemDirProgram) (h1 : l1.typ = itemSymbol) :
    (c.parseProgram (l0 :: l1 :: rest) =
        Res.raise (c.errorAt "Program already exists" l0) ↔ l1.val ∈ c.programs) ∧
    (l1.val ∉ c.programs →
      c.parseProgram (l0 :: l1 :: rest) =
        Res.ok (lineAst.program l1.val [],
          { c with currentProgram := some l1.val, programs := c.programs ++ [l1.val] })) ∧
    (∀ fuel r c', c.parseLine fuel = Res.ok (r, c') →
      c'.programs = c.programs ∨
        ∃ name, r = some (lineAst.program name []) ∧ name ∉ c.programs ∧
          c'.programs = c.programs ++ [name]) := by
  have hform : c.parseProgram (l0 :: l1 :: rest) = c.registerProgram l1.val l0 >>= fun c =>
      pure (lineAst.program l1.val [], c) := by
    simp [compiler.parseProgram, line.index, h0, h1, Res.bind_def, Res.bind, Res.pure_def]
  refine ⟨⟨?_, ?_⟩, ?_, fun fuel r c' h => parseLine_programs h⟩
  · intro h
    by_contra hn
    rw [hform] at h
    simp [compiler.registerProgram, hn, Res.bind_def, Res.bind, Res.pure_def] at h
  · intro h
    rw [hform]
    simp [compiler.registerProgram, h, Res.bind_def, Res.bind, raiseError_eq]
  · intro hn
    rw [hform]
    simp [compiler.registerProgram, hn, Res.bind_def, Res.bind, Res.pure_def]

/-! ## Fuel -/

theorem Res.le_refl {α : Type} (x : Res α) : Res.le x x := Or.inr rfl

theorem Res.timeout_le {α : Type} (y : Res α) : Res.le Res.timeout y := Or.inl rfl

theorem Res.bind_le {α β : Type} {x x' : Res α} {f f' : α → Res β} (hx : Res.le x x')
    (hf : ∀ a, Res.le (f a) (f' a)) : Res.le (Res.bind x f) (Res.bind x' f') := by
  rcases hx with rfl | rfl
  · exact Or.inl rfl
  · cases x with
    | ok a => exact hf a
    | raise e => exact Or.inr rfl
    | crash => exact Or.inr rfl
    | timeout => exact Or.inl rfl

theorem Res.eq_of_le {α : Type} {x y : Res α} (h : Res.le x y) (hx : x ≠ Res.timeout) :
    y = x := by
  rcases h with h | h
  · exact absurd h hx
  · exact h.symm

theorem receive_mono : ∀ (fuel fuel' : Nat) (h : lexHandle) (r : Option lexItem × lexHandle),
    fuel ≤ fuel' → h.receive fuel = some r → h.receive fuel' = some r := by
  intro fuel
  induction fuel with
  | zero => intro fuel' h r _ hr; cases hr
  | succ fuel ih =>
    intro fuel' h r hle hr
    obtain ⟨k, rfl⟩ : ∃ k, fuel' = k + 1 := ⟨fuel' - 1, by omega⟩
    unfold lexHandle.receive at hr ⊢
    cases hs : h.state with
    | none => rw [hs] at hr; simpa using hr
    | some state =>
      rw [hs] at hr
      simp only at hr ⊢
      cases hsent : (state.step h.lex).sent with
      | some item => rw [hsent] at hr; simpa using hr
      | none =>
        rw [hsent] at hr
        simp only at hr ⊢
        exact ih k _ r (by omega) hr

theorem next_le (fuel fuel' : Nat) (c : compiler) (hle : fuel ≤ fuel') :
    Res.le (c.next fuel) (c.next fuel') := by
  unfold compiler.next
  cases hr : c.lex.receive fuel with
  | none => exact Or.inl rfl
  | some r =>
    rw [receive_mono fuel fuel' c.lex r hle hr]
    exact Or.inr rfl

theorem nextLineLoop_le (fuel fuel' : Nat) (hle : fuel ≤ fuel') :
    ∀ (n n' : Nat) (c : compiler) (acc : line), n ≤ n' →
      Res.le (compiler.nextLineLoop fuel n c acc) (compiler.nextLineLoop fuel' n' c acc) := by
  intro n
  induction n with
  | zero => intro n' c acc _; exact Or.inl rfl
  | succ n ih =>
    intro n' c acc hn
    obtain ⟨k, rfl⟩ : ∃ k, n' = k + 1 := ⟨n' - 1, by omega⟩
    unfold compiler.nextLineLoop
    simp only [Res.bind_def]
    refine Res.bind_le (next_le fuel fuel' c hle) ?_
    rintro ⟨item, c1⟩
    cases item with
    | none => exact Or.inr rfl
    | some item =>
      simp only
      split
      · exact Or.inr rfl
      · exact ih k c1 _ (by omega)

theorem eval_le (g g' : compiler → String → Res (pioInt × compiler))
    (hg : ∀ c name, Res.le (g c name) (g' c name)) (e : AstExpr) :
    ∀ c, Res.le (e.eval g c) (e.eval g' c) := by
  induction e with
  | AstValue p v => intro c; exact Or.inr rfl
  | AstIdentifier p name => intro c; exact hg c name
  | AstBinOp p name left right ihl ihr =>
    intro c
    simp only [AstExpr.eval, Res.bind_def]
    refine Res.bind_le (ihl c) ?_
    rintro ⟨l, c1⟩
    refine Res.bind_le (ihr c1) ?_
    rintro ⟨r, c2⟩
    exact Or.inr rfl

theorem evaluateDefineWith_le (g g' : compiler → String → Res (pioInt × compiler))
    (hg : ∀ c name, Res.le (g c name) (g' c name)) (c : compiler) (define : Nat) :
    Res.le (evaluateDefineWith g c define) (evaluateDefineWith g' c define) := by
  unfold evaluateDefineWith
  split
  · exact Or.inr rfl
  · simp only [Res.bind_def]
    refine Res.bind_le (eval_le g g' hg _ c) ?_
    rintro ⟨v, c1⟩
    exact Or.inr rfl

theorem getValueByIdentifier_le : ∀ (fuel fuel' : Nat), fuel ≤ fuel' → ∀ c name,
    Res.le (compiler.getValueByIdentifier fuel c name)
      (compiler.getValueByIdentifier fuel' c name) := by
  intro fuel
  induction fuel with
  | zero =>
    intro fuel' _ c name
    unfold compiler.getValueByIdentifier
    split
    · exact Or.inr rfl
    · split
      · exact Or.inr rfl
      · split
        · exact Or.inl rfl
        · exact Or.inr rfl
  | succ fuel ih =>
    intro fuel' hle c name
    obtain ⟨k, rfl⟩ : ∃ k, fuel' = k + 1 := ⟨fuel' - 1, by omega⟩
    unfold compiler.getValueByIdentifier
    split
    · exact Or.inr rfl
    · split
      · exact Or.inr rfl
      · split
        · simp only [Res.bind_def]
          refine Res.bind_le (evaluateDefineWith_le _ _ (ih k (by omega)) c _) ?_
          intro c1
          exact Or.inr rfl
        · exact Or.inr rfl

theorem evaluateDefine_le (fuel fuel' : Nat) (hle : fuel ≤ fuel') (c : compiler) (define : Nat) :
    Res.le (c.evaluateDefine fuel define) (c.evaluateDefine fuel' define) :=
  evaluateDefineWith_le _ _ (getValueByIdentifier_le fuel fuel' hle) c define

theorem parseDefine_le (fuel fuel' : Nat) (hle : fuel ≤ fuel') (c : compiler) (l : line) :
    Res.le (c.parseDefine fuel l) (c.parseDefine fuel' l) := by
  unfold compiler.parseDefine
  simp only [Res.bind_def]
  refine Res.bind_le (Res.le_refl _) ?_
  intro l0
  refine Res.bind_le (Res.le_refl _) ?_
  intro isPublic
  refine Res.bind_le (Res.le_refl _) ?_
  rintro ⟨name, value⟩
  refine Res.bind_le (evaluateDefine_le fuel fuel' hle _ _) ?_
  intro c1
  exact Res.le_refl _

theorem parseLine_le (fuel fuel' : Nat) (hle : fuel ≤ fuel') (c : compiler) :
    Res.le (c.parseLine fuel) (c.parseLine fuel') := by
  unfold compiler.parseLine
  simp only [Res.bind_def]
  refine Res.bind_le (nextLineLoop_le fuel fuel' hle fuel fuel' c [] hle) ?_
  rintro ⟨l, c1⟩
  cases l with
  | nil => exact Res.le_refl _
  | cons item rest =>
    simp only
    split
    · exact Res.le_refl _
    · split
      · exact Res.bind_le (parseDefine_le fuel fuel' hle c1 _) (fun _ => Res.le_refl _)
      · exact Res.le_refl _

theorem parseFileLoop_le (fuel fuel' : Nat) (hle : fuel ≤ fuel') :
    ∀ (n n' : Nat) (c : compiler) (programs : List (String × List Nat)) (fileDefines : List Nat),
      n ≤ n' →
      Res.le (compiler.parseFileLoop fuel n c programs fileDefines)
        (compiler.parseFileLoop fuel' n' c programs fileDefines) := by
  intro n
  induction n with
  | zero => intro n' c programs fileDefines _; exact Or.inl rfl
  | succ n ih =>
    intro n' c programs fileDefines hn
    obtain ⟨k, rfl⟩ : ∃ k, n' = k + 1 := ⟨n' - 1, by omega⟩
    unfold compiler.parseFileLoop
    simp only [Res.bind_def]
    refine Res.bind_le (parseLine_le fuel fuel' hle c) ?_
    rintro ⟨ast, c1⟩
    cases ast with
    | none => exact Res.le_refl _
    | some ast =>
      cases ast with
      | define v =>
        simp only
        split
        · exact ih k c1 _ _ (by omega)
        · exact ih k c1 _ _ (by omega)
      | program name defines => exact ih k c1 _ _ (by omega)

theorem parseFile_le (fuel fuel' : Nat) (hle : fuel ≤ fuel') (c : compiler) :
    Res.le (c.parseFile fuel) (c.parseFile fuel') := by
  unfold compiler.parseFile
  simp only [Res.bind_def]
  exact Res.bind_le (parseFileLoop_le fuel fuel' hle fuel fuel' c [] [] hle)
    (fun _ => Res.le_refl _)

/-- Fuel only decides whether the model reaches the result: what `Compile` returns with
some fuel, it returns with any larger fuel. -/
theorem Compile_mono (fuel fuel' : Nat) (hle : fuel ≤ fuel') (source : String)
    (options : Options) (r : Option AstFile × Option CompileError)
    (h : Compile fuel source options = some r) : Compile fuel' source options = some r := by
  unfold Compile at h ⊢
  rcases parseFile_le fuel fuel' hle (compiler.new source) with ht | heq
  · rw [ht] at h
    cases h
  · rw [← heq]
    exact h

/-! ## A define appended to the heap -/

theorem getElem?_append_singleton_length {α : Type} (l : List α) (a : α) :
    (l ++ [a])[l.length]? = some a := by
  simp

theorem modify_append_singleton {α : Type} (f : α → α) (l : List α) (a : α) :
    (l ++ [a]).modify f l.length = l ++ [f a] := by
  induction l with
  | nil => rfl
  | cons x xs ih =>
    show x :: (xs ++ [a]).modify f xs.length = x :: (xs ++ [f a])
    rw [ih]

theorem evaluatedAt_append {c : compiler} {define : Nat} (h : evaluatedAt c define)
    (c' : compiler) (extra : List AstDefine) (hheap : c'.heap = c.heap ++ extra) :
    evaluatedAt c' define := by
  obtain ⟨d, hd, he⟩ := h
  refine ⟨d, ?_, he⟩
  rw [hheap]
  have hlt : define < c.heap.length := by
    by_contra hge
    rw [List.getElem?_eq_none (Nat.le_of_not_lt hge)] at hd
    cases hd
  rw [List.getElem?_append_left hlt]
  exact hd

theorem scopeValue_append {c : compiler} (h : tablesEvaluated c) (c' : compiler)
    (extra : List AstDefine) (hheap : c'.heap = c.heap ++ extra) (hs : sameTables c c')
    (name : String) : scopeValue c' name = scopeValue c name := by
  have hdecl : c'.getDefineDeclared name = c.getDefineDeclared name := by
    unfold compiler.getDefineDeclared
    rw [hs.2.2.2.1, hs.2.2.1, hs.2.2.2.2]
  rw [scopeValue_eq, scopeValue_eq, hdecl]
  cases hd : c.getDefineDeclared name with
  | none => rfl
  | some define =>
    obtain ⟨d, hd1, _⟩ := tablesEvaluated_declared h hd
    obtain ⟨d', hd2, _⟩ := evaluatedAt_append ⟨d, hd1, ‹_›⟩ c' extra hheap
    have hlt : define < c.heap.length := by
      by_contra hge
      rw [List.getElem?_eq_none (Nat.le_of_not_lt hge)] at hd1
      cases hd1
    simp only [Option.bind]
    rw [hheap, List.getElem?_append_left hlt]

theorem substEval_append {c : compiler} (h : tablesEvaluated c) (c' : compiler)
    (extra : List AstDefine) (hheap : c'.heap = c.heap ++ extra) (hs : sameTables c c')
    (e : AstExpr) : substEval c' e = substEval c e := by
  induction e with
  | AstValue p v => rfl
  | AstIdentifier p name => exact scopeValue_append h c' extra hheap hs name
  | AstBinOp p name left right ihl ihr => simp only [substEval, ihl, ihr]

theorem tablesEvaluated_append {c : compiler} (h : tablesEvaluated c) (c' : compiler)
    (extra : List AstDefine) (hheap : c'.heap = c.heap ++ extra) (hs : sameTables c c') :
    tablesEvaluated c' := by
  constructor
  · intro name define hg
    rw [hs.2.2.2.1] at hg
    exact evaluatedAt_append (h.1 name define hg) c' extra hheap
  · intro program symbols name define hp hn
    rw [hs.2.2.2.2] at hp
    exact evaluatedAt_append (h.2 program symbols name define hp hn) c' extra hheap

theorem registerDefine_tablesEvaluated {c : compiler} (h : tablesEvaluated c) {define : Nat}
    (he : evaluatedAt c define) {item : lexItem} {c' : compiler}
    (hr : c.registerDefine define item = Res.ok c') : tablesEvaluated c' := by
  unfold compiler.registerDefine at hr
  split at hr
  · cases hr
  · next d hd =>
    split at hr
    · cases hr
    · split at hr
      · next program hp =>
        cases hr
        refine ⟨h.1, ?_⟩
        intro q symbols name a hq hn
        show evaluatedAt c a
        by_cases hqp : q = program
        · subst hqp
          simp only [goMap.get_set_self] at hq
          cases hq
          by_cases hname : name = d.name
          · subst hname
            rw [goMap.get_set_self] at hn
            cases hn
            exact he
          · rw [goMap.get_set_other _ _ _ _ hname] at hn
            cases hold : c.programSymbols.get q with
            | none =>
              rw [hold] at hn
              cases hn
            | some old =>
              rw [hold] at hn
              exact h.2 q old name a hold hn
        · simp only [goMap.get_set_other _ _ _ _ hqp] at hq
          exact h.2 q symbols name a hq hn
      · cases hr
        refine ⟨?_, h.2⟩
        intro name a hn
        show evaluatedAt c a
        by_cases hname : name = d.name
        · subst hname
          simp only [goMap.get_set_self] at hn
          cases hn
          exact he
        · simp only [goMap.get_set_other _ _ _ _ hname] at hn
          exact h.1 name a hn

/-- A `.define` line whose expression parses and has a value, but whose name is already
declared in scope, raises `Symbol already defined` at its `.define` token. -/
theorem parseDefine_declared (fuel : Nat) (c : compiler) (l0 l1 : lexItem) (toks l : line)
    (e : AstExpr) (v : Int)
    (hl : l = l0 :: l1 :: toks ∨ ∃ pub, pub.typ = itemPublic ∧ l = l0 :: pub :: l1 :: toks)
    (h0 : l0.typ = itemDirDefine) (h1 : l1.typ = itemSymbol)
    (hexpr : c.parseExpr toks = Res.ok e)
    (hinv : tablesEvaluated c) (hdecl : declaredInScope c l1.val)
    (hv : substEval c e = some v) :
    c.parseDefine fuel l = Res.raise (c.errorAt "Symbol already defined" l0) := by
  let d0 : AstDefine := { name := l1.val, expr := e, evaluated := false, value := 0 }
  let d1 : AstDefine := { name := l1.val, expr := e, evaluated := true, value := v }
  let c1 : compiler := { c with heap := c.heap ++ [d0] }
  let c2 : compiler := { c with heap := c.heap ++ [d1] }
  have hc1 : sameTables c c1 := ⟨rfl, rfl, rfl, rfl, rfl⟩
  have hinv1 : tablesEvaluated c1 := tablesEvaluated_append hinv c1 [d0] rfl hc1
  have hv1 : substEval c1 e = some v := by
    rw [substEval_append hinv c1 [d0] rfl hc1]; exact hv
  have heval : c1.evaluateDefine fuel c.heap.length = Res.ok c2 := by
    unfold compiler.evaluateDefine evaluateDefineWith
    have hget : c1.heap[c.heap.length]? = some d0 := getElem?_append_singleton_length _ _
    rw [hget]
    simp only [Res.bind_def]
    rw [eval_evaluated fuel hinv1, hv1]
    show Res.ok _ = Res.ok _
    congr 1
    show ({ c with heap := (c.heap ++ [d0]).modify _ c.heap.length } : compiler) = c2
    rw [modify_append_singleton]
  have hget2 : c2.heap[c.heap.length]? = some d1 := getElem?_append_singleton_length _ _
  have hdecl2 : declaredInScope c2 d1.name := hdecl
  have hreg : c2.registerDefine c.heap.length l0 =
      Res.raise (c.errorAt "Symbol already defined" l0) :=
    (registerDefine_spec c2 c.heap.length d1 l0 hget2).1.2 hdecl2
  have heval' : compiler.evaluateDefine fuel
      { c with heap := c.heap ++
          [{ name := l1.val, expr := e, evaluated := false, value := 0 }] }
      c.heap.length = Res.ok c2 := heval
  rcases hl with rfl | ⟨pub, hpub, rfl⟩
  · simp [compiler.parseDefine, line.index, h0, h1, hexpr, Res.bind_def, Res.bind,
      Res.pure_def, compiler.parseSymbol, heval', hreg]
  · simp [compiler.parseDefine, line.index, h0, h1, hpub, hexpr, Res.bind_def, Res.bind,
      Res.pure_def, compiler.parseSymbol, heval', hreg]

/-- C8, amended: a `.define` line (with or without `PUBLIC`) whose expression parses, whose
name is not yet declared in scope, and whose expression has a value when each identifier is
replaced by the value of the define it names (global scope first, then the scope of the
current program), is accepted: the new define is stored evaluated with that value, becomes
visible under its name, and every define of the tables is still evaluated. -/
theorem parseDefine_value (fuel : Nat) (c : compiler) (l0 l1 : lexItem) (toks l : line)
    (e : AstExpr) (v : Int)
    (hl : l = l0 :: l1 :: toks ∨ ∃ pub, pub.typ = itemPublic ∧ l = l0 :: pub :: l1 :: toks)
    (h0 : l0.typ = itemDirDefine) (h1 : l1.typ = itemSymbol)
    (hexpr : c.parseExpr toks = Res.ok e)
    (hinv : tablesEvaluated c) (hnew : ¬ declaredInScope c l1.val)
    (hv : substEval c e = some v) :
    ∃ c', c.parseDefine fuel l = Res.ok (lineAst.define c.heap.length, c') ∧
      c'.heap = c.heap ++ [{ name := l1.val, expr := e, evaluated := true, value := v }] ∧
      c'.getDefineDeclared l1.val = some c.heap.length ∧
      scopeValue c' l1.val = some v ∧
      tablesEvaluated c' ∧ c'.currentProgram = c.currentProgram := by
  let d0 : AstDefine := { name := l1.val, expr := e, evaluated := false, value := 0 }
  let d1 : AstDefine := { name := l1.val, expr := e, evaluated := true, value := v }
  let c1 : compiler := { c with heap := c.heap ++ [d0] }
  let c2 : compiler := { c with heap := c.heap ++ [d1] }
  have hc1 : sameTables c c1 := ⟨rfl, rfl, rfl, rfl, rfl⟩
  have hc2 : sameTables c c2 := ⟨rfl, rfl, rfl, rfl, rfl⟩
  have hinv1 : tablesEvaluated c1 := tablesEvaluated_append hinv c1 [d0] rfl hc1
  have hinv2 : tablesEvaluated c2 := tablesEvaluated_append hinv c2 [d1] rfl hc2
  have hv1 : substEval c1 e = some v := by
    rw [substEval_append hinv c1 [d0] rfl hc1]; exact hv
  have heval : c1.evaluateDefine fuel c.heap.length = Res.ok c2 := by
    unfold compiler.evaluateDefine evaluateDefineWith
    have hget : c1.heap[c.heap.length]? = some d0 := getElem?_append_singleton_length _ _
    rw [hget]
    simp only [Res.bind_def]
    rw [eval_evaluated fuel hinv1, hv1]
    show Res.ok _ = Res.ok _
    congr 1
    show ({ c with heap := (c.heap ++ [d0]).modify _ c.heap.length } : compiler) = c2
    rw [modify_append_singleton]
  have hget2 : c2.heap[c.heap.length]? = some d1 := getElem?_append_singleton_length _ _
  have hnew2 : ¬ declaredInScope c2 d1.name := hnew
  obtain ⟨c', hreg, hheap, hcur, hdecl, _, _⟩ :=
    (registerDefine_spec c2 c.heap.length d1 l0 hget2).2.1 hnew2
  have hinv' : tablesEvaluated c' :=
    registerDefine_tablesEvaluated hinv2 ⟨d1, hget2, rfl⟩ hreg
  have hparse : c.parseDefine fuel l = Res.ok (lineAst.define c.heap.length, c') := by
    have heval' : compiler.evaluateDefine fuel
        { c with heap := c.heap ++
            [{ name := l1.val, expr := e, evaluated := false, value := 0 }] }
        c.heap.length = Res.ok c2 := heval
    rcases hl with rfl | ⟨pub, hpub, rfl⟩
    · simp [compiler.parseDefine, line.index, h0, h1, hexpr, Res.bind_def, Res.bind,
        Res.pure_def, compiler.parseSymbol, heval', hreg]
    · simp [compiler.parseDefine, line.index, h0, h1, hpub, hexpr, Res.bind_def, Res.bind,
        Res.pure_def, compiler.parseSymbol, heval', hreg]
  refine ⟨c', hparse, hheap, hdecl, ?_, hinv', hcur⟩
  rw [scopeValue_eq, hdecl]
  show Option.map (fun d => d.value) c'.heap[c.heap.length]? = some v
  rw [hheap]
  show Option.map (fun d => d.value) c2.heap[c.heap.length]? = some v
  rw [hget2]
  rfl

/-! ## The five loops of the expression parser -/

theorem mulDivLoop_eq (sub : Bool → line → Res (AstExpr × line)) (c : compiler) :
    ∀ fuel left l, exprParser.parseExprMulDivLoop sub c fuel left l =
      levelLoop mulDivOp false (exprParser.parseExprSymbolsConsParens sub c) fuel left l := by
  intro fuel
  induction fuel with
  | zero => intro left l; rfl
  | succ fuel ih =>
    intro left l
    cases l with
    | nil => rfl
    | cons head rest =>
      unfold exprParser.parseExprMulDivLoop levelLoop
      by_cases h1 : head.typ = itemStar
      · simp [mulDivOp, h1, exprParser.next, Res.bind_def, Res.bind, ih]
      · by_cases h2 : head.typ = itemSlash
        · simp [mulDivOp, h1, h2, exprParser.next, Res.bind_def, Res.bind, ih]
        · simp [mulDivOp, h1, h2]

theorem mulDiv_eq (sub : Bool → line → Res (AstExpr × line)) (c : compiler) (l : line) :
    exprParser.parseExprMulDiv sub c l =
      levelParse mulDivOp false (exprParser.parseExprSymbolsConsParens sub c) l := by
  unfold exprParser.parseExprMulDiv levelParse
  simp only [Res.bind_def, mulDivLoop_eq]

theorem plusMinusLoop_eq (sub : Bool → line → Res (AstExpr × line)) (c : compiler)
    (inParen : Bool) :
    ∀ fuel left l, exprParser.parseExprPlusMinusLoop sub c inParen fuel left l =
      levelLoop plusMinusOp inParen (exprParser.parseExprMulDiv sub c) fuel left l := by
  intro fuel
  induction fuel with
  | zero => intro left l; rfl
  | succ fuel ih =>
    intro left l
    cases l with
    | nil => rfl
    | cons head rest =>
      unfold exprParser.parseExprPlusMinusLoop levelLoop
      by_cases h1 : head.typ = itemPlus
      · simp [plusMinusOp, h1, exprParser.next, Res.bind_def, Res.bind, ih]
      · by_cases h2 : head.typ = itemMinus
        · simp [plusMinusOp, h1, h2, exprParser.next, Res.bind_def, Res.bind, ih]
        · simp [plusMinusOp, h1, h2]

theorem plusMinus_eq (sub : Bool → line → Res (AstExpr × line)) (c : compiler)
    (inParen : Bool) (l : line) :
    exprParser.parseExprPlusMinus sub c inParen l =
      levelParse plusMinusOp inParen (exprParser.parseExprMulDiv sub c) l := by
  unfold exprParser.parseExprPlusMinus levelParse
  simp only [Res.bind_def, plusMinusLoop_eq]

theorem binAndLoop_eq (sub : Bool → line → Res (AstExpr × line)) (c : compiler)
    (inParent : Bool) :
    ∀ fuel left l, exprParser.parseExprBinAndLoop sub c inParent fuel left l =
      levelLoop binAndOp inParent (exprParser.parseExprPlusMinus sub c inParent) fuel left l := by
  intro fuel
  induction fuel with
  | zero => intro left l; rfl
  | succ fuel ih =>
    intro left l
    cases l with
    | nil => rfl
    | cons head rest =>
      unfold exprParser.parseExprBinAndLoop levelLoop
      by_cases h1 : head.typ = itemBinAnd
      · simp [binAndOp, h1, exprParser.next, Res.bind_def, Res.bind, ih]
      · simp [binAndOp, h1]

theorem binAnd_eq (sub : Bool → line → Res (AstExpr × line)) (c : compiler)
    (inParent : Bool) (l : line) :
    exprParser.parseExprBinAnd sub c inParent l =
      levelParse binAndOp inParent (exprParser.parseExprPlusMinus sub c inParent) l := by
  unfold exprParser.parseExprBinAnd levelParse
  simp only [Res.bind_def, binAndLoop_eq]

theorem binXorLoop_eq (sub : Bool → line → Res (AstExpr × line)) (c : compiler)
    (inParent : Bool) :
    ∀ fuel left l, exprParser.parseExprBinXorLoop sub c inParent fuel left l =
      levelLoop binXorOp inParent (exprParser.parseExprBinAnd sub c inParent) fuel left l := by
  intro fuel
  induction fuel with
  | zero => intro left l; rfl
  | succ fuel ih =>
    intro left l
    cases l with
    | nil => rfl
    | cons head rest =>
      unfold exprParser.parseExprBinXorLoop levelLoop
      by_cases h1 : head.typ = itemBinXor
      · simp [binXorOp, h1, exprParser.next, Res.bind_def, Res.bind, ih]
      · simp [binXorOp, h1]

theorem binXor_eq (sub : Bool → line → Res (AstExpr × line)) (c : compiler)
    (inParent : Bool) (l : line) :
    exprParser.parseExprBinXor sub c inParent l =
      levelParse binXorOp inParent (exprParser.parseExprBinAnd sub c inParent) l := by
  unfold exprParser.parseExprBinXor levelParse
  simp only [Res.bind_def, binXorLoop_eq]

theorem binOrLoop_eq (sub : Bool → line → Res (AstExpr × line)) (c : compiler)
    (inParent : Bool) :
    ∀ fuel left l, exprParser.parseExprBinOrLoop sub c inParent fuel left l =
      levelLoop binOrOp inParent (exprParser.parseExprBinXor sub c inParent) fuel left l := by
  intro fuel
  induction fuel with
  | zero => intro left l; rfl
  | succ fuel ih =>
    intro left l
    cases l with
    | nil => rfl
    | cons head rest =>
      unfold exprParser.parseExprBinOrLoop levelLoop
      by_cases h1 : head.typ = itemBinOr
      · simp [binOrOp, h1, exprParser.next, Res.bind_def, Res.bind, ih]
      · simp [binOrOp, h1]

theorem binOrWith_eq (sub : Bool → line → Res (AstExpr × line)) (c : compiler)
    (inParent : Bool) (l : line) :
    exprParser.parseExprBinOrWith sub c inParent l =
      levelParse binOrOp inParent (exprParser.parseExprBinXor sub c inParent) l := by
  unfold exprParser.parseExprBinOrWith levelParse
  simp only [Res.bind_def, binOrLoop_eq]

/-! ## Precedence on parenthesis-free lines -/

theorem precedence_lt_five (name : operator) : precedence name < 5 := by
  cases name <;> decide

theorem opOf_operand {c : compiler} {t : lexItem} (h : isOperand c t) : opOf t.typ = none := by
  rcases h with h | ⟨h, _⟩ <;> rw [h] <;> rfl

theorem validExpr_cons {c : compiler} {t : lexItem} {rest : line} (h : validExpr c (t :: rest)) :
    isOperand c t ∧ tailAt c 5 rest := by
  cases rest with
  | nil => exact ⟨h, Or.inl rfl⟩
  | cons o rest' =>
    obtain ⟨h1, h2, h3⟩ := h
    obtain ⟨name, hname⟩ := Option.isSome_iff_exists.1 h2
    exact ⟨h1, Or.inr ⟨o, rest', name, rfl, hname, precedence_lt_five name, h3⟩⟩

theorem primary_good (sub : Bool → line → Res (AstExpr × line)) (c : compiler) (tail : line)
    (l : line) (h : validExpr c l) :
    ∃ t rem, exprParser.parseExprSymbolsConsParens sub c (l ++ tail) = Res.ok (t, rem ++ tail) ∧
      goodAt c 5 l t rem := by
  cases l with
  | nil => exact absurd h (by simp [validExpr])
  | cons t rest =>
    obtain ⟨hop, htail⟩ := validExpr_cons h
    have hsyms : lineSyms (t :: rest) = exprSym.leaf (leafOf t) :: lineSyms rest := by
      simp [lineSyms, opOf_operand hop]
    rcases hop with hnum | ⟨hsym, hdecl⟩
    · refine ⟨AstValue false (toInt32 (parseInt t.val)), rest, ?_, ?_⟩
      · simp [exprParser.parseExprSymbolsConsParens, line.index, hnum, exprParser.next,
          Res.bind_def, Res.bind, Res.pure_def]
      · refine ⟨rfl, le_refl _, ?_, by simp, htail⟩
        rw [hsyms]
        simp [inorder, leafOf, hnum]
    · have hne : t.typ ≠ itemNumber := by rw [hsym]; decide
      have hdecl' : ¬ c.getDefineDeclared t.val = none := by
        intro hn; rw [hn] at hdecl; cases hdecl
      refine ⟨AstIdentifier false t.val, rest, ?_, ?_⟩
      · simp [exprParser.parseExprSymbolsConsParens, line.index, hsym, exprParser.next,
          Res.bind_def, Res.bind, Res.pure_def, hdecl']
      · refine ⟨rfl, le_refl _, ?_, by simp, htail⟩
        rw [hsyms]
        simp [inorder, leafOf, hne]

/-- A loop of the parser stops at once on what may follow an expression. -/
theorem levelLoop_stops (k : Nat) (isOp : itemType → Option operator)
    (operand : line → Res (AstExpr × line)) (hop : ∀ t, isOp t = opAt k t) (tail : line)
    (hstop : stopsExpr tail) (fuel : Nat) (left : AstExpr) :
    levelLoop isOp false operand (fuel + 1) left tail = Res.ok (left, tail) := by
  cases tail with
  | nil => rfl
  | cons head rest =>
    have : opOf head.typ = none := hstop head rfl
    simp [levelLoop, hop, opAt, this]

theorem levelLoop_good (c : compiler) (k : Nat) (isOp : itemType → Option operator)
    (operand : line → Res (AstExpr × line)) (hop : ∀ t, isOp t = opAt k t) (tail : line)
    (hstop : stopsExpr tail)
    (hoperand : ∀ l, validExpr c l → ∃ t rem, operand (l ++ tail) = Res.ok (t, rem ++ tail) ∧
      goodAt c (k + 1) l t rem) :
    ∀ (n : Nat) (r : line) (left : AstExpr) (fuel : Nat), r.length ≤ n → r.length + 1 ≤ fuel →
      precTree left → k ≤ rootLevel left → tailAt c (k + 1) r →
      ∃ t rem, levelLoop isOp false operand fuel left (r ++ tail) = Res.ok (t, rem ++ tail) ∧
        precTree t ∧ k ≤ rootLevel t ∧
        inorder t ++ lineSyms rem = inorder left ++ lineSyms r ∧
        rem.length ≤ r.length ∧ tailAt c k rem := by
  intro n
  induction n with
  | zero =>
    intro r left fuel hn hfuel hprec hroot htail
    have hr : r = [] := List.length_eq_zero.1 (Nat.le_zero.1 hn)
    subst hr
    obtain ⟨f, rfl⟩ : ∃ f, fuel = f + 1 := ⟨fuel - 1, by simp at hfuel; omega⟩
    exact ⟨left, [], levelLoop_stops k isOp operand hop tail hstop f left, hprec, hroot, rfl,
      le_refl _, Or.inl rfl⟩
  | succ n ih =>
    intro r left fuel hn hfuel hprec hroot htail
    obtain ⟨f, rfl⟩ : ∃ f, fuel = f + 1 := ⟨fuel - 1, by omega⟩
    rcases htail with rfl | ⟨o, rest, name, rfl, hname, hlt, hvalid⟩
    · exact ⟨left, [], levelLoop_stops k isOp operand hop tail hstop f left, hprec, hroot, rfl,
        le_refl _, Or.inl rfl⟩
    · by_cases hk : precedence name = k
      · obtain ⟨t2, r2, hparse, hp2, hroot2, hsyms2, hlen2, htail2⟩ := hoperand rest hvalid
        have hstep : levelLoop isOp false operand (f + 1) left ((o :: rest) ++ tail) =
            levelLoop isOp false operand f (AstBinOp false name left t2) (r2 ++ tail) := by
          simp [levelLoop, hop, opAt, hname, hk, hparse, Res.bind]
        have hlen : r2.length ≤ n := by simp at hn; omega
        have hf : r2.length + 1 ≤ f := by simp at hfuel; omega
        have hprec' : precTree (AstBinOp false name left t2) :=
          ⟨rfl, by rw [hk]; exact hroot, by rw [hk]; exact hroot2, hprec, hp2⟩
        have hroot' : k ≤ rootLevel (AstBinOp false name left t2) := by
          simp [rootLevel, hk]
        obtain ⟨t, rem, hloop, hp, hr, hs, hl, ht⟩ :=
          ih r2 (AstBinOp false name left t2) f hlen hf hprec' hroot' htail2
        refine ⟨t, rem, by rw [hstep]; exact hloop, hp, hr, ?_, ?_, ht⟩
        · rw [hs]
          have : lineSyms (o :: rest) = exprSym.op name :: lineSyms rest := by
            simp [lineSyms, hname]
          rw [this, ← hsyms2]
          simp [inorder]
        · simp; omega
      · refine ⟨left, o :: rest, ?_, hprec, hroot, rfl, le_refl _, ?_⟩
        · simp [levelLoop, hop, opAt, hname, hk]
        · exact Or.inr ⟨o, rest, name, rfl, hname, by omega, hvalid⟩

theorem levelParse_good (c : compiler) (k : Nat) (isOp : itemType → Option operator)
    (operand : line → Res (AstExpr × line)) (hop : ∀ t, isOp t = opAt k t) (tail : line)
    (hstop : stopsExpr tail)
    (hoperand : ∀ l, validExpr c l → ∃ t rem, operand (l ++ tail) = Res.ok (t, rem ++ tail) ∧
      goodAt c (k + 1) l t rem) (l : line) (h : validExpr c l) :
    ∃ t rem, levelParse isOp false operand (l ++ tail) = Res.ok (t, rem ++ tail) ∧
      goodAt c k l t rem := by
  obtain ⟨t1, r1, hparse, hp1, hroot1, hsyms1, hlen1, htail1⟩ := hoperand l h
  obtain ⟨t, rem, hloop, hp, hr, hs, hl, ht⟩ :=
    levelLoop_good c k isOp operand hop tail hstop hoperand r1.length r1 t1
      ((r1 ++ tail).length + 1) (le_refl _) (by simp) hp1 (by omega) htail1
  refine ⟨t, rem, ?_, hp, hr, ?_, by omega, ht⟩
  · simp only [levelParse, hparse, Res.bind, hloop]
  · rw [hs, hsyms1]

theorem mulDivOp_eq (t : itemType) : mulDivOp t = opAt 4 t := by cases t <;> rfl

theorem plusMinusOp_eq (t : itemType) : plusMinusOp t = opAt 3 t := by cases t <;> rfl

theorem binAndOp_eq (t : itemType) : binAndOp t = opAt 2 t := by cases t <;> rfl

theorem binXorOp_eq (t : itemType) : binXorOp t = opAt 1 t := by cases t <;> rfl

theorem binOrOp_eq (t : itemType) : binOrOp t = opAt 0 t := by cases t <;> rfl

theorem mulDiv_good (sub : Bool → line → Res (AstExpr × line)) (c : compiler) (tail : line)
    (hstop : stopsExpr tail) (l : line) (h : validExpr c l) :
    ∃ t rem, exprParser.parseExprMulDiv sub c (l ++ tail) = Res.ok (t, rem ++ tail) ∧
      goodAt c 4 l t rem := by
  rw [mulDiv_eq]
  exact levelParse_good c 4 _ _ mulDivOp_eq tail hstop (primary_good sub c tail) l h

theorem plusMinus_good (sub : Bool → line → Res (AstExpr × line)) (c : compiler) (tail : line)
    (hstop : stopsExpr tail) (l : line) (h : validExpr c l) :
    ∃ t rem, exprParser.parseExprPlusMinus sub c false (l ++ tail) = Res.ok (t, rem ++ tail) ∧
      goodAt c 3 l t rem := by
  rw [plusMinus_eq]
  exact levelParse_good c 3 _ _ plusMinusOp_eq tail hstop (mulDiv_good sub c tail hstop) l h

theorem binAnd_good (sub : Bool → line → Res (AstExpr × line)) (c : compiler) (tail : line)
    (hstop : stopsExpr tail) (l : line) (h : validExpr c l) :
    ∃ t rem, exprParser.parseExprBinAnd sub c false (l ++ tail) = Res.ok (t, rem ++ tail) ∧
      goodAt c 2 l t rem := by
  rw [binAnd_eq]
  exact levelParse_good c 2 _ _ binAndOp_eq tail hstop (plusMinus_good sub c tail hstop) l h

theorem binXor_good (sub : Bool → line → Res (AstExpr × line)) (c : compiler) (tail : line)
    (hstop : stopsExpr tail) (l : line) (h : validExpr c l) :
    ∃ t rem, exprParser.parseExprBinXor sub c false (l ++ tail) = Res.ok (t, rem ++ tail) ∧
      goodAt c 1 l t rem := by
  rw [binXor_eq]
  exact levelParse_good c 1 _ _ binXorOp_eq tail hstop (binAnd_good sub c tail hstop) l h

theorem binOr_good (sub : Bool → line → Res (AstExpr × line)) (c : compiler) (tail : line)
    (hstop : stopsExpr tail) (l : line) (h : validExpr c l) :
    ∃ t rem, exprParser.parseExprBinOrWith sub c false (l ++ tail) = Res.ok (t, rem ++ tail) ∧
      goodAt c 0 l t rem := by
  rw [binOrWith_eq]
  exact levelParse_good c 0 _ _ binOrOp_eq tail hstop (binXor_good sub c tail hstop) l h

/-- On a valid parenthesis-free expression, followed on its line by nothing or by a token
that is not an operator, `parseExpr` returns a tree that reads as the expression from left
to right and groups by precedence, and leaves what follows. -/
theorem parseExpr_good (c : compiler) (l tail : line) (h : validExpr c l)
    (hstop : stopsExpr tail) :
    ∃ t, exprParser.parseExprBinOr ((l ++ tail).length + 1) c false (l ++ tail) =
        Res.ok (t, tail) ∧
      c.parseExpr (l ++ tail) = Res.ok t ∧ inorder t = lineSyms l ∧ precTree t := by
  obtain ⟨t, rem, hparse, hp, _, hsyms, _, htail⟩ :=
    binOr_good (exprParser.parseExprBinOr (l ++ tail).length c) c tail hstop l h
  have hrem : rem = [] := by
    rcases htail with h | ⟨o, rest, name, _, _, hlt, _⟩
    · exact h
    · exact absurd hlt (Nat.not_lt_zero _)
  subst hrem
  have hrun : exprParser.parseExprBinOr ((l ++ tail).length + 1) c false (l ++ tail) =
      Res.ok (t, tail) := hparse
  refine ⟨t, hrun, ?_, by simpa [lineSyms] using hsyms, hp⟩
  unfold compiler.parseExpr
  rw [hrun]
  rfl

theorem inorder_ne_nil (t : AstExpr) : inorder t ≠ [] := by
  cases t <;> simp [inorder]

theorem inorder_ops {t : AstExpr} (h : precTree t) {name : operator}
    (hmem : exprSym.op name ∈ inorder t) : rootLevel t ≤ precedence name := by
  induction t with
  | AstValue p v => simp [inorder] at hmem
  | AstIdentifier p n => simp [inorder] at hmem
  | AstBinOp p op left right ihl ihr =>
    obtain ⟨_, h1, h2, hl, hr⟩ := h
    simp only [inorder, List.mem_append, List.mem_cons] at hmem
    show precedence op ≤ precedence name
    rcases hmem with hm | hm | hm
    · exact le_trans h1 (ihl hl hm)
    · cases hm; exact le_refl _
    · exact le_of_lt (lt_of_lt_of_le h2 (ihr hr hm))

/-- A tree that groups by precedence is determined by its leaves and operators read from
left to right. -/
theorem precTree_unique (t1 : AstExpr) :
    ∀ t2, precTree t1 → precTree t2 → inorder t1 = inorder t2 → t1 = t2 := by
  induction t1 with
  | AstValue p v =>
    intro t2 h1 h2 heq
    cases t2 with
    | AstBinOp p2 n2 l2 r2 =>
      have := congrArg List.length heq
      have hl := List.length_pos.2 (inorder_ne_nil l2)
      simp [inorder] at this
      omega
    | AstValue p2 v2 => simpa [inorder] using heq
    | AstIdentifier p2 n2 => simp [inorder] at heq
  | AstIdentifier p n =>
    intro t2 h1 h2 heq
    cases t2 with
    | AstBinOp p2 n2 l2 r2 =>
      have := congrArg List.length heq
      have hl := List.length_pos.2 (inorder_ne_nil l2)
      simp [inorder] at this
      omega
    | AstValue p2 v2 => simp [inorder] at heq
    | AstIdentifier p2 n2 => simpa [inorder] using heq
  | AstBinOp p n l r ihl ihr =>
    intro t2 h1 h2 heq
    cases t2 with
    | AstValue p2 v2 =>
      have := congrArg List.length heq
      have hl := List.length_pos.2 (inorder_ne_nil l)
      simp [inorder] at this
      omega
    | AstIdentifier p2 n2 =>
      have := congrArg List.length heq
      have hl := List.length_pos.2 (inorder_ne_nil l)
      simp [inorder] at this
      omega
    | AstBinOp p2 n2 l2 r2 =>
      obtain ⟨hp, ha, hb, hl, hr⟩ := h1
      obtain ⟨hp2, ha2, hb2, hl2, hr2⟩ := h2
      simp only [inorder] at heq
      rcases List.append_eq_append_iff.1 heq with ⟨a, hl2eq, hrest⟩ | ⟨a, hleq, hrest⟩
      · cases a with
        | nil =>
          simp at hl2eq hrest
          obtain ⟨hn, hrr⟩ := hrest
          rw [ihl l2 hl hl2 hl2eq.symm, ihr r2 hr hr2 hrr, hp, hp2, hn]
        | cons x a =>
          simp at hrest
          obtain ⟨hx, hrr⟩ := hrest
          subst hx
          have hm1 : exprSym.op n ∈ inorder l2 := by rw [hl2eq]; simp
          have hm2 : exprSym.op n2 ∈ inorder r := by rw [hrr]; simp
          have := inorder_ops hl2 hm1
          have := inorder_ops hr hm2
          omega
      · cases a with
        | nil =>
          simp at hleq hrest
          obtain ⟨hn, hrr⟩ := hrest
          rw [ihl l2 hl hl2 hleq, ihr r2 hr hr2 hrr.symm, hp, hp2, hn]
        | cons x a =>
          simp at hrest
          obtain ⟨hx, hrr⟩ := hrest
          subst hx
          have hm1 : exprSym.op n2 ∈ inorder l := by rw [hleq]; simp
          have hm2 : exprSym.op n ∈ inorder r2 := by rw [hrr]; simp
          have := inorder_ops hl hm1
          have := inorder_ops hr2 hm2
          omega

/-! ## Unknown identifiers -/

theorem firstUnknown_append (c : compiler) (a b : line) :
    firstUnknown c (a ++ b) = (firstUnknown c a).or (firstUnknown c b) := by
  unfold firstUnknown
  rw [List.find?_append]

theorem firstUnknown_cons_other (c : compiler) (t : lexItem) (l : line)
    (h : t.typ ≠ itemSymbol) : firstUnknown c (t :: l) = firstUnknown c l := by
  simp [firstUnknown, List.find?_cons, h]

theorem outcomeIn_bind (c : compiler) (a b : line) (e1 : AstExpr) (r1 : line)
    (f : AstExpr × line → Res (AstExpr × line)) (e : AstExpr) (rest : line)
    (hf : f (e1, r1) = outcomeIn c b e rest) :
    Res.bind (outcomeIn c a e1 r1) f = outcomeIn c (a ++ b) e rest := by
  unfold outcomeIn at *
  rw [firstUnknown_append]
  cases h : firstUnknown c a with
  | none => simpa [Res.bind] using hf
  | some tok => simp [Res.bind]

/-- The branch of `parseExprSymbolsConsParens` taken on an opening parenthesis. -/
theorem primary_paren (sub : Bool → line → Res (AstExpr × line)) (c : compiler)
    (head : lexItem) (tail : line) (hlp : head.typ = itemLParent) :
    exprParser.parseExprSymbolsConsParens sub c (head :: tail) =
      Res.bind (sub true tail) (fun r =>
        match r.2 with
        | [] => Res.crash
        | rp :: rest =>
          if rp.typ = itemRParent then Res.ok (r.1, rest)
          else Res.raise (c.errorAt "Syntax error in expression" rp)) := by
  simp only [exprParser.parseExprSymbolsConsParens, line.index, hlp, exprParser.next,
    exprParser.expect, Res.bind_def, Res.bind, Res.pure_def, List.getElem?_cons_zero,
    reduceCtorEq, if_false, ne_eq, not_true_eq_false]
  cases hs : sub true tail with
  | ok r =>
    obtain ⟨e, l⟩ := r
    cases l with
    | nil => rfl
    | cons rp rest =>
      by_cases hrp : rp.typ = itemRParent
      · simp [hrp]
      · simp [hrp, raiseError_eq]
  | raise e => rfl
  | crash => rfl
  | timeout => rfl

theorem follows_primary (c c' : compiler) (sub sub' : Bool → line → Res (AstExpr × line))
    (hsub : ∀ b, follows c (sub b) (sub' b)) :
    follows c (exprParser.parseExprSymbolsConsParens sub c)
      (exprParser.parseExprSymbolsConsParens sub' c') := by
  intro l e rest h
  cases l with
  | nil => simp [exprParser.parseExprSymbolsConsParens, line.index, Res.bind_def, Res.bind] at h
  | cons head tail =>
    by_cases hnum : head.typ = itemNumber
    · have hne : head.typ ≠ itemSymbol := by rw [hnum]; decide
      simp [exprParser.parseExprSymbolsConsParens, line.index, hnum, exprParser.next,
        Res.bind_def, Res.bind, Res.pure_def] at h
      obtain ⟨rfl, rfl⟩ := h
      refine ⟨[head], rfl, ?_⟩
      simp [exprParser.parseExprSymbolsConsParens, line.index, hnum, exprParser.next,
        Res.bind_def, Res.bind, Res.pure_def, outcomeIn, firstUnknown, hne]
    · by_cases hsym : head.typ = itemSymbol
      · simp only [exprParser.parseExprSymbolsConsParens, line.index, hnum, hsym,
          exprParser.next, Res.bind_def, Res.bind, Res.pure_def, List.getElem?_cons_zero,
          if_true, if_false, reduceCtorEq] at h
        split at h
        · cases h
        · cases h
          refine ⟨[head], rfl, ?_⟩
          cases hd : c.getDefineDeclared head.val with
          | none =>
            simp [exprParser.parseExprSymbolsConsParens, line.index, hsym, exprParser.next,
              Res.bind_def, Res.bind, Res.pure_def, outcomeIn, firstUnknown, hd, raiseError_eq]
          | some a =>
            simp [exprParser.parseExprSymbolsConsParens, line.index, hsym, exprParser.next,
              Res.bind_def, Res.bind, Res.pure_def, outcomeIn, firstUnknown, hd]
      · by_cases hlp : head.typ = itemLParent
        · rw [primary_paren sub' c' head tail hlp, Res.bind_eq_ok] at h
          obtain ⟨⟨e1, l1⟩, hs, hrest⟩ := h
          obtain ⟨consumed, hl, hP⟩ := hsub true tail e1 l1 hs
          cases l1 with
          | nil => cases hrest
          | cons rp rest' =>
            simp only at hrest
            split at hrest
            · next hrp =>
              cases hrest
              have hrpne : rp.typ ≠ itemSymbol := by rw [hrp]; decide
              refine ⟨head :: (consumed ++ [rp]), by simp [hl], ?_⟩
              rw [primary_paren sub c head tail hlp, hP]
              have hfu : firstUnknown c (head :: (consumed ++ [rp])) = firstUnknown c consumed := by
                rw [firstUnknown_cons_other c head _ hsym, firstUnknown_append]
                have : firstUnknown c [rp] = none := by
                  simp [firstUnknown, List.find?_cons, hrpne]
                rw [this]
                cases firstUnknown c consumed <;> rfl
              unfold outcomeIn
              rw [hfu]
              cases firstUnknown c consumed with
              | none => simp [Res.bind, hrp]
              | some tok => rfl
            · cases hrest
        · simp [exprParser.parseExprSymbolsConsParens, line.index, hnum, hsym, hlp,
            exprParser.next, exprParser.expect, Res.bind_def, Res.bind, Res.pure_def,
            raiseError_eq] at h

theorem follows_levelLoop (c : compiler) (isOp : itemType → Option operator) (flag : Bool)
    (operand operand' : line → Res (AstExpr × line)) (hsym : isOp itemSymbol = none)
    (hop : follows c operand operand') :
    ∀ fuel left l e rest, levelLoop isOp flag operand' fuel left l = Res.ok (e, rest) →
      ∃ consumed, l = consumed ++ rest ∧
        levelLoop isOp flag operand fuel left l = outcomeIn c consumed e rest := by
  intro fuel
  induction fuel with
  | zero => intro left l e rest h; cases h
  | succ fuel ih =>
    intro left l e rest h
    cases l with
    | nil =>
      cases h
      exact ⟨[], rfl, rfl⟩
    | cons head tail =>
      unfold levelLoop at h ⊢
      cases hisop : isOp head.typ with
      | none =>
        simp only [hisop] at h ⊢
        cases h
        exact ⟨[], rfl, rfl⟩
      | some name =>
        simp only [hisop] at h ⊢
        rw [Res.bind_eq_ok] at h
        obtain ⟨⟨e1, l1⟩, h1, h2⟩ := h
        obtain ⟨c1, hl1, hP1⟩ := hop tail e1 l1 h1
        obtain ⟨c2, hl2, hP2⟩ := ih _ _ _ _ h2
        simp only at hl2 hP2
        have hne : head.typ ≠ itemSymbol := by
          intro hs; rw [hs, hsym] at hisop; cases hisop
        refine ⟨head :: (c1 ++ c2), by simp [hl1, hl2], ?_⟩
        rw [hP1]
        have := outcomeIn_bind c c1 c2 e1 l1
          (fun r => levelLoop isOp flag operand fuel (AstBinOp flag name left r.1) r.2) e rest hP2
        rw [this]
        unfold outcomeIn
        rw [firstUnknown_cons_other c head _ hne]

theorem follows_levelParse (c : compiler) (isOp : itemType → Option operator) (flag : Bool)
    (operand operand' : line → Res (AstExpr × line)) (hsym : isOp itemSymbol = none)
    (hop : follows c operand operand') :
    follows c (levelParse isOp flag operand) (levelParse isOp flag operand') := by
  intro l e rest h
  unfold levelParse at h ⊢
  rw [Res.bind_eq_ok] at h
  obtain ⟨⟨e1, l1⟩, h1, h2⟩ := h
  obtain ⟨c1, hl1, hP1⟩ := hop l e1 l1 h1
  obtain ⟨c2, hl2, hP2⟩ := follows_levelLoop c isOp flag operand operand' hsym hop _ _ _ _ _ h2
  simp only at hl2 hP2
  refine ⟨c1 ++ c2, by simp [hl1, hl2], ?_⟩
  rw [hP1]
  exact outcomeIn_bind c c1 c2 e1 l1
    (fun r => levelLoop isOp flag operand (r.2.length + 1) r.1 r.2) e rest hP2

theorem follows_binOrWith (c c' : compiler) (sub sub' : Bool → line → Res (AstExpr × line))
    (hsub : ∀ b, follows c (sub b) (sub' b)) (inParent : Bool) :
    follows c (exprParser.parseExprBinOrWith sub c inParent)
      (exprParser.parseExprBinOrWith sub' c' inParent) := by
  have h5 := follows_primary c c' sub sub' hsub
  have h4 : follows c (exprParser.parseExprMulDiv sub c) (exprParser.parseExprMulDiv sub' c') := by
    have := follows_levelParse c mulDivOp false _ _ rfl h5
    simpa only [← mulDiv_eq, follows] using this
  have h3 : follows c (exprParser.parseExprPlusMinus sub c inParent)
      (exprParser.parseExprPlusMinus sub' c' inParent) := by
    have := follows_levelParse c plusMinusOp inParent _ _ rfl h4
    simpa only [← plusMinus_eq, follows] using this
  have h2 : follows c (exprParser.parseExprBinAnd sub c inParent)
      (exprParser.parseExprBinAnd sub' c' inParent) := by
    have := follows_levelParse c binAndOp inParent _ _ rfl h3
    simpa only [← binAnd_eq, follows] using this
  have h1 : follows c (exprParser.parseExprBinXor sub c inParent)
      (exprParser.parseExprBinXor sub' c' inParent) := by
    have := follows_levelParse c binXorOp inParent _ _ rfl h2
    simpa only [← binXor_eq, follows] using this
  have := follows_levelParse c binOrOp inParent _ _ rfl h1
  simpa only [← binOrWith_eq, follows] using this

theorem follows_binOr (c c' : compiler) :
    ∀ n inParent, follows c (exprParser.parseExprBinOr n c inParent)
      (exprParser.parseExprBinOr n c' inParent) := by
  intro n
  induction n with
  | zero => intro inParent l e rest h; cases h
  | succ n ih => intro inParent; exact follows_binOrWith c c' _ _ ih inParent

/-- An expression that parses where its identifiers are declared fails in `c` at its first
identifier unknown to `c`. -/
theorem parseExpr_unknown (c c' : compiler) (expr tail : line) (e : AstExpr) (tok : lexItem)
    (hwf : exprParser.parseExprBinOr ((expr ++ tail).length + 1) c' false (expr ++ tail) =
      Res.ok (e, tail))
    (hunk : firstUnknown c expr = some tok) :
    c.parseExpr (expr ++ tail) = Res.raise (c.errorAt "Unknown identifier in expression" tok) := by
  obtain ⟨consumed, hl, hP⟩ := follows_binOr c c' _ false _ e tail hwf
  have hc : consumed = expr := (List.append_cancel_right hl).symm
  subst hc
  unfold compiler.parseExpr
  rw [hP]
  simp [outcomeIn, hunk, Res.bind_def, Res.bind]

/-- C7: a `.define` line (with or without `PUBLIC`) whose expression `expr` is otherwise
well-formed, that is, is parsed in full by a compiler `c'` that knows its identifiers, and
contains an identifier that is declared neither in the global scope nor in the scope of the
current program of `c`, makes `parseDefine` raise `Unknown identifier in expression`
positioned at the first such identifier; the line is not registered, `parseLine` raises the
same error and the loop of `parseFile` stops with it, so no AST is returned. -/
theorem parseDefine_unknown_identifier (fuel : Nat) (c c' : compiler) (l0 l1 : lexItem)
    (expr tail l : line) (e : AstExpr) (tok : lexItem)
    (hl : l = l0 :: l1 :: (expr ++ tail) ∨
      ∃ pub, pub.typ = itemPublic ∧ l = l0 :: pub :: l1 :: (expr ++ tail))
    (h0 : l0.typ = itemDirDefine) (h1 : l1.typ = itemSymbol)
    (hwf : exprParser.parseExprBinOr ((expr ++ tail).length + 1) c' false (expr ++ tail) =
      Res.ok (e, tail))
    (hunk : firstUnknown c expr = some tok) :
    c.parseDefine fuel l = Res.raise (c.errorAt "Unknown identifier in expression" tok) ∧
    (∀ before : compiler, before.nextLine fuel = Res.ok (l, c) →
      before.parseLine fuel = Res.raise (c.errorAt "Unknown identifier in expression" tok) ∧
      ∀ n programs fileDefines, compiler.parseFileLoop fuel (n + 1) before programs fileDefines =
        Res.raise (c.errorAt "Unknown identifier in expression" tok)) := by
  have hexpr := parseExpr_unknown c c' expr tail e tok hwf hunk
  have hparse : c.parseDefine fuel l =
      Res.raise (c.errorAt "Unknown identifier in expression" tok) := by
    rcases hl with rfl | ⟨pub, hpub, rfl⟩
    · simp [compiler.parseDefine, line.index, h0, h1, hexpr, Res.bind_def, Res.bind,
        Res.pure_def]
    · simp [compiler.parseDefine, line.index, h0, h1, hpub, hexpr, Res.bind_def, Res.bind,
        Res.pure_def]
  refine ⟨hparse, ?_⟩
  intro before hnext
  have hline : before.parseLine fuel =
      Res.raise (c.errorAt "Unknown identifier in expression" tok) := by
    have hne : l0.typ ≠ itemDirProgram := by rw [h0]; decide
    rcases hl with rfl | ⟨pub, hpub, rfl⟩
    · simp [compiler.parseLine, hnext, Res.bind_def, Res.bind, h0, hparse]
    · simp [compiler.parseLine, hnext, Res.bind_def, Res.bind, h0, hparse]
  refine ⟨hline, ?_⟩
  intro n programs fileDefines
  simp [compiler.parseFileLoop, hline, Res.bind_def, Res.bind]

/-! ## Checking the invariant on a given compiler -/

theorem goMap.mem_of_get {V : Type} (m : goMap V) (k : String) (v : V)
    (h : m.get k = some v) : (k, v) ∈ m := by
  induction m with
  | nil => cases h
  | cons e rest ih =>
    obtain ⟨k', v'⟩ := e
    simp only [goMap.get, List.lookup] at h
    cases hk : (k == k') with
    | true =>
      rw [hk] at h
      cases h
      have : k = k' := by simpa using hk
      subst this
      exact List.mem_cons_self _ _
    | false =>
      rw [hk] at h
      exact List.mem_cons_of_mem _ (ih h)

theorem evaluatedAt_of_check {c : compiler} {define : Nat}
    (h : evaluatedAtCheck c define = true) : evaluatedAt c define := by
  unfold evaluatedAtCheck at h
  split at h
  · next d hd => exact ⟨d, hd, h⟩
  · cases h

theorem tablesEvaluated_of_check {c : compiler} (h : tablesCheck c = true) :
    tablesEvaluated c := by
  unfold tablesCheck at h
  rw [Bool.and_eq_true, List.all_eq_true, List.all_eq_true] at h
  constructor
  · intro name define hg
    exact evaluatedAt_of_check (h.1 _ (goMap.mem_of_get _ _ _ hg))
  · intro program symbols name define hp hn
    have := h.2 _ (goMap.mem_of_get _ _ _ hp)
    rw [List.all_eq_true] at this
    exact evaluatedAt_of_check (this _ (goMap.mem_of_get _ _ _ hn))

/-- The invariant holds when `Compile` starts. -/
theorem tablesEvaluated_new (source : String) : tablesEvaluated (compiler.new source) :=
  tablesEvaluated_of_check rfl

/-! ## Statements of the claims -/

/-- C3: for every parenthesis-free token sequence that forms a valid expression (operands
separated by operators, identifiers declared), `parseExpr` returns a tree that reads as the
sequence from left to right and groups by precedence (`|` lowest, then `^`, `&`, `+ -`,
`* /`), operators of equal precedence from left to right; it is the only such tree, and it
is also returned when the expression is followed on its line by a token that is not an
operator, such as the end-of-file token.  After an opening parenthesis the parser runs
again at the `|` level, and when that run stops before a closing parenthesis, its tree is
the operand. -/
theorem parseExpr_precedence (c : compiler) (l : line) (h : validExpr c l) :
    (∃ t, c.parseExpr l = Res.ok t ∧ inorder t = lineSyms l ∧ precTree t ∧
      (∀ t', precTree t' → inorder t' = lineSyms l → t' = t) ∧
      ∀ tail, stopsExpr tail → c.parseExpr (l ++ tail) = Res.ok t) ∧
    (∀ (n : Nat) (lp rp : lexItem) (inner rest : line) (e : AstExpr),
      lp.typ = itemLParent → rp.typ = itemRParent →
      exprParser.parseExprBinOr n c true inner = Res.ok (e, rp :: rest) →
      exprParser.parseExprSymbolsConsParens (exprParser.parseExprBinOr n c) c (lp :: inner) =
        Res.ok (e, rest)) := by
  constructor
  · obtain ⟨t, _, hparse, hsyms, hprec⟩ :=
      parseExpr_good c l [] h (fun t ht => Option.noConfusion ht)
    rw [List.append_nil] at hparse
    refine ⟨t, hparse, hsyms, hprec, ?_, ?_⟩
    · intro t' hprec' hsyms'
      exact precTree_unique t' t hprec' hprec (hsyms'.trans hsyms.symm)
    · intro tail hstop
      obtain ⟨t2, _, hparse2, hsyms2, hprec2⟩ := parseExpr_good c l tail h hstop
      rw [hparse2, precTree_unique t2 t hprec2 hprec (hsyms2.trans hsyms.symm)]
  · intro n lp rp inner rest e hlp hrp hinner
    rw [primary_paren _ c lp inner hlp, hinner]
    simp [Res.bind, hrp]

/-- C3, at `7 - 2 - 1 + 2 * 3 | 4 & 5`. -/
theorem parseExpr_precedence_witness :
    validExpr (compiler.new "") exprSample ∧
    ∃ t, (compiler.new "").parseExpr exprSample = Res.ok t ∧
      inorder t = lineSyms exprSample ∧ precTree t ∧
      (∀ t', precTree t' → inorder t' = lineSyms exprSample → t' = t) ∧
      ∀ tail, stopsExpr tail → (compiler.new "").parseExpr (exprSample ++ tail) = Res.ok t :=
  have hv : validExpr (compiler.new "") exprSample :=
    ⟨Or.inl rfl, rfl, Or.inl rfl, rfl, Or.inl rfl, rfl, Or.inl rfl, rfl, Or.inl rfl, rfl,
      Or.inl rfl, rfl, Or.inl rfl⟩
  ⟨hv, (parseExpr_precedence (compiler.new "") exprSample hv).1⟩

/-- The tree built for `7 - 2 - 1 + 2 * 3 | 4 & 5` is `(((7 - 2) - 1) + (2 * 3)) | (4 & 5)`. -/
theorem parseExpr_example :
    (compiler.new "").parseExpr exprSample =
      Res.ok (AstBinOp false opBinOr
        (AstBinOp false opPlus
          (AstBinOp false opMinus
            (AstBinOp false opMinus (AstValue false 7) (AstValue false 2)) (AstValue false 1))
          (AstBinOp false opMul (AstValue false 2) (AstValue false 3)))
        (AstBinOp false opBinAnd (AstValue false 4) (AstValue false 5))) := by
  decide!

/-- C6: `registerDefine` raises `Symbol already defined`, positioned at the token it is
given, if and only if the name is already declared in the global scope or in the scope of
the current program.  Otherwise it succeeds and declares the name in the scope at hand, so
that registering the name there again raises; a name declared only in another program does
not prevent this, and a name registered in the global scope stays declared whatever the
current program is.  The token `parseDefine` gives it is the `.define` token: a `.define`
line whose expression parses and has a value, and whose name is declared in scope, raises
the error there. -/
theorem registerDefine_iff (c : compiler) (define : Nat) (d : AstDefine) (item : lexItem)
    (hd : c.heap[define]? = some d) :
    (c.registerDefine define item = Res.raise (c.errorAt "Symbol already defined" item) ↔
      declaredInScope c d.name) ∧
    (¬ declaredInScope c d.name →
      ∃ c', c.registerDefine define item = Res.ok c' ∧
        c'.heap = c.heap ∧ c'.currentProgram = c.currentProgram ∧
        c'.getDefineDeclared d.name = some define ∧
        (∀ item', c'.registerDefine define item' =
          Res.raise (c'.errorAt "Symbol already defined" item')) ∧
        (c.currentProgram = none → ∀ program,
          declaredInScope { c' with currentProgram := program } d.name)) ∧
    (∀ program other, c.currentProgram = some program → other ≠ program →
      declaredInProgram c other d.name → ¬ declaredGlobal c d.name →
      ¬ declaredInProgram c program d.name →
      ∃ c', c.registerDefine define item = Res.ok c') ∧
    (∀ (fuel : Nat) (c : compiler) (l0 l1 : lexItem) (toks l : line) (e : AstExpr) (v : Int),
      (l = l0 :: l1 :: toks ∨ ∃ pub, pub.typ = itemPublic ∧ l = l0 :: pub :: l1 :: toks) →
      l0.typ = itemDirDefine → l1.typ = itemSymbol → c.parseExpr toks = Res.ok e →
      tablesEvaluated c → substEval c e = some v → declaredInScope c l1.val →
      c.parseDefine fuel l = Res.raise (c.errorAt "Symbol already defined" l0)) :=
  ⟨(registerDefine_spec c define d item hd).1, (registerDefine_spec c define d item hd).2.1,
    (registerDefine_spec c define d item hd).2.2,
    fun fuel c l0 l1 toks l e v hl h0 h1 hexpr hinv hv hdecl =>
      parseDefine_declared fuel c l0 l1 toks l e v hl h0 h1 hexpr hinv hdecl hv⟩

/-- C6, in program `B` of the sample: `TA`, declared only in program `A`, is registered
without error. -/
theorem registerDefine_iff_witness :
    scopesSample.heap[1]? =
      some { name := "TA", expr := AstValue false 2, evaluated := true, value := 2 } ∧
    ∃ c', scopesSample.registerDefine 1
      { typ := itemDirDefine, val := ".define", start := 0, end_ := 7 } = Res.ok c' :=
  ⟨rfl, (registerDefine_iff scopesSample 1
      { name := "TA", expr := AstValue false 2, evaluated := true, value := 2 }
      { typ := itemDirDefine, val := ".define", start := 0, end_ := 7 } rfl).2.2.1 "B" "A" rfl
      (by decide) ⟨[("TA", 1)], by decide!, by decide!⟩
      (by unfold declaredGlobal; decide!)
      (by
        rintro ⟨symbols, h1, h2⟩
        have h3 : scopesSample.programSymbols.get "B" = some [("TB1", 2)] := by decide!
        rw [h3] at h1
        cases h1
        exact absurd h2 (by decide!))⟩

/-- C7, at the line `.define A A + 1` in an empty compiler: the reference to `A` on the
line that defines it is an unknown identifier. -/
theorem parseDefine_unknown_identifier_witness :
    (compiler.new "").parseDefine 0 selfReferenceSample =
      Res.raise ((compiler.new "").errorAt "Unknown identifier in expression"
        { typ := itemSymbol, val := "A", start := 10, end_ := 11 }) :=
  (parseDefine_unknown_identifier 0 (compiler.new "")
    { compiler.new "" with globalSymbols := [("A", 0)] }
    { typ := itemDirDefine, val := ".define", start := 0, end_ := 7 }
    { typ := itemSymbol, val := "A", start := 8, end_ := 9 }
    [{ typ := itemSymbol, val := "A", start := 10, end_ := 11 },
     { typ := itemPlus, val := "+", start := 12, end_ := 13 },
     { typ := itemNumber, val := "1", start := 14, end_ := 15 }]
    [{ typ := itemEOF, val := "", start := 15, end_ := 15 }]
    selfReferenceSample
    (AstBinOp false opPlus (AstIdentifier false "A") (AstValue false 1))
    { typ := itemSymbol, val := "A", start := 10, end_ := 11 }
    (Or.inl rfl) rfl rfl (by decide!) (by decide!)).1

/-- C8, at two sources whose program-scoped define references the earlier global define
`T1`: dividing it by zero makes `Compile` return neither an AST nor an error, and defining
`T1` again makes it return `Symbol already defined`; in neither case does `Compile`
succeed. -/
theorem define_not_accepted :
    Compile 100 ".define T1 1\n.program B\n.define TB1 T1 / 0" { evalDefine := false } =
      some (none, none) ∧
    Compile 100 ".define T1 1\n.program B\n.define T1 T1 + 1" { evalDefine := false } =
      some (none, some { line := 3, offset := 1, message := "Symbol already defined" }) := by
  decide!

/-- C8, amended, at the line `.define TB2 T1 + TB1 * 2` in program `B` of the sample: the
define is accepted with the value `1 + 2 * 2 = 5`. -/
theorem parseDefine_value_witness :
    tablesEvaluated scopesSample ∧
    ∃ c', scopesSample.parseDefine 0 defineSample = Res.ok (lineAst.define 3, c') ∧
      scopeValue c' "TB2" = some 5 :=
  have hinv : tablesEvaluated scopesSample := tablesEvaluated_of_check (by decide!)
  have h := parseDefine_value 0 scopesSample
    { typ := itemDirDefine, val := ".define", start := 0, end_ := 7 }
    { typ := itemSymbol, val := "TB2", start := 8, end_ := 11 }
    [{ typ := itemSymbol, val := "T1", start := 12, end_ := 14 },
     { typ := itemPlus, val := "+", start := 15, end_ := 16 },
     { typ := itemSymbol, val := "TB1", start := 17, end_ := 20 },
     { typ := itemStar, val := "*", start := 21, end_ := 22 },
     { typ := itemNumber, val := "2", start := 23, end_ := 24 }]
    defineSample
    (AstBinOp false opPlus (AstIdentifier false "T1")
      (AstBinOp false opMul (AstIdentifier false "TB1") (AstValue false 2)))
    5 (Or.inl rfl) rfl rfl (by decide!) hinv
    (fun hd => absurd ((getDefineDeclared_isSome_iff scopesSample "TB2").2 hd) (by decide!))
    (by decide!)
  ⟨hinv, h.elim fun c' hc => ⟨c', hc.1, hc.2.2.2.1⟩⟩

/-- C9, at the line `.program testA` in an empty compiler: the program is registered and
becomes the current program. -/
theorem parseProgram_iff_witness :
    (compiler.new "").parseProgram
        [{ typ := itemDirProgram, val := ".program", start := 0, end_ := 8 },
         { typ := itemSymbol, val := "testA", start := 9, end_ := 14 }] =
      Res.ok (lineAst.program "testA" [],
        { compiler.new "" with currentProgram := some "testA", programs := ["testA"] }) :=
  (parseProgram_iff (compiler.new "")
    { typ := itemDirProgram, val := ".program", start := 0, end_ := 8 }
    { typ := itemSymbol, val := "testA", start := 9, end_ := 14 } [] rfl rfl).2.1 (by decide)

/-! ## A lexer that comes back to a state it was in -/

theorem receive_silentStep {h h' : lexHandle} (hs : h.silentStep = some h') (fuel : Nat) :
    h.receive (fuel + 1) = h'.receive fuel := by
  unfold lexHandle.silentStep at hs
  cases hst : h.state with
  | none => simp [hst] at hs
  | some state =>
    simp only [hst] at hs
    cases hsent : (state.step h.lex).sent with
    | some item => simp [hsent] at hs
    | none =>
      simp only [hsent] at hs
      cases hs
      simp only [lexHandle.receive, hst, hsent]

theorem receive_silentSteps : ∀ (n : Nat) {h h' : lexHandle}, h.silentSteps n = some h' →
    ∀ fuel, h.receive (fuel + n) = h'.receive fuel
  | 0, h, h', hs, fuel => by
    simp only [lexHandle.silentSteps, Option.some.injEq] at hs
    rw [hs, Nat.add_zero]
  | n + 1, h, h', hs, fuel => by
    unfold lexHandle.silentSteps at hs
    cases h1 : h.silentStep with
    | none => simp [h1] at hs
    | some h2 =>
      simp only [h1] at hs
      rw [← Nat.add_assoc, receive_silentStep h1, receive_silentSteps n hs]

theorem receive_none_of_le : ∀ (fuel fuel' : Nat) (h : lexHandle), fuel ≤ fuel' →
    h.receive fuel' = none → h.receive fuel = none := by
  intro fuel fuel' h hle hnone
  cases hr : h.receive fuel with
  | none => rfl
  | some r => rw [receive_mono fuel fuel' h r hle hr] at hnone; cases hnone

/-- A handle that silently comes back to itself never sends an item and never closes the
channel. -/
theorem receive_cycle (h : lexHandle) (n : Nat) (hcycle : h.silentSteps (n + 1) = some h) :
    ∀ fuel, h.receive fuel = none := by
  intro fuel
  induction fuel using Nat.strong_induction_on with
  | _ fuel ih =>
    by_cases hlt : fuel < n + 1
    · cases hr : h.receive fuel with
      | none => rfl
      | some r =>
        have h1 := receive_mono fuel (0 + (n + 1)) h r (by omega) hr
        rw [receive_silentSteps (n + 1) hcycle 0] at h1
        simp [lexHandle.receive] at h1
    · obtain ⟨k, rfl⟩ : ∃ k, fuel = k + (n + 1) := ⟨fuel - (n + 1), by omega⟩
      rw [receive_silentSteps (n + 1) hcycle k]
      exact ih k (by omega)

/-- A handle that silently reaches a handle that silently comes back to itself. -/
theorem receive_lasso (h h' : lexHandle) (m n : Nat) (hreach : h.silentSteps m = some h')
    (hcycle : h'.silentSteps (n + 1) = some h') : ∀ fuel, h.receive fuel = none := by
  intro fuel
  apply receive_none_of_le fuel (fuel + m) h (by omega)
  rw [receive_silentSteps m hreach fuel]
  exact receive_cycle h' n hcycle fuel

theorem Compile_none_of_receive (source : String) (options : Options)
    (h : ∀ fuel, (lex source.data).receive fuel = none) :
    ∀ fuel, Compile fuel source options = none := by
  intro fuel
  cases fuel with
  | zero => rfl
  | succ n =>
    simp [Compile, compiler.parseFile, compiler.parseFileLoop, compiler.parseLine,
      compiler.nextLine, compiler.nextLineLoop, compiler.next, compiler.new, h,
      Res.bind_def, Res.bind]

/-! ## Tokens left after an expression -/

theorem headOp_cons (t : lexItem) (l : line) : headOp (t :: l) = opOf t.typ := rfl

theorem opAt_none_of_headOp {k : Nat} {t t' : lexItem} {l l' : line}
    (h : headOp (t' :: l') = headOp (t :: l)) (hn : opAt k t.typ = none) :
    opAt k t'.typ = none := by
  rw [headOp_cons, headOp_cons] at h
  unfold opAt at hn ⊢
  rw [h]
  exact hn

theorem opAt_none_of_headOp_nil {k : Nat} {t' : lexItem} {l' : line}
    (h : headOp (t' :: l') = headOp []) : opAt k t'.typ = none := by
  rw [headOp_cons] at h
  unfold opAt
  rw [h]
  rfl

theorem opAt_some {k : Nat} {t : itemType} {name : operator} (h : opAt k t = some name) :
    opOf t = some name ∧ precedence name = k := by
  unfold opAt at h
  cases ho : opOf t with
  | none => simp [ho] at h
  | some o =>
    simp only [ho] at h
    split at h
    · next hk => cases h; exact ⟨rfl, hk⟩
    · cases h

theorem opAt_none_lt {k : Nat} {t : itemType} (hn : opAt k t = none)
    (hlt : ∀ name, opOf t = some name → precedence name < k + 1) :
    ∀ name, opOf t = some name → precedence name < k := by
  intro name ho
  have h1 := hlt name ho
  unfold opAt at hn
  rw [ho] at hn
  by_cases hk : precedence name = k
  · simp [hk] at hn
  · omega

theorem carries_primary (c : compiler) (bound : Nat)
    (sub sub' : Bool → line → Res (AstExpr × line))
    (hsub : ∀ b, carries 0 bound (sub b) (sub' b)) :
    carries 5 (bound + 1) (exprParser.parseExprSymbolsConsParens sub c)
      (exprParser.parseExprSymbolsConsParens sub' c) := by
  intro l e rest h
  refine ⟨fun name _ => precedence_lt_five name, ?_⟩
  cases l with
  | nil => simp [exprParser.parseExprSymbolsConsParens, line.index, Res.bind_def, Res.bind] at h
  | cons head tail =>
    by_cases hnum : head.typ = itemNumber
    · simp [exprParser.parseExprSymbolsConsParens, line.index, hnum, exprParser.next,
        Res.bind_def, Res.bind, Res.pure_def] at h
      obtain ⟨rfl, rfl⟩ := h
      refine ⟨[head], rfl, ?_⟩
      intro rest' _ _
      simp [exprParser.parseExprSymbolsConsParens, line.index, hnum, exprParser.next,
        Res.bind_def, Res.bind, Res.pure_def]
    · by_cases hsym : head.typ = itemSymbol
      · simp only [exprParser.parseExprSymbolsConsParens, line.index, hnum, hsym,
          exprParser.next, Res.bind_def, Res.bind, Res.pure_def, List.getElem?_cons_zero,
          if_true, if_false, reduceCtorEq] at h
        split at h
        · cases h
        · next hd =>
          cases h
          refine ⟨[head], rfl, ?_⟩
          intro rest' _ _
          simp only [exprParser.parseExprSymbolsConsParens, line.index, hnum, hsym,
            exprParser.next, Res.bind_def, Res.bind, Res.pure_def, List.getElem?_cons_zero,
            if_true, if_false, reduceCtorEq, List.singleton_append]
          rw [if_neg hd]
      · by_cases hlp : head.typ = itemLParent
        · rw [primary_paren sub c head tail hlp, Res.bind_eq_ok] at h
          obtain ⟨⟨e1, l1⟩, hs, hrest⟩ := h
          obtain ⟨_, consumed, hl, hP⟩ := hsub true tail e1 l1 hs
          cases l1 with
          | nil => cases hrest
          | cons rp rest0 =>
            simp only at hrest
            split at hrest
            · next hrp =>
              cases hrest
              refine ⟨head :: (consumed ++ [rp]), by simp [hl], ?_⟩
              intro rest' _ hlen
              have h1 := hP (rp :: rest') rfl (by simp at hlen; omega)
              have : (head :: (consumed ++ [rp])) ++ rest' = head :: (consumed ++ rp :: rest') := by
                simp
              rw [this, primary_paren sub' c head _ hlp, h1]
              simp [Res.bind, hrp]
            · cases hrest
        · simp [exprParser.parseExprSymbolsConsParens, line.index, hnum, hsym, hlp,
            exprParser.next, exprParser.expect, Res.bind_def, Res.bind, Res.pure_def,
            raiseError_eq] at h

theorem carries_levelLoop (k bound : Nat) (flag : Bool)
    (operand operand' : line → Res (AstExpr × line))
    (hop : carries (k + 1) bound operand operand') :
    ∀ fuel left l e rest, levelLoop (opAt k) flag operand fuel left l = Res.ok (e, rest) →
      (∀ name, headOp l = some name → precedence name < k + 1) →
      (∀ name, headOp rest = some name → precedence name < k) ∧
      ∃ consumed, l = consumed ++ rest ∧
        ∀ rest' fuel', headOp rest' = headOp rest → consumed.length < bound →
          consumed.length < fuel' →
          levelLoop (opAt k) flag operand' fuel' left (consumed ++ rest') = Res.ok (e, rest') := by
  intro fuel
  induction fuel with
  | zero => intro left l e rest h; cases h
  | succ fuel ih =>
    intro left l e rest h hhead
    cases l with
    | nil =>
      cases h
      refine ⟨fun name hn => Option.noConfusion hn, [], rfl, ?_⟩
      intro rest' fuel' hsame _ hfuel
      obtain ⟨f, rfl⟩ : ∃ f, fuel' = f + 1 := ⟨fuel' - 1, by omega⟩
      cases rest' with
      | nil => rfl
      | cons t' l' =>
        simp only [List.nil_append, levelLoop]
        rw [opAt_none_of_headOp_nil hsame]
    | cons head tail =>
      unfold levelLoop at h
      cases hisop : opAt k head.typ with
      | none =>
        simp only [hisop] at h
        cases h
        refine ⟨?_, [], rfl, ?_⟩
        · exact opAt_none_lt hisop hhead
        · intro rest' fuel' hsame _ hfuel
          obtain ⟨f, rfl⟩ : ∃ f, fuel' = f + 1 := ⟨fuel' - 1, by omega⟩
          cases rest' with
          | nil => rfl
          | cons t' l' =>
            simp only [List.nil_append, levelLoop]
            rw [opAt_none_of_headOp hsame hisop]
      | some name =>
        simp only [hisop] at h
        rw [Res.bind_eq_ok] at h
        obtain ⟨⟨e1, l1⟩, h1, h2⟩ := h
        obtain ⟨hexit1, c1, hl1, hP1⟩ := hop tail e1 l1 h1
        obtain ⟨hexit2, c2, hl2, hP2⟩ := ih _ _ _ _ h2 hexit1
        simp only at hl2 hP2
        refine ⟨hexit2, head :: (c1 ++ c2), by simp [hl1, hl2], ?_⟩
        intro rest' fuel' hsame hlen hfuel
        obtain ⟨f, rfl⟩ : ∃ f, fuel' = f + 1 := ⟨fuel' - 1, by omega⟩
        simp only [List.length_cons, List.length_append] at hlen hfuel
        have hsame1 : headOp (c2 ++ rest') = headOp l1 := by
          cases c2 with
          | nil => rw [List.nil_append, hsame, hl2, List.nil_append]
          | cons t ts => rw [hl2]; rfl
        have h3 := hP1 (c2 ++ rest') hsame1 (by omega)
        have h4 := hP2 rest' f hsame (by omega) (by omega)
        have : (head :: (c1 ++ c2)) ++ rest' = head :: (c1 ++ (c2 ++ rest')) := by simp
        rw [this]
        unfold levelLoop
        simp only [hisop, h3, Res.bind]
        exact h4

theorem carries_levelParse (k bound : Nat) (flag : Bool)
    (operand operand' : line → Res (AstExpr × line))
    (hop : carries (k + 1) bound operand operand') :
    carries k bound (levelParse (opAt k) flag operand) (levelParse (opAt k) flag operand') := by
  intro l e rest h
  unfold levelParse at h
  rw [Res.bind_eq_ok] at h
  obtain ⟨⟨e1, l1⟩, h1, h2⟩ := h
  obtain ⟨hexit1, c1, hl1, hP1⟩ := hop l e1 l1 h1
  obtain ⟨hexit2, c2, hl2, hP2⟩ :=
    carries_levelLoop k bound flag operand operand' hop _ _ _ _ _ h2 hexit1
  simp only at hl2 hP2
  refine ⟨hexit2, c1 ++ c2, by simp [hl1, hl2], ?_⟩
  intro rest' hsame hlen
  simp only [List.length_append] at hlen
  have hsame1 : headOp (c2 ++ rest') = headOp l1 := by
    cases c2 with
    | nil => rw [List.nil_append, hsame, hl2, List.nil_append]
    | cons t ts => rw [hl2]; rfl
  have h3 := hP1 (c2 ++ rest') hsame1 (by omega)
  unfold levelParse
  rw [List.append_assoc, h3]
  simp only [Res.bind]
  exact hP2 rest' _ hsame (by omega) (by simp; omega)

theorem opAt_funext_mulDiv : mulDivOp = opAt 4 := funext mulDivOp_eq
theorem opAt_funext_plusMinus : plusMinusOp = opAt 3 := funext plusMinusOp_eq
theorem opAt_funext_binAnd : binAndOp = opAt 2 := funext binAndOp_eq
theorem opAt_funext_binXor : binXorOp = opAt 1 := funext binXorOp_eq
theorem opAt_funext_binOr : binOrOp = opAt 0 := funext binOrOp_eq

theorem carries_binOrWith (c : compiler) (bound : Nat)
    (sub sub' : Bool → line → Res (AstExpr × line))
    (hsub : ∀ b, carries 0 bound (sub b) (sub' b)) (inParent : Bool) :
    carries 0 (bound + 1) (exprParser.parseExprBinOrWith sub c inParent)
      (exprParser.parseExprBinOrWith sub' c inParent) := by
  have h5 := carries_primary c bound sub sub' hsub
  have h4 : carries 4 (bound + 1) (exprParser.parseExprMulDiv sub c)
      (exprParser.parseExprMulDiv sub' c) := by
    have := carries_levelParse 4 (bound + 1) false _ _ h5
    simpa only [← opAt_funext_mulDiv, ← mulDiv_eq, carries] using this
  have h3 : carries 3 (bound + 1) (exprParser.parseExprPlusMinus sub c inParent)
      (exprParser.parseExprPlusMinus sub' c inParent) := by
    have := carries_levelParse 3 (bound + 1) inParent _ _ h4
    simpa only [← opAt_funext_plusMinus, ← plusMinus_eq, carries] using this
  have h2 : carries 2 (bound + 1) (exprParser.parseExprBinAnd sub c inParent)
      (exprParser.parseExprBinAnd sub' c inParent) := by
    have := carries_levelParse 2 (bound + 1) inParent _ _ h3
    simpa only [← opAt_funext_binAnd, ← binAnd_eq, carries] using this
  have h1 : carries 1 (bound + 1) (exprParser.parseExprBinXor sub c inParent)
      (exprParser.parseExprBinXor sub' c inParent) := by
    have := carries_levelParse 1 (bound + 1) inParent _ _ h2
    simpa only [← opAt_funext_binXor, ← binXor_eq, carries] using this
  have := carries_levelParse 0 (bound + 1) inParent _ _ h1
  simpa only [← opAt_funext_binOr, ← binOrWith_eq, carries] using this

theorem carries_binOr (c : compiler) :
    ∀ n n' inParent, carries 0 n' (exprParser.parseExprBinOr n c inParent)
      (exprParser.parseExprBinOr n' c inParent) := by
  intro n
  induction n with
  | zero => intro n' inParent l e rest h; cases h
  | succ n ih =>
    intro n' inParent
    cases n' with
    | zero =>
      intro l e rest h
      obtain ⟨hexit, consumed, hl, _⟩ :=
        carries_binOrWith c n _ _ (fun b => ih n b) inParent l e rest h
      exact ⟨hexit, consumed, hl, fun rest' _ hlen => absurd hlen (Nat.not_lt_zero _)⟩
    | succ n' => exact carries_binOrWith c n' _ _ (fun b => ih n' b) inParent

theorem parseExpr_rest (c : compiler) (toks : line) (e : AstExpr)
    (h : c.parseExpr toks = Res.ok e) :
    ∃ expr rest, toks = expr ++ rest ∧ headOp rest = none ∧
      ∀ rest', headOp rest' = none → c.parseExpr (expr ++ rest') = Res.ok e := by
  unfold compiler.parseExpr at h
  simp only [Res.bind_def, Res.bind_eq_ok, Res.pure_def] at h
  obtain ⟨⟨e1, rest⟩, h1, h2⟩ := h
  cases h2
  obtain ⟨hexit, expr, hl, _⟩ := carries_binOr c _ (toks.length + 1) false toks e1 rest h1
  have hnone : headOp rest = none := by
    cases hh : headOp rest with
    | none => rfl
    | some name => exact absurd (hexit name hh) (Nat.not_lt_zero _)
  refine ⟨expr, rest, hl, hnone, ?_⟩
  intro rest' hrest'
  obtain ⟨_, expr2, hl2, hP2⟩ :=
    carries_binOr c _ ((expr ++ rest').length + 1) false toks e1 rest h1
  have hsame : expr2 = expr := by
    rw [hl] at hl2
    exact (List.append_cancel_right hl2).symm
  subst hsame
  unfold compiler.parseExpr
  rw [hP2 rest' (by rw [hrest', hnone]) (by simp; omega)]
  rfl

theorem parseDefine_plain (fuel : Nat) (c : compiler) (l0 l1 : lexItem) (toks : line)
    (h0 : l0.typ = itemDirDefine) (h1 : l1.typ = itemSymbol) :
    c.parseDefine fuel (l0 :: l1 :: toks) =
      Res.bind (c.parseExpr toks) (fun value =>
        Res.bind (compiler.evaluateDefine fuel
          { c with heap := c.heap ++
              [{ name := l1.val, expr := value, evaluated := false, value := 0 }] }
          c.heap.length) (fun c1 =>
            Res.bind (c1.registerDefine c.heap.length l0) (fun c2 =>
              Res.ok (lineAst.define c.heap.length, c2)))) := by
  simp only [compiler.parseDefine, line.index, h0, h1, Res.bind_def, Res.bind, Res.pure_def,
    compiler.parseSymbol, List.getElem?_cons_zero, List.getElem?_cons_succ, if_true,
    reduceCtorEq, if_false, decide_True, Bool.false_eq_true, List.drop_succ_cons, List.drop_zero]
  cases c.parseExpr toks <;> rfl

theorem parseDefine_public_eq (fuel : Nat) (c : compiler) (l0 pub l1 : lexItem) (toks : line)
    (h0 : l0.typ = itemDirDefine) (hpub : pub.typ = itemPublic) (h1 : l1.typ = itemSymbol) :
    c.parseDefine fuel (l0 :: pub :: l1 :: toks) = c.parseDefine fuel (l0 :: l1 :: toks) := by
  rw [parseDefine_plain fuel c l0 l1 toks h0 h1]
  simp only [compiler.parseDefine, line.index, h0, h1, hpub, Res.bind_def, Res.bind,
    Res.pure_def, compiler.parseSymbol, List.getElem?_cons_zero, List.getElem?_cons_succ,
    if_true, reduceCtorEq, if_false, decide_True, Bool.false_eq_true, List.drop_succ_cons,
    List.drop_zero]
  cases c.parseExpr toks <;> rfl

theorem parseDefine_of_parseExpr (fuel : Nat) (c : compiler) (l0 l1 : lexItem)
    (toks toks' l l' : line)
    (hl : l = l0 :: l1 :: toks ∨ ∃ pub, pub.typ = itemPublic ∧ l = l0 :: pub :: l1 :: toks)
    (hl' : l' = l0 :: l1 :: toks' ∨ ∃ pub, pub.typ = itemPublic ∧ l' = l0 :: pub :: l1 :: toks')
    (h0 : l0.typ = itemDirDefine) (h1 : l1.typ = itemSymbol)
    (heq : c.parseExpr toks' = c.parseExpr toks) :
    c.parseDefine fuel l' = c.parseDefine fuel l := by
  have h : c.parseDefine fuel (l0 :: l1 :: toks') = c.parseDefine fuel (l0 :: l1 :: toks) := by
    rw [parseDefine_plain fuel c l0 l1 toks' h0 h1, parseDefine_plain fuel c l0 l1 toks h0 h1,
      heq]
  rcases hl with rfl | ⟨pub, hpub, rfl⟩ <;> rcases hl' with rfl | ⟨pub', hpub', rfl⟩
  · exact h
  · rw [parseDefine_public_eq fuel c l0 pub' l1 toks' h0 hpub' h1]; exact h
  · rw [parseDefine_public_eq fuel c l0 pub l1 toks h0 hpub h1]; exact h
  · rw [parseDefine_public_eq fuel c l0 pub' l1 toks' h0 hpub' h1,
      parseDefine_public_eq fuel c l0 pub l1 toks h0 hpub h1]
    exact h

theorem parseExprBinOr_split (c : compiler) (toks rest : line) (e : AstExpr)
    (h : exprParser.parseExprBinOr (toks.length + 1) c false toks = Res.ok (e, rest)) :
    headOp rest = none ∧
    ∃ expr, toks = expr ++ rest ∧
      exprParser.parseExprBinOr (expr.length + 1) c false expr = Res.ok (e, []) ∧
      ∀ rest', headOp rest' = none →
        exprParser.parseExprBinOr ((expr ++ rest').length + 1) c false (expr ++ rest') =
          Res.ok (e, rest') := by
  obtain ⟨hexit, expr, hl, _⟩ := carries_binOr c _ (toks.length + 1) false toks e rest h
  have hnone : headOp rest = none := by
    cases hh : headOp rest with
    | none => rfl
    | some name => exact absurd (hexit name hh) (Nat.not_lt_zero _)
  have key : ∀ rest', headOp rest' = none →
      exprParser.parseExprBinOr ((expr ++ rest').length + 1) c false (expr ++ rest') =
        Res.ok (e, rest') := by
    intro rest' hrest'
    obtain ⟨_, expr2, hl2, hP2⟩ :=
      carries_binOr c _ ((expr ++ rest').length + 1) false toks e rest h
    have hsame : expr2 = expr := by
      rw [hl] at hl2
      exact (List.append_cancel_right hl2).symm
    subst hsame
    exact hP2 rest' (by rw [hrest', hnone]) (by simp; omega)
  refine ⟨hnone, expr, hl, ?_, key⟩
  have := key [] rfl
  rw [List.append_nil] at this
  exact this

theorem parseExpr_of_binOr (c : compiler) (toks rest : line) (e : AstExpr)
    (h : exprParser.parseExprBinOr (toks.length + 1) c false toks = Res.ok (e, rest)) :
    c.parseExpr toks = Res.ok e := by
  unfold compiler.parseExpr
  rw [h]
  rfl

/-! ## The shape of a call of a state function -/

theorem emitThen_eq (l : lexer) (t : itemType) (state : Option stateFn) :
    emitThen l t state = { state := state, sent := (l.emit t).1, lex := (l.emit t).2 } := rfl

theorem scans_trans {a b c : lexer} (h1 : scans a b) (h2 : scans b c) : scans a c := by
  induction h2 with
  | refl => exact h1
  | next _ ih => exact scans.next ih
  | back _ ih => exact scans.back ih
  | backup _ ih => exact scans.backup ih

theorem scans_acceptStringCILoop : ∀ (s : List Char) (l : lexer),
    scans l (lexer.acceptStringCILoop s l).2
  | [], l => by
    unfold lexer.acceptStringCILoop
    split
    · exact scans.refl
    · exact scans.back scans.refl
  | r :: rs, l => by
    unfold lexer.acceptStringCILoop
    simp only
    split
    · exact scans.back (scans.next scans.refl)
    · exact scans_trans (scans.next scans.refl) (scans_acceptStringCILoop rs _)

theorem scans_acceptKeyword : ∀ (ks : List (String × itemType)) (l : lexer),
    scans l (acceptKeyword ks l).2
  | [], l => scans.refl
  | (s, t) :: rest, l => by
    unfold acceptKeyword
    simp only [lexer.acceptStringCI]
    have h1 := scans_acceptStringCILoop s.data l
    cases hr : lexer.acceptStringCILoop s.data l with
    | mk ok l1 =>
      rw [hr] at h1
      cases ok with
      | true => exact h1
      | false => exact scans_trans h1 (scans_acceptKeyword rest l1)

theorem stepShape_emit {l l0 : lexer} (h : scans l l0) (t : itemType) (state : Option stateFn)
    (hs : state = some stateFn.lexContent ∨ state = none) : stepShape l (emitThen l0 t state) :=
  ⟨l0, h, Or.inr (Or.inr ⟨t, rfl, rfl, hs⟩)⟩

theorem stepShape_ignore {l l0 : lexer} (h : scans l l0) (state : Option stateFn)
    (hs : state = some stateFn.lexContent ∨ state = some stateFn.lexComment) :
    stepShape l { state := state, sent := none, lex := l0.ignore } :=
  ⟨l0, h, Or.inr (Or.inl ⟨rfl, rfl, hs⟩)⟩

theorem stepShape_silent {l l0 : lexer} (h : scans l l0) (state : Option stateFn) :
    stepShape l { state := state, sent := none, lex := l0 } :=
  ⟨l0, h, Or.inl ⟨rfl, rfl⟩⟩

theorem stepShape_ite {l : lexer} {p : Prop} [Decidable p] {a b : lexStep}
    (ha : stepShape l a) (hb : stepShape l b) : stepShape l (if p then a else b) := by
  split
  · exact ha
  · exact hb

/-- Every call of a state function has the shape `stepShape`. -/
theorem step_shape (state : stateFn) (l : lexer) : stepShape l (state.step l) := by
  cases state with
  | lexContent =>
    have hk := scans_acceptKeyword keywords l
    show stepShape l (lexContent l)
    unfold lexContent
    rcases hkv : acceptKeyword keywords l with ⟨_ | t, l1⟩
    · rw [hkv] at hk
      have hn : scans l l1.next.2 := scans.next hk
      dsimp only
      repeat' first
        | apply stepShape_ite
        | exact stepShape_emit hn _ _ (Or.inl rfl)
        | exact stepShape_emit hn _ _ (Or.inr rfl)
        | exact stepShape_ignore hn _ (Or.inl rfl)
        | exact stepShape_ignore hn _ (Or.inr rfl)
        | exact stepShape_silent hn _
    · rw [hkv] at hk
      exact stepShape_emit hk _ _ (Or.inl rfl)
  | lexSymbolOrLabel =>
    have hn : scans l l.next.2 := scans.next scans.refl
    show stepShape l (lexSymbolOrLabel l)
    unfold lexSymbolOrLabel
    dsimp only
    refine stepShape_ite (stepShape_ite ?_ ?_) ?_
    · exact stepShape_emit hn _ _ (Or.inl rfl)
    · exact stepShape_emit (scans.backup hn) _ _ (Or.inl rfl)
    · exact stepShape_silent hn _
  | lexDirective =>
    have hn : scans l l.next.2 := scans.next scans.refl
    show stepShape l (lexDirective l)
    unfold lexDirective
    dsimp only
    refine stepShape_ite ?_ ?_
    · split
      · exact stepShape_emit (scans.backup hn) _ _ (Or.inl rfl)
      · exact stepShape_silent (scans.backup hn) _
    · exact stepShape_silent hn _
  | lexValue =>
    have hn : scans l l.next.2 := scans.next scans.refl
    show stepShape l (lexValue l)
    unfold lexValue
    dsimp only
    refine stepShape_ite (stepShape_ite ?_ ?_) ?_
    · exact stepShape_emit hn _ _ (Or.inr rfl)
    · exact stepShape_emit (scans.backup hn) _ _ (Or.inl rfl)
    · exact stepShape_silent hn _
  | lexComment =>
    show stepShape l (lexComment l)
    unfold lexComment
    dsimp only
    refine stepShape_ite ?_ ?_
    · exact stepShape_silent scans.refl _
    · exact stepShape_ignore (scans.next scans.refl) _ (Or.inr rfl)

/-! ## Reading and rewinding -/

theorem next_input (l : lexer) : l.next.2.input = l.input := by
  unfold lexer.next lexer.addLine
  cases l.input[l.pos]? with
  | none => rfl
  | some r =>
    dsimp only
    split
    · split
      · rfl
      · split <;> rfl
    · rfl

theorem next_start (l : lexer) : l.next.2.start = l.start := by
  unfold lexer.next lexer.addLine
  cases l.input[l.pos]? with
  | none => rfl
  | some r =>
    dsimp only
    split
    · split
      · rfl
      · split <;> rfl
    · rfl

theorem next_lastItem (l : lexer) : l.next.2.lastItem = l.lastItem := by
  unfold lexer.next lexer.addLine
  cases l.input[l.pos]? with
  | none => rfl
  | some r =>
    dsimp only
    split
    · split
      · rfl
      · split <;> rfl
    · rfl

theorem next_char (l : lexer) : l.next.1 = l.peek := by
  unfold lexer.next lexer.peek
  cases l.input[l.pos]? <;> rfl

theorem next_pos (l : lexer) :
    l.next.2.pos = if l.input[l.pos]?.isSome then l.pos + 1 else l.pos := by
  unfold lexer.next lexer.addLine
  cases l.input[l.pos]? with
  | none => rfl
  | some r =>
    dsimp only
    split
    · split
      · rfl
      · split <;> rfl
    · rfl

theorem next_width (l : lexer) :
    l.next.2.width = if l.input[l.pos]?.isSome then 1 else 0 := by
  unfold lexer.next lexer.addLine
  cases l.input[l.pos]? with
  | none => rfl
  | some r =>
    dsimp only
    split
    · split
      · rfl
      · split <;> rfl
    · rfl

theorem next_backup_pos (l : lexer) : l.next.2.backup.pos = l.pos := by
  unfold lexer.backup
  rw [next_pos, next_width]
  cases l.input[l.pos]? <;> simp

theorem scans_fields {l l' : lexer} (h : scans l l') :
    l'.input = l.input ∧ l'.start = l.start ∧ l'.lastItem = l.lastItem := by
  induction h with
  | refl => exact ⟨rfl, rfl, rfl⟩
  | next _ ih => exact ⟨(next_input _).trans ih.1, (next_start _).trans ih.2.1,
      (next_lastItem _).trans ih.2.2⟩
  | back _ ih => exact ih
  | backup _ ih => exact ih

/-! ## The index of newlines -/

theorem newlinesBelow_succ (input : List Char) (hi : Nat) :
    newlinesBelow input (hi + 1) =
      newlinesBelow input hi ++ (if input[hi]? = some '\n' then [hi] else []) := by
  unfold newlinesBelow
  rw [List.range_succ, List.filter_append]
  congr 1
  by_cases h : input[hi]? = some '\n' <;> simp [List.filter, h]

theorem newlinesBelow_lt (input : List Char) (hi i : Nat) (h : i ∈ newlinesBelow input hi) :
    i < hi ∧ input[i]? = some '\n' := by
  unfold newlinesBelow at h
  simpa using h

theorem mem_newlinesBelow (input : List Char) (hi i : Nat) (hlt : i < hi)
    (h : input[i]? = some '\n') : i ∈ newlinesBelow input hi := by
  unfold newlinesBelow
  simp [hlt, h]

theorem getLast?_lt_of_newlinesBelow (input : List Char) (hi last : Nat)
    (h : (newlinesBelow input hi).getLast? = some last) : last < hi :=
  (newlinesBelow_lt input hi last (List.mem_of_getLast?_eq_some h)).1

theorem addLine_linesUpTo (l : lexer) (hi : Nat) (hpos : l.pos ≤ hi)
    (hlines : l.lines = newlinesBelow l.input hi) (hnl : l.input[l.pos]? = some '\n') :
    (l.addLine l.pos).lines = newlinesBelow l.input (max hi (l.pos + 1)) := by
  unfold lexer.addLine
  by_cases hlt : l.pos < hi
  · have hmem : l.pos ∈ l.lines := by rw [hlines]; exact mem_newlinesBelow _ _ _ hlt hnl
    have hmax : max hi (l.pos + 1) = hi := by omega
    rw [hmax]
    cases hlast : l.lines.getLast? with
    | none =>
      rw [List.getLast?_eq_none_iff] at hlast
      rw [hlast] at hmem
      cases hmem
    | some last =>
      dsimp only
      have hle : l.pos ≤ last := by
        have hsorted : l.lines.Pairwise (· < ·) := by
          rw [hlines]; unfold newlinesBelow
          exact List.Pairwise.filter _ (List.pairwise_lt_range hi)
        obtain ⟨init, hinit⟩ : ∃ init, l.lines = init ++ [last] := by
          rw [List.getLast?_eq_some_iff] at hlast
          exact hlast
        rw [hinit] at hmem hsorted
        rcases List.mem_append.mp hmem with hm | hm
        · have := (List.pairwise_append.mp hsorted).2.2 _ hm last (by simp)
          omega
        · simp at hm; omega
      rw [if_neg (by omega)]
      exact hlines
  · have heq : hi = l.pos := by omega
    have hmax : max hi (l.pos + 1) = hi + 1 := by omega
    rw [hmax, newlinesBelow_succ, heq, if_pos hnl, ← heq, ← hlines]
    cases hlast : l.lines.getLast? with
    | none => rfl
    | some last =>
      dsimp only
      have : last < hi := by
        rw [hlines] at hlast
        exact getLast?_lt_of_newlinesBelow _ _ _ hlast
      rw [if_pos (by omega)]

theorem addLine_fields (l : lexer) (p : Nat) :
    (l.addLine p).input = l.input ∧ (l.addLine p).start = l.start ∧ (l.addLine p).pos = l.pos := by
  unfold lexer.addLine
  split
  · exact ⟨rfl, rfl, rfl⟩
  · split <;> exact ⟨rfl, rfl, rfl⟩

theorem next_lines (l : lexer) :
    l.next.2.lines = if l.input[l.pos]? = some '\n' then (l.addLine l.pos).lines else l.lines := by
  unfold lexer.next
  cases h : l.input[l.pos]? with
  | none => simp
  | some r =>
    dsimp only
    by_cases hr : r = '\n'
    · subst hr
      simp only [if_true]
      unfold lexer.addLine
      dsimp only
      split
      · rfl
      · split <;> rfl
    · simp [hr]

theorem linesUpTo_next (s : Nat) (l : lexer) (h : linesUpTo s l) : linesUpTo s l.next.2 := by
  obtain ⟨hi, hs, hstart, hpos, hlines⟩ := h
  refine ⟨max hi (l.pos + 1), by omega, by rw [next_start]; omega, ?_, ?_⟩
  · rw [next_pos]; split <;> omega
  · rw [next_input, next_lines]
    by_cases hnl : l.input[l.pos]? = some '\n'
    · rw [if_pos hnl]
      exact addLine_linesUpTo l hi hpos hlines hnl
    · rw [if_neg hnl, hlines]
      by_cases hlt : l.pos < hi
      · rw [show max hi (l.pos + 1) = hi by omega]
      · rw [show max hi (l.pos + 1) = hi + 1 by omega, newlinesBelow_succ,
          show hi = l.pos by omega, if_neg hnl, List.append_nil]

theorem linesUpTo_scans (s : Nat) {l l' : lexer} (hsc : scans l l') (h : linesUpTo s l) :
    linesUpTo s l' := by
  induction hsc with
  | refl => exact h
  | next _ ih => exact linesUpTo_next s _ ih
  | back _ ih =>
    obtain ⟨hi, hs, hstart, hpos, hlines⟩ := ih
    exact ⟨hi, hs, hstart, hstart, hlines⟩
  | backup _ ih =>
    obtain ⟨hi, hs, hstart, hpos, hlines⟩ := ih
    exact ⟨hi, hs, hstart, Nat.le_trans (Nat.sub_le _ _) hpos, hlines⟩

theorem linesUpTo_ignore (s : Nat) (l : lexer) (h : linesUpTo s l) : linesUpTo s l.ignore := by
  obtain ⟨hi, hs, hstart, hpos, hlines⟩ := h
  exact ⟨hi, hs, hpos, hpos, hlines⟩

theorem linesUpTo_emit (s : Nat) (l : lexer) (t : itemType) (h : linesUpTo s l) :
    linesUpTo s (l.emit t).2 := by
  obtain ⟨hi, hs, hstart, hpos, hlines⟩ := h
  exact ⟨hi, hs, hpos, hpos, hlines⟩

theorem linesUpTo_start (s : Nat) (l : lexer) (h : linesUpTo s l) : linesUpTo l.start l := by
  obtain ⟨hi, hs, hstart, hpos, hlines⟩ := h
  exact ⟨hi, hstart, hstart, hpos, hlines⟩

/-- A call of a state function keeps the index of newlines complete, and the item it sends
starts where the lexer's `start` was. -/
theorem linesUpTo_step (s : Nat) (state : stateFn) (l : lexer) (h : linesUpTo s l) :
    linesUpTo s (state.step l).lex ∧ (state.step l).lex.input = l.input ∧
    ∀ item, (state.step l).sent = some item → item.start = l.start := by
  obtain ⟨l0, hsc, hcase⟩ := step_shape state l
  have h0 := linesUpTo_scans s hsc h
  obtain ⟨hin, hst, _⟩ := scans_fields hsc
  rcases hcase with ⟨hlex, hsent⟩ | ⟨hlex, hsent, _⟩ | ⟨t, hlex, hsent, _⟩
  · rw [hlex, hsent]
    exact ⟨h0, hin, fun item hi => Option.noConfusion hi⟩
  · rw [hlex, hsent]
    exact ⟨linesUpTo_ignore s l0 h0, hin, fun item hi => Option.noConfusion hi⟩
  · rw [hlex, hsent]
    refine ⟨linesUpTo_emit s l0 t h0, hin, ?_⟩
    intro item hi
    unfold lexer.emit at hi
    dsimp only at hi
    split at hi
    · cases hi
    · cases hi
      exact hst

/-! ## `sort.Search` and `position` -/

theorem sortSearchLoop_eq (f : Nat → Bool) (k : Nat) :
    ∀ (fuel i j : Nat), i ≤ k → k ≤ j → j - i ≤ fuel →
      (∀ x, i ≤ x → x < k → f x = false) → (∀ x, k ≤ x → x < j → f x = true) →
      sortSearchLoop f fuel i j = k := by
  intro fuel
  induction fuel with
  | zero =>
    intro i j hik hkj hfuel _ _
    unfold sortSearchLoop
    omega
  | succ fuel ih =>
    intro i j hik hkj hfuel hlo hhi
    unfold sortSearchLoop
    by_cases hij : i < j
    · rw [if_pos hij]
      dsimp only
      have hmid1 : i ≤ (i + j) / 2 := by omega
      have hmid2 : (i + j) / 2 < j := by omega
      cases hf : f ((i + j) / 2) with
      | false =>
        have hlt : (i + j) / 2 < k := by
          by_contra hge
          have := hhi ((i + j) / 2) (by omega) hmid2
          rw [hf] at this
          cases this
        simp only [Bool.not_false, if_true]
        exact ih _ _ (by omega) hkj (by omega) (fun x hx1 hx2 => hlo x (by omega) hx2) hhi
      | true =>
        have hge : k ≤ (i + j) / 2 := by
          by_contra hlt
          have := hlo ((i + j) / 2) hmid1 (by omega)
          rw [hf] at this
          cases this
        simp only [Bool.not_true, Bool.false_eq_true, if_false]
        exact ih _ _ hik hge (by omega) hlo (fun x hx1 hx2 => hhi x hx1 (by omega))
    · rw [if_neg hij]
      omega

theorem newlinesBelow_split (input : List Char) (pos hi : Nat) (h : pos ≤ hi) :
    newlinesBelow input hi = newlinesBelow input pos ++
      ((List.range (hi - pos)).map (pos + ·)).filter (fun i => decide (input[i]? = some '\n')) := by
  unfold newlinesBelow
  rw [← List.filter_append, ← List.range_add, Nat.add_sub_cancel' h]

theorem newlinesBelow_length (input : List Char) (pos : Nat) :
    (newlinesBelow input pos).length = (input.take pos).count '\n' := by
  induction pos with
  | zero => simp [newlinesBelow]
  | succ n ih =>
    rw [newlinesBelow_succ, List.length_append, ih, List.take_succ, List.count_append]
    cases h : input[n]? with
    | none => simp
    | some r =>
      by_cases hr : r = '\n'
      · subst hr; simp
      · have hr2 : ¬ '\n' = r := fun h2 => hr h2.symm
        simp [hr, List.count_cons, hr2]

/-- The line `position` reports for an offset that does not hold a newline, when the index
of newlines is complete up to this offset. -/
theorem position_fst (l : lexer) (pos : Nat) (h : linesUpTo pos l)
    (hpos : l.input[pos]? ≠ some '\n') :
    (l.position pos).1 = 1 + ((l.input.take pos).count '\n' : Nat) := by
  obtain ⟨hi, hs, _, _, hlines⟩ := h
  have hsplit := newlinesBelow_split l.input pos hi hs
  have hlen := newlinesBelow_length l.input pos
  have hlo : ∀ x, x < (newlinesBelow l.input pos).length → l.lines.getD x 0 < pos := by
    intro x hx
    rw [hlines, hsplit, List.getD_append _ _ _ _ hx, List.getD_eq_getElem _ _ hx]
    exact (newlinesBelow_lt l.input pos _ (List.getElem_mem _)).1
  have hhi : ∀ x, (newlinesBelow l.input pos).length ≤ x → x < l.lines.length →
      pos < l.lines.getD x 0 := by
    intro x hx1 hx2
    have hx3 : x - (newlinesBelow l.input pos).length <
        (((List.range (hi - pos)).map (pos + ·)).filter
          (fun i => decide (l.input[i]? = some '\n'))).length := by
      rw [hlines, hsplit, List.length_append] at hx2
      omega
    rw [hlines, hsplit, List.getD_append_right _ _ _ _ hx1, List.getD_eq_getElem _ _ hx3]
    have hmem := List.getElem_mem hx3
    rw [List.mem_filter, List.mem_map] at hmem
    obtain ⟨⟨a, _, ha⟩, hnl⟩ := hmem
    have hne : (((List.range (hi - pos)).map (pos + ·)).filter
        (fun i => decide (l.input[i]? = some '\n')))[x - (newlinesBelow l.input pos).length] ≠
        pos := by
      intro heq
      rw [heq] at hnl
      exact hpos (by simpa using hnl)
    omega
  have hk : (newlinesBelow l.input pos).length ≤ l.lines.length := by
    rw [hlines, hsplit, List.length_append]
    omega
  have hsearch : sortSearch l.lines.length (fun i => decide (l.lines.getD i 0 > pos)) =
      (newlinesBelow l.input pos).length := by
    unfold sortSearch
    apply sortSearchLoop_eq _ _ _ _ _ (Nat.zero_le _) hk (by omega)
    · intro x _ hx
      have := hlo x hx
      simp only [gt_iff_lt, decide_eq_false_iff_not, not_lt]
      omega
    · intro x hx1 hx2
      have := hhi x hx1 hx2
      simpa using this
  unfold lexer.position
  simp only [hsearch, hlen] at hk ⊢
  split
  · omega
  · omega

/-! ## The keyword chain on a character that starts no keyword -/

theorem lexer.eq_of_fields {a b : lexer} (h1 : a.input = b.input) (h2 : a.lines = b.lines)
    (h3 : a.start = b.start) (h4 : a.pos = b.pos) (h5 : a.width = b.width)
    (h6 : a.lastItem = b.lastItem) : a = b := by
  cases a; cases b; simp_all

theorem addLine_lines (l : lexer) (p : Nat) :
    (l.addLine p).lines =
      match l.lines.getLast? with
      | none => l.lines ++ [p]
      | some last => if last < p then l.lines ++ [p] else l.lines := by
  unfold lexer.addLine
  cases l.lines.getLast? with
  | none => rfl
  | some last =>
    dsimp only
    split <;> rfl

theorem addLine_lines_congr (l l' : lexer) (p : Nat) (h : l'.lines = l.lines) :
    (l'.addLine p).lines = (l.addLine p).lines := by
  rw [addLine_lines, addLine_lines, h]

theorem addLine_addLine_lines (l l' : lexer) (p : Nat) (h : l'.lines = (l.addLine p).lines) :
    (l'.addLine p).lines = (l.addLine p).lines := by
  rw [addLine_lines l', h, addLine_lines]
  cases hl : l.lines.getLast? with
  | none => simp
  | some last =>
    dsimp only
    by_cases hlt : last < p
    · simp [hlt]
    · simp [hlt, hl]

theorem back_fields (l : lexer) :
    l.back.input = l.input ∧ l.back.lines = l.lines ∧ l.back.start = l.start ∧
    l.back.pos = l.start ∧ l.back.width = 0 ∧ l.back.lastItem = l.lastItem :=
  ⟨rfl, rfl, rfl, rfl, rfl, rfl⟩

theorem next_back_next (l : lexer) (hpos : l.pos = l.start) : l.next.2.back.next = l.next := by
  have hin : l.next.2.back.input[l.next.2.back.pos]? = l.input[l.pos]? := by
    show l.next.2.input[l.next.2.start]? = _
    rw [next_input, next_start, hpos]
  apply Prod.ext
  · rw [next_char, next_char]
    unfold lexer.peek
    rw [hin]
  · apply lexer.eq_of_fields
    · rw [next_input]; exact (next_input l).symm ▸ rfl
    · rw [next_lines, hin, next_lines l]
      split
      · have hp : l.next.2.back.pos = l.pos := by
          show l.next.2.start = l.pos
          rw [next_start, hpos]
        rw [hp]
        apply addLine_addLine_lines
        show l.next.2.lines = _
        rw [next_lines, if_pos (by assumption)]
      · show l.next.2.lines = _
        rw [next_lines, if_neg (by assumption)]
    · rw [next_start, next_start]; exact next_start l
    · rw [next_pos, hin, next_pos l]
      show (if _ then l.next.2.start + 1 else l.next.2.start) = _
      rw [next_start, hpos]
    · rw [next_width, hin, next_width l]
    · rw [next_lastItem, next_lastItem]; exact next_lastItem l

theorem toUpper_of_not_letter (c : Char) (h : unicodeIsLetter c = false) :
    unicodeToUpper c = c := by
  unfold unicodeIsLetter at h
  unfold unicodeToUpper
  simp only [Bool.or_eq_false_iff, Bool.and_eq_false_iff, decide_eq_false_iff_not] at h
  rw [if_neg]
  simp only [Bool.and_eq_true, decide_eq_true_eq]
  omega

theorem keywords_start_letter :
    ∀ k ∈ keywords, ∃ r rs, k.1.data = r :: rs ∧ unicodeIsLetter (unicodeToUpper r) = true := by
  have hall : keywords.all (fun k =>
      match k.1.data with
      | r :: _ => unicodeIsLetter (unicodeToUpper r)
      | [] => false) = true := by decide
  intro k hk
  have h := List.all_eq_true.mp hall k hk
  cases hd : k.1.data with
  | nil => rw [hd] at h; cases h
  | cons r rs => rw [hd] at h; exact ⟨r, rs, rfl, h⟩

theorem acceptStringCI_mismatch (l : lexer) (s : String) (r : Char) (rs : List Char)
    (hs : s.data = r :: rs) (h : unicodeToUpper l.next.1 ≠ unicodeToUpper r) :
    l.acceptStringCI s = (false, l.next.2.back) := by
  unfold lexer.acceptStringCI
  rw [hs]
  unfold lexer.acceptStringCILoop
  simp [h]

theorem acceptKeyword_no_start (c : Char) (hc : unicodeIsLetter c = false) :
    ∀ (ks : List (String × itemType)) (l : lexer),
      (∀ k ∈ ks, ∃ r rs, k.1.data = r :: rs ∧ unicodeIsLetter (unicodeToUpper r) = true) →
      l.pos = l.start → l.next.1 = c →
      acceptKeyword ks l = (none, if ks = [] then l else l.next.2.back) := by
  intro ks
  induction ks with
  | nil => intro l _ _ _; rfl
  | cons k rest ih =>
    intro l hks hpos hnext
    obtain ⟨s, t⟩ := k
    obtain ⟨r, rs, hs, hr⟩ := hks (s, t) (List.mem_cons_self _ _)
    have hne : unicodeToUpper l.next.1 ≠ unicodeToUpper r := by
      rw [hnext, toUpper_of_not_letter c hc]
      intro heq
      rw [← heq, hc] at hr
      cases hr
    unfold acceptKeyword
    rw [acceptStringCI_mismatch l s r rs hs hne]
    simp only [Bool.false_eq_true, if_false, reduceCtorEq]
    have hpos' : l.next.2.back.pos = l.next.2.back.start := rfl
    have hnext' : l.next.2.back.next.1 = c := by rw [next_back_next l hpos, hnext]
    rw [ih l.next.2.back (fun k hk => hks k (List.mem_cons_of_mem _ hk)) hpos' hnext']
    by_cases hrest : rest = []
    · simp [hrest]
    · simp [hrest, next_back_next l hpos]

/-- The keyword chain of `lexContent`, entered at the start of a token on a character that
is not a letter, matches nothing and leaves the lexer rewound to the start. -/
theorem acceptKeyword_not_letter (l : lexer) (hpos : l.pos = l.start)
    (hc : unicodeIsLetter l.next.1 = false) :
    acceptKeyword keywords l = (none, l.next.2.back) := by
  rw [acceptKeyword_no_start l.next.1 hc keywords l keywords_start_letter hpos rfl]
  rfl

/-! ## `lexContent` on a character that starts no word -/

theorem lexContent_not_symbol (l : lexer) (hpos : l.pos = l.start)
    (hs : isSymbol l.next.1 = false) :
    lexContent l =
      if isEOF l.next.1 then emitThen l.next.2 itemEOF none
      else if isEOL l.next.1 then emitThen l.next.2 itemEOL (some stateFn.lexContent)
      else if l.next.1 = ';' || (l.next.1 = '/' && l.next.2.peek = '/') then
        { state := some stateFn.lexComment, sent := none, lex := l.next.2.ignore }
      else if isWhite l.next.1 then
        { state := some stateFn.lexContent, sent := none, lex := l.next.2.ignore }
      else if isDirective l.next.1 then
        { state := some stateFn.lexDirective, sent := none, lex := l.next.2 }
      else if isValue l.next.1 then
        { state := some stateFn.lexValue, sent := none, lex := l.next.2 }
      else if l.next.1 = '[' then emitThen l.next.2 itemLBracket (some stateFn.lexContent)
      else if l.next.1 = ']' then emitThen l.next.2 itemRBracket (some stateFn.lexContent)
      else if l.next.1 = '(' then emitThen l.next.2 itemLParent (some stateFn.lexContent)
      else if l.next.1 = ')' then emitThen l.next.2 itemRParent (some stateFn.lexContent)
      else if l.next.1 = '+' then emitThen l.next.2 itemPlus (some stateFn.lexContent)
      else if l.next.1 = '-' then emitThen l.next.2 itemMinus (some stateFn.lexContent)
      else if l.next.1 = '*' then emitThen l.next.2 itemStar (some stateFn.lexContent)
      else if l.next.1 = '/' then emitThen l.next.2 itemSlash (some stateFn.lexContent)
      else if l.next.1 = '&' then emitThen l.next.2 itemBinAnd (some stateFn.lexContent)
      else if l.next.1 = '|' then emitThen l.next.2 itemBinOr (some stateFn.lexContent)
      else if l.next.1 = '^' then emitThen l.next.2 itemBinXor (some stateFn.lexContent)
      else if l.next.1 = '!' then emitThen l.next.2 itemBang (some stateFn.lexContent)
      else if l.next.1 = '=' then emitThen l.next.2 itemEqual (some stateFn.lexContent)
      else if l.next.1 = ',' then emitThen l.next.2 itemComma (some stateFn.lexContent)
      else { state := some stateFn.lexContent, sent := none, lex := l.next.2 } := by
  have hc : unicodeIsLetter l.next.1 = false := by
    unfold isSymbol at hs
    simp only [Bool.or_eq_false_iff] at hs
    exact hs.1
  unfold lexContent
  rw [acceptKeyword_not_letter l hpos hc]
  dsimp only
  rw [next_back_next l hpos]
  by_cases h1 : isEOF l.next.1 = true
  · rw [if_pos h1, if_pos h1]
  rw [if_neg h1, if_neg h1]
  by_cases h2 : isEOL l.next.1 = true
  · rw [if_pos h2, if_pos h2]
  rw [if_neg h2, if_neg h2]
  by_cases h3 : (decide (l.next.1 = ';') || decide (l.next.1 = '/') && decide (l.next.2.peek = '/')) = true
  · rw [if_pos h3, if_pos h3]
  rw [if_neg h3, if_neg h3]
  have h4 : ¬ l.next.1 = eol := by
    intro h; apply h2; unfold isEOL; simp [h]
  rw [if_neg h4]
  by_cases h5 : isWhite l.next.1 = true
  · rw [if_pos h5, if_pos h5]
  rw [if_neg h5, if_neg h5]
  rw [if_neg (by rw [hs]; decide)]

/-! ## Where a token starts -/

theorem emit_sent (l : lexer) (t : itemType) (item : lexItem) (h : (l.emit t).1 = some item) :
    item.typ = t ∧ item.start = l.start ∧ item.end_ = l.pos ∧
      item.val = String.mk ((l.input.drop l.start).take (l.pos - l.start)) := by
  unfold lexer.emit at h
  dsimp only at h
  split at h
  · cases h
  · cases h
    exact ⟨rfl, rfl, rfl, rfl⟩

theorem emit_fields (l : lexer) (t : itemType) :
    (l.emit t).2.input = l.input ∧ (l.emit t).2.lines = l.lines ∧ (l.emit t).2.start = l.pos ∧
    (l.emit t).2.pos = l.pos ∧ (l.emit t).2.width = l.width :=
  ⟨rfl, rfl, rfl, rfl, rfl⟩

theorem peek_eq (l : lexer) (c : Char) (h : l.input[l.pos]? = some c) : l.peek = c := by
  unfold lexer.peek
  rw [h]

theorem startsOk_step (state : stateFn) (l : lexer)
    (h : startsOk { state := some state, lex := l }) :
    startsOk { state := (state.step l).state, lex := (state.step l).lex } ∧
    ∀ item, (state.step l).sent = some item → item.typ ≠ itemEOL →
      l.input[item.start]? ≠ some '\n' := by
  by_cases hnl : l.input[l.start]? = some '\n'
  · rcases h with h | ⟨hpos, hstate⟩
    · exact absurd hnl h
    · dsimp only at hpos hstate
      have hpeek : l.peek = '\n' := peek_eq l _ (by rw [hpos]; exact hnl)
      rcases hstate with hstate | hstate | hstate
      · cases hstate
        have hs : isSymbol l.next.1 = false := by rw [next_char, hpeek]; decide
        have heq : stateFn.lexContent.step l =
            emitThen l.next.2 itemEOL (some stateFn.lexContent) := by
          show lexContent l = _
          rw [lexContent_not_symbol l hpos hs, next_char, hpeek]
          rfl
        rw [heq]
        refine ⟨Or.inr ⟨rfl, Or.inl rfl⟩, ?_⟩
        intro item hitem hne
        exact absurd (emit_sent _ _ _ hitem).1 hne
      · cases hstate
        have heq : stateFn.lexComment.step l =
            { state := some stateFn.lexContent, sent := none, lex := l } := by
          show lexComment l = _
          unfold lexComment
          rw [hpeek]
          rfl
        rw [heq]
        exact ⟨Or.inr ⟨hpos, Or.inl rfl⟩, fun item hitem => Option.noConfusion hitem⟩
      · cases hstate
  · obtain ⟨l0, hsc, hcase⟩ := step_shape state l
    obtain ⟨hin, hst, _⟩ := scans_fields hsc
    rcases hcase with ⟨hlex, hsent⟩ | ⟨hlex, hsent, hstate⟩ | ⟨t, hlex, hsent, hstate⟩
    · refine ⟨Or.inl ?_, ?_⟩
      · show (state.step l).lex.input[(state.step l).lex.start]? ≠ _
        rw [hlex, hin, hst]
        exact hnl
      · rw [hsent]; exact fun item hitem => Option.noConfusion hitem
    · refine ⟨Or.inr ⟨?_, ?_⟩, ?_⟩
      · show (state.step l).lex.pos = (state.step l).lex.start
        rw [hlex]; rfl
      · rcases hstate with hs | hs
        · exact Or.inl hs
        · exact Or.inr (Or.inl hs)
      · rw [hsent]; exact fun item hitem => Option.noConfusion hitem
    · refine ⟨Or.inr ⟨?_, ?_⟩, ?_⟩
      · show (state.step l).lex.pos = (state.step l).lex.start
        rw [hlex]; rfl
      · rcases hstate with hs | hs
        · exact Or.inl hs
        · exact Or.inr (Or.inr hs)
      · intro item hitem _
        rw [hsent] at hitem
        rw [(emit_sent _ _ _ hitem).2.1, hst]
        exact hnl

/-- One call of a state function keeps the invariant, and an item it sends starts where the
lexer's `start` was, on a character that is not a newline unless it is an end-of-line
token. -/
theorem lexInv_step (input : List Char) (s : Nat) (state : stateFn) (l : lexer)
    (h : lexInv input s { state := some state, lex := l }) :
    lexInv input s { state := (state.step l).state, lex := (state.step l).lex } ∧
    ∀ item, (state.step l).sent = some item →
      lexInv input item.start { state := (state.step l).state, lex := (state.step l).lex } ∧
      (item.typ ≠ itemEOL → offNewline input item) := by
  obtain ⟨hin, hlines, hstart⟩ := h
  dsimp only at hin hlines
  obtain ⟨h1, h2, h3⟩ := linesUpTo_step s state l hlines
  obtain ⟨h4, h5⟩ := startsOk_step state l hstart
  refine ⟨⟨h2.trans hin, h1, h4⟩, ?_⟩
  intro item hitem
  refine ⟨⟨h2.trans hin, ?_, h4⟩, ?_⟩
  · rw [h3 item hitem]
    exact (linesUpTo_step l.start state l (linesUpTo_start s l hlines)).1
  · intro hne
    unfold offNewline
    rw [← hin]
    exact h5 item hitem hne

theorem lexInv_receive (input : List Char) (s : Nat) :
    ∀ (fuel : Nat) (h h' : lexHandle) (r : Option lexItem), lexInv input s h →
      h.receive fuel = some (r, h') →
      lexInv input s h' ∧ ∀ item, r = some item →
        lexInv input item.start h' ∧ (item.typ ≠ itemEOL → offNewline input item) := by
  intro fuel
  induction fuel with
  | zero => intro h h' r _ hr; cases hr
  | succ fuel ih =>
    intro h h' r hinv hr
    unfold lexHandle.receive at hr
    cases hst : h.state with
    | none =>
      simp only [hst, Option.some.injEq, Prod.mk.injEq] at hr
      obtain ⟨rfl, rfl⟩ := hr
      exact ⟨hinv, fun item hitem => Option.noConfusion hitem⟩
    | some state =>
      have hinv' : lexInv input s { state := some state, lex := h.lex } := by
        rw [← hst]; exact hinv
      obtain ⟨h1, h2⟩ := lexInv_step input s state h.lex hinv'
      simp only [hst] at hr
      cases hsent : (state.step h.lex).sent with
      | none =>
        simp only [hsent] at hr
        exact ih _ _ _ h1 hr
      | some item =>
        simp only [hsent, Option.some.injEq, Prod.mk.injEq] at hr
        obtain ⟨rfl, rfl⟩ := hr
        refine ⟨h1, ?_⟩
        intro item' hitem'
        cases hitem'
        exact h2 item hsent

theorem lexInv_mono (input : List Char) (s s' : Nat) (h : lexHandle) (hinv : lexInv input s h)
    (hle : s' ≤ s) : lexInv input s' h := by
  obtain ⟨h1, ⟨hi, h2, h3⟩, h4⟩ := hinv
  exact ⟨h1, ⟨hi, by omega, h3⟩, h4⟩

theorem lexInv_receiveMany (input : List Char) (fuel : Nat) :
    ∀ (n : Nat) (s : Nat) (h h' : lexHandle) (items : List lexItem), lexInv input s h →
      h.receiveMany fuel n = some (items, h') →
      lexInv input s h' ∧ ∀ item ∈ items,
        lexInv input item.start h' ∧ (item.typ ≠ itemEOL → offNewline input item) := by
  intro n
  induction n with
  | zero =>
    intro s h h' items hinv hr
    simp only [lexHandle.receiveMany, Option.some.injEq, Prod.mk.injEq] at hr
    obtain ⟨rfl, rfl⟩ := hr
    exact ⟨hinv, fun item hitem => absurd hitem (List.not_mem_nil _)⟩
  | succ n ih =>
    intro s h h' items hinv hr
    unfold lexHandle.receiveMany at hr
    cases hrec : h.receive fuel with
    | none => simp [hrec] at hr
    | some r =>
      obtain ⟨r1, h1⟩ := r
      obtain ⟨hinv1, hitem1⟩ := lexInv_receive input s fuel h h1 r1 hinv hrec
      cases r1 with
      | none =>
        simp only [hrec, Option.some.injEq, Prod.mk.injEq] at hr
        obtain ⟨rfl, rfl⟩ := hr
        exact ⟨hinv1, fun item hitem => absurd hitem (List.not_mem_nil _)⟩
      | some item =>
        simp only [hrec, Option.map_eq_some'] at hr
        obtain ⟨⟨items', h2⟩, hrest, heq⟩ := hr
        simp only [Prod.mk.injEq] at heq
        obtain ⟨rfl, rfl⟩ := heq
        obtain ⟨hinv2, hitems2⟩ := ih s h1 h2 items' hinv1 hrest
        refine ⟨hinv2, ?_⟩
        intro item' hmem
        rcases List.mem_cons.mp hmem with rfl | hmem
        · obtain ⟨ha, hb⟩ := hitem1 item' rfl
          exact ⟨(ih item'.start h1 h2 items' ha hrest).1, hb⟩
        · exact hitems2 item' hmem

theorem lexInv_lex (input : List Char) : lexInv input 0 (lex input) :=
  ⟨rfl, ⟨0, Nat.le_refl _, Nat.le_refl _, Nat.le_refl _, rfl⟩, Or.inr ⟨rfl, Or.inl rfl⟩⟩

/-! ## End-of-line tokens -/

theorem eol_step (state : stateFn) (l : lexer) :
    ((state.step l).sent = none → eolPending l → eolPending (state.step l).lex) ∧
    ∀ item, (state.step l).sent = some item →
      (state.step l).lex.lastItem = some item ∧ (item.typ = itemEOL → ¬ eolPending l) := by
  obtain ⟨l0, hsc, hcase⟩ := step_shape state l
  obtain ⟨_, _, hlast⟩ := scans_fields hsc
  rcases hcase with ⟨hlex, hsent⟩ | ⟨hlex, hsent, _⟩ | ⟨t, hlex, hsent, _⟩
  · refine ⟨?_, ?_⟩
    · intro _ hp last hl
      rw [hlex, hlast] at hl
      exact hp last hl
    · rw [hsent]; exact fun item hitem => Option.noConfusion hitem
  · refine ⟨?_, ?_⟩
    · intro _ hp last hl
      rw [hlex] at hl
      exact hp last (hlast ▸ hl)
    · rw [hsent]; exact fun item hitem => Option.noConfusion hitem
  · rw [hlex, hsent]
    unfold lexer.emit
    dsimp only
    refine ⟨?_, ?_⟩
    · intro hnone _ last hl
      split at hnone
      · next hd =>
        simp only [Bool.and_eq_true, decide_eq_true_eq] at hd
        cases hl
        exact hd.1
      · cases hnone
    · intro item hitem
      split at hitem
      · cases hitem
      · next hd =>
        cases hitem
        refine ⟨rfl, ?_⟩
        intro ht hp
        apply hd
        simp only [Bool.and_eq_true, decide_eq_true_eq]
        refine ⟨ht, ?_⟩
        rw [hlast]
        cases hl : l.lastItem with
        | none => rfl
        | some last => simpa using hp last hl

theorem eol_receive :
    ∀ (fuel : Nat) (h h' : lexHandle) (r : Option lexItem), h.receive fuel = some (r, h') →
      (r = none → h'.state = none) ∧
      ∀ item, r = some item →
        h.state ≠ none ∧ h'.lex.lastItem = some item ∧
          (eolPending h.lex → item.typ ≠ itemEOL) := by
  intro fuel
  induction fuel with
  | zero => intro h h' r hr; cases hr
  | succ fuel ih =>
    intro h h' r hr
    unfold lexHandle.receive at hr
    cases hst : h.state with
    | none =>
      simp only [hst, Option.some.injEq, Prod.mk.injEq] at hr
      obtain ⟨rfl, rfl⟩ := hr
      exact ⟨fun _ => hst, fun item hitem => Option.noConfusion hitem⟩
    | some state =>
      obtain ⟨h1, h2⟩ := eol_step state h.lex
      simp only [hst] at hr
      cases hsent : (state.step h.lex).sent with
      | none =>
        simp only [hsent] at hr
        obtain ⟨h3, h4⟩ := ih _ _ _ hr
        refine ⟨h3, ?_⟩
        intro item hitem
        obtain ⟨_, h5, h6⟩ := h4 item hitem
        exact ⟨fun hn => Option.noConfusion hn, h5, fun hp => h6 (h1 hsent hp)⟩
      | some item =>
        simp only [hsent, Option.some.injEq, Prod.mk.injEq] at hr
        obtain ⟨rfl, rfl⟩ := hr
        refine ⟨fun hn => Option.noConfusion hn, ?_⟩
        intro item' hitem'
        cases hitem'
        obtain ⟨h5, h6⟩ := h2 item hsent
        exact ⟨fun hn => Option.noConfusion hn, h5, fun hp ht => h6 ht hp⟩

theorem eolPending_of_lastItem {l : lexer} {item : lexItem} (h : l.lastItem = some item)
    (ht : item.typ = itemEOL) : eolPending l := by
  intro last hl
  rw [h] at hl
  cases hl
  exact ht

/-- The items received from a handle: the first is not an end-of-line token when the lexer
would drop one, and no two neighbours are both end-of-line tokens. -/
theorem eol_receiveMany (fuel : Nat) :
    ∀ (n : Nat) (h h' : lexHandle) (items : List lexItem),
      h.receiveMany fuel n = some (items, h') →
      (eolPending h.lex → ∀ item, items.head? = some item → item.typ ≠ itemEOL) ∧
      List.Chain' notBothEOL items := by
  intro n
  induction n with
  | zero =>
    intro h h' items hr
    simp only [lexHandle.receiveMany, Option.some.injEq, Prod.mk.injEq] at hr
    obtain ⟨rfl, rfl⟩ := hr
    exact ⟨fun _ item hitem => Option.noConfusion hitem, List.chain'_nil⟩
  | succ n ih =>
    intro h h' items hr
    unfold lexHandle.receiveMany at hr
    cases hrec : h.receive fuel with
    | none => simp [hrec] at hr
    | some r =>
      obtain ⟨r1, h1⟩ := r
      obtain ⟨_, hitem1⟩ := eol_receive fuel h h1 r1 hrec
      cases r1 with
      | none =>
        simp only [hrec, Option.some.injEq, Prod.mk.injEq] at hr
        obtain ⟨rfl, rfl⟩ := hr
        exact ⟨fun _ item hitem => Option.noConfusion hitem, List.chain'_nil⟩
      | some item =>
        simp only [hrec, Option.map_eq_some'] at hr
        obtain ⟨⟨items', h2⟩, hrest, heq⟩ := hr
        simp only [Prod.mk.injEq] at heq
        obtain ⟨rfl, rfl⟩ := heq
        obtain ⟨_, hlast, hfirst⟩ := hitem1 item rfl
        obtain ⟨hhead, hchain⟩ := ih h1 h2 items' hrest
        refine ⟨?_, ?_⟩
        · intro hp item' hitem'
          simp only [List.head?_cons, Option.some.injEq] at hitem'
          subst hitem'
          exact hfirst hp
        · rw [List.chain'_cons']
          refine ⟨?_, hchain⟩
          intro b hb ⟨ha, hb2⟩
          exact hhead (eolPending_of_lastItem hlast ha) b hb hb2

theorem lineReady_nextLineLoop (fuel : Nat) :
    ∀ (n : Nat) (c : compiler) (acc l : line) (c' : compiler),
      compiler.nextLineLoop fuel n c acc = Res.ok (l, c') →
      lineReady c' ∧ ∃ more, l = acc ++ more ∧ (more = [] → lineReady c → c'.lex.state = none) := by
  intro n
  induction n with
  | zero => intro c acc l c' h; cases h
  | succ n ih =>
    intro c acc l c' h
    unfold compiler.nextLineLoop at h
    simp only [Res.bind_def, Res.bind_eq_ok] at h
    obtain ⟨⟨item, c1⟩, h1, h2⟩ := h
    unfold compiler.next at h1
    cases hrec : c.lex.receive fuel with
    | none => simp [hrec] at h1
    | some r =>
      obtain ⟨r1, h'⟩ := r
      simp only [hrec, Res.ok.injEq, Prod.mk.injEq] at h1
      obtain ⟨rfl, rfl⟩ := h1
      obtain ⟨hclosed, hitem⟩ := eol_receive fuel c.lex h' r1 hrec
      cases r1 with
      | none =>
        simp only [Res.pure_def, Res.ok.injEq, Prod.mk.injEq] at h2
        obtain ⟨rfl, rfl⟩ := h2
        exact ⟨Or.inr (hclosed rfl), [], by simp, fun _ _ => hclosed rfl⟩
      | some item =>
        obtain ⟨hopen, hlast, hfirst⟩ := hitem item rfl
        simp only at h2
        split at h2
        · next ht =>
          simp only [Res.pure_def, Res.ok.injEq, Prod.mk.injEq] at h2
          obtain ⟨rfl, rfl⟩ := h2
          refine ⟨Or.inl (eolPending_of_lastItem hlast ht), [], by simp, ?_⟩
          intro _ hready
          rcases hready with hp | hc
          · exact absurd ht (hfirst hp)
          · exact absurd hc hopen
        · obtain ⟨hready, more, hl, _⟩ := ih _ _ _ _ h2
          refine ⟨hready, item :: more, by simp [hl], ?_⟩
          intro hnil
          cases hnil

theorem lineReady_nextLine (fuel : Nat) (c : compiler) (l : line) (c' : compiler)
    (hready : lineReady c) (h : c.nextLine fuel = Res.ok (l, c')) :
    lineReady c' ∧ (l = [] → c'.lex.state = none) := by
  obtain ⟨h1, more, hl, h2⟩ := lineReady_nextLineLoop fuel fuel c [] l c' h
  rw [List.nil_append] at hl
  subst hl
  exact ⟨h1, fun hnil => h2 hnil hready⟩

theorem registerProgram_lex {c : compiler} {name : String} {item : lexItem} {c' : compiler}
    (h : c.registerProgram name item = Res.ok c') : c'.lex = c.lex := by
  unfold compiler.registerProgram at h
  split at h
  · simp [raiseError_eq] at h
  · cases h; rfl

theorem parseProgram_lex {c : compiler} {l : line} {r : lineAst} {c' : compiler}
    (h : c.parseProgram l = Res.ok (r, c')) : c'.lex = c.lex := by
  unfold compiler.parseProgram at h
  simp only [Res.bind_def, Res.bind_eq_ok, Res.pure_def] at h
  obtain ⟨l0, _, cond, _, id, _, c1, h1, h2⟩ := h
  cases h2
  exact registerProgram_lex h1

theorem parseLine_lex {fuel : Nat} {c : compiler} {r : Option lineAst} {c' : compiler}
    (h : c.parseLine fuel = Res.ok (r, c')) :
    ∃ l c1, c.nextLine fuel = Res.ok (l, c1) ∧ c'.lex = c1.lex := by
  unfold compiler.parseLine at h
  simp only [Res.bind_def, Res.bind_eq_ok, Res.pure_def] at h
  obtain ⟨⟨l, c1⟩, h1, h2⟩ := h
  refine ⟨l, c1, h1, ?_⟩
  cases l with
  | nil => cases h2; rfl
  | cons item rest =>
    simp only at h2
    split at h2
    · simp only [Res.bind_eq_ok] at h2
      obtain ⟨⟨ast, c2⟩, h3, h4⟩ := h2
      cases h4
      exact parseProgram_lex h3
    · split at h2
      · simp only [Res.bind_eq_ok] at h2
        obtain ⟨⟨ast, c2⟩, h3, h4⟩ := h2
        cases h4
        exact (parseDefine_frame h3).1
      · split at h2
        · cases h2; rfl
        · simp [raiseError_eq] at h2

theorem lineReady_parseLine (fuel : Nat) (c : compiler) (r : Option lineAst) (c' : compiler)
    (hready : lineReady c) (h : c.parseLine fuel = Res.ok (r, c')) : lineReady c' := by
  obtain ⟨l, c1, h1, h2⟩ := parseLine_lex h
  have := (lineReady_nextLine fuel c l c1 hready h1).1
  unfold lineReady at this ⊢
  rw [h2]
  exact this

/-! ## Running the lexer over blanks and comments -/

theorem receive_succ (fuel : Nat) (state : stateFn) (l : lexer) :
    ({ state := some state, lex := l } : lexHandle).receive (fuel + 1) =
      match (state.step l).sent with
      | some item => some (some item, { state := (state.step l).state, lex := (state.step l).lex })
      | none => lexHandle.receive fuel { state := (state.step l).state, lex := (state.step l).lex } :=
  rfl

theorem receive_closed (fuel : Nat) (h : lexHandle) (hs : h.state = none) :
    h.receive (fuel + 1) = some (none, h) := by
  rw [lexHandle.receive]
  simp [hs]

theorem drop_cons_pos {input : List Char} {pos : Nat} {c : Char} {rest : List Char}
    (h : input.drop pos = c :: rest) : input[pos]? = some c ∧ input.drop (pos + 1) = rest := by
  constructor
  · have := List.getElem?_drop input pos 0
    rw [h] at this
    simpa using this.symm
  · rw [← List.drop_drop 1 pos input, h]
    rfl

theorem drop_nil_pos {input : List Char} {pos : Nat} (h : input.drop pos = []) :
    input[pos]? = none := by
  rw [List.drop_eq_nil_iff] at h
  exact List.getElem?_eq_none h

theorem next_of_some (l : lexer) (c : Char) (h : l.input[l.pos]? = some c) :
    l.next.1 = c ∧ l.next.2.pos = l.pos + 1 ∧ l.next.2.input = l.input ∧
      l.next.2.start = l.start ∧ l.next.2.lastItem = l.lastItem := by
  refine ⟨?_, ?_, next_input l, next_start l, next_lastItem l⟩
  · rw [next_char]; exact peek_eq l c h
  · rw [next_pos, h]; rfl

theorem peek_of_none (l : lexer) (h : l.input[l.pos]? = none) : l.peek = eof := by
  unfold lexer.peek
  rw [h]

theorem emit_eol_pending (l : lexer) (hp : eolPending l) :
    (l.emit itemEOL).1 = none ∧ eolPending (l.emit itemEOL).2 := by
  unfold lexer.emit
  dsimp only
  constructor
  · rw [if_pos]
    cases hl : l.lastItem with
    | none => rfl
    | some last => simp [hp last hl]
  · intro last hlast
    cases hlast
    rfl

theorem emit_eof (l : lexer) : ∃ item, (l.emit itemEOF).1 = some item ∧ item.typ = itemEOF :=
  ⟨_, rfl, rfl⟩

theorem lexContent_eof (l : lexer) (hpos : l.pos = l.start) (hpeek : l.peek = eof) :
    lexContent l = emitThen l.next.2 itemEOF none := by
  have hs : isSymbol l.next.1 = false := by rw [next_char, hpeek]; decide
  rw [lexContent_not_symbol l hpos hs, next_char, hpeek]
  rfl

theorem lexContent_eol (l : lexer) (hpos : l.pos = l.start) (hpeek : l.peek = '\n') :
    lexContent l = emitThen l.next.2 itemEOL (some stateFn.lexContent) := by
  have hs : isSymbol l.next.1 = false := by rw [next_char, hpeek]; decide
  rw [lexContent_not_symbol l hpos hs, next_char, hpeek]
  rfl

theorem lexContent_blank (l : lexer) (hpos : l.pos = l.start)
    (hpeek : l.peek = ' ' ∨ l.peek = '\t' ∨ l.peek = '\r') :
    lexContent l = { state := some stateFn.lexContent, sent := none, lex := l.next.2.ignore } := by
  rcases hpeek with hpeek | hpeek | hpeek
  all_goals
    have hs : isSymbol l.next.1 = false := by rw [next_char, hpeek]; decide
    rw [lexContent_not_symbol l hpos hs, next_char, hpeek]
    rfl

theorem lexContent_semicolon (l : lexer) (hpos : l.pos = l.start) (hpeek : l.peek = ';') :
    lexContent l = { state := some stateFn.lexComment, sent := none, lex := l.next.2.ignore } := by
  have hs : isSymbol l.next.1 = false := by rw [next_char, hpeek]; decide
  rw [lexContent_not_symbol l hpos hs, next_char, hpeek]
  rfl

theorem lexContent_slashes (l : lexer) (hpos : l.pos = l.start) (hpeek : l.peek = '/')
    (hpeek2 : l.next.2.peek = '/') :
    lexContent l = { state := some stateFn.lexComment, sent := none, lex := l.next.2.ignore } := by
  have hs : isSymbol l.next.1 = false := by rw [next_char, hpeek]; decide
  rw [lexContent_not_symbol l hpos hs, next_char, hpeek, hpeek2]
  rfl

theorem lexComment_stop (l : lexer) (hpeek : l.peek = '\n' ∨ l.peek = eof) :
    lexComment l = { state := some stateFn.lexContent, sent := none, lex := l } := by
  unfold lexComment
  rcases hpeek with hpeek | hpeek <;> rw [hpeek] <;> rfl

theorem lexComment_go (l : lexer) (h1 : l.peek ≠ '\n') (h2 : l.peek ≠ eof) :
    lexComment l = { state := some stateFn.lexComment, sent := none, lex := l.next.2.ignore } := by
  unfold lexComment
  dsimp only
  rw [if_neg]
  simp [isEOL, isEOF, h1, h2, eol]

theorem receive_step_silent (fuel : Nat) (state : stateFn) (l : lexer) (s : lexStep)
    (hstep : state.step l = s) (hsent : s.sent = none) :
    ({ state := some state, lex := l } : lexHandle).receive (fuel + 1) =
      lexHandle.receive fuel { state := s.state, lex := s.lex } := by
  rw [receive_succ, hstep, hsent]

theorem receive_step_sent (fuel : Nat) (state : stateFn) (l : lexer) (s : lexStep)
    (item : lexItem) (hstep : state.step l = s) (hsent : s.sent = some item) :
    ({ state := some state, lex := l } : lexHandle).receive (fuel + 1) =
      some (some item, { state := s.state, lex := s.lex }) := by
  rw [receive_succ, hstep, hsent]

theorem receive_content_eof (fuel : Nat) (l : lexer) (hpos : l.pos = l.start)
    (hpeek : l.peek = eof) :
    ∃ item h', ({ state := some stateFn.lexContent, lex := l } : lexHandle).receive (fuel + 1) =
        some (some item, h') ∧ item.typ = itemEOF ∧ h'.state = none := by
  obtain ⟨item, hitem, htyp⟩ := emit_eof l.next.2
  refine ⟨item, _, receive_step_sent fuel stateFn.lexContent l _ item
    (lexContent_eof l hpos hpeek) ?_, htyp, rfl⟩
  rw [emitThen_eq]
  exact hitem

theorem eolPending_congr {l l' : lexer} (h : l'.lastItem = l.lastItem) (hp : eolPending l) :
    eolPending l' := by
  intro last hl
  rw [h] at hl
  exact hp last hl

/-- From the start of a token, over a text made only of blanks and comments, the lexer
sends the end-of-file token and nothing before it. -/
theorem blank_receive : ∀ (rest : List Char) (inComment : Bool) (l : lexer),
    l.input.drop l.pos = rest → l.pos = l.start → eolPending l →
    blankOnly inComment rest = true →
    ∃ item h',
      (lexHandle.mk (some (if inComment then stateFn.lexComment else stateFn.lexContent))
          l).receive (2 * rest.length + 2) = some (some item, h') ∧
        item.typ = itemEOF ∧ h'.state = none := by
  intro rest
  induction rest with
  | nil =>
    intro inComment l hrest hpos hp _
    have hpeek := peek_of_none l (drop_nil_pos hrest)
    cases inComment with
    | false => exact receive_content_eof 1 l hpos hpeek
    | true =>
      simp only [if_true, List.length_nil, Nat.mul_zero, Nat.zero_add]
      rw [receive_step_silent 1 stateFn.lexComment l _ (lexComment_stop l (Or.inr hpeek)) rfl]
      exact receive_content_eof 0 l hpos hpeek
  | cons c rest' ih =>
    intro inComment l hrest hpos hp hblank
    obtain ⟨hc, hdrop⟩ := drop_cons_pos hrest
    obtain ⟨hn1, hn2, hn3, hn4, hn5⟩ := next_of_some l c hc
    have hpeek : l.peek = c := peek_eq l c hc
    have hfuel : 2 * (c :: rest').length + 2 = (2 * rest'.length + 2) + 1 + 1 := by
      simp only [List.length_cons]; omega
    have hdrop2 : l.next.2.input.drop l.next.2.pos = rest' := by rw [hn3, hn2]; exact hdrop
    have hp2 : eolPending l.next.2 := eolPending_congr hn5 hp
    -- the lexer after an end-of-line that is dropped
    have heolstep : c = '\n' →
        ∃ item h', ({ state := some stateFn.lexContent, lex := l } : lexHandle).receive
            ((2 * rest'.length + 2) + 1) = some (some item, h') ∧
          item.typ = itemEOF ∧ h'.state = none := by
      intro hnl
      obtain ⟨hnone, hp3⟩ := emit_eol_pending l.next.2 hp2
      rw [receive_step_silent _ stateFn.lexContent l _
        (lexContent_eol l hpos (by rw [hpeek, hnl])) (by rw [emitThen_eq]; exact hnone)]
      rw [emitThen_eq]
      exact ih false (l.next.2.emit itemEOL).2 hdrop2 rfl hp3 (by
        cases inComment with
        | false => subst hnl; simpa [blankOnly] using hblank
        | true => subst hnl; simpa [blankOnly] using hblank)
    cases inComment with
    | true =>
      simp only [if_true]
      rw [hfuel]
      by_cases hnl : c = '\n'
      · rw [receive_step_silent _ stateFn.lexComment l _
          (lexComment_stop l (Or.inl (by rw [hpeek, hnl]))) rfl]
        exact heolstep hnl
      · by_cases heof : c = eof
        · rw [receive_step_silent _ stateFn.lexComment l _
            (lexComment_stop l (Or.inr (by rw [hpeek, heof]))) rfl]
          exact receive_content_eof _ l hpos (by rw [hpeek, heof])
        · rw [receive_step_silent _ stateFn.lexComment l _
            (lexComment_go l (by rw [hpeek]; exact hnl) (by rw [hpeek]; exact heof)) rfl]
          have hb : blankOnly true rest' = true := by
            have hne : (c != '\n') = true := by simpa using hnl
            simpa [blankOnly, hne] using hblank
          obtain ⟨item, h', hr, h1, h2⟩ := ih true l.next.2.ignore hdrop2 rfl hp2 hb
          simp only [if_true] at hr
          exact ⟨item, h', receive_mono _ _ _ _ (by omega) hr, h1, h2⟩
    | false =>
      simp only [Bool.false_eq_true, if_false]
      rw [hfuel]
      have hextend : ∀ {h : lexHandle},
          (∃ item h', h.receive (2 * rest'.length + 2) = some (some item, h') ∧
            item.typ = itemEOF ∧ h'.state = none) →
          ∃ item h', h.receive (2 * rest'.length + 2 + 1) = some (some item, h') ∧
            item.typ = itemEOF ∧ h'.state = none := by
        rintro h ⟨item, h', hr, h1, h2⟩
        exact ⟨item, h', receive_mono _ _ _ _ (by omega) hr, h1, h2⟩
      by_cases hnl : c = '\n'
      · obtain ⟨item, h', hr, h1, h2⟩ := heolstep hnl
        exact ⟨item, h', receive_mono _ _ _ _ (by omega) hr, h1, h2⟩
      · by_cases hw : c = ' ' ∨ c = '\t' ∨ c = '\r'
        · rw [receive_step_silent _ stateFn.lexContent l _
            (lexContent_blank l hpos (by rw [hpeek]; exact hw)) rfl]
          have hb : blankOnly false rest' = true := by
            rcases hw with hw | hw | hw <;> subst hw <;> simpa [blankOnly] using hblank
          exact hextend (ih false l.next.2.ignore hdrop2 rfl hp2 hb)
        · have hw1 : ¬ c = ' ' := fun h => hw (Or.inl h)
          have hw2 : ¬ c = '\t' := fun h => hw (Or.inr (Or.inl h))
          have hw3 : ¬ c = '\r' := fun h => hw (Or.inr (Or.inr h))
          by_cases hsemi : c = ';'
          · rw [receive_step_silent _ stateFn.lexContent l _
              (lexContent_semicolon l hpos (by rw [hpeek]; exact hsemi)) rfl]
            have hb : blankOnly true rest' = true := by
              subst hsemi; simpa [blankOnly] using hblank
            exact hextend (ih true l.next.2.ignore hdrop2 rfl hp2 hb)
          · have hb : (c = '/' ∧ rest'.head? = some '/') ∧ blankOnly true rest' = true := by
              simpa [blankOnly, hnl, hw1, hw2, hw3, hsemi] using hblank
            obtain ⟨⟨hslash, hhead⟩, hb2⟩ := hb
            have hpeek2 : l.next.2.peek = '/' := by
              cases rest' with
              | nil => cases hhead
              | cons c2 rest2 =>
                simp only [List.head?_cons, Option.some.injEq] at hhead
                subst hhead
                exact peek_eq _ _ (drop_cons_pos hdrop2).1
            rw [receive_step_silent _ stateFn.lexContent l _
              (lexContent_slashes l hpos (by rw [hpeek]; exact hslash) hpeek2) rfl]
            exact hextend (ih true l.next.2.ignore hdrop2 rfl hp2 hb2)

/-! ## A digit run followed by a symbol character -/

theorem isValue_ne (d x : Char) (hd : isValue d = true) (hx : isValue x = false) : d ≠ x := by
  intro h
  subst h
  rw [hd] at hx
  cases hx

theorem isSymbol_of_isValue (d : Char) (hd : isValue d = true) : isSymbol d = false := by
  unfold isValue unicodeIsNumber at hd
  unfold isSymbol unicodeIsLetter
  simp only [Bool.and_eq_true, decide_eq_true_eq] at hd
  have h1 : d ≠ '_' := by
    intro h
    subst h
    revert hd
    decide
  simp only [Bool.or_eq_false_iff, Bool.and_eq_false_iff, decide_eq_false_iff_not, h1,
    not_false_eq_true, and_true]
  omega

theorem isValue_of_isSymbol (c : Char) (hc : isSymbol c = true) : isValue c = false := by
  cases hv : isValue c with
  | false => rfl
  | true => rw [isSymbol_of_isValue c hv] at hc; cases hc

theorem lexContent_digit (l : lexer) (hpos : l.pos = l.start) (hd : isValue l.peek = true) :
    lexContent l = { state := some stateFn.lexValue, sent := none, lex := l.next.2 } := by
  have hs : isSymbol l.next.1 = false := by rw [next_char]; exact isSymbol_of_isValue _ hd
  rw [lexContent_not_symbol l hpos hs, next_char]
  have h1 : isEOF l.peek = false := by
    unfold isEOF; simpa using isValue_ne _ eof hd (by decide)
  have h2 : isEOL l.peek = false := by
    unfold isEOL; simpa using isValue_ne _ eol hd (by decide)
  have h3 : ¬ l.peek = ';' := isValue_ne _ _ hd (by decide)
  have h4 : ¬ l.peek = '/' := isValue_ne _ _ hd (by decide)
  have h5 : isWhite l.peek = false := by
    unfold isWhite whites
    have ha := isValue_ne _ eof hd (by decide)
    have hb := isValue_ne _ eol hd (by decide)
    have hc := isValue_ne _ '\t' hd (by decide)
    have hd' := isValue_ne _ '\r' hd (by decide)
    have he := isValue_ne _ ' ' hd (by decide)
    have hb' : ¬ l.peek = '\n' := hb
    simp [ha, hb, hb', hc, hd', he]
  have h6 : isDirective l.peek = false := by
    unfold isDirective; simpa using isValue_ne _ '.' hd (by decide)
  simp only [h1, h2, h3, h4, h5, h6, hd, Bool.false_eq_true, if_false, if_true, decide_False,
    Bool.false_and, Bool.or_self]

theorem lexValue_digit (l : lexer) (hd : isValue l.peek = true) :
    lexValue l = { state := some stateFn.lexValue, sent := none, lex := l.next.2 } := by
  unfold lexValue
  dsimp only
  rw [next_char, hd]
  rfl

theorem lexValue_symbol (l : lexer) (hc : isSymbol l.peek = true) :
    lexValue l = emitThen l.next.2 itemError none := by
  unfold lexValue
  dsimp only
  rw [next_char, isValue_of_isSymbol _ hc, hc]
  rfl

theorem lexValue_run : ∀ (digits : List Char) (l : lexer) (c : Char) (rest : List Char),
    l.input.drop l.pos = digits ++ c :: rest → (∀ d ∈ digits, isValue d = true) →
    isSymbol c = true →
    ∃ h', (lexHandle.mk (some stateFn.lexValue) l).receive (digits.length + 1) =
        some (some { typ := itemError,
                     val := String.mk ((l.input.drop l.start).take
                       (l.pos + digits.length + 1 - l.start)),
                     start := l.start, end_ := l.pos + digits.length + 1 }, h') ∧
      h'.state = none := by
  intro digits
  induction digits with
  | nil =>
    intro l c rest hrest _ hc
    obtain ⟨hc1, _⟩ := drop_cons_pos hrest
    obtain ⟨_, hn2, hn3, hn4, _⟩ := next_of_some l c hc1
    refine ⟨_, receive_step_sent 0 stateFn.lexValue l _ _
      (lexValue_symbol l (by rw [peek_eq l c hc1]; exact hc)) ?_, rfl⟩
    rw [emitThen_eq]
    unfold lexer.emit
    simp only [hn2, hn3, hn4, List.length_nil, Nat.add_zero, reduceCtorEq, decide_False,
      Bool.false_and, Bool.false_eq_true, if_false]
  | cons d ds ih =>
    intro l c rest hrest hdigits hc
    obtain ⟨hd1, hdrop⟩ := drop_cons_pos hrest
    obtain ⟨_, hn2, hn3, hn4, _⟩ := next_of_some l d hd1
    have hd : isValue l.peek = true := by
      rw [peek_eq l d hd1]; exact hdigits d (List.mem_cons_self _ _)
    obtain ⟨h', hr, hclosed⟩ := ih l.next.2 c rest (by rw [hn3, hn2]; exact hdrop)
      (fun x hx => hdigits x (List.mem_cons_of_mem _ hx)) hc
    refine ⟨h', ?_, hclosed⟩
    rw [List.length_cons, receive_step_silent _ stateFn.lexValue l _ (lexValue_digit l hd) rfl]
    rw [hr, hn2, hn3, hn4]
    have : l.pos + 1 + ds.length + 1 = l.pos + (ds.length + 1) + 1 := by omega
    rw [this]

/-! ## A line that starts with no directive -/

theorem parseFileLoop_raise_after (fuel : Nat) (e : CompileError) :
    ∀ (k : Nat) (c before : compiler) (n : Nat) (programs : List (String × List Nat))
      (fileDefines : List Nat), c.afterLines fuel k = some before →
      (∀ programs' fileDefines',
        compiler.parseFileLoop fuel (n + 1) before programs' fileDefines' = Res.raise e) →
      compiler.parseFileLoop fuel (k + (n + 1)) c programs fileDefines = Res.raise e := by
  intro k
  induction k with
  | zero =>
    intro c before n programs fileDefines hafter hraise
    simp only [compiler.afterLines, Option.some.injEq] at hafter
    subst hafter
    rw [Nat.zero_add]
    exact hraise programs fileDefines
  | succ k ih =>
    intro c before n programs fileDefines hafter hraise
    unfold compiler.afterLines at hafter
    cases hline : c.parseLine fuel with
    | ok r =>
      obtain ⟨ast, c1⟩ := r
      cases ast with
      | none => simp [hline] at hafter
      | some a =>
        simp only [hline] at hafter
        have hk : k + 1 + (n + 1) = (k + (n + 1)) + 1 := by omega
        rw [hk]
        unfold compiler.parseFileLoop
        simp only [hline, Res.bind_def, Res.bind]
        cases a with
        | program name defines => exact ih c1 before n _ _ hafter hraise
        | define v =>
          dsimp only
          split
          · exact ih c1 before n _ _ hafter hraise
          · exact ih c1 before n _ _ hafter hraise
    | raise e' => simp [hline] at hafter
    | crash => simp [hline] at hafter
    | timeout => simp [hline] at hafter

/-! ## The order of defines and programs -/

theorem appendToLast_append (ps : List (String × List Nat)) (name : String) (ds : List Nat)
    (v : Nat) : compiler.appendToLast (ps ++ [(name, ds)]) v = ps ++ [(name, ds ++ [v])] := by
  induction ps with
  | nil => rfl
  | cons p rest ih =>
    cases rest with
    | nil =>
      obtain ⟨pn, pd⟩ := p
      simp [compiler.appendToLast]
    | cons q rest' =>
      obtain ⟨pn, pd⟩ := p
      simp only [List.cons_append] at ih ⊢
      unfold compiler.appendToLast
      rw [ih]

theorem parseFileLoop_eq (fuel : Nat) :
    ∀ (n : Nat) (c : compiler),
      (∀ fs, compiler.parseFileLoop fuel n c [] fs =
        Res.bind (c.parseLines fuel n) (fun r =>
          Res.ok (programsOf r.1, fs ++ definesBeforeProgram r.1, r.2))) ∧
      (∀ ps name ds fs, compiler.parseFileLoop fuel n c (ps ++ [(name, ds)]) fs =
        Res.bind (c.parseLines fuel n) (fun r =>
          Res.ok (ps ++ [(name, ds ++ definesBeforeProgram r.1)] ++ programsOf r.1, fs, r.2))) := by
  intro n
  induction n with
  | zero => intro c; exact ⟨fun fs => rfl, fun ps name ds fs => rfl⟩
  | succ n ih =>
    intro c
    constructor
    · intro fs
      unfold compiler.parseFileLoop compiler.parseLines
      simp only [Res.bind_def]
      cases hline : c.parseLine fuel with
      | ok r =>
        obtain ⟨ast, c1⟩ := r
        simp only [Res.bind]
        cases ast with
        | none => simp [Res.pure_def, definesBeforeProgram, programsOf]
        | some a =>
          cases a with
          | program name defines =>
            simp only
            rw [(ih c1).2 [] name defines fs]
            cases compiler.parseLines fuel n c1 with
            | ok r => simp [Res.bind, programsOf, definesBeforeProgram]
            | raise e => rfl
            | crash => rfl
            | timeout => rfl
          | define v =>
            simp only [List.length_nil, gt_iff_lt, Nat.lt_irrefl, if_false]
            rw [(ih c1).1 (fs ++ [v])]
            cases compiler.parseLines fuel n c1 with
            | ok r => simp [Res.bind, programsOf, definesBeforeProgram]
            | raise e => rfl
            | crash => rfl
            | timeout => rfl
      | raise e => rfl
      | crash => rfl
      | timeout => rfl
    · intro ps name ds fs
      unfold compiler.parseFileLoop compiler.parseLines
      simp only [Res.bind_def]
      cases hline : c.parseLine fuel with
      | ok r =>
        obtain ⟨ast, c1⟩ := r
        simp only [Res.bind]
        cases ast with
        | none => simp [Res.pure_def, definesBeforeProgram, programsOf]
        | some a =>
          cases a with
          | program name' defines =>
            simp only
            rw [(ih c1).2 (ps ++ [(name, ds)]) name' defines fs]
            cases compiler.parseLines fuel n c1 with
            | ok r => simp [Res.bind, programsOf, definesBeforeProgram]
            | raise e => rfl
            | crash => rfl
            | timeout => rfl
          | define v =>
            have hlen : (ps ++ [(name, ds)]).length > 0 := by simp
            simp only [hlen, if_true]
            rw [appendToLast_append, (ih c1).2 ps name (ds ++ [v]) fs]
            cases compiler.parseLines fuel n c1 with
            | ok r => simp [Res.bind, programsOf, definesBeforeProgram]
            | raise e => rfl
            | crash => rfl
            | timeout => rfl
      | raise e => rfl
      | crash => rfl
      | timeout => rfl

theorem foldl_append_join {α : Type} (f : α → String) (l : List α) (init : String) :
    l.foldl (fun b x => b ++ f x) init = init ++ String.join (l.map f) := by
  induction l generalizing init with
  | nil => simp [String.join]
  | cons x rest ih =>
    rw [List.foldl_cons, ih, List.map_cons]
    have hjoin : ∀ (a : String) (l : List String), String.join (a :: l) = a ++ String.join l := by
      intro a l
      apply String.ext
      simp [String.join_eq, String.data_append]
    rw [hjoin, String.append_assoc]

theorem eval_heap_length (g : compiler → String → Res (pioInt × compiler))
    (hg : ∀ c name v c', g c name = Res.ok (v, c') → c'.heap.length = c.heap.length)
    (e : AstExpr) :
    ∀ c v c', e.eval g c = Res.ok (v, c') → c'.heap.length = c.heap.length := by
  induction e with
  | AstValue p value =>
    intro c v c' h
    cases h
    rfl
  | AstIdentifier p name =>
    intro c v c' h
    exact hg c name v c' h
  | AstBinOp p name left right ihl ihr =>
    intro c v c' h
    simp only [AstExpr.eval, Res.bind_def, Res.bind_eq_ok, Res.pure_def] at h
    obtain ⟨⟨l, c1⟩, h1, ⟨r, c2⟩, h2, w, _, h4⟩ := h
    cases h4
    exact (ihr c1 r c2 h2).trans (ihl c l c1 h1)

theorem evaluateDefineWith_heap_length (g : compiler → String → Res (pioInt × compiler))
    (hg : ∀ c name v c', g c name = Res.ok (v, c') → c'.heap.length = c.heap.length)
    (c : compiler) (define : Nat) (c' : compiler)
    (h : evaluateDefineWith g c define = Res.ok c') : c'.heap.length = c.heap.length := by
  unfold evaluateDefineWith at h
  split at h
  · cases h
  · next d hd =>
    simp only [Res.bind_def, Res.bind_eq_ok, Res.pure_def] at h
    obtain ⟨⟨v, c1⟩, h1, h2⟩ := h
    cases h2
    simp only [List.length_modify]
    exact eval_heap_length g hg d.expr c v c1 h1

theorem getValueByIdentifier_heap_length (fuel : Nat) :
    ∀ c name v c', compiler.getValueByIdentifier fuel c name = Res.ok (v, c') →
      c'.heap.length = c.heap.length := by
  induction fuel with
  | zero =>
    intro c name v c' h
    unfold compiler.getValueByIdentifier at h
    split at h
    · cases h
    · split at h
      · cases h
      · split at h
        · cases h
        · cases h; rfl
  | succ fuel ih =>
    intro c name v c' h
    unfold compiler.getValueByIdentifier at h
    split at h
    · cases h
    · split at h
      · cases h
      · split at h
        · simp only [Res.bind_def, Res.bind_eq_ok] at h
          obtain ⟨c1, h1, h2⟩ := h
          have hs := evaluateDefineWith_heap_length _ ih _ _ _ h1
          split at h2
          · cases h2
          · cases h2; exact hs
        · cases h; rfl

theorem parseDefine_heap {fuel : Nat} {c : compiler} {l : line} {r : lineAst} {c' : compiler}
    (h : c.parseDefine fuel l = Res.ok (r, c')) :
    c'.heap.length = c.heap.length + 1 ∧ r = lineAst.define c.heap.length := by
  obtain ⟨l0, name, value, c2, _, h2, h3, h4⟩ := parseDefine_ok h
  have h5 := evaluateDefineWith_heap_length _ (getValueByIdentifier_heap_length fuel) _ _ _ h2
  have h6 := (registerDefine_frame h3).2.2.2
  refine ⟨?_, h4⟩
  rw [h6, h5]
  simp

theorem registerProgram_heap {c : compiler} {name : String} {item : lexItem} {c' : compiler}
    (h : c.registerProgram name item = Res.ok c') : c'.heap = c.heap := by
  unfold compiler.registerProgram at h
  split at h
  · simp [raiseError_eq] at h
  · cases h; rfl

theorem parseProgram_heap {c : compiler} {l : line} {r : lineAst} {c' : compiler}
    (h : c.parseProgram l = Res.ok (r, c')) : c'.heap = c.heap := by
  unfold compiler.parseProgram at h
  simp only [Res.bind_def, Res.bind_eq_ok, Res.pure_def] at h
  obtain ⟨l0, _, cond, _, id, _, c1, h1, h2⟩ := h
  cases h2
  exact registerProgram_heap h1

/-- A line leaves the defines of the heap in place and adds at most its own, at the address
it returns. -/
theorem parseLine_heap {fuel : Nat} {c : compiler} {r : Option lineAst} {c' : compiler}
    (h : c.parseLine fuel = Res.ok (r, c')) :
    c.heap.length ≤ c'.heap.length ∧ (∀ v, r = some (lineAst.define v) → v < c'.heap.length) ∧
    (∀ name defines, r = some (lineAst.program name defines) → defines = []) := by
  unfold compiler.parseLine at h
  simp only [Res.bind_def, Res.bind_eq_ok, Res.pure_def] at h
  obtain ⟨⟨l, c1⟩, h1, h2⟩ := h
  have hf := (nextLineLoop_frame fuel fuel c [] l c1 h1).2.2.2.2
  cases l with
  | nil =>
    cases h2
    exact ⟨by rw [hf], fun v hv => Option.noConfusion hv,
      fun name defines hv => Option.noConfusion hv⟩
  | cons item rest =>
    simp only at h2
    split at h2
    · simp only [Res.bind_eq_ok] at h2
      obtain ⟨⟨ast, c2⟩, h3, h4⟩ := h2
      cases h4
      obtain ⟨name, hr, _⟩ := parseProgram_ok h3
      refine ⟨by rw [parseProgram_heap h3, hf], ?_, ?_⟩
      · intro v hv; rw [hr] at hv; cases hv
      · intro name' defines hv; rw [hr] at hv; cases hv; rfl
    · split at h2
      · simp only [Res.bind_eq_ok] at h2
        obtain ⟨⟨ast, c2⟩, h3, h4⟩ := h2
        cases h4
        obtain ⟨h5, h6⟩ := parseDefine_heap h3
        refine ⟨by rw [h5, hf]; omega, ?_, ?_⟩
        · intro v hv; rw [h6] at hv; cases hv; rw [h5, hf]; omega
        · intro name defines hv; rw [h6] at hv; cases hv
      · split at h2
        · cases h2
          exact ⟨by rw [hf], fun v hv => Option.noConfusion hv,
            fun name defines hv => Option.noConfusion hv⟩
        · simp [raiseError_eq] at h2

theorem parseLines_heap (fuel : Nat) :
    ∀ (n : Nat) (c : compiler) (asts : List lineAst) (c' : compiler),
      c.parseLines fuel n = Res.ok (asts, c') →
      c.heap.length ≤ c'.heap.length ∧ (∀ v, lineAst.define v ∈ asts → v < c'.heap.length) ∧
      (∀ name defines, lineAst.program name defines ∈ asts → defines = []) := by
  intro n
  induction n with
  | zero => intro c asts c' h; cases h
  | succ n ih =>
    intro c asts c' h
    unfold compiler.parseLines at h
    rw [Res.bind_eq_ok] at h
    obtain ⟨⟨ast, c1⟩, h1, h2⟩ := h
    obtain ⟨h3, h4, h5⟩ := parseLine_heap h1
    cases ast with
    | none =>
      simp only [Res.ok.injEq, Prod.mk.injEq] at h2
      obtain ⟨rfl, rfl⟩ := h2
      exact ⟨h3, fun v hv => absurd hv (List.not_mem_nil _),
        fun name defines hv => absurd hv (List.not_mem_nil _)⟩
    | some a =>
      simp only [Res.bind_eq_ok] at h2
      obtain ⟨⟨rest, c2⟩, h6, h7⟩ := h2
      simp only [Res.ok.injEq, Prod.mk.injEq] at h7
      obtain ⟨rfl, rfl⟩ := h7
      obtain ⟨h8, h9, h10⟩ := ih c1 rest c2 h6
      refine ⟨Nat.le_trans h3 h8, ?_, ?_⟩
      · intro v hv
        rcases List.mem_cons.mp hv with hv | hv
        · exact Nat.lt_of_lt_of_le (h4 v (by rw [hv])) h8
        · exact h9 v hv
      · intro name defines hv
        rcases List.mem_cons.mp hv with hv | hv
        · exact h5 name defines (by rw [hv])
        · exact h10 name defines hv

/-! ## The parser does not look at the offsets of tokens -/

theorem sameLine_length {l1 l2 : line} (h : sameLine l1 l2) : l1.length = l2.length :=
  List.Forall₂.length_eq h

theorem withLex_declared (c : compiler) (h : lexHandle) (name : String) :
    (c.withLex h).getDefineDeclared name = c.getDefineDeclared name := rfl

theorem mirrors_primary (c c' : compiler) (sub sub' : Bool → line → Res (AstExpr × line))
    (hdecl : ∀ name, c'.getDefineDeclared name = c.getDefineDeclared name)
    (hsub : ∀ b, mirrors (sub b) (sub' b)) :
    mirrors (exprParser.parseExprSymbolsConsParens sub c)
      (exprParser.parseExprSymbolsConsParens sub' c') := by
  intro l1 l2 e rest1 hsame h
  cases hsame with
  | nil => simp [exprParser.parseExprSymbolsConsParens, line.index, Res.bind_def, Res.bind] at h
  | @cons head head' tail tail' hhead htail =>
    obtain ⟨htyp, hval⟩ := hhead
    by_cases hnum : head.typ = itemNumber
    · have hnum' : head'.typ = itemNumber := by rw [← htyp]; exact hnum
      simp [exprParser.parseExprSymbolsConsParens, line.index, hnum, exprParser.next,
        Res.bind_def, Res.bind, Res.pure_def] at h
      obtain ⟨rfl, rfl⟩ := h
      refine ⟨tail', htail, ?_⟩
      simp [exprParser.parseExprSymbolsConsParens, line.index, hnum', exprParser.next,
        Res.bind_def, Res.bind, Res.pure_def, hval]
    · have hnum' : ¬ head'.typ = itemNumber := by rw [← htyp]; exact hnum
      by_cases hsym : head.typ = itemSymbol
      · have hsym' : head'.typ = itemSymbol := by rw [← htyp]; exact hsym
        simp only [exprParser.parseExprSymbolsConsParens, line.index, hnum, hsym,
          exprParser.next, Res.bind_def, Res.bind, Res.pure_def, List.getElem?_cons_zero,
          if_true, if_false, reduceCtorEq] at h
        split at h
        · cases h
        · next hd =>
          cases h
          refine ⟨tail', htail, ?_⟩
          simp only [exprParser.parseExprSymbolsConsParens, line.index, hnum', hsym',
            exprParser.next, Res.bind_def, Res.bind, Res.pure_def, List.getElem?_cons_zero,
            if_true, if_false, reduceCtorEq]
          rw [hdecl, ← hval, if_neg hd]
      · have hsym' : ¬ head'.typ = itemSymbol := by rw [← htyp]; exact hsym
        by_cases hlp : head.typ = itemLParent
        · have hlp' : head'.typ = itemLParent := by rw [← htyp]; exact hlp
          rw [primary_paren sub c head tail hlp, Res.bind_eq_ok] at h
          obtain ⟨⟨e1, l1⟩, hs, hrest⟩ := h
          obtain ⟨l1', hl1, hQ⟩ := hsub true tail tail' e1 l1 htail hs
          cases hl1 with
          | nil => cases hrest
          | @cons rp rp' r r' hrp hr =>
            simp only at hrest
            split at hrest
            · next hrpt =>
              cases hrest
              refine ⟨r', hr, ?_⟩
              rw [primary_paren sub' c' head' tail' hlp', hQ]
              have : rp'.typ = itemRParent := by rw [← hrp.1]; exact hrpt
              simp [Res.bind, this]
            · cases hrest
        · simp [exprParser.parseExprSymbolsConsParens, line.index, hnum, hsym, hlp,
            exprParser.next, exprParser.expect, Res.bind_def, Res.bind, Res.pure_def,
            raiseError_eq] at h

theorem mirrors_levelLoop (isOp : itemType → Option operator) (flag : Bool)
    (operand operand' : line → Res (AstExpr × line)) (hop : mirrors operand operand') :
    ∀ fuel left l1 l2 e rest1, sameLine l1 l2 →
      levelLoop isOp flag operand fuel left l1 = Res.ok (e, rest1) →
      ∃ rest2, sameLine rest1 rest2 ∧
        levelLoop isOp flag operand' fuel left l2 = Res.ok (e, rest2) := by
  intro fuel
  induction fuel with
  | zero => intro left l1 l2 e rest1 _ h; cases h
  | succ fuel ih =>
    intro left l1 l2 e rest1 hsame h
    cases hsame with
    | nil =>
      cases h
      exact ⟨[], List.Forall₂.nil, rfl⟩
    | @cons head head' tail tail' hhead htail =>
      unfold levelLoop at h ⊢
      simp only at h ⊢
      rw [← hhead.1]
      cases hisop : isOp head.typ with
      | none =>
        simp only [hisop] at h ⊢
        cases h
        exact ⟨head' :: tail', List.Forall₂.cons hhead htail, rfl⟩
      | some name =>
        simp only [hisop] at h ⊢
        rw [Res.bind_eq_ok] at h
        obtain ⟨⟨e1, l1'⟩, h1, h2⟩ := h
        obtain ⟨r1, hr1, hQ1⟩ := hop tail tail' e1 l1' htail h1
        obtain ⟨r2, hr2, hQ2⟩ := ih _ _ _ _ _ hr1 h2
        refine ⟨r2, hr2, ?_⟩
        rw [hQ1]
        exact hQ2

theorem mirrors_levelParse (isOp : itemType → Option operator) (flag : Bool)
    (operand operand' : line → Res (AstExpr × line)) (hop : mirrors operand operand') :
    mirrors (levelParse isOp flag operand) (levelParse isOp flag operand') := by
  intro l1 l2 e rest1 hsame h
  unfold levelParse at h ⊢
  rw [Res.bind_eq_ok] at h
  obtain ⟨⟨e1, l1'⟩, h1, h2⟩ := h
  obtain ⟨r1, hr1, hQ1⟩ := hop l1 l2 e1 l1' hsame h1
  obtain ⟨r2, hr2, hQ2⟩ := mirrors_levelLoop isOp flag operand operand' hop _ _ _ _ _ _ hr1 h2
  refine ⟨r2, hr2, ?_⟩
  rw [hQ1]
  simp only [Res.bind]
  rw [← sameLine_length hr1]
  exact hQ2

theorem mirrors_binOrWith (c c' : compiler) (sub sub' : Bool → line → Res (AstExpr × line))
    (hdecl : ∀ name, c'.getDefineDeclared name = c.getDefineDeclared name)
    (hsub : ∀ b, mirrors (sub b) (sub' b)) (inParent : Bool) :
    mirrors (exprParser.parseExprBinOrWith sub c inParent)
      (exprParser.parseExprBinOrWith sub' c' inParent) := by
  have h5 := mirrors_primary c c' sub sub' hdecl hsub
  have h4 : mirrors (exprParser.parseExprMulDiv sub c) (exprParser.parseExprMulDiv sub' c') := by
    have := mirrors_levelParse mulDivOp false _ _ h5
    simpa only [← mulDiv_eq, mirrors] using this
  have h3 : mirrors (exprParser.parseExprPlusMinus sub c inParent)
      (exprParser.parseExprPlusMinus sub' c' inParent) := by
    have := mirrors_levelParse plusMinusOp inParent _ _ h4
    simpa only [← plusMinus_eq, mirrors] using this
  have h2 : mirrors (exprParser.parseExprBinAnd sub c inParent)
      (exprParser.parseExprBinAnd sub' c' inParent) := by
    have := mirrors_levelParse binAndOp inParent _ _ h3
    simpa only [← binAnd_eq, mirrors] using this
  have h1 : mirrors (exprParser.parseExprBinXor sub c inParent)
      (exprParser.parseExprBinXor sub' c' inParent) := by
    have := mirrors_levelParse binXorOp inParent _ _ h2
    simpa only [← binXor_eq, mirrors] using this
  have := mirrors_levelParse binOrOp inParent _ _ h1
  simpa only [← binOrWith_eq, mirrors] using this

theorem mirrors_binOr (c c' : compiler)
    (hdecl : ∀ name, c'.getDefineDeclared name = c.getDefineDeclared name) :
    ∀ n inParent, mirrors (exprParser.parseExprBinOr n c inParent)
      (exprParser.parseExprBinOr n c' inParent) := by
  intro n
  induction n with
  | zero => intro inParent l1 l2 e rest1 _ h; cases h
  | succ n ih => intro inParent; exact mirrors_binOrWith c c' _ _ hdecl ih inParent

theorem parseExpr_sameLine (c c' : compiler)
    (hdecl : ∀ name, c'.getDefineDeclared name = c.getDefineDeclared name) (l1 l2 : line)
    (e : AstExpr) (hsame : sameLine l1 l2) (h : c.parseExpr l1 = Res.ok e) :
    c'.parseExpr l2 = Res.ok e := by
  unfold compiler.parseExpr at h ⊢
  simp only [Res.bind_def, Res.bind_eq_ok, Res.pure_def] at h
  obtain ⟨⟨e1, rest1⟩, h1, h2⟩ := h
  cases h2
  obtain ⟨rest2, _, hQ⟩ := mirrors_binOr c c' hdecl _ false l1 l2 e1 rest1 hsame h1
  rw [← sameLine_length hsame, hQ]
  rfl

/-! ## Evaluation and registration do not look at the lexer -/

theorem eval_withLex (h : lexHandle) (g : compiler → String → Res (pioInt × compiler))
    (hg : ∀ c name v c', g c name = Res.ok (v, c') →
      g (c.withLex h) name = Res.ok (v, c'.withLex h)) :
    ∀ (e : AstExpr) (c : compiler) (v : pioInt) (c' : compiler),
      e.eval g c = Res.ok (v, c') → e.eval g (c.withLex h) = Res.ok (v, c'.withLex h) := by
  intro e
  induction e with
  | AstValue p value =>
    intro c v c' he
    simp only [AstExpr.eval, Res.ok.injEq, Prod.mk.injEq] at he ⊢
    obtain ⟨rfl, rfl⟩ := he
    exact ⟨rfl, rfl⟩
  | AstIdentifier p name =>
    intro c v c' he
    simp only [AstExpr.eval] at he ⊢
    exact hg c name v c' he
  | AstBinOp p name left right ihl ihr =>
    intro c v c' he
    simp only [AstExpr.eval, Res.bind_def, Res.pure_def, Res.bind_eq_ok] at he ⊢
    obtain ⟨⟨lv, c1⟩, hl, ⟨rv, c2⟩, hr, w, hw, hfin⟩ := he
    simp only [Res.ok.injEq, Prod.mk.injEq] at hfin
    obtain ⟨rfl, rfl⟩ := hfin
    exact ⟨(lv, c1.withLex h), ihl c lv c1 hl, (rv, c2.withLex h), ihr c1 rv c2 hr, w, hw, rfl⟩

theorem evaluateDefineWith_withLex (h : lexHandle)
    (g : compiler → String → Res (pioInt × compiler))
    (hg : ∀ c name v c', g c name = Res.ok (v, c') →
      g (c.withLex h) name = Res.ok (v, c'.withLex h))
    (c : compiler) (define : Nat) (c' : compiler)
    (he : evaluateDefineWith g c define = Res.ok c') :
    evaluateDefineWith g (c.withLex h) define = Res.ok (c'.withLex h) := by
  unfold evaluateDefineWith at he ⊢
  have hheap : (c.withLex h).heap = c.heap := rfl
  rw [hheap]
  cases hd : c.heap[define]? with
  | none => rw [hd] at he; cases he
  | some d =>
    rw [hd] at he
    simp only [Res.bind_def, Res.pure_def, Res.bind_eq_ok] at he ⊢
    obtain ⟨⟨v, c1⟩, h1, h2⟩ := he
    simp only [Res.ok.injEq] at h2
    subst h2
    exact ⟨(v, c1.withLex h), eval_withLex h g hg d.expr c v c1 h1, rfl⟩

theorem getValueByIdentifier_withLex (h : lexHandle) :
    ∀ (fuel : Nat) (c : compiler) (name : String) (v : pioInt) (c' : compiler),
      c.getValueByIdentifier fuel name = Res.ok (v, c') →
      (c.withLex h).getValueByIdentifier fuel name = Res.ok (v, c'.withLex h) := by
  intro fuel
  induction fuel with
  | zero =>
    intro c name v c' he
    unfold compiler.getValueByIdentifier at he ⊢
    rw [withLex_declared]
    have hheap : (c.withLex h).heap = c.heap := rfl
    rw [hheap]
    cases hdecl : c.getDefineDeclared name with
    | none => rw [hdecl] at he; cases he
    | some define =>
      rw [hdecl] at he
      simp only at he ⊢
      cases hd : c.heap[define]? with
      | none => rw [hd] at he; cases he
      | some d =>
        rw [hd] at he
        simp only at he ⊢
        split at he
        · cases he
        · simp only [Res.ok.injEq, Prod.mk.injEq] at he
          obtain ⟨rfl, rfl⟩ := he
          rename_i hev
          rw [if_neg hev]
  | succ fuel ih =>
    intro c name v c' he
    unfold compiler.getValueByIdentifier at he ⊢
    rw [withLex_declared]
    have hheap : (c.withLex h).heap = c.heap := rfl
    rw [hheap]
    cases hdecl : c.getDefineDeclared name with
    | none => rw [hdecl] at he; cases he
    | some define =>
      rw [hdecl] at he
      simp only at he ⊢
      cases hd : c.heap[define]? with
      | none => rw [hd] at he; cases he
      | some d =>
        rw [hd] at he
        simp only at he ⊢
        split at he
        · rename_i hev
          rw [if_pos hev]
          simp only [Res.bind_def, Res.pure_def, Res.bind_eq_ok] at he ⊢
          obtain ⟨c1, h1, h2⟩ := he
          refine ⟨c1.withLex h, evaluateDefineWith_withLex h _ ih c define c1 h1, ?_⟩
          have hheap1 : (c1.withLex h).heap = c1.heap := rfl
          rw [hheap1]
          cases hd1 : c1.heap[define]? with
          | none => rw [hd1] at h2; cases h2
          | some d1 =>
            rw [hd1] at h2
            simp only [Res.ok.injEq, Prod.mk.injEq] at h2 ⊢
            obtain ⟨rfl, rfl⟩ := h2
            exact ⟨rfl, rfl⟩
        · simp only [Res.ok.injEq, Prod.mk.injEq] at he
          obtain ⟨rfl, rfl⟩ := he
          rename_i hev
          rw [if_neg hev]

theorem evaluateDefine_withLex (h : lexHandle) (fuel : Nat) (c : compiler) (define : Nat)
    (c' : compiler) (he : c.evaluateDefine fuel define = Res.ok c') :
    (c.withLex h).evaluateDefine fuel define = Res.ok (c'.withLex h) :=
  evaluateDefineWith_withLex h _ (getValueByIdentifier_withLex h fuel) c define c' he

theorem registerDefine_withLex (h : lexHandle) (c : compiler) (define : Nat)
    (item item' : lexItem) (c' : compiler) (he : c.registerDefine define item = Res.ok c') :
    (c.withLex h).registerDefine define item' = Res.ok (c'.withLex h) := by
  unfold compiler.registerDefine at he ⊢
  have hheap : (c.withLex h).heap = c.heap := rfl
  have hcur : (c.withLex h).currentProgram = c.currentProgram := rfl
  rw [hheap, hcur]
  cases hd : c.heap[define]? with
  | none => rw [hd] at he; cases he
  | some d =>
    rw [hd] at he
    simp only at he ⊢
    rw [withLex_declared]
    by_cases hdecl : (c.getDefineDeclared d.name).isSome = true
    · rw [if_pos hdecl] at he
      simp [compiler.raiseError] at he
    · rw [if_neg hdecl] at he ⊢
      cases hp : c.currentProgram with
      | none =>
        rw [hp] at he
        simp only [Res.pure_def, Res.ok.injEq] at he ⊢
        subst he
        rfl
      | some program =>
        rw [hp] at he
        simp only [Res.pure_def, Res.ok.injEq] at he ⊢
        subst he
        rfl

theorem registerProgram_withLex (h : lexHandle) (c : compiler) (name : String)
    (item item' : lexItem) (c' : compiler) (he : c.registerProgram name item = Res.ok c') :
    (c.withLex h).registerProgram name item' = Res.ok (c'.withLex h) := by
  unfold compiler.registerProgram at he ⊢
  have hprog : (c.withLex h).programs = c.programs := rfl
  rw [hprog]
  split at he
  · simp [compiler.raiseError] at he
  · rename_i hany
    rw [if_neg hany]
    simp only [Res.pure_def, Res.ok.injEq] at he ⊢
    subst he
    rfl

/-! ## Lines of the same tokens are parsed alike -/

theorem parseDefine_ok_shape (fuel : Nat) (c : compiler) (l : line) (r : lineAst × compiler)
    (h : c.parseDefine fuel l = Res.ok r) :
    ∃ l0 l1 toks, l0.typ = itemDirDefine ∧ l1.typ = itemSymbol ∧
      (l = l0 :: l1 :: toks ∨ ∃ pub, pub.typ = itemPublic ∧ l = l0 :: pub :: l1 :: toks) := by
  cases l with
  | nil => simp [compiler.parseDefine, line.index, Res.bind_def, Res.bind] at h
  | cons l0 rest =>
    by_cases h0 : l0.typ = itemDirDefine
    · cases rest with
      | nil => simp [compiler.parseDefine, line.index, h0, Res.bind_def, Res.bind] at h
      | cons l1 rest =>
        by_cases h1 : l1.typ = itemSymbol
        · exact ⟨l0, l1, rest, h0, h1, Or.inl rfl⟩
        · by_cases hpub : l1.typ = itemPublic
          · cases rest with
            | nil =>
              simp [compiler.parseDefine, line.index, h0, hpub, Res.bind_def, Res.bind] at h
            | cons l2 rest =>
              by_cases h2 : l2.typ = itemSymbol
              · exact ⟨l0, l2, rest, h0, h2, Or.inr ⟨l1, hpub, rfl⟩⟩
              · simp [compiler.parseDefine, line.index, h0, h1, hpub, h2, Res.bind_def, Res.bind,
                  Res.pure_def, raiseError_eq] at h
          · simp [compiler.parseDefine, line.index, h0, h1, hpub, Res.bind_def, Res.bind,
              Res.pure_def, raiseError_eq] at h
    · simp [compiler.parseDefine, line.index, h0, Res.bind_def, Res.bind, Res.pure_def,
        raiseError_eq] at h

theorem parseDefine_plain_withLex (h : lexHandle) (fuel : Nat) (c : compiler)
    (l0 l1 l0' l1' : lexItem) (toks toks' : line) (r : lineAst) (c' : compiler)
    (h0 : l0.typ = itemDirDefine) (h1 : l1.typ = itemSymbol)
    (h0' : l0'.typ = itemDirDefine) (h1' : l1'.typ = itemSymbol) (hval : l1'.val = l1.val)
    (hsame : sameLine toks toks')
    (hok : c.parseDefine fuel (l0 :: l1 :: toks) = Res.ok (r, c')) :
    (c.withLex h).parseDefine fuel (l0' :: l1' :: toks') = Res.ok (r, c'.withLex h) := by
  rw [parseDefine_plain fuel c l0 l1 toks h0 h1] at hok
  rw [parseDefine_plain fuel (c.withLex h) l0' l1' toks' h0' h1']
  simp only [Res.bind_eq_ok] at hok ⊢
  obtain ⟨value, hv, c1, he, c2, hr, hfin⟩ := hok
  simp only [Res.ok.injEq, Prod.mk.injEq] at hfin
  obtain ⟨rfl, rfl⟩ := hfin
  refine ⟨value, parseExpr_sameLine c (c.withLex h) (withLex_declared c h) toks toks' value
    hsame hv, c1.withLex h, ?_, c2.withLex h, ?_, rfl⟩
  · rw [hval]
    exact evaluateDefine_withLex h fuel _ _ c1 he
  · exact registerDefine_withLex h c1 _ l0 l0' c2 hr

theorem parseDefine_sameLine (h : lexHandle) (fuel : Nat) (c : compiler) (l l' : line)
    (r : lineAst) (c' : compiler) (hsame : sameLine l l')
    (hok : c.parseDefine fuel l = Res.ok (r, c')) :
    (c.withLex h).parseDefine fuel l' = Res.ok (r, c'.withLex h) := by
  obtain ⟨l0, l1, toks, h0, h1, hl⟩ := parseDefine_ok_shape fuel c l (r, c') hok
  rcases hl with rfl | ⟨pub, hpub, rfl⟩
  · cases hsame with
    | cons hh0 hrest =>
      cases hrest with
      | cons hh1 hrest =>
        rename_i l0' l1' toks'
        exact parseDefine_plain_withLex h fuel c l0 l1 l0' l1' toks toks' r c' h0 h1
          (by rw [← hh0.1]; exact h0) (by rw [← hh1.1]; exact h1) hh1.2.symm hrest hok
  · cases hsame with
    | cons hh0 hrest =>
      cases hrest with
      | cons hhp hrest =>
        cases hrest with
        | cons hh1 hrest =>
          rename_i l0' pub' l1' toks'
          rw [parseDefine_public_eq fuel c l0 pub l1 toks h0 hpub h1] at hok
          rw [parseDefine_public_eq fuel (c.withLex h) l0' pub' l1' toks'
            (by rw [← hh0.1]; exact h0) (by rw [← hhp.1]; exact hpub)
            (by rw [← hh1.1]; exact h1)]
          exact parseDefine_plain_withLex h fuel c l0 l1 l0' l1' toks toks' r c' h0 h1
            (by rw [← hh0.1]; exact h0) (by rw [← hh1.1]; exact h1) hh1.2.symm hrest hok

theorem parseProgram_sameLine (h : lexHandle) (c : compiler) (l l' : line)
    (r : lineAst) (c' : compiler) (hsame : sameLine l l')
    (hok : c.parseProgram l = Res.ok (r, c')) :
    (c.withLex h).parseProgram l' = Res.ok (r, c'.withLex h) := by
  cases hsame with
  | nil => simp [compiler.parseProgram, line.index, Res.bind_def, Res.bind] at hok
  | @cons l0 l0' rest rest' hh0 hrest =>
    by_cases h0 : l0.typ = itemDirProgram
    · have h0' : l0'.typ = itemDirProgram := by rw [← hh0.1]; exact h0
      cases hrest with
      | nil => simp [compiler.parseProgram, line.index, h0, Res.bind_def, Res.bind] at hok
      | @cons l1 l1' rest rest' hh1 hrest =>
        by_cases h1 : l1.typ = itemSymbol
        · have h1' : l1'.typ = itemSymbol := by rw [← hh1.1]; exact h1
          simp only [compiler.parseProgram, line.index, h0, h1, Res.bind_def, Res.bind,
            Res.pure_def, List.getElem?_cons_zero, List.getElem?_cons_succ, if_true,
            decide_True] at hok
          simp only [compiler.parseProgram, line.index, h0', h1', Res.bind_def, Res.bind,
            Res.pure_def, List.getElem?_cons_zero, List.getElem?_cons_succ, if_true,
            decide_True]
          cases hreg : c.registerProgram l1.val l0 with
          | ok c1 =>
            rw [hreg] at hok
            simp only [Res.ok.injEq, Prod.mk.injEq] at hok
            obtain ⟨rfl, rfl⟩ := hok
            rw [← hh1.2, registerProgram_withLex h c l1.val l0 l0' c1 hreg]
          | raise e => rw [hreg] at hok; cases hok
          | crash => rw [hreg] at hok; cases hok
          | timeout => rw [hreg] at hok; cases hok
        · simp [compiler.parseProgram, line.index, h0, h1, Res.bind_def, Res.bind,
            Res.pure_def, raiseError_eq] at hok
    · simp [compiler.parseProgram, line.index, h0, Res.bind_def, Res.bind, Res.pure_def,
        raiseError_eq] at hok

/-! ## Two lexers at matching places of two texts -/

theorem slice_eq (s1 s2 : List Char) (d a b : Nat)
    (h : ∀ i, a ≤ i → i < b → s2[i + d]? = s1[i]?) :
    (s2.drop (a + d)).take (b + d - (a + d)) = (s1.drop a).take (b - a) := by
  apply List.ext_getElem?
  intro n
  rw [List.getElem?_take, List.getElem?_take]
  have hk : b + d - (a + d) = b - a := by omega
  rw [hk]
  by_cases hn : n < b - a
  · rw [if_pos hn, if_pos hn, List.getElem?_drop, List.getElem?_drop]
    have := h (a + n) (by omega) (by omega)
    rw [← this]
    congr 1
    omega
  · rw [if_neg hn, if_neg hn]

theorem lexRel_peek {s1 s2 : List Char} {d : Nat} {ok : Nat → Prop} {l1 l2 : lexer}
    (hag : agreeOn s1 s2 d ok) (hrel : lexRel s1 s2 d l1 l2) (hok : ok l1.pos) :
    l2.input[l2.pos]? = l1.input[l1.pos]? ∧ l2.peek = l1.peek := by
  obtain ⟨h1, h2, hpos, _, _, _⟩ := hrel
  have hin : l2.input[l2.pos]? = l1.input[l1.pos]? := by
    rw [h1, h2, hpos]
    exact hag l1.pos hok
  refine ⟨hin, ?_⟩
  unfold lexer.peek
  rw [hin]

theorem eolPending_iff_of_lastItem {a b a' b' : lexer} (ha : a'.lastItem = a.lastItem)
    (hb : b'.lastItem = b.lastItem) (h : eolPending b ↔ eolPending a) :
    (eolPending b' ↔ eolPending a') :=
  ⟨fun hp => eolPending_congr ha (h.mp (eolPending_congr hb.symm hp)),
    fun hp => eolPending_congr hb (h.mpr (eolPending_congr ha.symm hp))⟩

theorem lexRel_next {s1 s2 : List Char} {d : Nat} {ok : Nat → Prop} {l1 l2 : lexer}
    (hag : agreeOn s1 s2 d ok) (hrel : lexRel s1 s2 d l1 l2) (hok : ok l1.pos) :
    l2.next.1 = l1.next.1 ∧ lexRel s1 s2 d l1.next.2 l2.next.2 := by
  obtain ⟨hin, hpeek⟩ := lexRel_peek hag hrel hok
  obtain ⟨h1, h2, hpos, hstart, hwidth, hp⟩ := hrel
  refine ⟨by rw [next_char, next_char, hpeek], ?_, ?_, ?_, ?_, ?_, ?_⟩
  · rw [next_input, h1]
  · rw [next_input, h2]
  · rw [next_pos, next_pos, hin, hpos]
    split <;> omega
  · rw [next_start, next_start, hstart]
  · rw [next_width, next_width, hin]
  · exact eolPending_iff_of_lastItem (next_lastItem l1) (next_lastItem l2) hp

theorem lexRel_back {s1 s2 : List Char} {d : Nat} {l1 l2 : lexer}
    (hrel : lexRel s1 s2 d l1 l2) : lexRel s1 s2 d l1.back l2.back := by
  obtain ⟨h1, h2, hpos, hstart, hwidth, hp⟩ := hrel
  exact ⟨h1, h2, hstart, hstart, rfl, hp⟩

theorem lexRel_ignore {s1 s2 : List Char} {d : Nat} {l1 l2 : lexer}
    (hrel : lexRel s1 s2 d l1 l2) : lexRel s1 s2 d l1.ignore l2.ignore := by
  obtain ⟨h1, h2, hpos, hstart, hwidth, hp⟩ := hrel
  exact ⟨h1, h2, hpos, hpos, hwidth, hp⟩

theorem next_backup_fields (l : lexer) :
    l.next.2.backup.input = l.input ∧ l.next.2.backup.start = l.start ∧
      l.next.2.backup.lastItem = l.lastItem ∧ l.next.2.backup.width = l.next.2.width :=
  ⟨next_input l, next_start l, next_lastItem l, rfl⟩

theorem lexRel_next_backup {s1 s2 : List Char} {d : Nat} {ok : Nat → Prop} {l1 l2 : lexer}
    (hag : agreeOn s1 s2 d ok) (hrel : lexRel s1 s2 d l1 l2) (hok : ok l1.pos) :
    lexRel s1 s2 d l1.next.2.backup l2.next.2.backup := by
  obtain ⟨_, hn⟩ := lexRel_next hag hrel hok
  obtain ⟨h1, h2, hpos, hstart, hwidth, hp⟩ := hrel
  obtain ⟨n1, n2, _, nstart, nwidth, np⟩ := hn
  refine ⟨n1, n2, ?_, nstart, nwidth, np⟩
  rw [next_backup_pos, next_backup_pos, hpos]

theorem emit_none_iff (l : lexer) (t : itemType) :
    (l.emit t).1 = none ↔ t = itemEOL ∧ eolPending l := by
  unfold lexer.emit eolPending
  dsimp only
  cases hl : l.lastItem with
  | none => by_cases ht : t = itemEOL <;> simp [ht]
  | some last => by_cases ht : t = itemEOL <;> simp [ht]

theorem emit_lastItem (l : lexer) (t : itemType) :
    ∃ item, (l.emit t).2.lastItem = some item ∧ item.typ = t := ⟨_, rfl, rfl⟩

theorem eolPending_emit (l : lexer) (t : itemType) : eolPending (l.emit t).2 ↔ t = itemEOL := by
  constructor
  · intro h
    exact h _ rfl
  · intro h last hl
    cases hl
    exact h

theorem lexRel_text {s1 s2 : List Char} {d : Nat} {ok : Nat → Prop} {l1 l2 : lexer}
    (hag : agreeOn s1 s2 d ok) (hrel : lexRel s1 s2 d l1 l2)
    (hwin : ∀ i, l1.start ≤ i → i < l1.pos → ok i) :
    (l2.input.drop l2.start).take (l2.pos - l2.start) =
      (l1.input.drop l1.start).take (l1.pos - l1.start) := by
  obtain ⟨h1, h2, hpos, hstart, hwidth, hp⟩ := hrel
  rw [h1, h2, hpos, hstart]
  exact slice_eq s1 s2 d l1.start l1.pos (fun i hi hi' => hag i (hwin i hi hi'))

theorem lexRel_emit {s1 s2 : List Char} {d : Nat} {ok : Nat → Prop} {l1 l2 : lexer}
    (hag : agreeOn s1 s2 d ok) (hrel : lexRel s1 s2 d l1 l2)
    (hwin : ∀ i, l1.start ≤ i → i < l1.pos → ok i) (t : itemType) :
    sameSent (l1.emit t).1 (l2.emit t).1 ∧ lexRel s1 s2 d (l1.emit t).2 (l2.emit t).2 := by
  have htext := lexRel_text hag hrel hwin
  obtain ⟨h1, h2, hpos, hstart, hwidth, hp⟩ := hrel
  constructor
  · by_cases hdrop : t = itemEOL ∧ eolPending l1
    · left
      exact ⟨(emit_none_iff l1 t).mpr hdrop, (emit_none_iff l2 t).mpr ⟨hdrop.1, hp.mpr hdrop.2⟩⟩
    · right
      have hn1 : (l1.emit t).1 ≠ none := fun h => hdrop ((emit_none_iff l1 t).mp h)
      have hn2 : (l2.emit t).1 ≠ none := fun h =>
        hdrop ⟨((emit_none_iff l2 t).mp h).1, hp.mp ((emit_none_iff l2 t).mp h).2⟩
      obtain ⟨x, hx⟩ := Option.ne_none_iff_exists'.mp hn1
      obtain ⟨y, hy⟩ := Option.ne_none_iff_exists'.mp hn2
      refine ⟨x, y, hx, hy, ?_⟩
      obtain ⟨xt, _, _, xv⟩ := emit_sent l1 t x hx
      obtain ⟨yt, _, _, yv⟩ := emit_sent l2 t y hy
      exact ⟨by rw [xt, yt], by rw [xv, yv, htext]⟩
  · refine ⟨h1, h2, hpos, hpos, hwidth, ?_⟩
    rw [eolPending_emit, eolPending_emit]

/-! ## Keywords read by two lexers at matching places -/

theorem acceptLoop_nil (l : lexer) :
    lexer.acceptStringCILoop [] l = if isWordEnd l.peek then (true, l) else (false, l.back) := by
  unfold lexer.acceptStringCILoop
  rfl

theorem acceptLoop_cons (r : Char) (rs : List Char) (l : lexer) :
    lexer.acceptStringCILoop (r :: rs) l =
      if unicodeToUpper l.next.1 ≠ unicodeToUpper r then (false, l.next.2.back)
      else lexer.acceptStringCILoop rs l.next.2 := by
  rw [lexer.acceptStringCILoop]

theorem next_pos_le (l : lexer) : l.pos ≤ l.next.2.pos ∧ l.next.2.pos ≤ l.pos + 1 := by
  rw [next_pos]
  split <;> omega

theorem lexRel_acceptLoop {s1 s2 : List Char} {d : Nat} {ok : Nat → Prop}
    (hag : agreeOn s1 s2 d ok) :
    ∀ (s : List Char) (l1 l2 : lexer), lexRel s1 s2 d l1 l2 →
      (∀ i, l1.pos ≤ i → i ≤ l1.pos + s.length → ok i) →
      (lexer.acceptStringCILoop s l2).1 = (lexer.acceptStringCILoop s l1).1 ∧
      lexRel s1 s2 d (lexer.acceptStringCILoop s l1).2 (lexer.acceptStringCILoop s l2).2 ∧
      (lexer.acceptStringCILoop s l1).2.start = l1.start ∧
      ((lexer.acceptStringCILoop s l1).1 = true →
        l1.pos ≤ (lexer.acceptStringCILoop s l1).2.pos ∧
          (lexer.acceptStringCILoop s l1).2.pos ≤ l1.pos + s.length) ∧
      ((lexer.acceptStringCILoop s l1).1 = false →
        (lexer.acceptStringCILoop s l1).2.pos = l1.start) := by
  intro s
  induction s with
  | nil =>
    intro l1 l2 hrel hwin
    obtain ⟨_, hpeek⟩ := lexRel_peek hag hrel (hwin l1.pos (le_refl _) (by simp))
    rw [acceptLoop_nil, acceptLoop_nil, hpeek]
    by_cases hw : isWordEnd l1.peek = true
    · rw [if_pos hw, if_pos hw]
      exact ⟨rfl, hrel, rfl, fun _ => ⟨le_refl _, by simp⟩, fun h => Bool.noConfusion h⟩
    · rw [if_neg hw, if_neg hw]
      exact ⟨rfl, lexRel_back hrel, rfl, fun h => Bool.noConfusion h, fun _ => rfl⟩
  | cons r rs ih =>
    intro l1 l2 hrel hwin
    obtain ⟨hc, hn⟩ := lexRel_next hag hrel (hwin l1.pos (le_refl _) (by simp))
    rw [acceptLoop_cons, acceptLoop_cons, hc]
    by_cases hne : unicodeToUpper l1.next.1 ≠ unicodeToUpper r
    · rw [if_pos hne, if_pos hne]
      exact ⟨rfl, lexRel_back hn, next_start l1, fun h => Bool.noConfusion h, fun _ => next_start l1⟩
    · rw [if_neg hne, if_neg hne]
      have hp := next_pos_le l1
      obtain ⟨h1, h2, h3, h4, h5⟩ := ih l1.next.2 l2.next.2 hn (by
        intro i hi hi'
        refine hwin i (by omega) ?_
        simp only [List.length_cons]
        omega)
      refine ⟨h1, h2, by rw [h3, next_start], ?_, ?_⟩
      · intro ht
        have := h4 ht
        simp only [List.length_cons]
        omega
      · intro hf
        rw [h5 hf, next_start]

theorem acceptKeyword_nil (l : lexer) : acceptKeyword [] l = (none, l) := rfl

theorem acceptKeyword_cons (s : String) (t : itemType) (rest : List (String × itemType))
    (l : lexer) :
    acceptKeyword ((s, t) :: rest) l =
      if (lexer.acceptStringCILoop s.data l).1 = true
      then (some t, (lexer.acceptStringCILoop s.data l).2)
      else acceptKeyword rest (lexer.acceptStringCILoop s.data l).2 := by
  rw [acceptKeyword]
  rfl

theorem lexRel_acceptKeyword {s1 s2 : List Char} {d : Nat} {ok : Nat → Prop}
    (hag : agreeOn s1 s2 d ok) :
    ∀ (ks : List (String × itemType)) (l1 l2 : lexer), lexRel s1 s2 d l1 l2 →
      l1.start ≤ l1.pos →
      (∀ i, l1.start ≤ i → i < l1.pos → ok i) →
      (∀ k, ks.head? = some k → ∀ i, l1.pos ≤ i → i ≤ l1.pos + k.1.data.length → ok i) →
      (∀ k ∈ ks.tail, ∀ i, l1.start ≤ i → i ≤ l1.start + k.1.data.length → ok i) →
      (acceptKeyword ks l2).1 = (acceptKeyword ks l1).1 ∧
      lexRel s1 s2 d (acceptKeyword ks l1).2 (acceptKeyword ks l2).2 ∧
      (acceptKeyword ks l1).2.start = l1.start ∧
      l1.start ≤ (acceptKeyword ks l1).2.pos ∧
      (∀ i, l1.start ≤ i → i < (acceptKeyword ks l1).2.pos → ok i) ∧
      ((acceptKeyword ks l1).1 = none → ks ≠ [] → (acceptKeyword ks l1).2.pos = l1.start) := by
  intro ks
  induction ks with
  | nil =>
    intro l1 l2 hrel hle hmid _ _
    exact ⟨rfl, hrel, rfl, hle, hmid, fun _ h => absurd rfl h⟩
  | cons k rest ih =>
    intro l1 l2 hrel hle hmid hfirst hrest
    obtain ⟨s, t⟩ := k
    obtain ⟨h1, h2, h3, h4, h5⟩ := lexRel_acceptLoop hag s.data l1 l2 hrel
      (hfirst (s, t) rfl)
    rw [acceptKeyword_cons, acceptKeyword_cons, h1]
    by_cases hok : (lexer.acceptStringCILoop s.data l1).1 = true
    · rw [if_pos hok, if_pos hok]
      obtain ⟨hlo, hhi⟩ := h4 hok
      dsimp only
      refine ⟨rfl, h2, h3, by omega, ?_, fun h => Option.noConfusion h⟩
      intro i hi hi'
      by_cases hlt : i < l1.pos
      · exact hmid i hi hlt
      · exact hfirst (s, t) rfl i (by omega) (by show i ≤ l1.pos + s.data.length; omega)
    · rw [if_neg hok, if_neg hok]
      have hfalse : (lexer.acceptStringCILoop s.data l1).1 = false := by
        cases hb : (lexer.acceptStringCILoop s.data l1).1 with
        | true => exact absurd hb hok
        | false => rfl
      have hpos := h5 hfalse
      obtain ⟨g1, g2, g3, g4, g5, g6⟩ := ih _ _ h2 (by rw [h3, hpos])
        (by intro i hi hi'; rw [h3] at hi; rw [hpos] at hi'; omega)
        (by
          intro k hk i hi hi'
          rw [hpos] at hi hi'
          refine hrest k ?_ i hi hi'
          cases rest with
          | nil => cases hk
          | cons k' rest' =>
            cases hk
            exact List.mem_cons_self _ _)
        (by
          intro k hk i hi hi'
          rw [h3] at hi hi'
          refine hrest k ?_ i hi hi'
          exact List.mem_of_mem_tail hk)
      rw [h3] at g3 g4 g5
      refine ⟨g1, g2, g3, g4, g5, ?_⟩
      intro hnone _
      by_cases hr : rest = []
      · subst hr
        exact hpos
      · rw [g6 hnone hr, h3]

/-! ## A call of a state function on two lexers at matching places -/

theorem stepRel_emit {s1 s2 : List Char} {d : Nat} {ok : Nat → Prop} {L1 L2 : lexer}
    (hag : agreeOn s1 s2 d ok) (lo hi : Nat) (hrel : lexRel s1 s2 d L1 L2)
    (hwin : ∀ i, L1.start ≤ i → i < L1.pos → ok i) (hlo : lo ≤ L1.pos) (t : itemType)
    (state : Option stateFn) (hs : state = some stateFn.lexContent ∨ state = none) :
    stepRel s1 s2 d lo hi (emitThen L1 t state) (emitThen L2 t state) := by
  obtain ⟨h1, h2⟩ := lexRel_emit hag hrel hwin t
  rw [emitThen_eq, emitThen_eq]
  refine ⟨rfl, h1, h2, hlo, le_refl _, Or.inl ⟨rfl, ?_⟩⟩
  rcases hs with hs | hs
  · exact Or.inl hs
  · exact Or.inr (Or.inr hs)

theorem stepRel_ignore {s1 s2 : List Char} {d : Nat} {L1 L2 : lexer}
    (lo hi : Nat) (hrel : lexRel s1 s2 d L1 L2) (hlo : lo ≤ L1.pos)
    (state : Option stateFn)
    (hs : state = some stateFn.lexContent ∨ state = some stateFn.lexComment) :
    stepRel s1 s2 d lo hi { state := state, sent := none, lex := L1.ignore }
      { state := state, sent := none, lex := L2.ignore } := by
  refine ⟨rfl, Or.inl ⟨rfl, rfl⟩, lexRel_ignore hrel, hlo, le_refl _, Or.inl ⟨rfl, ?_⟩⟩
  rcases hs with hs | hs
  · exact Or.inl hs
  · exact Or.inr (Or.inl hs)

theorem stepRel_silent {s1 s2 : List Char} {d : Nat} {L1 L2 : lexer}
    (lo hi : Nat) (hrel : lexRel s1 s2 d L1 L2) (hstart : L1.start = lo) (hlo : lo ≤ L1.pos)
    (hhi : L1.pos ≤ hi) (state : Option stateFn) :
    stepRel s1 s2 d lo hi { state := state, sent := none, lex := L1 }
      { state := state, sent := none, lex := L2 } :=
  ⟨rfl, Or.inl ⟨rfl, rfl⟩, hrel, by rw [hstart], by rw [hstart]; exact hlo,
    Or.inr ⟨rfl, hstart, hhi⟩⟩

theorem stepRel_ite {s1 s2 : List Char} {d lo hi : Nat} {p : Prop} [Decidable p]
    {a1 b1 a2 b2 : lexStep} (ha : stepRel s1 s2 d lo hi a1 a2)
    (hb : stepRel s1 s2 d lo hi b1 b2) :
    stepRel s1 s2 d lo hi (if p then a1 else b1) (if p then a2 else b2) := by
  split
  · exact ha
  · exact hb

theorem keywords_head : keywords.head? = some ("jmp", itemInstrJMP) := rfl

theorem keywords_length : ∀ k ∈ keywords, k.1.data.length ≤ 8 := by
  have hall : keywords.all (fun k => decide (k.1.data.length ≤ 8)) = true := by decide
  intro k hk
  exact of_decide_eq_true (List.all_eq_true.mp hall k hk)

theorem lexContent_rel {s1 s2 : List Char} {d : Nat} {ok : Nat → Prop}
    (hag : agreeOn s1 s2 d ok) (l1 l2 : lexer) (hrel : lexRel s1 s2 d l1 l2)
    (hle : l1.start ≤ l1.pos)
    (hwin : ∀ i, l1.start ≤ i → i ≤ max (l1.pos + 3) (l1.start + 8) → ok i) :
    stepRel s1 s2 d l1.start (l1.start + 1) (lexContent l1) (lexContent l2) := by
  obtain ⟨g1, g2, g3, g4, g5, g6⟩ := lexRel_acceptKeyword hag keywords l1 l2 hrel hle
    (fun i hi hi' => hwin i hi (by omega))
    (by
      intro k hk i hi hi'
      rw [keywords_head] at hk
      cases hk
      exact hwin i (by omega) (le_trans hi' (le_max_left _ _)))
    (by
      intro k hk i hi hi'
      have := keywords_length k (List.mem_of_mem_tail hk)
      exact hwin i hi (le_trans (by omega) (le_max_right _ _)))
  unfold lexContent
  rcases hk1 : acceptKeyword keywords l1 with ⟨r1, L1⟩
  rcases hk2 : acceptKeyword keywords l2 with ⟨r2, L2⟩
  rw [hk1, hk2] at g1 g2
  rw [hk1] at g3 g4 g5 g6
  dsimp only at g1 g2 g3 g4 g5 g6
  subst g1
  cases r2 with
  | some t =>
    dsimp only
    exact stepRel_emit hag _ _ g2 (fun i hi hi' => g5 i (by rw [← g3]; exact hi) hi') g4 t _
      (Or.inl rfl)
  | none =>
    have hpos : L1.pos = l1.start := g6 rfl (by decide)
    have hok0 : ok L1.pos := by
      rw [hpos]
      exact hwin _ (le_refl _) (le_trans (by omega) (le_max_right _ _))
    obtain ⟨hc, hn⟩ := lexRel_next hag g2 hok0
    have hnp := next_pos_le L1
    have hns : L1.next.2.start = l1.start := by rw [next_start, g3]
    obtain ⟨_, hpk⟩ := lexRel_peek hag hn
      (hwin _ (by omega) (le_trans (by omega) (le_max_right _ _)))
    have hwin' : ∀ i, L1.next.2.start ≤ i → i < L1.next.2.pos → ok i := by
      intro i hi hi'
      exact hwin i (by omega) (le_trans (by omega) (le_max_right _ _))
    have hlo : l1.start ≤ L1.next.2.pos := by omega
    have hhi : L1.next.2.pos ≤ l1.start + 1 := by omega
    dsimp only
    rw [hc, hpk]
    repeat' first
      | apply stepRel_ite
      | exact stepRel_emit hag _ _ hn hwin' hlo _ _ (Or.inl rfl)
      | exact stepRel_emit hag _ _ hn hwin' hlo _ _ (Or.inr rfl)
      | exact stepRel_ignore _ _ hn hlo _ (Or.inl rfl)
      | exact stepRel_ignore _ _ hn hlo _ (Or.inr rfl)
      | exact stepRel_silent _ _ hn hns hlo hhi _

theorem lexSymbolOrLabel_rel {s1 s2 : List Char} {d : Nat} {ok : Nat → Prop}
    (hag : agreeOn s1 s2 d ok) (l1 l2 : lexer) (hrel : lexRel s1 s2 d l1 l2)
    (hle : l1.start ≤ l1.pos) (hwin : ∀ i, l1.start ≤ i → i ≤ l1.pos → ok i) :
    stepRel s1 s2 d l1.start (l1.pos + 1) (lexSymbolOrLabel l1) (lexSymbolOrLabel l2) := by
  have hok0 : ok l1.pos := hwin _ hle (le_refl _)
  obtain ⟨hc, hn⟩ := lexRel_next hag hrel hok0
  have hb := lexRel_next_backup hag hrel hok0
  have hnp := next_pos_le l1
  have hns : l1.next.2.start = l1.start := next_start l1
  have hwin' : ∀ i, l1.next.2.start ≤ i → i < l1.next.2.pos → ok i := by
    intro i hi hi'
    exact hwin i (by omega) (by omega)
  have hwinb : ∀ i, l1.next.2.backup.start ≤ i → i < l1.next.2.backup.pos → ok i := by
    intro i hi hi'
    rw [next_backup_pos] at hi'
    rw [(next_backup_fields l1).2.1] at hi
    exact hwin i hi (by omega)
  unfold lexSymbolOrLabel
  dsimp only
  rw [hc]
  refine stepRel_ite (stepRel_ite ?_ ?_) ?_
  · exact stepRel_emit hag _ _ hn hwin' (by omega) _ _ (Or.inl rfl)
  · exact stepRel_emit hag _ _ hb hwinb (by rw [next_backup_pos]; exact hle) _ _ (Or.inl rfl)
  · exact stepRel_silent _ _ hn hns (by omega) (by omega) _

theorem lexDirective_rel {s1 s2 : List Char} {d : Nat} {ok : Nat → Prop}
    (hag : agreeOn s1 s2 d ok) (l1 l2 : lexer) (hrel : lexRel s1 s2 d l1 l2)
    (hle : l1.start ≤ l1.pos) (hwin : ∀ i, l1.start ≤ i → i ≤ l1.pos → ok i) :
    stepRel s1 s2 d l1.start (l1.pos + 1) (lexDirective l1) (lexDirective l2) := by
  have hok0 : ok l1.pos := hwin _ hle (le_refl _)
  obtain ⟨hc, hn⟩ := lexRel_next hag hrel hok0
  have hb := lexRel_next_backup hag hrel hok0
  have hnp := next_pos_le l1
  have hns : l1.next.2.start = l1.start := next_start l1
  have hbs : l1.next.2.backup.start = l1.start := (next_backup_fields l1).2.1
  have hwinb : ∀ i, l1.next.2.backup.start ≤ i → i < l1.next.2.backup.pos → ok i := by
    intro i hi hi'
    rw [next_backup_pos] at hi'
    rw [hbs] at hi
    exact hwin i hi (by omega)
  have htext := lexRel_text hag hb hwinb
  unfold lexDirective
  dsimp only
  rw [hc, htext]
  refine stepRel_ite ?_ ?_
  · cases directiveType
        (String.mk ((l1.next.2.backup.input.drop l1.next.2.backup.start).take
          (l1.next.2.backup.pos - l1.next.2.backup.start))) with
    | some t =>
      exact stepRel_emit hag _ _ hb hwinb (by rw [next_backup_pos]; exact hle) _ _ (Or.inl rfl)
    | none =>
      exact stepRel_silent _ _ hb hbs (by rw [next_backup_pos]; exact hle)
        (by rw [next_backup_pos]; omega) _
  · exact stepRel_silent _ _ hn hns (by omega) (by omega) _

theorem lexValue_rel {s1 s2 : List Char} {d : Nat} {ok : Nat → Prop}
    (hag : agreeOn s1 s2 d ok) (l1 l2 : lexer) (hrel : lexRel s1 s2 d l1 l2)
    (hle : l1.start ≤ l1.pos) (hwin : ∀ i, l1.start ≤ i → i ≤ l1.pos → ok i) :
    stepRel s1 s2 d l1.start (l1.pos + 1) (lexValue l1) (lexValue l2) := by
  have hok0 : ok l1.pos := hwin _ hle (le_refl _)
  obtain ⟨hc, hn⟩ := lexRel_next hag hrel hok0
  have hb := lexRel_next_backup hag hrel hok0
  have hnp := next_pos_le l1
  have hns : l1.next.2.start = l1.start := next_start l1
  have hwin' : ∀ i, l1.next.2.start ≤ i → i < l1.next.2.pos → ok i := by
    intro i hi hi'
    exact hwin i (by omega) (by omega)
  have hwinb : ∀ i, l1.next.2.backup.start ≤ i → i < l1.next.2.backup.pos → ok i := by
    intro i hi hi'
    rw [next_backup_pos] at hi'
    rw [(next_backup_fields l1).2.1] at hi
    exact hwin i hi (by omega)
  unfold lexValue
  dsimp only
  rw [hc]
  refine stepRel_ite (stepRel_ite ?_ ?_) ?_
  · exact stepRel_emit hag _ _ hn hwin' (by omega) _ _ (Or.inr rfl)
  · exact stepRel_emit hag _ _ hb hwinb (by rw [next_backup_pos]; exact hle) _ _ (Or.inl rfl)
  · exact stepRel_silent _ _ hn hns (by omega) (by omega) _

theorem lexComment_rel {s1 s2 : List Char} {d : Nat} {ok : Nat → Prop}
    (hag : agreeOn s1 s2 d ok) (l1 l2 : lexer) (hrel : lexRel s1 s2 d l1 l2)
    (hle : l1.start ≤ l1.pos) (hwin : ∀ i, l1.start ≤ i → i ≤ l1.pos → ok i) :
    stepRel s1 s2 d l1.start (l1.pos + 1) (lexComment l1) (lexComment l2) := by
  have hok0 : ok l1.pos := hwin _ hle (le_refl _)
  obtain ⟨hc, hn⟩ := lexRel_next hag hrel hok0
  obtain ⟨_, hpk⟩ := lexRel_peek hag hrel hok0
  have hnp := next_pos_le l1
  unfold lexComment
  dsimp only
  rw [hpk]
  refine stepRel_ite ?_ ?_
  · exact stepRel_silent _ _ hrel rfl hle (by omega) _
  · exact stepRel_ignore _ _ hn (by omega) _ (Or.inr rfl)

/-- A call of a state function on two lexers at matching places of two texts that agree
on what the call may read has matching outcomes. -/
theorem step_rel {s1 s2 : List Char} {d : Nat} {ok : Nat → Prop}
    (hag : agreeOn s1 s2 d ok) (state : stateFn) (l1 l2 : lexer)
    (hrel : lexRel s1 s2 d l1 l2) (hle : l1.start ≤ l1.pos)
    (hwin : ∀ i, l1.start ≤ i → i ≤ readBound state l1 → ok i) :
    stepRel s1 s2 d l1.start (stepBound state l1) (state.step l1) (state.step l2) := by
  cases state with
  | lexContent => exact lexContent_rel hag l1 l2 hrel hle hwin
  | lexSymbolOrLabel => exact lexSymbolOrLabel_rel hag l1 l2 hrel hle hwin
  | lexDirective => exact lexDirective_rel hag l1 l2 hrel hle hwin
  | lexValue => exact lexValue_rel hag l1 l2 hrel hle hwin
  | lexComment => exact lexComment_rel hag l1 l2 hrel hle hwin

theorem lexRel_refl (l : lexer) : lexRel l.input l.input 0 l l :=
  ⟨rfl, rfl, rfl, rfl, rfl, Iff.rfl⟩

theorem agreeOn_refl (s : List Char) : agreeOn s s 0 (fun _ => True) := fun _ _ => rfl

/-- Where a call of a state function leaves the lexer: `start` does not go back, and either
a token starts where the lexer stands, or `start` is unchanged, nothing was sent and `pos`
is within the bound. -/
theorem step_where (state : stateFn) (l : lexer) (hle : l.start ≤ l.pos) :
    l.start ≤ (state.step l).lex.start ∧ (state.step l).lex.start ≤ (state.step l).lex.pos ∧
    (((state.step l).lex.start = (state.step l).lex.pos ∧
        ((state.step l).state = some stateFn.lexContent ∨
          (state.step l).state = some stateFn.lexComment ∨ (state.step l).state = none)) ∨
      ((state.step l).sent = none ∧ (state.step l).lex.start = l.start ∧
        (state.step l).lex.pos ≤ stepBound state l)) := by
  obtain ⟨_, _, _, h1, h2, h3⟩ := step_rel (agreeOn_refl l.input) state l l (lexRel_refl l) hle
    (fun _ _ _ => trivial)
  exact ⟨h1, h2, h3⟩

/-! ## Two runs of the compiler over lexers that stay at matching places -/

theorem receive_step (fuel : Nat) (h : lexHandle) :
    h.receive (fuel + 1) =
      match h.state with
      | none => some (none, h)
      | some _ =>
        match h.sends with
        | some item => some (some item, h.step)
        | none => h.step.receive fuel := by
  rw [lexHandle.receive]
  unfold lexHandle.sends lexHandle.step
  cases h.state with
  | none => rfl
  | some state => rfl

theorem steps_succ (n : Nat) (h : lexHandle) : h.steps (n + 1) = (h.steps n).step := by
  induction n generalizing h with
  | zero => rfl
  | succ n ih =>
    show lexHandle.steps (n + 1) h.step = _
    rw [ih h.step]
    rfl

theorem steps_add (m n : Nat) (h : lexHandle) : h.steps (m + n) = (h.steps m).steps n := by
  induction m generalizing h with
  | zero => simp [lexHandle.steps]
  | succ m ih =>
    have : m + 1 + n = (m + n) + 1 := by omega
    rw [this]
    show lexHandle.steps (m + n) h.step = lexHandle.steps n (lexHandle.steps m h.step)
    exact ih h.step

theorem backClosed_steps {E : lexHandle → Prop} (hback : backClosed E) :
    ∀ (n : Nat) (h : lexHandle), E (h.steps n) → E h := by
  intro n
  induction n with
  | zero => intro h he; exact he
  | succ n ih => intro h he; exact hback h (ih h.step he)

theorem receive_steps : ∀ (fuel : Nat) (h : lexHandle) (r : Option lexItem) (h' : lexHandle),
    h.receive fuel = some (r, h') → ∃ n, h' = h.steps n := by
  intro fuel
  induction fuel with
  | zero => intro h r h' hr; cases hr
  | succ fuel ih =>
    intro h r h' hr
    rw [receive_step] at hr
    cases hs : h.state with
    | none =>
      rw [hs] at hr
      cases hr
      exact ⟨0, rfl⟩
    | some state =>
      rw [hs] at hr
      dsimp only at hr
      cases hsend : h.sends with
      | some item =>
        rw [hsend] at hr
        cases hr
        exact ⟨1, rfl⟩
      | none =>
        rw [hsend] at hr
        obtain ⟨n, hn⟩ := ih _ _ _ hr
        exact ⟨n + 1, hn⟩

theorem silentStep_step {h h' : lexHandle} (hs : h.silentStep = some h') :
    h' = h.step ∧ h.sends = none ∧ h.state ≠ none := by
  unfold lexHandle.silentStep at hs
  unfold lexHandle.step lexHandle.sends
  cases hst : h.state with
  | none => rw [hst] at hs; cases hs
  | some state =>
    rw [hst] at hs
    dsimp only at hs ⊢
    cases hsent : (state.step h.lex).sent with
    | some item => rw [hsent] at hs; cases hs
    | none =>
      rw [hsent] at hs
      cases hs
      exact ⟨rfl, rfl, fun h => Option.noConfusion h⟩

theorem silentSteps_steps : ∀ (n : Nat) (h h' : lexHandle),
    h.silentSteps n = some h' → h' = h.steps n := by
  intro n
  induction n with
  | zero => intro h h' hs; cases hs; rfl
  | succ n ih =>
    intro h h' hs
    unfold lexHandle.silentSteps at hs
    cases h1 : h.silentStep with
    | none => rw [h1] at hs; cases hs
    | some h1' =>
      rw [h1] at hs
      dsimp only at hs
      rw [ih h1' h' hs, (silentStep_step h1).1]
      rfl

theorem sameSent_none {b : Option lexItem} (h : sameSent none b) : b = none := by
  rcases h with ⟨_, h⟩ | ⟨x, y, hx, _, _⟩
  · exact h
  · cases hx

theorem sameSent_some {a : lexItem} {b : Option lexItem} (h : sameSent (some a) b) :
    ∃ y, b = some y ∧ sameKind a y := by
  rcases h with ⟨h, _⟩ | ⟨x, y, hx, hy, hk⟩
  · cases h
  · cases hx
    exact ⟨y, hy, hk⟩

theorem step_closed {h : lexHandle} (hs : h.state = none) : h.step = h := by
  unfold lexHandle.step
  rw [hs]

theorem receive_sim {Inv : lexHandle → lexHandle → Prop} {E : lexHandle → Prop}
    (hsim : stepSim Inv E) (hback : backClosed E) :
    ∀ (fuel : Nat) (h1 h2 : lexHandle) (r1 : Option lexItem) (h1' : lexHandle),
      Inv h1 h2 → h1.receive fuel = some (r1, h1') → E h1' →
      ∃ r2 h2', h2.receive fuel = some (r2, h2') ∧ sameSent r1 r2 ∧ Inv h1' h2' := by
  intro fuel
  induction fuel with
  | zero => intro h1 h2 r1 h1' _ hr; cases hr
  | succ fuel ih =>
    intro h1 h2 r1 h1' hinv hr he
    have hr0 := hr
    rw [receive_step] at hr
    rw [receive_step]
    cases hs : h1.state with
    | none =>
      rw [hs] at hr
      cases hr
      obtain ⟨hst, _, _⟩ := hsim h1 h2 hinv (by rw [step_closed hs]; exact he)
      rw [hst, hs]
      exact ⟨none, h2, rfl, Or.inl ⟨rfl, rfl⟩, hinv⟩
    | some state =>
      rw [hs] at hr
      dsimp only at hr
      cases hsend : h1.sends with
      | some item =>
        rw [hsend] at hr
        cases hr
        obtain ⟨hst, hsent, hinv'⟩ := hsim h1 h2 hinv he
        rw [hsend] at hsent
        obtain ⟨y, hy, hk⟩ := sameSent_some hsent
        rw [hst, hs]
        dsimp only
        rw [hy]
        exact ⟨some y, h2.step, rfl, Or.inr ⟨item, y, rfl, rfl, hk⟩, hinv'⟩
      | none =>
        rw [hsend] at hr
        obtain ⟨n, hn⟩ := receive_steps _ _ _ _ hr
        have he1 : E h1.step := backClosed_steps hback n h1.step (by rw [← hn]; exact he)
        obtain ⟨hst, hsent, hinv'⟩ := hsim h1 h2 hinv he1
        rw [hsend] at hsent
        rw [hst, hs]
        dsimp only
        rw [sameSent_none hsent]
        exact ih h1.step h2.step r1 h1' hinv' hr he

theorem silentSteps_sim {Inv : lexHandle → lexHandle → Prop} {E : lexHandle → Prop}
    (hsim : stepSim Inv E) (hback : backClosed E) :
    ∀ (n : Nat) (h1 h2 h1' : lexHandle), Inv h1 h2 → h1.silentSteps n = some h1' → E h1' →
      ∃ h2', h2.silentSteps n = some h2' ∧ Inv h1' h2' := by
  intro n
  induction n with
  | zero =>
    intro h1 h2 h1' hinv hs _
    cases hs
    exact ⟨h2, rfl, hinv⟩
  | succ n ih =>
    intro h1 h2 h1' hinv hs he
    unfold lexHandle.silentSteps at hs ⊢
    cases h1s : h1.silentStep with
    | none => rw [h1s] at hs; cases hs
    | some h1a =>
      rw [h1s] at hs
      dsimp only at hs
      obtain ⟨ha, hsend, hne⟩ := silentStep_step h1s
      have he1 : E h1.step := by
        rw [← ha]
        exact backClosed_steps hback n h1a (by rw [← silentSteps_steps n h1a h1' hs]; exact he)
      obtain ⟨hst, hsent, hinv'⟩ := hsim h1 h2 hinv he1
      rw [hsend] at hsent
      have h2s : h2.silentStep = some h2.step := by
        have hsent2 := sameSent_none hsent
        unfold lexHandle.silentStep lexHandle.step
        unfold lexHandle.sends at hsent2
        cases hs2 : h2.state with
        | none => rw [hs2] at hst; exact absurd hst.symm hne
        | some state =>
          rw [hs2] at hsent2
          dsimp only at hsent2 ⊢
          rw [hsent2]
      rw [h2s]
      dsimp only
      rw [ha] at hs
      exact ih h1.step h2.step h1' hinv' hs he

theorem nextLineLoop_succ (fuel n : Nat) (c : compiler) (acc : line) :
    compiler.nextLineLoop fuel (n + 1) c acc =
      match c.lex.receive fuel with
      | none => Res.timeout
      | some (none, h) => Res.ok (acc, c.withLex h)
      | some (some item, h) =>
        if item.typ = itemEOL then Res.ok (acc, c.withLex h)
        else compiler.nextLineLoop fuel n (c.withLex h) (acc ++ [item]) := by
  rw [compiler.nextLineLoop]
  unfold compiler.next
  cases c.lex.receive fuel with
  | none => rfl
  | some r =>
    obtain ⟨item, h⟩ := r
    cases item with
    | none => rfl
    | some item => rfl

theorem nextLineLoop_reach (fuel : Nat) :
    ∀ (n : Nat) (c : compiler) (acc l : line) (c' : compiler),
      compiler.nextLineLoop fuel n c acc = Res.ok (l, c') → ∃ k, c'.lex = c.lex.steps k := by
  intro n
  induction n with
  | zero => intro c acc l c' h; cases h
  | succ n ih =>
    intro c acc l c' h
    rw [nextLineLoop_succ] at h
    cases hr : c.lex.receive fuel with
    | none => rw [hr] at h; cases h
    | some r =>
      obtain ⟨item, h1⟩ := r
      rw [hr] at h
      obtain ⟨k, hk⟩ := receive_steps _ _ _ _ hr
      cases item with
      | none =>
        cases h
        exact ⟨k, hk⟩
      | some item =>
        dsimp only at h
        split at h
        · cases h
          exact ⟨k, hk⟩
        · obtain ⟨k', hk'⟩ := ih _ _ _ _ h
          refine ⟨k + k', ?_⟩
          rw [hk', steps_add]
          show lexHandle.steps k' h1 = _
          rw [hk]

theorem parseLine_reach {fuel : Nat} {c : compiler} {r : Option lineAst} {c' : compiler}
    (h : c.parseLine fuel = Res.ok (r, c')) : ∃ k, c'.lex = c.lex.steps k := by
  obtain ⟨l, c1, h1, h2⟩ := parseLine_lex h
  obtain ⟨k, hk⟩ := nextLineLoop_reach fuel fuel c [] l c1 h1
  exact ⟨k, h2.trans hk⟩

theorem afterLines_succ (fuel k : Nat) (c c' : compiler)
    (h : c.afterLines fuel (k + 1) = some c') :
    ∃ ast c1, c.parseLine fuel = Res.ok (some ast, c1) ∧ c1.afterLines fuel k = some c' := by
  rw [compiler.afterLines] at h
  cases hp : c.parseLine fuel with
  | ok r =>
    obtain ⟨ast, c1⟩ := r
    rw [hp] at h
    cases ast with
    | none => cases h
    | some ast => exact ⟨ast, c1, rfl, h⟩
  | raise e => rw [hp] at h; cases h
  | crash => rw [hp] at h; cases h
  | timeout => rw [hp] at h; cases h

theorem afterLines_reach (fuel : Nat) : ∀ (k : Nat) (c c' : compiler),
    c.afterLines fuel k = some c' → ∃ n, c'.lex = c.lex.steps n := by
  intro k
  induction k with
  | zero => intro c c' h; cases h; exact ⟨0, rfl⟩
  | succ k ih =>
    intro c c' h
    obtain ⟨ast, c1, h1, h2⟩ := afterLines_succ fuel k c c' h
    obtain ⟨n1, hn1⟩ := parseLine_reach h1
    obtain ⟨n2, hn2⟩ := ih c1 c' h2
    exact ⟨n1 + n2, by rw [hn2, hn1, steps_add]⟩

theorem nextLineLoop_sim {Inv : lexHandle → lexHandle → Prop} {E : lexHandle → Prop}
    (hsim : stepSim Inv E) (hback : backClosed E) (fuel : Nat) :
    ∀ (n : Nat) (c1 : compiler) (h2 : lexHandle) (acc1 acc2 l1 : line) (c1' : compiler),
      Inv c1.lex h2 → compiler.nextLineLoop fuel n c1 acc1 = Res.ok (l1, c1') → E c1'.lex →
      ∃ more1 more2 h2', l1 = acc1 ++ more1 ∧
        compiler.nextLineLoop fuel n (c1.withLex h2) acc2 =
          Res.ok (acc2 ++ more2, c1'.withLex h2') ∧
        sameLine more1 more2 ∧ Inv c1'.lex h2' := by
  intro n
  induction n with
  | zero => intro c1 h2 acc1 acc2 l1 c1' _ h; cases h
  | succ n ih =>
    intro c1 h2 acc1 acc2 l1 c1' hinv h he
    rw [nextLineLoop_succ] at h
    rw [nextLineLoop_succ]
    cases hr : c1.lex.receive fuel with
    | none => rw [hr] at h; cases h
    | some r =>
      obtain ⟨item, h1a⟩ := r
      rw [hr] at h
      have hlex : (c1.withLex h2).lex = h2 := rfl
      rw [hlex]
      cases item with
      | none =>
        cases h
        obtain ⟨r2, h2a, hr2, hsent, hinv'⟩ := receive_sim hsim hback fuel _ _ _ _ hinv hr he
        rw [sameSent_none hsent] at hr2
        rw [hr2]
        exact ⟨[], [], h2a, by simp, by simp; rfl, List.Forall₂.nil, hinv'⟩
      | some item =>
        dsimp only at h
        by_cases heol : item.typ = itemEOL
        · rw [if_pos heol] at h
          cases h
          obtain ⟨r2, h2a, hr2, hsent, hinv'⟩ := receive_sim hsim hback fuel _ _ _ _ hinv hr he
          obtain ⟨y, hy, hk⟩ := sameSent_some hsent
          rw [hy] at hr2
          rw [hr2]
          dsimp only
          rw [if_pos (by rw [← hk.1]; exact heol)]
          exact ⟨[], [], h2a, by simp, by simp; rfl, List.Forall₂.nil, hinv'⟩
        · rw [if_neg heol] at h
          obtain ⟨k, hk⟩ := nextLineLoop_reach fuel n _ _ _ _ h
          have he1 : E h1a := backClosed_steps hback k h1a (by
            have : (c1.withLex h1a).lex = h1a := rfl
            rw [this] at hk
            rw [← hk]
            exact he)
          obtain ⟨r2, h2a, hr2, hsent, hinv'⟩ := receive_sim hsim hback fuel _ _ _ _ hinv hr he1
          obtain ⟨y, hy, hky⟩ := sameSent_some hsent
          rw [hy] at hr2
          rw [hr2]
          dsimp only
          rw [if_neg (by rw [← hky.1]; exact heol)]
          obtain ⟨more1, more2, h2', hl, hrun, hsame, hinv''⟩ :=
            ih (c1.withLex h1a) h2a (acc1 ++ [item]) (acc2 ++ [y]) l1 c1' hinv' h he
          refine ⟨item :: more1, y :: more2, h2', by rw [hl]; simp, ?_,
            List.Forall₂.cons hky hsame, hinv''⟩
          have : acc2 ++ y :: more2 = acc2 ++ [y] ++ more2 := by simp
          rw [this]
          exact hrun

theorem parseLine_sim {Inv : lexHandle → lexHandle → Prop} {E : lexHandle → Prop}
    (hsim : stepSim Inv E) (hback : backClosed E) (fuel : Nat) (c1 : compiler)
    (h2 : lexHandle) (r : Option lineAst) (c1' : compiler) (hinv : Inv c1.lex h2)
    (h : c1.parseLine fuel = Res.ok (r, c1')) (he : E c1'.lex) :
    ∃ h2', (c1.withLex h2).parseLine fuel = Res.ok (r, c1'.withLex h2') ∧ Inv c1'.lex h2' := by
  obtain ⟨l, c1a, hnl, hlex⟩ := parseLine_lex h
  obtain ⟨more1, more2, h2', hl, hrun, hsame, hinv'⟩ :=
    nextLineLoop_sim hsim hback fuel fuel c1 h2 [] [] l c1a hinv hnl (by rw [← hlex]; exact he)
  rw [List.nil_append] at hl hrun
  subst hl
  refine ⟨h2', ?_, by rw [hlex]; exact hinv'⟩
  unfold compiler.parseLine at h ⊢
  unfold compiler.nextLine at hnl h ⊢
  rw [hnl] at h
  rw [hrun]
  simp only [Res.bind_def, Res.bind, Res.pure_def] at h ⊢
  cases hsame with
  | nil =>
    simp only [Res.ok.injEq, Prod.mk.injEq] at h ⊢
    obtain ⟨rfl, rfl⟩ := h
    exact ⟨rfl, rfl⟩
  | @cons item item' rest rest' hitem hrest =>
    simp only at h ⊢
    rw [← hitem.1]
    by_cases hp : item.typ = itemDirProgram
    · rw [if_pos hp] at h ⊢
      cases hpp : c1a.parseProgram (item :: rest) with
      | ok res =>
        obtain ⟨ast, c1b⟩ := res
        rw [hpp] at h
        simp only [Res.ok.injEq, Prod.mk.injEq] at h
        obtain ⟨rfl, rfl⟩ := h
        rw [parseProgram_sameLine h2' c1a (item :: rest) (item' :: rest') ast c1b
          (List.Forall₂.cons hitem hrest) hpp]
      | raise e => rw [hpp] at h; cases h
      | crash => rw [hpp] at h; cases h
      | timeout => rw [hpp] at h; cases h
    · rw [if_neg hp] at h ⊢
      by_cases hd : item.typ = itemDirDefine
      · rw [if_pos hd] at h ⊢
        cases hpp : c1a.parseDefine fuel (item :: rest) with
        | ok res =>
          obtain ⟨ast, c1b⟩ := res
          rw [hpp] at h
          simp only [Res.ok.injEq, Prod.mk.injEq] at h
          obtain ⟨rfl, rfl⟩ := h
          rw [parseDefine_sameLine h2' fuel c1a (item :: rest) (item' :: rest') ast c1b
            (List.Forall₂.cons hitem hrest) hpp]
        | raise e => rw [hpp] at h; cases h
        | crash => rw [hpp] at h; cases h
        | timeout => rw [hpp] at h; cases h
      · rw [if_neg hd] at h ⊢
        by_cases hf : item.typ = itemEOF
        · rw [if_pos hf] at h ⊢
          simp only [Res.ok.injEq, Prod.mk.injEq] at h ⊢
          obtain ⟨rfl, rfl⟩ := h
          exact ⟨rfl, rfl⟩
        · rw [if_neg hf] at h
          simp [raiseError_eq] at h

theorem parseFileLoop_end (fuel n : Nat) (c c' : compiler) (ps : List (String × List Nat))
    (fs : List Nat) (h : c.parseLine fuel = Res.ok (none, c')) :
    compiler.parseFileLoop fuel (n + 1) c ps fs = Res.ok (ps, fs, c') := by
  rw [compiler.parseFileLoop]
  simp only [Res.bind_def, h, Res.bind, Res.pure_def]

theorem parseFileLoop_line (ast : lineAst) (ps : List (String × List Nat)) (fs : List Nat) :
    ∃ ps' fs', ∀ (fuel n : Nat) (c c' : compiler), c.parseLine fuel = Res.ok (some ast, c') →
      compiler.parseFileLoop fuel (n + 1) c ps fs = compiler.parseFileLoop fuel n c' ps' fs' := by
  cases ast with
  | define v =>
    by_cases hp : ps.length > 0
    · refine ⟨compiler.appendToLast ps v, fs, ?_⟩
      intro fuel n c c' h
      rw [compiler.parseFileLoop]
      simp only [Res.bind_def, h, Res.bind]
      rw [if_pos hp]
    · refine ⟨ps, fs ++ [v], ?_⟩
      intro fuel n c c' h
      rw [compiler.parseFileLoop]
      simp only [Res.bind_def, h, Res.bind]
      rw [if_neg hp]
  | program name defines =>
    refine ⟨ps ++ [(name, defines)], fs, ?_⟩
    intro fuel n c c' h
    rw [compiler.parseFileLoop]
    simp only [Res.bind_def, h, Res.bind]

theorem parseFileLoop_first (fuel n : Nat) (c : compiler) (ps : List (String × List Nat))
    (fs : List Nat) (R : List (String × List Nat) × List Nat × compiler)
    (h : compiler.parseFileLoop fuel n c ps fs = Res.ok R) :
    ∃ m ast c', n = m + 1 ∧ c.parseLine fuel = Res.ok (ast, c') := by
  cases n with
  | zero => cases h
  | succ m =>
    rw [compiler.parseFileLoop] at h
    simp only [Res.bind_def, Res.bind_eq_ok] at h
    obtain ⟨⟨ast, c'⟩, h1, _⟩ := h
    exact ⟨m, ast, c', rfl, h1⟩

theorem parseFileLoop_reach (fuel : Nat) :
    ∀ (n : Nat) (c : compiler) (ps : List (String × List Nat)) (fs : List Nat)
      (ps' : List (String × List Nat)) (fs' : List Nat) (c' : compiler),
      compiler.parseFileLoop fuel n c ps fs = Res.ok (ps', fs', c') →
      ∃ k, c'.lex = c.lex.steps k := by
  intro n
  induction n with
  | zero => intro c ps fs ps' fs' c' h; cases h
  | succ n ih =>
    intro c ps fs ps' fs' c' h
    obtain ⟨m, ast, c1, hm, h1⟩ := parseFileLoop_first fuel _ c ps fs _ h
    obtain ⟨k1, hk1⟩ := parseLine_reach h1
    cases ast with
    | none =>
      rw [parseFileLoop_end fuel n c c1 ps fs h1] at h
      cases h
      exact ⟨k1, hk1⟩
    | some ast =>
      obtain ⟨ps1, fs1, hline⟩ := parseFileLoop_line ast ps fs
      rw [hline fuel n c c1 h1] at h
      obtain ⟨k2, hk2⟩ := ih c1 ps1 fs1 ps' fs' c' h
      exact ⟨k1 + k2, by rw [hk2, hk1, steps_add]⟩

theorem parseLine_ok_mono {fuel fuel' : Nat} (hle : fuel ≤ fuel') {c : compiler}
    {r : Option lineAst × compiler} (h : c.parseLine fuel = Res.ok r) :
    c.parseLine fuel' = Res.ok r := by
  have := Res.eq_of_le (parseLine_le fuel fuel' hle c) (by rw [h]; exact fun h => Res.noConfusion h)
  rw [this, h]

theorem parseFileLoop_ok_mono {fuel fuel' n n' : Nat} (hle : fuel ≤ fuel') (hn : n ≤ n')
    {c : compiler} {ps : List (String × List Nat)} {fs : List Nat}
    {R : List (String × List Nat) × List Nat × compiler}
    (h : compiler.parseFileLoop fuel n c ps fs = Res.ok R) :
    compiler.parseFileLoop fuel' n' c ps fs = Res.ok R := by
  have := Res.eq_of_le (parseFileLoop_le fuel fuel' hle n n' c ps fs hn)
    (by rw [h]; exact fun h => Res.noConfusion h)
  rw [this, h]

/-- The first `k` lines of a file, read by two lexers that stay at matching places: both
runs of the loop of `parseFile` come to the same programs and defines. -/
theorem firstLines_sim {Inv : lexHandle → lexHandle → Prop} {E : lexHandle → Prop}
    (hsim : stepSim Inv E) (hback : backClosed E) (fuel : Nat) :
    ∀ (k : Nat) (c1 : compiler) (h2 : lexHandle) (c1k : compiler)
      (ps : List (String × List Nat)) (fs : List Nat),
      Inv c1.lex h2 → c1.afterLines fuel k = some c1k → E c1k.lex →
      ∃ h2k ps' fs', Inv c1k.lex h2k ∧
        (∀ j, compiler.parseFileLoop fuel (k + j) c1 ps fs =
          compiler.parseFileLoop fuel j c1k ps' fs') ∧
        (∀ F j, fuel ≤ F → compiler.parseFileLoop F (k + j) (c1.withLex h2) ps fs =
          compiler.parseFileLoop F j (c1k.withLex h2k) ps' fs') := by
  intro k
  induction k with
  | zero =>
    intro c1 h2 c1k ps fs hinv h _
    cases h
    refine ⟨h2, ps, fs, hinv, ?_, ?_⟩
    · intro j; rw [Nat.zero_add]
    · intro F j _; rw [Nat.zero_add]
  | succ k ih =>
    intro c1 h2 c1k ps fs hinv h he
    obtain ⟨ast, c1a, h1, hrest⟩ := afterLines_succ fuel k c1 c1k h
    obtain ⟨n, hn⟩ := afterLines_reach fuel k c1a c1k hrest
    have he1 : E c1a.lex := backClosed_steps hback n c1a.lex (by rw [← hn]; exact he)
    obtain ⟨h2a, hp2, hinv'⟩ := parseLine_sim hsim hback fuel c1 h2 (some ast) c1a hinv h1 he1
    obtain ⟨ps1, fs1, hline⟩ := parseFileLoop_line ast ps fs
    obtain ⟨h2k, ps', fs', hinvk, hrun1, hrun2⟩ := ih c1a h2a c1k ps1 fs1 hinv' hrest he
    refine ⟨h2k, ps', fs', hinvk, ?_, ?_⟩
    · intro j
      have : k + 1 + j = (k + j) + 1 := by omega
      rw [this, hline fuel (k + j) c1 c1a h1]
      exact hrun1 j
    · intro F j hF
      have : k + 1 + j = (k + j) + 1 := by omega
      rw [this, hline F (k + j) _ _ (parseLine_ok_mono hF hp2)]
      exact hrun2 F j hF

/-- The rest of a file, read by two lexers that stay at matching places: the loop of
`parseFile` returns the same programs and defines in both runs. -/
theorem parseFileLoop_sim {Inv : lexHandle → lexHandle → Prop} {E : lexHandle → Prop}
    (hsim : stepSim Inv E) (hback : backClosed E) (fuel : Nat) :
    ∀ (n : Nat) (c1 : compiler) (h2 : lexHandle) (ps : List (String × List Nat))
      (fs : List Nat) (ps' : List (String × List Nat)) (fs' : List Nat) (c1' : compiler),
      Inv c1.lex h2 → compiler.parseFileLoop fuel n c1 ps fs = Res.ok (ps', fs', c1') →
      E c1'.lex →
      ∃ h2', compiler.parseFileLoop fuel n (c1.withLex h2) ps fs =
        Res.ok (ps', fs', c1'.withLex h2') := by
  intro n
  induction n with
  | zero => intro c1 h2 ps fs ps' fs' c1' _ h; cases h
  | succ n ih =>
    intro c1 h2 ps fs ps' fs' c1' hinv h he
    obtain ⟨m, ast, c1a, hm, h1⟩ := parseFileLoop_first fuel _ c1 ps fs _ h
    cases ast with
    | none =>
      rw [parseFileLoop_end fuel n c1 c1a ps fs h1] at h
      cases h
      obtain ⟨h2a, hp2, _⟩ := parseLine_sim hsim hback fuel c1 h2 none _ hinv h1 he
      exact ⟨h2a, parseFileLoop_end fuel n _ _ ps fs hp2⟩
    | some ast =>
      obtain ⟨ps1, fs1, hline⟩ := parseFileLoop_line ast ps fs
      rw [hline fuel n c1 c1a h1] at h
      obtain ⟨k, hk⟩ := parseFileLoop_reach fuel n c1a ps1 fs1 ps' fs' c1' h
      have he1 : E c1a.lex := backClosed_steps hback k c1a.lex (by rw [← hk]; exact he)
      obtain ⟨h2a, hp2, hinv'⟩ := parseLine_sim hsim hback fuel c1 h2 (some ast) c1a hinv h1 he1
      obtain ⟨h2', hrun⟩ := ih c1a h2a ps1 fs1 ps' fs' c1' hinv' h he
      exact ⟨h2', by rw [hline fuel n _ _ hp2]; exact hrun⟩

/-! ## Where the calls of the state functions leave the lexer -/

theorem lexSymbolOrLabel_where (l : lexer) :
    l.pos ≤ (lexSymbolOrLabel l).lex.pos ∧ (lexSymbolOrLabel l).lex.pos ≤ l.pos + 1 ∧
    (((lexSymbolOrLabel l).lex.start = (lexSymbolOrLabel l).lex.pos ∧
        (lexSymbolOrLabel l).state = some stateFn.lexContent) ∨
      ((lexSymbolOrLabel l).state = some stateFn.lexSymbolOrLabel ∧
        (lexSymbolOrLabel l).lex.start = l.start)) := by
  have hnp := next_pos_le l
  have hb : l.next.2.backup.pos = l.pos := next_backup_pos l
  unfold lexSymbolOrLabel
  dsimp only
  split
  · split
    · exact ⟨hnp.1, hnp.2, Or.inl ⟨rfl, rfl⟩⟩
    · refine ⟨?_, ?_, Or.inl ⟨rfl, rfl⟩⟩
      · show l.pos ≤ l.next.2.backup.pos
        omega
      · show l.next.2.backup.pos ≤ l.pos + 1
        omega
  · exact ⟨hnp.1, hnp.2, Or.inr ⟨rfl, next_start l⟩⟩

theorem lexValue_where (l : lexer) :
    l.pos ≤ (lexValue l).lex.pos ∧ (lexValue l).lex.pos ≤ l.pos + 1 ∧
    (((lexValue l).lex.start = (lexValue l).lex.pos ∧
        ((lexValue l).state = some stateFn.lexContent ∨ (lexValue l).state = none)) ∨
      ((lexValue l).state = some stateFn.lexValue ∧ (lexValue l).lex.start = l.start)) := by
  have hnp := next_pos_le l
  have hb : l.next.2.backup.pos = l.pos := next_backup_pos l
  unfold lexValue
  dsimp only
  split
  · split
    · exact ⟨hnp.1, hnp.2, Or.inl ⟨rfl, Or.inr rfl⟩⟩
    · refine ⟨?_, ?_, Or.inl ⟨rfl, Or.inl rfl⟩⟩
      · show l.pos ≤ l.next.2.backup.pos
        omega
      · show l.next.2.backup.pos ≤ l.pos + 1
        omega
  · exact ⟨hnp.1, hnp.2, Or.inr ⟨rfl, next_start l⟩⟩

theorem lexDirective_go (l : lexer) (h : isSymbol l.next.1 = true) :
    lexDirective l = { state := some stateFn.lexDirective, sent := none, lex := l.next.2 } := by
  unfold lexDirective
  dsimp only
  rw [if_neg (by rw [h]; decide)]

theorem lexDirective_stop (l : lexer) (h : isSymbol l.next.1 = false) :
    lexDirective l =
      match directiveType (String.mk ((l.next.2.backup.input.drop l.next.2.backup.start).take
          (l.next.2.backup.pos - l.next.2.backup.start))) with
      | some t => emitThen l.next.2.backup t (some stateFn.lexContent)
      | none => { state := some stateFn.lexContent, sent := none, lex := l.next.2.backup } := by
  unfold lexDirective
  dsimp only
  rw [if_pos (by rw [h]; decide)]

theorem lexDirective_where (l : lexer) :
    l.pos ≤ (lexDirective l).lex.pos ∧ (lexDirective l).lex.pos ≤ l.pos + 1 ∧
    (((lexDirective l).lex.start = (lexDirective l).lex.pos ∧
        (lexDirective l).state = some stateFn.lexContent) ∨
      ((lexDirective l).lex.start = l.start ∧
        (((lexDirective l).state = some stateFn.lexContent ∧ (lexDirective l).lex.pos = l.pos) ∨
          ((lexDirective l).state = some stateFn.lexDirective ∧ isSymbol l.peek = true)))) := by
  have hnp := next_pos_le l
  have hb : l.next.2.backup.pos = l.pos := next_backup_pos l
  by_cases hs : isSymbol l.next.1 = true
  · rw [lexDirective_go l hs]
    exact ⟨hnp.1, hnp.2, Or.inr ⟨next_start l, Or.inr ⟨rfl, by rw [← next_char]; exact hs⟩⟩⟩
  · have hs' : isSymbol l.next.1 = false := by
      cases hb : isSymbol l.next.1 with
      | true => exact absurd hb hs
      | false => rfl
    rw [lexDirective_stop l hs']
    split
    · refine ⟨?_, ?_, Or.inl ⟨rfl, rfl⟩⟩
      · show l.pos ≤ l.next.2.backup.pos
        omega
      · show l.next.2.backup.pos ≤ l.pos + 1
        omega
    · refine ⟨?_, ?_, Or.inr ⟨(next_backup_fields l).2.1, Or.inl ⟨rfl, next_backup_pos l⟩⟩⟩
      · show l.pos ≤ l.next.2.backup.pos
        omega
      · show l.next.2.backup.pos ≤ l.pos + 1
        omega

theorem lexComment_where (l : lexer) :
    ((lexComment l).state = some stateFn.lexContent ∧ (lexComment l).lex = l) ∨
      ((lexComment l).lex.start = (lexComment l).lex.pos ∧
        (lexComment l).state = some stateFn.lexComment) := by
  unfold lexComment
  dsimp only
  split
  · exact Or.inl ⟨rfl, rfl⟩
  · exact Or.inr ⟨rfl, rfl⟩

theorem step_input (state : stateFn) (l : lexer) : (state.step l).lex.input = l.input := by
  obtain ⟨l0, hscan, h⟩ := step_shape state l
  have hf := scans_fields hscan
  rcases h with ⟨h, _⟩ | ⟨h, _⟩ | ⟨t, h, _⟩
  · rw [h]; exact hf.1
  · rw [h]; exact hf.1
  · rw [h]; exact hf.1

theorem defineAt_chars {s : List Char} {q : Nat} (h : defineAt s q) :
    s[q]? = some '.' ∧ s[q + 1]? = some 'd' ∧ s[q + 2]? = some 'e' ∧ s[q + 3]? = some 'f' ∧
    s[q + 4]? = some 'i' ∧ s[q + 5]? = some 'n' ∧ s[q + 6]? = some 'e' ∧
    (∃ b, s[q + 7]? = some b ∧ isSymbol b = false) ∧
    (s.drop q).take 7 = ".define".data := by
  obtain ⟨b, rest, hs, hb⟩ := h
  have hget : ∀ i, s[q + i]? = (".define".data ++ b :: rest)[i]? := by
    intro i
    rw [← hs, List.getElem?_drop]
  refine ⟨by simpa using hget 0, hget 1, hget 2, hget 3, hget 4, hget 5, hget 6,
    ⟨b, by simpa using hget 7, hb⟩, ?_⟩
  rw [hs]
  rfl

/-! ## The lexer with respect to the offset of a directive -/

theorem step_some {h : lexHandle} {state : stateFn} (hs : h.state = some state) :
    h.step = { state := (state.step h.lex).state, lex := (state.step h.lex).lex } := by
  unfold lexHandle.step
  rw [hs]

theorem placed_boundary (q : Nat) (h : lexHandle) (hb : h.lex.start = h.lex.pos)
    (hst : h.state = some stateFn.lexContent ∨ h.state = some stateFn.lexComment ∨
      h.state = none) :
    beforeAt q h ∨ atDirective q h ∨ pastAt q h := by
  rcases hst with hst | hst | hst
  · rcases Nat.lt_trichotomy h.lex.start q with hlt | heq | hgt
    · exact Or.inl ⟨_, hst, by omega, fun _ => hlt⟩
    · exact Or.inr (Or.inl ⟨hst, heq, by omega⟩)
    · exact Or.inr (Or.inr (Or.inr (Or.inl hgt)))
  · by_cases hle : h.lex.start ≤ q
    · refine Or.inl ⟨_, hst, by omega, ?_⟩
      intro hc
      rcases hc with hc | hc <;> cases hc
    · exact Or.inr (Or.inr (Or.inr (Or.inl (by omega))))
  · exact Or.inr (Or.inr (Or.inl hst))

theorem directiveType_define : directiveType ".define" = some itemDirDefine := by decide

theorem content_at_directive (l : lexer) (q : Nat) (hdef : defineAt l.input q)
    (hstart : l.start = q) (hpos : l.pos = q) :
    lexContent l = { state := some stateFn.lexDirective, sent := none, lex := l.next.2 } ∧
      l.next.2.pos = q + 1 := by
  obtain ⟨h0, _⟩ := defineAt_chars hdef
  have hin : l.input[l.pos]? = some '.' := by rw [hpos]; exact h0
  obtain ⟨hc, hp, _⟩ := next_of_some l '.' hin
  have hs : isSymbol l.next.1 = false := by rw [hc]; decide
  refine ⟨?_, by rw [hp, hpos]⟩
  rw [lexContent_not_symbol l (by rw [hpos, hstart]) hs, hc]
  rfl

theorem directive_in_define (l : lexer) (q : Nat) (hdef : defineAt l.input q)
    (hlo : q < l.pos) (hhi : l.pos ≤ q + 6) :
    lexDirective l = { state := some stateFn.lexDirective, sent := none, lex := l.next.2 } ∧
      l.next.2.pos = l.pos + 1 := by
  obtain ⟨_, h1, h2, h3, h4, h5, h6, _⟩ := defineAt_chars hdef
  have hcases : l.pos = q + 1 ∨ l.pos = q + 2 ∨ l.pos = q + 3 ∨ l.pos = q + 4 ∨
      l.pos = q + 5 ∨ l.pos = q + 6 := by omega
  have hsym : ∃ c, l.input[l.pos]? = some c ∧ isSymbol c = true := by
    rcases hcases with h | h | h | h | h | h <;> rw [h]
    · exact ⟨_, h1, by decide⟩
    · exact ⟨_, h2, by decide⟩
    · exact ⟨_, h3, by decide⟩
    · exact ⟨_, h4, by decide⟩
    · exact ⟨_, h5, by decide⟩
    · exact ⟨_, h6, by decide⟩
  obtain ⟨c, hin, hc⟩ := hsym
  obtain ⟨hn, hp, _⟩ := next_of_some l c hin
  exact ⟨lexDirective_go l (by rw [hn]; exact hc), hp⟩

theorem directive_end_define (l : lexer) (q : Nat) (hdef : defineAt l.input q)
    (hstart : l.start = q) (hpos : l.pos = q + 7) :
    lexDirective l = emitThen l.next.2.backup itemDirDefine (some stateFn.lexContent) ∧
      l.next.2.backup.pos = q + 7 ∧ l.next.2.backup.start = q := by
  obtain ⟨_, _, _, _, _, _, _, ⟨b, h7, hb⟩, htake⟩ := defineAt_chars hdef
  have hin : l.input[l.pos]? = some b := by rw [hpos]; exact h7
  obtain ⟨hn, _, _⟩ := next_of_some l b hin
  obtain ⟨f1, f2, _, _⟩ := next_backup_fields l
  have hbp : l.next.2.backup.pos = q + 7 := by rw [next_backup_pos, hpos]
  have htxt : String.mk ((l.next.2.backup.input.drop l.next.2.backup.start).take
      (l.next.2.backup.pos - l.next.2.backup.start)) = ".define" := by
    rw [f1, f2, hbp, hstart]
    have : q + 7 - q = 7 := by omega
    rw [this, htake]
  refine ⟨?_, hbp, by rw [f2, hstart]⟩
  rw [lexDirective_stop l (by rw [hn]; exact hb), htxt, directiveType_define]

theorem past_step (q : Nat) (h : lexHandle) (hdef : defineAt h.lex.input q)
    (hle : h.lex.start ≤ h.lex.pos) (hp : pastAt q h) : pastAt q h.step := by
  cases hs : h.state with
  | none =>
    rw [step_closed hs]
    exact hp
  | some state =>
    rw [step_some hs]
    obtain ⟨hw1, hw2, _⟩ := step_where state h.lex hle
    rcases hp with hp | hp | ⟨hst, hpos⟩ | ⟨hst, hstart, hlo, hhi⟩
    · rw [hs] at hp
      cases hp
    · exact Or.inr (Or.inl (by dsimp only; omega))
    · rw [hs] at hst
      rcases hst with hst | hst
      · cases hst
        obtain ⟨f1, _, f3⟩ := lexSymbolOrLabel_where h.lex
        rcases f3 with ⟨hb, _⟩ | ⟨hsame, _⟩
        · refine Or.inr (Or.inl ?_)
          show q < (lexSymbolOrLabel h.lex).lex.start
          omega
        · exact Or.inr (Or.inr (Or.inl ⟨Or.inl hsame, by
            show q < (lexSymbolOrLabel h.lex).lex.pos
            omega⟩))
      · cases hst
        obtain ⟨f1, _, f3⟩ := lexValue_where h.lex
        rcases f3 with ⟨hb, _⟩ | ⟨hsame, _⟩
        · refine Or.inr (Or.inl ?_)
          show q < (lexValue h.lex).lex.start
          omega
        · exact Or.inr (Or.inr (Or.inl ⟨Or.inr hsame, by
            show q < (lexValue h.lex).lex.pos
            omega⟩))
    · rw [hs] at hst
      cases hst
      show pastAt q { state := (lexDirective h.lex).state, lex := (lexDirective h.lex).lex }
      by_cases h7 : h.lex.pos = q + 7
      · obtain ⟨e1, e2, e3⟩ := directive_end_define h.lex q hdef hstart h7
        rw [e1, emitThen_eq]
        refine Or.inr (Or.inl ?_)
        show q < h.lex.next.2.backup.pos
        omega
      · obtain ⟨e1, e2⟩ := directive_in_define h.lex q hdef hlo (by omega)
        rw [e1]
        refine Or.inr (Or.inr (Or.inr ⟨rfl, ?_, ?_, ?_⟩))
        · show h.lex.next.2.start = q
          rw [next_start, hstart]
        · show q < h.lex.next.2.pos
          omega
        · show h.lex.next.2.pos ≤ q + 7
          omega

theorem placed_step (s : List Char) (q : Nat) (hdef : defineAt s q) (h : lexHandle)
    (hp : placed s q h) : placed s q h.step := by
  obtain ⟨hin, hle, htri⟩ := hp
  cases hs : h.state with
  | none =>
    rw [step_closed hs]
    exact ⟨hin, hle, htri⟩
  | some state =>
    have hdef' : defineAt h.lex.input q := by rw [hin]; exact hdef
    have hstep := step_some hs
    obtain ⟨hw1, hw2, hw3⟩ := step_where state h.lex hle
    have hin' : h.step.lex.input = s := by
      rw [hstep]
      show (state.step h.lex).lex.input = s
      rw [step_input, hin]
    have hle' : h.step.lex.start ≤ h.step.lex.pos := by
      rw [hstep]
      exact hw2
    refine ⟨hin', hle', ?_⟩
    rcases htri with ⟨state0, hst0, hpos, hcond⟩ | ⟨hst, hstart, hpos⟩ | hpast
    · rw [hs] at hst0
      cases hst0
      cases state with
      | lexContent =>
        have hlt : h.lex.start < q := hcond (Or.inl rfl)
        rcases hw3 with ⟨hb, hstate⟩ | ⟨_, hstart', hhi⟩
        · exact placed_boundary q h.step (by rw [hstep]; exact hb) (by rw [hstep]; exact hstate)
        · rw [hstep]
          cases hst' : (stateFn.lexContent.step h.lex).state with
          | none => exact Or.inr (Or.inr (Or.inl rfl))
          | some state' =>
            refine Or.inl ⟨state', rfl, ?_, fun _ => ?_⟩
            · show (stateFn.lexContent.step h.lex).lex.pos ≤ q
              have : stepBound stateFn.lexContent h.lex = h.lex.start + 1 := rfl
              omega
            · show (stateFn.lexContent.step h.lex).lex.start < q
              omega
      | lexSymbolOrLabel =>
        obtain ⟨f1, f2, f3⟩ := lexSymbolOrLabel_where h.lex
        rcases f3 with ⟨hb, hstate⟩ | ⟨hsame, hstart'⟩
        · exact placed_boundary q h.step (by rw [hstep]; exact hb)
            (by rw [hstep]; exact Or.inl hstate)
        · rw [hstep]
          by_cases hq : (lexSymbolOrLabel h.lex).lex.pos ≤ q
          · refine Or.inl ⟨_, hsame, hq, ?_⟩
            intro hc
            rcases hc with hc | hc <;> cases hc
          · exact Or.inr (Or.inr (Or.inr (Or.inr (Or.inl ⟨Or.inl hsame, by
              show q < (lexSymbolOrLabel h.lex).lex.pos
              omega⟩))))
      | lexValue =>
        obtain ⟨f1, f2, f3⟩ := lexValue_where h.lex
        rcases f3 with ⟨hb, hstate⟩ | ⟨hsame, hstart'⟩
        · refine placed_boundary q h.step (by rw [hstep]; exact hb) ?_
          rw [hstep]
          rcases hstate with hstate | hstate
          · exact Or.inl hstate
          · exact Or.inr (Or.inr hstate)
        · rw [hstep]
          by_cases hq : (lexValue h.lex).lex.pos ≤ q
          · refine Or.inl ⟨_, hsame, hq, ?_⟩
            intro hc
            rcases hc with hc | hc <;> cases hc
          · exact Or.inr (Or.inr (Or.inr (Or.inr (Or.inl ⟨Or.inr hsame, by
              show q < (lexValue h.lex).lex.pos
              omega⟩))))
      | lexDirective =>
        have hlt : h.lex.start < q := hcond (Or.inr rfl)
        obtain ⟨f1, f2, f3⟩ := lexDirective_where h.lex
        rcases f3 with ⟨hb, hstate⟩ | ⟨hstart', hrest⟩
        · exact placed_boundary q h.step (by rw [hstep]; exact hb)
            (by rw [hstep]; exact Or.inl hstate)
        · rw [hstep]
          rcases hrest with ⟨hstate, hpos'⟩ | ⟨hstate, hsym⟩
          · refine Or.inl ⟨_, hstate, ?_, fun _ => ?_⟩
            · show (lexDirective h.lex).lex.pos ≤ q
              omega
            · show (lexDirective h.lex).lex.start < q
              omega
          · have hne : h.lex.pos ≠ q := by
              intro heq
              obtain ⟨h0, _⟩ := defineAt_chars hdef'
              have hin0 : h.lex.input[h.lex.pos]? = some '.' := by rw [heq]; exact h0
              rw [peek_eq h.lex '.' hin0] at hsym
              revert hsym
              decide
            refine Or.inl ⟨_, hstate, ?_, fun _ => ?_⟩
            · show (lexDirective h.lex).lex.pos ≤ q
              omega
            · show (lexDirective h.lex).lex.start < q
              omega
      | lexComment =>
        rcases lexComment_where h.lex with ⟨hstate, hlex⟩ | ⟨hb, hstate⟩
        · have hh : h.step = { state := some stateFn.lexContent, lex := h.lex } := by
            rw [hstep]
            show ({ state := (lexComment h.lex).state, lex := (lexComment h.lex).lex } :
              lexHandle) = _
            rw [hlex, hstate]
          rw [hh]
          by_cases hlt : h.lex.start < q
          · exact Or.inl ⟨_, rfl, hpos, fun _ => hlt⟩
          · exact Or.inr (Or.inl ⟨rfl, by dsimp only; omega, by dsimp only; omega⟩)
        · exact placed_boundary q h.step (by rw [hstep]; exact hb)
            (by rw [hstep]; exact Or.inr (Or.inl hstate))
    · rw [hs] at hst
      cases hst
      obtain ⟨e1, e2⟩ := content_at_directive h.lex q hdef' hstart hpos
      rw [hstep]
      show _ ∨ _ ∨ pastAt q { state := (lexContent h.lex).state, lex := (lexContent h.lex).lex }
      rw [e1]
      refine Or.inr (Or.inr (Or.inr (Or.inr (Or.inr ⟨rfl, ?_, ?_, ?_⟩))))
      · show h.lex.next.2.start = q
        rw [next_start, hstart]
      · show q < h.lex.next.2.pos
        omega
      · show h.lex.next.2.pos ≤ q + 7
        omega
    · exact Or.inr (Or.inr (past_step q h hdef' hle hpast))

/-! ## Two lexers over the common beginning and the common end of two texts -/

theorem sends_some {h : lexHandle} {state : stateFn} (hs : h.state = some state) :
    h.sends = (state.step h.lex).sent := by
  unfold lexHandle.sends
  rw [hs]

theorem sends_closed {h : lexHandle} (hs : h.state = none) : h.sends = none := by
  unfold lexHandle.sends
  rw [hs]

theorem reaches_back (q : Nat) : backClosed (reaches q) := by
  intro h ⟨j, hj⟩
  exact ⟨j + 1, hj⟩

theorem placed_steps (s : List Char) (q : Nat) (hdef : defineAt s q) :
    ∀ (j : Nat) (h : lexHandle), placed s q h → placed s q (h.steps j) := by
  intro j
  induction j with
  | zero => intro h hp; exact hp
  | succ j ih => intro h hp; exact ih h.step (placed_step s q hdef h hp)

theorem past_steps (s : List Char) (q : Nat) (hdef : defineAt s q) :
    ∀ (j : Nat) (h : lexHandle), placed s q h → pastAt q h → pastAt q (h.steps j) := by
  intro j
  induction j with
  | zero => intro h _ hp; exact hp
  | succ j ih =>
    intro h hpl hp
    exact ih h.step (placed_step s q hdef h hpl)
      (past_step q h (by rw [hpl.1]; exact hdef) hpl.2.1 hp)

theorem not_at_of_past (q : Nat) (h : lexHandle) (hp : pastAt q h) : ¬ atDirective q h := by
  intro ⟨hst, hstart, hpos⟩
  rcases hp with hp | hp | ⟨hp, _⟩ | ⟨hp, _⟩
  · rw [hst] at hp; cases hp
  · omega
  · rw [hst] at hp
    rcases hp with hp | hp <;> cases hp
  · rw [hst] at hp; cases hp

theorem at_step (s : List Char) (q : Nat) (hdef : defineAt s q) (h : lexHandle)
    (hin : h.lex.input = s) (hat : atDirective q h) : pastAt q h.step := by
  obtain ⟨hst, hstart, hpos⟩ := hat
  obtain ⟨e1, e2⟩ := content_at_directive h.lex q (by rw [hin]; exact hdef) hstart hpos
  rw [step_some hst]
  show pastAt q { state := (lexContent h.lex).state, lex := (lexContent h.lex).lex }
  rw [e1]
  refine Or.inr (Or.inr (Or.inr ⟨rfl, ?_, ?_, ?_⟩))
  · show h.lex.next.2.start = q
    rw [next_start, hstart]
  · show q < h.lex.next.2.pos
    omega
  · show h.lex.next.2.pos ≤ q + 7
    omega

/-- A lexer that comes to start a token at `q` after one call or more has not read the
offset `q` yet. -/
theorem before_of_reaches (s : List Char) (q : Nat) (hdef : defineAt s q) (h : lexHandle)
    (hp : placed s q h) (hr : reaches q h.step) : beforeAt q h := by
  obtain ⟨j, hj⟩ := hr
  have hps := placed_step s q hdef h hp
  rcases hp.2.2 with hb | hat | hpast
  · exact hb
  · exact absurd hj (not_at_of_past q _
      (past_steps s q hdef j h.step hps (at_step s q hdef h hp.1 hat)))
  · exact absurd hj (not_at_of_past q _
      (past_steps s q hdef j h.step hps
        (past_step q h (by rw [hp.1]; exact hdef) hp.2.1 hpast)))

theorem before_stepSim (s1 s2 : List Char) (q p0 : Nat) (hdef : defineAt s1 q)
    (hag : agreeOn s1 s2 0 (fun i => i < p0)) (hp0 : q + 7 < p0) :
    stepSim (beforeInv s1 s2 q) (reaches q) := by
  intro h1 h2 ⟨hst, hrel, hpl⟩ he
  cases hs : h1.state with
  | none =>
    have hs2 : h2.state = none := by rw [hst, hs]
    rw [step_closed hs, step_closed hs2, sends_closed hs, sends_closed hs2]
    exact ⟨hs2, Or.inl ⟨rfl, rfl⟩, by rw [hs2, hs], hrel, hpl⟩
  | some state =>
    have hs2 : h2.state = some state := by rw [hst, hs]
    obtain ⟨state0, hst0, hpos, hcond⟩ := before_of_reaches s1 q hdef h1 hpl he
    rw [hs] at hst0
    cases hst0
    have hwin : ∀ i, h1.lex.start ≤ i → i ≤ readBound state h1.lex → i < p0 := by
      intro i _ hi
      cases state with
      | lexContent =>
        have hlt := hcond (Or.inl rfl)
        have : readBound stateFn.lexContent h1.lex =
            max (h1.lex.pos + 3) (h1.lex.start + 8) := rfl
        rw [this] at hi
        have := max_le (a := h1.lex.pos + 3) (b := h1.lex.start + 8) (c := q + 7)
          (by omega) (by omega)
        omega
      | lexSymbolOrLabel => have : readBound stateFn.lexSymbolOrLabel h1.lex = h1.lex.pos := rfl; omega
      | lexDirective => have : readBound stateFn.lexDirective h1.lex = h1.lex.pos := rfl; omega
      | lexValue => have : readBound stateFn.lexValue h1.lex = h1.lex.pos := rfl; omega
      | lexComment => have : readBound stateFn.lexComment h1.lex = h1.lex.pos := rfl; omega
    obtain ⟨r1, r2, r3, _⟩ := step_rel hag state h1.lex h2.lex hrel hpl.2.1 hwin
    rw [sends_some hs, sends_some hs2, step_some hs, step_some hs2]
    refine ⟨hs2, r2, r1, r3, ?_⟩
    have := placed_step s1 q hdef h1 hpl
    rw [step_some hs] at this
    exact this

theorem after_stepSim (s1 s2 : List Char) (d p0 : Nat)
    (hag : agreeOn s1 s2 d (fun i => p0 ≤ i)) :
    stepSim (afterInv s1 s2 d p0) (fun _ => True) := by
  intro h1 h2 ⟨hst, hrel, hp0, hle⟩ _
  cases hs : h1.state with
  | none =>
    have hs2 : h2.state = none := by rw [hst, hs]
    rw [step_closed hs, step_closed hs2, sends_closed hs, sends_closed hs2]
    exact ⟨hs2, Or.inl ⟨rfl, rfl⟩, by rw [hs2, hs], hrel, hp0, hle⟩
  | some state =>
    have hs2 : h2.state = some state := by rw [hst, hs]
    obtain ⟨r1, r2, r3, r4, r5, _⟩ := step_rel hag state h1.lex h2.lex hrel hle
      (fun i hi _ => le_trans hp0 hi)
    rw [sends_some hs, sends_some hs2, step_some hs, step_some hs2]
    exact ⟨hs2, r2, r1, r3, le_trans hp0 r4, r5⟩

theorem true_back : backClosed (fun _ => True) := fun _ _ => trivial

/-! ## The lexer over a `.define` directive and over blanks -/

theorem silentStep_of (state : stateFn) (l : lexer) (s : lexStep) (hstep : state.step l = s)
    (hsent : s.sent = none) :
    ({ state := some state, lex := l } : lexHandle).silentStep =
      some { state := s.state, lex := s.lex } := by
  unfold lexHandle.silentStep
  dsimp only
  rw [hstep, hsent]

theorem silentSteps_succ_of {h h' : lexHandle} (hs : h.silentStep = some h') (n : Nat) :
    h.silentSteps (n + 1) = h'.silentSteps n := by
  rw [lexHandle.silentSteps, hs]

theorem silentSteps_add : ∀ (m n : Nat) (h h' : lexHandle), h.silentSteps m = some h' →
    h.silentSteps (m + n) = h'.silentSteps n := by
  intro m
  induction m with
  | zero => intro n h h' hs; cases hs; rw [Nat.zero_add]
  | succ m ih =>
    intro n h h' hs
    rw [lexHandle.silentSteps] at hs
    cases h1 : h.silentStep with
    | none => rw [h1] at hs; cases hs
    | some h1' =>
      rw [h1] at hs
      have : m + 1 + n = (m + n) + 1 := by omega
      rw [this, silentSteps_succ_of h1]
      exact ih n h1' h' hs

theorem receive_sends {h : lexHandle} {item : lexItem} (hs : h.sends = some item)
    (fuel : Nat) : h.receive (fuel + 1) = some (some item, h.step) := by
  rw [receive_step]
  cases hst : h.state with
  | none => rw [sends_closed hst] at hs; cases hs
  | some state =>
    dsimp only
    rw [hs]

theorem emit_not_eol (l : lexer) (t : itemType) (ht : t ≠ itemEOL) :
    ∃ item, (l.emit t).1 = some item ∧ item.typ = t ∧ ¬ eolPending (l.emit t).2 := by
  have hne : (l.emit t).1 ≠ none := fun h => ht ((emit_none_iff l t).mp h).1
  obtain ⟨item, hitem⟩ := Option.ne_none_iff_exists'.mp hne
  refine ⟨item, hitem, (emit_sent l t item hitem).1, ?_⟩
  rw [eolPending_emit]
  exact ht

theorem directive_run (q : Nat) : ∀ (n : Nat) (l : lexer), defineAt l.input q → l.start = q →
    q < l.pos → l.pos + n = q + 7 →
    ∃ X, ({ state := some stateFn.lexDirective, lex := l } : lexHandle).silentSteps n = some X ∧
      X.state = some stateFn.lexDirective ∧ X.lex.start = q ∧ X.lex.pos = q + 7 ∧
      X.lex.input = l.input := by
  intro n
  induction n with
  | zero =>
    intro l _ hstart _ hpos
    exact ⟨_, rfl, rfl, hstart, by dsimp only; omega, rfl⟩
  | succ n ih =>
    intro l hdef hstart hlo hpos
    obtain ⟨e1, e2⟩ := directive_in_define l q hdef hlo (by omega)
    have hs := silentStep_of stateFn.lexDirective l _ e1 rfl
    obtain ⟨X, hX, h1, h2, h3, h4⟩ := ih l.next.2 (by rw [next_input]; exact hdef)
      (by rw [next_start]; exact hstart) (by omega) (by omega)
    refine ⟨X, ?_, h1, h2, h3, by rw [h4, next_input]⟩
    rw [silentSteps_succ_of hs]
    exact hX

/-- From the start of a `.define` directive the lexer sends, after seven calls that send
nothing, the directive token, and stands behind the directive. -/
theorem define_run (q : Nat) (l : lexer) (hdef : defineAt l.input q) (hstart : l.start = q)
    (hpos : l.pos = q) :
    ∃ X item l', ({ state := some stateFn.lexContent, lex := l } : lexHandle).silentSteps 7 =
        some X ∧
      X.sends = some item ∧ X.step = { state := some stateFn.lexContent, lex := l' } ∧
      item.typ = itemDirDefine ∧ l'.input = l.input ∧ l'.start = q + 7 ∧ l'.pos = q + 7 ∧
      l'.width = 1 ∧ ¬ eolPending l' := by
  obtain ⟨e1, e2⟩ := content_at_directive l q hdef hstart hpos
  have hs := silentStep_of stateFn.lexContent l _ e1 rfl
  obtain ⟨X, hX, h1, h2, h3, h4⟩ := directive_run q 6 l.next.2 (by rw [next_input]; exact hdef)
    (by rw [next_start]; exact hstart) (by omega) (by omega)
  have hdefX : defineAt X.lex.input q := by rw [h4, next_input]; exact hdef
  obtain ⟨d1, d2, d3⟩ := directive_end_define X.lex q hdefX h2 h3
  obtain ⟨item, hitem, htyp, hnp⟩ := emit_not_eol X.lex.next.2.backup itemDirDefine (by decide)
  obtain ⟨_, _, _, _, _, _, _, ⟨b, h7, _⟩, _⟩ := defineAt_chars hdefX
  have hw : X.lex.next.2.width = 1 := by
    rw [next_width, h3, h7]
    rfl
  refine ⟨X, item, (X.lex.next.2.backup.emit itemDirDefine).2, ?_, ?_, ?_, htyp, ?_, ?_, ?_, ?_,
    hnp⟩
  · have : (7 : Nat) = 6 + 1 := rfl
    rw [this, silentSteps_succ_of hs]
    exact hX
  · rw [sends_some h1]
    show (lexDirective X.lex).sent = some item
    rw [d1, emitThen_eq]
    exact hitem
  · rw [step_some h1]
    show ({ state := (lexDirective X.lex).state, lex := (lexDirective X.lex).lex } : lexHandle) = _
    rw [d1, emitThen_eq]
  · show X.lex.next.2.backup.input = l.input
    rw [(next_backup_fields X.lex).1, h4, next_input]
  · show X.lex.next.2.backup.pos = q + 7
    exact d2
  · show X.lex.next.2.backup.pos = q + 7
    exact d2
  · show X.lex.next.2.backup.width = 1
    rw [(next_backup_fields X.lex).2.2.2]
    exact hw

/-- Over blanks the lexer makes one call for each, sends nothing, and stands behind
them. -/
theorem blanks_run : ∀ (ws : List Char) (l : lexer) (rest : List Char),
    l.input.drop l.pos = ws ++ rest → l.pos = l.start →
    (∀ x ∈ ws, x = ' ' ∨ x = '\t' ∨ x = '\r') →
    ∃ l', ({ state := some stateFn.lexContent, lex := l } : lexHandle).silentSteps ws.length =
        some { state := some stateFn.lexContent, lex := l' } ∧
      l'.input = l.input ∧ l'.pos = l.pos + ws.length ∧ l'.start = l.pos + ws.length ∧
      l'.lastItem = l.lastItem ∧ (ws ≠ [] → l'.width = 1) := by
  intro ws
  induction ws with
  | nil =>
    intro l rest _ hpos _
    exact ⟨l, rfl, rfl, rfl, by rw [hpos]; rfl, rfl, fun h => absurd rfl h⟩
  | cons b ws ih =>
    intro l rest hdrop hpos hblank
    obtain ⟨hin, hdrop'⟩ := drop_cons_pos hdrop
    have hb := hblank b (List.mem_cons_self _ _)
    have hpeek : l.peek = b := peek_eq l b hin
    have e1 := lexContent_blank l hpos (by rw [hpeek]; exact hb)
    have hs := silentStep_of stateFn.lexContent l _ e1 rfl
    obtain ⟨_, hp, hi, hst, hlast⟩ := next_of_some l b hin
    have hw : l.next.2.width = 1 := by
      rw [next_width, hin]
      rfl
    obtain ⟨l', hrun, f1, f2, f3, f4, f5⟩ := ih l.next.2.ignore rest
      (by
        show l.next.2.input.drop l.next.2.pos = ws ++ rest
        rw [hi, hp]
        exact hdrop')
      rfl (fun x hx => hblank x (List.mem_cons_of_mem _ hx))
    have hpi : l.next.2.ignore.pos = l.pos + 1 := hp
    refine ⟨l', ?_, by rw [f1]; exact hi, ?_, ?_, by rw [f4]; exact hlast, ?_⟩
    · rw [List.length_cons, silentSteps_succ_of hs]
      exact hrun
    · rw [f2, hpi, List.length_cons]; omega
    · rw [f3, hpi, List.length_cons]; omega
    · intro _
      by_cases hws : ws = []
      · subst hws
        cases hrun
        exact hw
      · exact f5 hws

/-! ## The lexer over the keyword `PUBLIC` -/

theorem scans_after_next {l L : lexer} (h : scans l.next.2 L) : scans l L := by
  induction h with
  | refl => exact scans.next scans.refl
  | next _ ih => exact scans.next ih
  | back _ ih => exact scans.back ih
  | backup _ ih => exact scans.backup ih

theorem acceptLoop_fail : ∀ (m tm : List Char) (l : lexer) (r c : Char) (tail trest : List Char),
    tm.map unicodeToUpper = m.map unicodeToUpper → l.input.drop l.pos = tm ++ c :: trest →
    unicodeToUpper c ≠ unicodeToUpper r →
    ∃ L, scans l L ∧ lexer.acceptStringCILoop (m ++ r :: tail) l = (false, L.back) := by
  intro m
  induction m with
  | nil =>
    intro tm l r c tail trest hmap hdrop hne
    have htm : tm = [] := by simpa using hmap
    subst htm
    obtain ⟨hin, _⟩ := drop_cons_pos hdrop
    obtain ⟨hc, _⟩ := next_of_some l c hin
    refine ⟨l.next.2, scans.next scans.refl, ?_⟩
    rw [List.nil_append, acceptLoop_cons, hc, if_pos hne]
  | cons b m ih =>
    intro tm l r c tail trest hmap hdrop hne
    cases tm with
    | nil => simp at hmap
    | cons a tm =>
      simp only [List.map_cons, List.cons.injEq] at hmap
      obtain ⟨hab, hmap'⟩ := hmap
      obtain ⟨hin, hdrop'⟩ := drop_cons_pos hdrop
      obtain ⟨hc, hp, hi, _⟩ := next_of_some l a hin
      obtain ⟨L, hscan, hrun⟩ := ih tm l.next.2 r c tail trest hmap'
        (by rw [hi, hp]; exact hdrop') hne
      refine ⟨L, scans_after_next hscan, ?_⟩
      rw [List.cons_append, acceptLoop_cons, hc, if_neg (by rw [hab]; exact fun h => h rfl)]
      exact hrun

theorem acceptLoop_ok : ∀ (s tm : List Char) (l : lexer) (c : Char) (trest : List Char),
    tm.map unicodeToUpper = s.map unicodeToUpper → l.input.drop l.pos = tm ++ c :: trest →
    isWordEnd c = true →
    ∃ L, lexer.acceptStringCILoop s l = (true, L) ∧ L.input = l.input ∧ L.start = l.start ∧
      L.lastItem = l.lastItem ∧ L.pos = l.pos + s.length ∧ (s ≠ [] → L.width = 1) := by
  intro s
  induction s with
  | nil =>
    intro tm l c trest hmap hdrop hc
    have htm : tm = [] := by simpa using hmap
    subst htm
    obtain ⟨hin, _⟩ := drop_cons_pos hdrop
    refine ⟨l, ?_, rfl, rfl, rfl, rfl, fun h => absurd rfl h⟩
    rw [acceptLoop_nil, peek_eq l c hin, if_pos hc]
  | cons b s ih =>
    intro tm l c trest hmap hdrop hc
    cases tm with
    | nil => simp at hmap
    | cons a tm =>
      simp only [List.map_cons, List.cons.injEq] at hmap
      obtain ⟨hab, hmap'⟩ := hmap
      obtain ⟨hin, hdrop'⟩ := drop_cons_pos hdrop
      obtain ⟨hn, hp, hi, hst, hlast⟩ := next_of_some l a hin
      have hw : l.next.2.width = 1 := by
        rw [next_width, hin]
        rfl
      obtain ⟨L, hrun, f1, f2, f3, f4, f5⟩ := ih tm l.next.2 c trest hmap'
        (by rw [hi, hp]; exact hdrop') hc
      refine ⟨L, ?_, by rw [f1, hi], by rw [f2, hst], by rw [f3, hlast], ?_, ?_⟩
      · rw [acceptLoop_cons, hn, if_neg (by rw [hab]; exact fun h => h rfl)]
        exact hrun
      · rw [f4, hp, List.length_cons]; omega
      · intro _
        by_cases hs : s = []
        · subst hs
          have htm : tm = [] := by simpa using hmap'
          subst htm
          obtain ⟨hin', _⟩ := drop_cons_pos (show l.next.2.input.drop l.next.2.pos = c :: trest by
            rw [hi, hp]; exact hdrop')
          rw [acceptLoop_nil, peek_eq l.next.2 c hin', if_pos hc] at hrun
          cases hrun
          exact hw
        · exact f5 hs

theorem acceptKeyword_skips (text : List Char) :
    ∀ (ks rest : List (String × itemType)) (l : lexer), l.pos = l.start →
      l.input.drop l.pos = text →
      (∀ k ∈ ks, ∃ m r tail tm c trest, k.1.data = m ++ r :: tail ∧ text = tm ++ c :: trest ∧
        tm.map unicodeToUpper = m.map unicodeToUpper ∧ unicodeToUpper c ≠ unicodeToUpper r) →
      ∃ l', acceptKeyword (ks ++ rest) l = acceptKeyword rest l' ∧ l'.pos = l'.start ∧
        l'.start = l.start ∧ l'.input = l.input ∧ l'.lastItem = l.lastItem := by
  intro ks
  induction ks with
  | nil =>
    intro rest l hpos _ _
    exact ⟨l, rfl, hpos, rfl, rfl, rfl⟩
  | cons k ks ih =>
    intro rest l hpos hdrop hfail
    obtain ⟨s, t⟩ := k
    obtain ⟨m, r, tail, tm, c, trest, hs, htext, hmap, hne⟩ := hfail (s, t) (List.mem_cons_self _ _)
    obtain ⟨L, hscan, hrun⟩ := acceptLoop_fail m tm l r c tail trest hmap
      (by rw [hdrop, htext]) hne
    obtain ⟨f1, f2, f3⟩ := scans_fields hscan
    dsimp only at hs
    obtain ⟨l', hrun', g1, g2, g3, g4⟩ := ih rest L.back rfl
      (by
        show L.input.drop L.start = text
        rw [f1, f2, ← hpos]
        exact hdrop)
      (fun k hk => hfail k (List.mem_cons_of_mem _ hk))
    refine ⟨l', ?_, g1, by rw [g2]; exact f2, by rw [g3]; exact f1, by rw [g4]; exact f3⟩
    rw [List.cons_append, acceptKeyword_cons, hs, hrun]
    exact hrun'

theorem keywords_split :
    keywords =
      [("jmp", itemInstrJMP), ("WAIT", itemInstrWAIT), ("IN", itemInstrIN),
        ("OUT", itemInstrOUT), ("PUSH", itemInstrPUSH), ("PULL", itemInstrPULL),
        ("MOV", itemInstrMOV), ("IRQ", itemInstrIRQ), ("SET", itemInstrSET),
        ("NOP", itemInstrNOP)] ++
      ("PUBLIC", itemPublic) ::
        [("OPTIONAL", itemOptional), ("OPT", itemOptional), ("SIDE", itemSide),
          ("SIDESET", itemSide), ("SIDE_SET", itemSide), ("PIN", itemPin), ("GPIO", itemGPIO),
          ("OSRE", itemOSRE)] := rfl

theorem public_chars (kw : List Char) (h : kw.map unicodeToUpper = "PUBLIC".data) :
    ∃ k0 k1 k2 k3 k4 k5, kw = [k0, k1, k2, k3, k4, k5] ∧ unicodeToUpper k0 = 'P' ∧
      unicodeToUpper k1 = 'U' ∧ unicodeToUpper k2 = 'B' ∧ unicodeToUpper k3 = 'L' ∧
      unicodeToUpper k4 = 'I' ∧ unicodeToUpper k5 = 'C' := by
  have hlen : kw.length = 6 := by
    have := congrArg List.length h
    simpa using this
  rcases kw with _ | ⟨k0, _ | ⟨k1, _ | ⟨k2, _ | ⟨k3, _ | ⟨k4, _ | ⟨k5, _ | ⟨k6, kw⟩⟩⟩⟩⟩⟩⟩ <;>
    simp at hlen
  have h' : [unicodeToUpper k0, unicodeToUpper k1, unicodeToUpper k2, unicodeToUpper k3,
      unicodeToUpper k4, unicodeToUpper k5] = ['P', 'U', 'B', 'L', 'I', 'C'] := h
  simp only [List.cons.injEq, and_true] at h'
  obtain ⟨h0, h1, h2, h3, h4, h5⟩ := h'
  exact ⟨k0, k1, k2, k3, k4, k5, rfl, h0, h1, h2, h3, h4, h5⟩

theorem upper_ne (k : Char) (u r : Char) (hk : unicodeToUpper k = u)
    (hr : (u != unicodeToUpper r) = true) : unicodeToUpper k ≠ unicodeToUpper r := by
  rw [hk]
  intro h
  rw [h] at hr
  simp at hr

/-- At the word `PUBLIC`, in any letter case, followed by white space, `lexContent` sends
the qualifier token and the lexer stands behind the word. -/
theorem public_run (l : lexer) (kw : List Char) (b : Char) (rest : List Char)
    (hkw : kw.map unicodeToUpper = "PUBLIC".data) (hdrop : l.input.drop l.pos = kw ++ b :: rest)
    (hb : isWordEnd b = true) (hpos : l.pos = l.start) :
    ∃ item l', ({ state := some stateFn.lexContent, lex := l } : lexHandle).sends = some item ∧
      ({ state := some stateFn.lexContent, lex := l } : lexHandle).step =
        { state := some stateFn.lexContent, lex := l' } ∧
      item.typ = itemPublic ∧ l'.input = l.input ∧ l'.start = l.pos + 6 ∧ l'.pos = l.pos + 6 ∧
      l'.width = 1 ∧ ¬ eolPending l' := by
  obtain ⟨k0, k1, k2, k3, k4, k5, rfl, h0, h1, h2, h3, h4, h5⟩ := public_chars kw hkw
  have hskip := acceptKeyword_skips ([k0, k1, k2, k3, k4, k5] ++ b :: rest)
    [("jmp", itemInstrJMP), ("WAIT", itemInstrWAIT), ("IN", itemInstrIN),
      ("OUT", itemInstrOUT), ("PUSH", itemInstrPUSH), ("PULL", itemInstrPULL),
      ("MOV", itemInstrMOV), ("IRQ", itemInstrIRQ), ("SET", itemInstrSET),
      ("NOP", itemInstrNOP)]
    (("PUBLIC", itemPublic) ::
      [("OPTIONAL", itemOptional), ("OPT", itemOptional), ("SIDE", itemSide),
        ("SIDESET", itemSide), ("SIDE_SET", itemSide), ("PIN", itemPin), ("GPIO", itemGPIO),
        ("OSRE", itemOSRE)]) l hpos hdrop (by
      intro k hk
      simp only [List.mem_cons, List.mem_singleton, List.not_mem_nil, or_false] at hk
      rcases hk with rfl | rfl | rfl | rfl | rfl | rfl | rfl | rfl | rfl | rfl
      · exact ⟨[], 'j', ['m', 'p'], [], k0, _, rfl, rfl, rfl, upper_ne k0 _ _ h0 (by decide)⟩
      · exact ⟨[], 'W', ['A', 'I', 'T'], [], k0, _, rfl, rfl, rfl,
          upper_ne k0 _ _ h0 (by decide)⟩
      · exact ⟨[], 'I', ['N'], [], k0, _, rfl, rfl, rfl, upper_ne k0 _ _ h0 (by decide)⟩
      · exact ⟨[], 'O', ['U', 'T'], [], k0, _, rfl, rfl, rfl, upper_ne k0 _ _ h0 (by decide)⟩
      · refine ⟨['P', 'U'], 'S', ['H'], [k0, k1], k2, _, rfl, rfl, ?_,
          upper_ne k2 _ _ h2 (by decide)⟩
        show [unicodeToUpper k0, unicodeToUpper k1] = _
        rw [h0, h1]
        rfl
      · refine ⟨['P', 'U'], 'L', ['L'], [k0, k1], k2, _, rfl, rfl, ?_,
          upper_ne k2 _ _ h2 (by decide)⟩
        show [unicodeToUpper k0, unicodeToUpper k1] = _
        rw [h0, h1]
        rfl
      · exact ⟨[], 'M', ['O', 'V'], [], k0, _, rfl, rfl, rfl, upper_ne k0 _ _ h0 (by decide)⟩
      · exact ⟨[], 'I', ['R', 'Q'], [], k0, _, rfl, rfl, rfl, upper_ne k0 _ _ h0 (by decide)⟩
      · exact ⟨[], 'S', ['E', 'T'], [], k0, _, rfl, rfl, rfl, upper_ne k0 _ _ h0 (by decide)⟩
      · exact ⟨[], 'N', ['O', 'P'], [], k0, _, rfl, rfl, rfl, upper_ne k0 _ _ h0 (by decide)⟩)
  obtain ⟨l1, hrun, g1, g2, g3, g4⟩ := hskip
  obtain ⟨L, hok, f1, f2, f3, f4, f5⟩ := acceptLoop_ok "PUBLIC".data [k0, k1, k2, k3, k4, k5] l1
    b rest hkw (by rw [g3, g1, g2, ← hpos]; exact hdrop) hb
  have hacc : acceptKeyword keywords l = (some itemPublic, L) := by
    rw [keywords_split, hrun, acceptKeyword_cons, hok]
    rfl
  have hcontent : lexContent l = emitThen L itemPublic (some stateFn.lexContent) := by
    unfold lexContent
    rw [hacc]
  obtain ⟨item, hitem, htyp, hnp⟩ := emit_not_eol L itemPublic (by decide)
  have hLpos : L.pos = l.pos + 6 := by
    rw [f4, g1, g2, ← hpos]
    rfl
  refine ⟨item, (L.emit itemPublic).2, ?_, ?_, htyp, ?_, ?_, ?_, ?_, hnp⟩
  · show (lexContent l).sent = some item
    rw [hcontent, emitThen_eq]
    exact hitem
  · show ({ state := (lexContent l).state, lex := (lexContent l).lex } : lexHandle) = _
    rw [hcontent, emitThen_eq]
  · show L.input = l.input
    rw [f1, g3]
  · show L.pos = l.pos + 6
    exact hLpos
  · show L.pos = l.pos + 6
    exact hLpos
  · show L.width = 1
    exact f5 (by decide)

/-! ## The line of the define, read from the two texts -/

theorem receive_det {h : lexHandle} {f1 f2 : Nat} {r1 r2 : Option lexItem × lexHandle}
    (h1 : h.receive f1 = some r1) (h2 : h.receive f2 = some r2) : r1 = r2 := by
  have e1 := receive_mono f1 (max f1 f2) h r1 (le_max_left _ _) h1
  have e2 := receive_mono f2 (max f1 f2) h r2 (le_max_right _ _) h2
  rw [e1] at e2
  exact Option.some.inj e2

theorem receive_after_silent : ∀ (n : Nat) (h h' : lexHandle) (f : Nat)
    (r : Option lexItem × lexHandle), h.silentSteps n = some h' → h.receive f = some r →
    n < f ∧ h'.receive (f - n) = some r := by
  intro n
  induction n with
  | zero =>
    intro h h' f r hs hr
    cases hs
    cases f with
    | zero => cases hr
    | succ f => exact ⟨Nat.succ_pos f, hr⟩
  | succ n ih =>
    intro h h' f r hs hr
    rw [lexHandle.silentSteps] at hs
    cases h1 : h.silentStep with
    | none => rw [h1] at hs; cases hs
    | some h1' =>
      rw [h1] at hs
      cases f with
      | zero => cases hr
      | succ f =>
        rw [receive_silentStep h1] at hr
        obtain ⟨hlt, hrec⟩ := ih h1' h' f r hs hr
        refine ⟨by omega, ?_⟩
        have : f + 1 - (n + 1) = f - n := by omega
        rw [this]
        exact hrec

theorem line_first {fuel n : Nat} {c : compiler} {acc l : line} {c' : compiler}
    {f0 : Nat} {item : lexItem} {h : lexHandle}
    (hline : compiler.nextLineLoop fuel n c acc = Res.ok (l, c'))
    (hrec : c.lex.receive f0 = some (some item, h)) (hne : item.typ ≠ itemEOL) :
    ∃ n', n = n' + 1 ∧ c.lex.receive fuel = some (some item, h) ∧
      compiler.nextLineLoop fuel n' (c.withLex h) (acc ++ [item]) = Res.ok (l, c') := by
  cases n with
  | zero => cases hline
  | succ n' =>
    rw [nextLineLoop_succ] at hline
    cases hr : c.lex.receive fuel with
    | none => rw [hr] at hline; cases hline
    | some r =>
      have := receive_det hr hrec
      subst this
      rw [hr] at hline
      dsimp only at hline
      rw [if_neg hne] at hline
      exact ⟨n', rfl, rfl, hline⟩

theorem line_push {F N : Nat} {c : compiler} {acc : line} {item : lexItem} {h : lexHandle}
    (hrec : c.lex.receive F = some (some item, h)) (hne : item.typ ≠ itemEOL) :
    compiler.nextLineLoop F (N + 1) c acc =
      compiler.nextLineLoop F N (c.withLex h) (acc ++ [item]) := by
  rw [nextLineLoop_succ, hrec]
  dsimp only
  rw [if_neg hne]

theorem nextLineLoop_acc (fuel : Nat) (n : Nat) (c : compiler) (acc l : line) (c' : compiler)
    (h : compiler.nextLineLoop fuel n c acc = Res.ok (l, c')) : ∃ more, l = acc ++ more := by
  obtain ⟨_, more, hl, _⟩ := lineReady_nextLineLoop fuel n c acc l c' h
  exact ⟨more, hl⟩

theorem nextLineLoop_ok_mono {fuel fuel' n n' : Nat} (hle : fuel ≤ fuel') (hn : n ≤ n')
    {c : compiler} {acc : line} {R : line × compiler}
    (h : compiler.nextLineLoop fuel n c acc = Res.ok R) :
    compiler.nextLineLoop fuel' n' c acc = Res.ok R := by
  have := Res.eq_of_le (nextLineLoop_le fuel fuel' hle n n' c acc hn)
    (by rw [h]; exact fun h => Res.noConfusion h)
  rw [this, h]

theorem parseDefine_ok_mono {fuel fuel' : Nat} (hle : fuel ≤ fuel') {c : compiler} {l : line}
    {R : lineAst × compiler} (h : c.parseDefine fuel l = Res.ok R) :
    c.parseDefine fuel' l = Res.ok R := by
  have := Res.eq_of_le (parseDefine_le fuel fuel' hle c l)
    (by rw [h]; exact fun h => Res.noConfusion h)
  rw [this, h]

theorem receive_of_run {h X : lexHandle} {n : Nat} {item : lexItem}
    (hs : h.silentSteps n = some X) (hsend : X.sends = some item) (f : Nat) :
    h.receive (f + 1 + n) = some (some item, X.step) := by
  rw [receive_silentSteps n hs, receive_sends hsend]

theorem drop_append_len {A B : List Char} {n : Nat} (hn : A.length = n) : (A ++ B).drop n = B := by
  subst hn
  exact List.drop_left A B

theorem defineAt_of_drop {s : List Char} {q : Nat} {ws rest : List Char}
    (h : s.drop q = ".define".data ++ (ws ++ rest)) (hne : ws ≠ [])
    (hblank : ∀ x ∈ ws, x = ' ' ∨ x = '\t' ∨ x = '\r') : defineAt s q := by
  cases ws with
  | nil => exact absurd rfl hne
  | cons b ws0 =>
    refine ⟨b, ws0 ++ rest, h, ?_⟩
    rcases hblank b (List.mem_cons_self _ _) with hb | hb | hb <;> rw [hb] <;> decide

theorem blank_wordEnd {ws : List Char} (hne : ws ≠ [])
    (hblank : ∀ x ∈ ws, x = ' ' ∨ x = '\t' ∨ x = '\r') :
    ∃ b ws0, ws = b :: ws0 ∧ isWordEnd b = true := by
  cases ws with
  | nil => exact absurd rfl hne
  | cons b ws0 =>
    refine ⟨b, ws0, rfl, ?_⟩
    rcases hblank b (List.mem_cons_self _ _) with hb | hb | hb <;> rw [hb] <;> decide

theorem agree_before (A X Y : List Char) :
    agreeOn (A ++ X) (A ++ Y) 0 (fun i => i < A.length) := by
  intro i hi
  rw [Nat.add_zero, List.getElem?_append_left hi, List.getElem?_append_left hi]

theorem agree_after (A B post : List Char) :
    agreeOn (A ++ post) (A ++ (B ++ post)) B.length (fun i => A.length ≤ i) := by
  intro i hi
  rw [List.getElem?_append_right hi, ← List.append_assoc,
    List.getElem?_append_right (by rw [List.length_append]; omega)]
  congr 1
  rw [List.length_append]
  omega

theorem not_pending_of_lastItem {l l' : lexer} (h : l'.lastItem = l.lastItem)
    (hn : ¬ eolPending l) : ¬ eolPending l' :=
  fun hp => hn (eolPending_congr h.symm hp)

/-- The two lexers over the line of the define: from the start of the directive both send
the directive token; the first then stands at the name, the second sends the qualifier
token and then stands at the name, further on by the inserted characters. -/
theorem define_line_lex (pre ws kw ws' post s1 s2 : List Char)
    (hs1 : s1 = pre ++ ".define".data ++ ws ++ post)
    (hs2 : s2 = pre ++ ".define".data ++ ws ++ kw ++ ws' ++ post)
    (hws : ws ≠ []) (hwsb : ∀ x ∈ ws, x = ' ' ∨ x = '\t' ∨ x = '\r')
    (hws' : ws' ≠ []) (hwsb' : ∀ x ∈ ws', x = ' ' ∨ x = '\t' ∨ x = '\r')
    (hkw : kw.map unicodeToUpper = "PUBLIC".data)
    (T1 T2 : lexHandle) (hT : beforeInv s1 s2 pre.length T1 T2)
    (hat : atDirective pre.length T1) :
    ∃ X1 D1 a1 b1 X2 D2 a2 b2 PUB p2 e2,
      T1.silentSteps 7 = some X1 ∧ X1.sends = some D1 ∧
      X1.step = { state := some stateFn.lexContent, lex := a1 } ∧
      ({ state := some stateFn.lexContent, lex := a1 } : lexHandle).silentSteps ws.length =
        some { state := some stateFn.lexContent, lex := b1 } ∧
      T2.silentSteps 7 = some X2 ∧ X2.sends = some D2 ∧
      X2.step = { state := some stateFn.lexContent, lex := a2 } ∧
      ({ state := some stateFn.lexContent, lex := a2 } : lexHandle).silentSteps ws.length =
        some { state := some stateFn.lexContent, lex := b2 } ∧
      ({ state := some stateFn.lexContent, lex := b2 } : lexHandle).sends = some PUB ∧
      ({ state := some stateFn.lexContent, lex := b2 } : lexHandle).step =
        { state := some stateFn.lexContent, lex := p2 } ∧
      ({ state := some stateFn.lexContent, lex := p2 } : lexHandle).silentSteps ws'.length =
        some { state := some stateFn.lexContent, lex := e2 } ∧
      D1.typ = itemDirDefine ∧ D2.typ = itemDirDefine ∧ PUB.typ = itemPublic ∧
      afterInv s1 s2 (6 + ws'.length) (pre.length + 7 + ws.length)
        { state := some stateFn.lexContent, lex := b1 }
        { state := some stateFn.lexContent, lex := e2 } := by
  obtain ⟨st1, l1⟩ := T1
  obtain ⟨st2, l2⟩ := T2
  obtain ⟨hst1, hstart1, hpos1⟩ := hat
  obtain ⟨hst2, ⟨hin1, hin2, hpos2, hstart2, _, _⟩, _⟩ := hT
  dsimp only at hst1 hstart1 hpos1 hst2 hin1 hin2 hpos2 hstart2
  subst hst1
  subst hst2
  have hlen : ".define".data.length = 7 := rfl
  have hklen : kw.length = 6 := by
    have := congrArg List.length hkw
    simpa using this
  -- the texts from the offsets the lexers come to
  have d1q : s1.drop pre.length = ".define".data ++ (ws ++ post) := by
    rw [hs1, List.append_assoc, List.append_assoc]
    exact drop_append_len rfl
  have d2q : s2.drop pre.length = ".define".data ++ (ws ++ (kw ++ (ws' ++ post))) := by
    rw [hs2]
    simp only [List.append_assoc]
    exact drop_append_len rfl
  have d1a : s1.drop (pre.length + 7) = ws ++ post := by
    rw [hs1, List.append_assoc]
    exact drop_append_len (by rw [List.length_append, hlen])
  have d2a : s2.drop (pre.length + 7) = ws ++ (kw ++ (ws' ++ post)) := by
    rw [hs2]
    simp only [List.append_assoc]
    rw [← List.append_assoc]
    exact drop_append_len (by rw [List.length_append, hlen])
  have d2b : s2.drop (pre.length + 7 + ws.length) = kw ++ (ws' ++ post) := by
    rw [hs2]
    simp only [List.append_assoc]
    rw [← List.append_assoc, ← List.append_assoc]
    exact drop_append_len (by rw [List.length_append, List.length_append, hlen])
  have d2p : s2.drop (pre.length + 7 + ws.length + 6) = ws' ++ post := by
    rw [hs2]
    simp only [List.append_assoc]
    rw [← List.append_assoc, ← List.append_assoc, ← List.append_assoc]
    exact drop_append_len (by
      rw [List.length_append, List.length_append, List.length_append, hlen, hklen])
  have hdef1 : defineAt l1.input pre.length := by
    rw [hin1]; exact defineAt_of_drop d1q hws hwsb
  have hdef2 : defineAt l2.input pre.length := by
    rw [hin2]; exact defineAt_of_drop d2q hws hwsb
  obtain ⟨X1, D1, a1, x1, x2, x3, x4, x5, x6, x7, x8, x9⟩ :=
    define_run pre.length l1 hdef1 hstart1 hpos1
  obtain ⟨X2, D2, a2, y1, y2, y3, y4, y5, y6, y7, y8, y9⟩ :=
    define_run pre.length l2 hdef2 (by omega) (by omega)
  obtain ⟨b1, u1, u2, u3, u4, u5, u6⟩ := blanks_run ws a1 post
    (by rw [x5, hin1, x7]; exact d1a) (by rw [x6, x7]) hwsb
  obtain ⟨b2, v1, v2, v3, v4, v5, v6⟩ := blanks_run ws a2 (kw ++ (ws' ++ post))
    (by rw [y5, hin2, y7]; exact d2a) (by rw [y6, y7]) hwsb
  obtain ⟨b, ws0, hwse, hb⟩ := blank_wordEnd hws' hwsb'
  obtain ⟨PUB, p2, w1, w2, w3, w4, w5, w6, w7, w8⟩ := public_run b2 kw b (ws0 ++ post) hkw
    (by
      rw [v2, y5, hin2, v3, y7, d2b, hwse]
      rfl)
    hb (by rw [v3, v4])
  obtain ⟨e2, z1, z2, z3, z4, z5, z6⟩ := blanks_run ws' p2 post
    (by rw [w4, v2, y5, hin2, w6, v3, y7]; exact d2p) (by rw [w5, w6]) hwsb'
  refine ⟨X1, D1, a1, b1, X2, D2, a2, b2, PUB, p2, e2, x1, x2, x3, u1, y1, y2, y3, v1, w1, w2,
    z1, x4, y4, w3, rfl, ?_, ?_, ?_⟩
  · refine ⟨by rw [u2, x5, hin1], by rw [z2, w4, v2, y5, hin2], ?_, ?_, ?_, ?_⟩
    · show e2.pos = b1.pos + (6 + ws'.length)
      rw [z3, w6, v3, y7, u3, x7]
      omega
    · show e2.start = b1.start + (6 + ws'.length)
      rw [z4, w6, v3, y7, u4, x7]
      omega
    · show e2.width = b1.width
      rw [z6 hws', u6 hws]
    · constructor
      · intro hp
        exact absurd hp (not_pending_of_lastItem z5 w8)
      · intro hp
        exact absurd hp (not_pending_of_lastItem u5 x9)
  · show pre.length + 7 + ws.length ≤ b1.start
    rw [u4, x7]
  · show b1.start ≤ b1.pos
    rw [u4, u3]

theorem parseLine_define {fuel : Nat} {c cn : compiler} {l0 : lexItem} {rest : line}
    (hnext : c.nextLine fuel = Res.ok (l0 :: rest, cn)) (h0 : l0.typ = itemDirDefine) :
    c.parseLine fuel =
      Res.bind (cn.parseDefine fuel (l0 :: rest)) (fun r => Res.ok (some r.1, r.2)) := by
  unfold compiler.parseLine
  simp only [Res.bind_def, hnext, Res.bind, h0, reduceCtorEq, if_false, if_true, Res.pure_def]

/-- The line of the define, parsed from the two texts: the second run, which reads the
qualifier besides, returns the same define. -/
theorem define_line (pre ws kw ws' post s1 s2 : List Char)
    (hs1 : s1 = pre ++ ".define".data ++ ws ++ post)
    (hs2 : s2 = pre ++ ".define".data ++ ws ++ kw ++ ws' ++ post)
    (hws : ws ≠ []) (hwsb : ∀ x ∈ ws, x = ' ' ∨ x = '\t' ∨ x = '\r')
    (hws' : ws' ≠ []) (hwsb' : ∀ x ∈ ws', x = ' ' ∨ x = '\t' ∨ x = '\r')
    (hkw : kw.map unicodeToUpper = "PUBLIC".data)
    (c : compiler) (h2 : lexHandle) (hinv : beforeInv s1 s2 pre.length c.lex h2)
    (m : Nat) (T1 : lexHandle) (hrun : c.lex.silentSteps m = some T1)
    (hat : atDirective pre.length T1)
    (fuel : Nat) (l0 l1 : lexItem) (toks : line) (cn : compiler)
    (hnext : c.nextLine fuel = Res.ok (l0 :: l1 :: toks, cn)) (hname : l1.typ = itemSymbol)
    (r : Option lineAst) (ct : compiler) (hparse : c.parseLine fuel = Res.ok (r, ct))
    (F : Nat) (hF : fuel + ws'.length ≤ F) :
    ∃ h2t, (c.withLex h2).parseLine F = Res.ok (r, ct.withLex h2t) ∧
      afterInv s1 s2 (6 + ws'.length) (pre.length + 7 + ws.length) ct.lex h2t := by
  have hlen : ".define".data.length = 7 := rfl
  have hklen : kw.length = 6 := by
    have := congrArg List.length hkw
    simpa using this
  have d1q : s1.drop pre.length = ".define".data ++ (ws ++ post) := by
    rw [hs1, List.append_assoc, List.append_assoc]
    exact drop_append_len rfl
  have hdef1 : defineAt s1 pre.length := defineAt_of_drop d1q hws hwsb
  have hws'pos : 0 < ws'.length := List.length_pos.mpr hws'
  have hwspos : 0 < ws.length := List.length_pos.mpr hws
  have hag0 : agreeOn s1 s2 0 (fun i => i < pre.length + 7 + ws.length) := by
    have := agree_before (pre ++ ".define".data ++ ws) post (kw ++ (ws' ++ post))
    rw [List.length_append, List.length_append, hlen] at this
    rw [hs1, hs2]
    simpa only [List.append_assoc] using this
  have hagd : agreeOn s1 s2 (6 + ws'.length) (fun i => pre.length + 7 + ws.length ≤ i) := by
    have := agree_after (pre ++ ".define".data ++ ws) (kw ++ ws') post
    rw [List.length_append, List.length_append, List.length_append, hlen, hklen] at this
    rw [hs1, hs2]
    simpa only [List.append_assoc] using this
  have hsimA := before_stepSim s1 s2 pre.length (pre.length + 7 + ws.length) hdef1 hag0
    (by omega)
  have hsimC := after_stepSim s1 s2 (6 + ws'.length) (pre.length + 7 + ws.length) hagd
  obtain ⟨T2, hrun2, hT⟩ := silentSteps_sim hsimA (reaches_back _) m c.lex h2 T1 hinv hrun
    ⟨0, hat⟩
  obtain ⟨X1, D1, a1, b1, X2, D2, a2, b2, PUB, p2, e2, x1, x2, x3, x4, y1, y2, y3, y4, w1, w2,
    w3, t1, t2, t3, hsuf⟩ :=
    define_line_lex pre ws kw ws' post s1 s2 hs1 hs2 hws hwsb hws' hwsb' hkw T1 T2 hT hat
  -- the first run
  have hX1 : c.lex.silentSteps (m + 7) = some X1 := by
    rw [silentSteps_add m 7 c.lex T1 hrun]
    exact x1
  have r1 := receive_of_run hX1 x2 0
  rw [x3] at r1
  unfold compiler.nextLine at hnext
  obtain ⟨n', hn', rec1, hline1⟩ := line_first hnext r1 (by rw [t1]; decide)
  obtain ⟨hm, _⟩ := receive_after_silent (m + 7) c.lex X1 fuel _ hX1 rec1
  rw [List.nil_append] at hline1
  cases n' with
  | zero => cases hline1
  | succ n'' =>
    rw [nextLineLoop_succ] at hline1
    have hlex1 : (c.withLex { state := some stateFn.lexContent, lex := a1 }).lex =
        { state := some stateFn.lexContent, lex := a1 } := rfl
    rw [hlex1] at hline1
    cases hr2 : ({ state := some stateFn.lexContent, lex := a1 } : lexHandle).receive fuel with
    | none => rw [hr2] at hline1; cases hline1
    | some res =>
      obtain ⟨item, h1b⟩ := res
      rw [hr2] at hline1
      obtain ⟨hwlt, hrA⟩ := receive_after_silent ws.length _ _ fuel _ x4 hr2
      cases item with
      | none =>
        dsimp only at hline1
        simp only [Res.ok.injEq, Prod.mk.injEq, List.cons.injEq] at hline1
        exact absurd hline1.1.2 (by simp)
      | some item =>
        dsimp only at hline1
        by_cases heol : item.typ = itemEOL
        · rw [if_pos heol] at hline1
          simp only [Res.ok.injEq, Prod.mk.injEq, List.cons.injEq] at hline1
          exact absurd hline1.1.2 (by simp)
        · rw [if_neg heol] at hline1
          obtain ⟨more, hmore⟩ := nextLineLoop_acc _ _ _ _ _ _ hline1
          simp only [List.cons_append, List.nil_append, List.cons.injEq] at hmore
          obtain ⟨rfl, rfl, rfl⟩ := hmore
          obtain ⟨r2, h2b, hrec2, hsent, hsufb⟩ :=
            receive_sim hsimC true_back (fuel - ws.length) _ _ _ _ hsuf hrA trivial
          obtain ⟨y, hy, hky⟩ := sameSent_some hsent
          subst hy
          obtain ⟨more1, more2, h2n, hl, hrun2n, hsame, hsufn⟩ :=
            nextLineLoop_sim hsimC true_back fuel n'' _ h2b _ [D2, PUB, y] _ _ hsufb hline1
              trivial
          have hmore1 : more1 = toks := by
            simp only [List.cons_append, List.nil_append, List.cons.injEq, true_and] at hl
            exact hl.symm
          subst hmore1
          -- the second run
          obtain ⟨N, hN⟩ : ∃ N, F = N + 3 := ⟨F - 3, by omega⟩
          subst hN
          have hX2 : h2.silentSteps (m + 7) = some X2 := by
            rw [silentSteps_add m 7 h2 T2 hrun2]
            exact y1
          have q1 : h2.receive (N + 3) = some (some D2, { state := some stateFn.lexContent, lex := a2 }) := by
            have := receive_of_run hX2 y2 (N + 3 - (m + 8))
            rw [y3] at this
            have hf : N + 3 - (m + 8) + 1 + (m + 7) = N + 3 := by omega
            rw [hf] at this
            exact this
          have q2 : ({ state := some stateFn.lexContent, lex := a2 } : lexHandle).receive (N + 3) =
              some (some PUB, { state := some stateFn.lexContent, lex := p2 }) := by
            have := receive_of_run y4 w1 (N + 3 - (ws.length + 1))
            rw [w2] at this
            have hf : N + 3 - (ws.length + 1) + 1 + ws.length = N + 3 := by omega
            rw [hf] at this
            exact this
          have q3 : ({ state := some stateFn.lexContent, lex := p2 } : lexHandle).receive (N + 3) =
              some (some y, h2b) := by
            have := receive_silentSteps ws'.length w3 (fuel - ws.length)
            rw [hrec2] at this
            exact receive_mono _ (N + 3) _ _ (by omega) this
          have hy1 : y.typ = itemSymbol := by rw [← hky.1]; exact hname
          have hline2 : (c.withLex h2).nextLine (N + 3) =
              Res.ok (D2 :: PUB :: y :: more2, cn.withLex h2n) := by
            unfold compiler.nextLine
            rw [line_push (c := c.withLex h2) q1 (by rw [t2]; decide)]
            rw [line_push (c := (c.withLex h2).withLex _) q2 (by rw [t3]; decide)]
            rw [line_push (c := ((c.withLex h2).withLex _).withLex _) q3 (by rw [hy1]; decide)]
            exact nextLineLoop_ok_mono (by omega) (by omega) hrun2n
          -- the two lines are parsed alike
          have hnext' : c.nextLine fuel = Res.ok (l0 :: l1 :: more1, cn) := hnext
          rw [parseLine_define hnext' t1, Res.bind_eq_ok] at hparse
          obtain ⟨⟨a, ct'⟩, hdefine, hres⟩ := hparse
          simp only [Res.ok.injEq, Prod.mk.injEq] at hres
          obtain ⟨rfl, rfl⟩ := hres
          have hdefineF := parseDefine_ok_mono (show fuel ≤ N + 3 by omega) hdefine
          have hlexct : ct'.lex = cn.lex := (parseDefine_frame hdefine).1
          refine ⟨h2n, ?_, by rw [hlexct]; exact hsufn⟩
          rw [parseLine_define hline2 t2,
            parseDefine_public_eq (N + 3) (cn.withLex h2n) D2 PUB y more2 t2 t3 hy1,
            parseDefine_plain_withLex h2n (N + 3) cn l0 l1 D2 y more1 more2 a ct' t1 hname t2 hy1
              hky.2.symm hsame hdefineF]
          rfl

/-! ## The lexer comes to the directive of a define line -/

theorem sends_start {h : lexHandle} {item : lexItem} (hs : h.sends = some item) :
    item.start = h.lex.start ∧
      (h.step.state = some stateFn.lexContent ∨ h.step.state = none) := by
  cases hst : h.state with
  | none => rw [sends_closed hst] at hs; cases hs
  | some state =>
    rw [sends_some hst] at hs
    rw [step_some hst]
    obtain ⟨l0, hscan, hshape⟩ := step_shape state h.lex
    rcases hshape with ⟨_, hnone⟩ | ⟨_, hnone, _⟩ | ⟨t, _, hsent, hstate⟩
    · rw [hnone] at hs; cases hs
    · rw [hnone] at hs; cases hs
    · rw [hsent] at hs
      exact ⟨((emit_sent l0 t item hs).2.1).trans (scans_fields hscan).2.1, hstate⟩

theorem receive_sent_run : ∀ (f : Nat) (h : lexHandle) (item : lexItem) (h' : lexHandle),
    h.receive f = some (some item, h') →
    ∃ j X, h.silentSteps j = some X ∧ X.sends = some item ∧ X.step = h' := by
  intro f
  induction f with
  | zero => intro h item h' hr; cases hr
  | succ f ih =>
    intro h item h' hr
    rw [receive_step] at hr
    cases hst : h.state with
    | none => rw [hst] at hr; cases hr
    | some state =>
      rw [hst] at hr
      dsimp only at hr
      cases hsend : h.sends with
      | some item' =>
        rw [hsend] at hr
        cases hr
        exact ⟨0, h, rfl, hsend, rfl⟩
      | none =>
        rw [hsend] at hr
        obtain ⟨j, X, hj, hX, hstep⟩ := ih h.step item h' hr
        have hsil : h.silentStep = some h.step := by
          rw [sends_some hst] at hsend
          unfold lexHandle.silentStep
          rw [hst]
          dsimp only
          rw [hsend, step_some hst]
        exact ⟨j + 1, X, by rw [silentSteps_succ_of hsil]; exact hj, hX, hstep⟩

theorem receive_state : ∀ (f : Nat) (h : lexHandle) (r : Option lexItem) (h' : lexHandle),
    h.receive f = some (r, h') → h'.state = some stateFn.lexContent ∨ h'.state = none := by
  intro f
  induction f with
  | zero => intro h r h' hr; cases hr
  | succ f ih =>
    intro h r h' hr
    rw [receive_step] at hr
    cases hst : h.state with
    | none =>
      rw [hst] at hr
      cases hr
      exact Or.inr hst
    | some state =>
      rw [hst] at hr
      dsimp only at hr
      cases hsend : h.sends with
      | some item =>
        rw [hsend] at hr
        cases hr
        exact (sends_start hsend).2
      | none =>
        rw [hsend] at hr
        exact ih h.step r h' hr

theorem nextLineLoop_state (fuel : Nat) :
    ∀ (n : Nat) (c : compiler) (acc l : line) (c' : compiler),
      compiler.nextLineLoop fuel n c acc = Res.ok (l, c') →
      c'.lex.state = some stateFn.lexContent ∨ c'.lex.state = none := by
  intro n
  induction n with
  | zero => intro c acc l c' h; cases h
  | succ n ih =>
    intro c acc l c' h
    rw [nextLineLoop_succ] at h
    cases hr : c.lex.receive fuel with
    | none => rw [hr] at h; cases h
    | some res =>
      obtain ⟨item, h1⟩ := res
      rw [hr] at h
      have hs := receive_state fuel c.lex item h1 hr
      cases item with
      | none => cases h; exact hs
      | some item =>
        dsimp only at h
        split at h
        · cases h; exact hs
        · exact ih _ _ _ _ h

theorem afterLines_state (fuel : Nat) : ∀ (k : Nat) (c c' : compiler),
    (c.lex.state = some stateFn.lexContent ∨ c.lex.state = none) →
    c.afterLines fuel k = some c' →
    c'.lex.state = some stateFn.lexContent ∨ c'.lex.state = none := by
  intro k
  induction k with
  | zero => intro c c' hs h; cases h; exact hs
  | succ k ih =>
    intro c c' _ h
    obtain ⟨ast, c1, h1, h2⟩ := afterLines_succ fuel k c c' h
    obtain ⟨l, c0, hnl, hlex⟩ := parseLine_lex h1
    have := nextLineLoop_state fuel fuel c [] l c0 hnl
    exact ih c1 c' (by rw [hlex]; exact this) h2

theorem nextLine_head {fuel : Nat} {c : compiler} {item : lexItem} {rest : line}
    {c' : compiler} (h : c.nextLine fuel = Res.ok (item :: rest, c')) :
    ∃ h1, c.lex.receive fuel = some (some item, h1) := by
  unfold compiler.nextLine at h
  cases fuel with
  | zero => cases h
  | succ n =>
    rw [nextLineLoop_succ] at h
    cases hr : c.lex.receive (n + 1) with
    | none => rw [hr] at h; cases h
    | some res =>
      obtain ⟨r, h1⟩ := res
      rw [hr] at h
      cases r with
      | none => cases h
      | some item' =>
        dsimp only at h
        split at h
        · cases h
        · obtain ⟨more, hmore⟩ := nextLineLoop_acc _ _ _ _ _ _ h
          simp only [List.nil_append, List.singleton_append, List.cons.injEq] at hmore
          rw [hmore.1]
          exact ⟨h1, rfl⟩

theorem symbol_sends (l : lexer) (item : lexItem) (h : (lexSymbolOrLabel l).sent = some item) :
    item.typ ≠ itemDirDefine := by
  unfold lexSymbolOrLabel at h
  dsimp only at h
  split at h
  · split at h
    · rw [emitThen_eq] at h
      dsimp only at h
      rw [(emit_sent _ _ item h).1]
      decide
    · rw [emitThen_eq] at h
      dsimp only at h
      rw [(emit_sent _ _ item h).1]
      decide
  · cases h

theorem value_sends (l : lexer) (item : lexItem) (h : (lexValue l).sent = some item) :
    item.typ ≠ itemDirDefine := by
  unfold lexValue at h
  dsimp only at h
  split at h
  · split at h
    · rw [emitThen_eq] at h
      dsimp only at h
      rw [(emit_sent _ _ item h).1]
      decide
    · rw [emitThen_eq] at h
      dsimp only at h
      rw [(emit_sent _ _ item h).1]
      decide
  · cases h

theorem comment_sends (l : lexer) : (lexComment l).sent = none := by
  unfold lexComment
  dsimp only
  split <;> rfl

theorem before_not_directive (q : Nat) (h : lexHandle) (hle : h.lex.start ≤ h.lex.pos)
    (hb : beforeAt q h) : ¬ (h.step.state = some stateFn.lexDirective ∧ h.step.lex.start = q) := by
  obtain ⟨state, hst, hpos, hcond⟩ := hb
  rw [step_some hst]
  intro ⟨hs, hq⟩
  dsimp only at hs hq
  cases state with
  | lexContent =>
    have hlt := hcond (Or.inl rfl)
    obtain ⟨_, _, hw3⟩ := step_where stateFn.lexContent h.lex hle
    rcases hw3 with ⟨_, hstate⟩ | ⟨_, hstart, _⟩
    · rw [hs] at hstate
      rcases hstate with h1 | h1 | h1 <;> cases h1
    · omega
  | lexSymbolOrLabel =>
    obtain ⟨_, _, f3⟩ := lexSymbolOrLabel_where h.lex
    have hs' : (lexSymbolOrLabel h.lex).state = some stateFn.lexDirective := hs
    rcases f3 with ⟨_, h1⟩ | ⟨h1, _⟩ <;> rw [hs'] at h1 <;> cases h1
  | lexValue =>
    obtain ⟨_, _, f3⟩ := lexValue_where h.lex
    have hs' : (lexValue h.lex).state = some stateFn.lexDirective := hs
    rcases f3 with ⟨_, h1 | h1⟩ | ⟨h1, _⟩ <;> rw [hs'] at h1 <;> cases h1
  | lexDirective =>
    have hlt := hcond (Or.inr rfl)
    obtain ⟨_, _, f3⟩ := lexDirective_where h.lex
    have hs' : (lexDirective h.lex).state = some stateFn.lexDirective := hs
    have hq' : (lexDirective h.lex).lex.start = q := hq
    rcases f3 with ⟨_, h1⟩ | ⟨h1, _⟩
    · rw [hs'] at h1; cases h1
    · omega
  | lexComment =>
    have hs' : (lexComment h.lex).state = some stateFn.lexDirective := hs
    rcases lexComment_where h.lex with ⟨h1, _⟩ | ⟨_, h1⟩ <;> rw [hs'] at h1 <;> cases h1

/-- A lexer that reads the directive at `q` has come to start a token at `q`, unless it
was reading the directive already. -/
theorem arrival (s : List Char) (q : Nat) (hdef : defineAt s q) :
    ∀ (j : Nat) (h X : lexHandle), placed s q h → h.silentSteps j = some X →
      X.state = some stateFn.lexDirective → X.lex.start = q →
      (h.state = some stateFn.lexDirective ∧ h.lex.start = q) ∨
        ∃ i T, h.silentSteps i = some T ∧ atDirective q T := by
  intro j
  induction j with
  | zero =>
    intro h X _ hs hst hq
    cases hs
    exact Or.inl ⟨hst, hq⟩
  | succ j ih =>
    intro h X hpl hs hst hq
    rw [lexHandle.silentSteps] at hs
    cases h1 : h.silentStep with
    | none => rw [h1] at hs; cases hs
    | some h1' =>
      rw [h1] at hs
      obtain ⟨hstep, _, hne⟩ := silentStep_step h1
      subst hstep
      rcases ih h.step X (placed_step s q hdef h hpl) hs hst hq with hdir | ⟨i, T, hi, hT⟩
      · rcases hpl.2.2 with hb | hat | hpast
        · exact absurd hdir (before_not_directive q h hpl.2.1 hb)
        · exact Or.inr ⟨0, h, rfl, hat⟩
        · rcases hpast with hp | hp | ⟨hp, hpos⟩ | ⟨hp, hstart, _⟩
          · exact absurd hp hne
          · exact absurd hdir.2 (by
              cases hs0 : h.state with
              | none => exact absurd hs0 hne
              | some state =>
                rw [step_some hs0]
                obtain ⟨hw1, _, _⟩ := step_where state h.lex hpl.2.1
                dsimp only
                omega)
          · exfalso
            rcases hp with hp | hp
            · rw [step_some hp] at hdir
              obtain ⟨_, _, f3⟩ := lexSymbolOrLabel_where h.lex
              have hs' : (lexSymbolOrLabel h.lex).state = some stateFn.lexDirective := hdir.1
              rcases f3 with ⟨_, h1⟩ | ⟨h1, _⟩ <;> rw [hs'] at h1 <;> cases h1
            · rw [step_some hp] at hdir
              obtain ⟨_, _, f3⟩ := lexValue_where h.lex
              have hs' : (lexValue h.lex).state = some stateFn.lexDirective := hdir.1
              rcases f3 with ⟨_, h1 | h1⟩ | ⟨h1, _⟩ <;> rw [hs'] at h1 <;> cases h1
          · exact Or.inl ⟨hp, hstart⟩
      · exact Or.inr ⟨i + 1, T, by rw [silentSteps_succ_of h1]; exact hi, hT⟩

theorem placed_lex (s : List Char) (q : Nat) : placed s q (lex s) := by
  refine ⟨rfl, le_refl _, ?_⟩
  by_cases hq : q = 0
  · exact Or.inr (Or.inl ⟨rfl, hq.symm, hq.symm⟩)
  · exact Or.inl ⟨stateFn.lexContent, rfl, Nat.zero_le _, fun _ => Nat.pos_of_ne_zero hq⟩

/-- When the first token of a line is the `.define` directive at the offset `q`, the lexer
has come, by calls that send nothing, to start a token at `q`. -/
theorem directive_arrival (source : String) (q : Nat) (hdef : defineAt source.data q)
    (fuel k : Nat) (c : compiler)
    (hlines : (compiler.new source).afterLines fuel k = some c) (l0 : lexItem) (rest : line)
    (cn : compiler) (hline : c.nextLine fuel = Res.ok (l0 :: rest, cn))
    (h0 : l0.typ = itemDirDefine) (hstart : l0.start = q) :
    ∃ m T, c.lex.silentSteps m = some T ∧ atDirective q T := by
  obtain ⟨n, hn⟩ := afterLines_reach fuel k _ c hlines
  have hplc : placed source.data q c.lex := by
    rw [hn]
    exact placed_steps source.data q hdef n _ (placed_lex source.data q)
  have hstc := afterLines_state fuel k _ c (Or.inl rfl) hlines
  obtain ⟨h1, hrec⟩ := nextLine_head hline
  obtain ⟨j, X, hj, hX, _⟩ := receive_sent_run fuel c.lex l0 h1 hrec
  have hplX : placed source.data q X := by
    rw [silentSteps_steps j c.lex X hj]
    exact placed_steps source.data q hdef j _ hplc
  have hXstart : X.lex.start = q := by rw [← (sends_start hX).1]; exact hstart
  have hXstate : X.state = some stateFn.lexDirective := by
    cases hs : X.state with
    | none => rw [sends_closed hs] at hX; cases hX
    | some state =>
      rw [sends_some hs] at hX
      cases state with
      | lexContent =>
        exfalso
        rcases hplX.2.2 with ⟨st, hst, _, hcond⟩ | hat | hpast
        · rw [hs] at hst
          cases hst
          have := hcond (Or.inl rfl)
          omega
        · obtain ⟨e1, _⟩ := content_at_directive X.lex q (by rw [hplX.1]; exact hdef)
            hat.2.1 hat.2.2
          have hX' : (lexContent X.lex).sent = some l0 := hX
          rw [e1] at hX'
          cases hX'
        · rcases hpast with hp | hp | ⟨hp, _⟩ | ⟨hp, _⟩
          · rw [hs] at hp; cases hp
          · omega
          · rw [hs] at hp
            rcases hp with hp | hp <;> cases hp
          · rw [hs] at hp; cases hp
      | lexSymbolOrLabel => exact absurd h0 (symbol_sends X.lex l0 hX)
      | lexValue => exact absurd h0 (value_sends X.lex l0 hX)
      | lexDirective => rfl
      | lexComment =>
        have hX' : (lexComment X.lex).sent = some l0 := hX
        rw [comment_sends] at hX'
        cases hX'
  rcases arrival source.data q hdef j c.lex X hplc hj hXstate hXstart with ⟨hdir, _⟩ | hres
  · rcases hstc with hc | hc <;> rw [hc] at hdir <;> cases hdir
  · exact hres

/-! ## A source with the qualifier inserted in a define line -/

theorem texts_agree (pre ws kw ws' post s1 s2 : List Char)
    (hs1 : s1 = pre ++ ".define".data ++ ws ++ post)
    (hs2 : s2 = pre ++ ".define".data ++ ws ++ kw ++ ws' ++ post)
    (hws : ws ≠ []) (hwsb : ∀ x ∈ ws, x = ' ' ∨ x = '\t' ∨ x = '\r')
    (hkw : kw.map unicodeToUpper = "PUBLIC".data) :
    defineAt s1 pre.length ∧
    agreeOn s1 s2 0 (fun i => i < pre.length + 7 + ws.length) ∧
    agreeOn s1 s2 (6 + ws'.length) (fun i => pre.length + 7 + ws.length ≤ i) := by
  have hlen : ".define".data.length = 7 := rfl
  have hklen : kw.length = 6 := by
    have := congrArg List.length hkw
    simpa using this
  have d1q : s1.drop pre.length = ".define".data ++ (ws ++ post) := by
    rw [hs1, List.append_assoc, List.append_assoc]
    exact drop_append_len rfl
  refine ⟨defineAt_of_drop d1q hws hwsb, ?_, ?_⟩
  · have := agree_before (pre ++ ".define".data ++ ws) post (kw ++ (ws' ++ post))
    rw [List.length_append, List.length_append, hlen] at this
    rw [hs1, hs2]
    simpa only [List.append_assoc] using this
  · have := agree_after (pre ++ ".define".data ++ ws) (kw ++ ws') post
    rw [List.length_append, List.length_append, List.length_append, hlen, hklen] at this
    rw [hs1, hs2]
    simpa only [List.append_assoc] using this

theorem afterLines_lt (fuel : Nat) : ∀ (k n : Nat) (c ck : compiler)
    (ps : List (String × List Nat)) (fs : List Nat)
    (R : List (String × List Nat) × List Nat × compiler),
    compiler.parseFileLoop fuel n c ps fs = Res.ok R → c.afterLines fuel k = some ck →
    k < n := by
  intro k
  induction k with
  | zero =>
    intro n c ck ps fs R h _
    cases n with
    | zero => cases h
    | succ n => exact Nat.succ_pos n
  | succ k ih =>
    intro n c ck ps fs R h hk
    obtain ⟨ast, c1, h1, h2⟩ := afterLines_succ fuel k c ck hk
    cases n with
    | zero => cases h
    | succ n =>
      obtain ⟨ps1, fs1, hline⟩ := parseFileLoop_line ast ps fs
      rw [hline fuel n c c1 h1] at h
      have := ih n c1 ck ps1 fs1 R h h2
      omega

theorem Compile_ok {fuel : Nat} {source : String} {options : Options} {astFile : AstFile}
    (h : Compile fuel source options = some (some astFile, none)) :
    ∃ ps fs cfin, compiler.parseFileLoop fuel fuel (compiler.new source) [] [] =
        Res.ok (ps, fs, cfin) ∧
      astFile = { defines := compiler.deref cfin.heap fs,
                  programs := ps.map (fun p =>
                    { name := p.1, defines := compiler.deref cfin.heap p.2 }) } := by
  unfold Compile compiler.parseFile at h
  cases hloop : compiler.parseFileLoop fuel fuel (compiler.new source) [] [] with
  | ok R =>
    obtain ⟨ps, fs, cfin⟩ := R
    rw [hloop] at h
    simp only [Res.bind_def, Res.bind, Res.pure_def, Option.some.injEq, Prod.mk.injEq,
      and_true] at h
    exact ⟨ps, fs, cfin, rfl, h.symm⟩
  | raise e => rw [hloop] at h; simp [Res.bind_def, Res.bind] at h
  | crash => rw [hloop] at h; simp [Res.bind_def, Res.bind] at h
  | timeout => rw [hloop] at h; simp [Res.bind_def, Res.bind] at h

theorem Compile_of_loop {fuel : Nat} {source : String} {options : Options}
    {ps : List (String × List Nat)} {fs : List Nat} {cfin : compiler}
    (h : compiler.parseFileLoop fuel fuel (compiler.new source) [] [] = Res.ok (ps, fs, cfin)) :
    Compile fuel source options =
      some (some { defines := compiler.deref cfin.heap fs,
                   programs := ps.map (fun p =>
                     { name := p.1, defines := compiler.deref cfin.heap p.2 }) }, none) := by
  unfold Compile compiler.parseFile
  rw [h]
  rfl

/-- The qualifier inserted before the name of a define line of an accepted source: the
source is accepted again, with the same AST. -/
theorem public_insert (pre ws kw ws' post : List Char)
    (hws : ws ≠ []) (hwsb : ∀ x ∈ ws, x = ' ' ∨ x = '\t' ∨ x = '\r')
    (hws' : ws' ≠ []) (hwsb' : ∀ x ∈ ws', x = ' ' ∨ x = '\t' ∨ x = '\r')
    (hkw : kw.map unicodeToUpper = "PUBLIC".data) (fuel k : Nat) (options : Options)
    (astFile : AstFile) (c cn : compiler) (l0 l1 : lexItem) (toks : line)
    (hacc : Compile fuel (String.mk (pre ++ ".define".data ++ ws ++ post)) options =
      some (some astFile, none))
    (hlines : (compiler.new (String.mk (pre ++ ".define".data ++ ws ++ post))).afterLines
      fuel k = some c)
    (hline : c.nextLine fuel = Res.ok (l0 :: l1 :: toks, cn))
    (h0 : l0.typ = itemDirDefine) (hq : l0.start = pre.length) (h1 : l1.typ = itemSymbol)
    (F : Nat) (hF : fuel + ws'.length ≤ F) :
    Compile F (String.mk (pre ++ ".define".data ++ ws ++ kw ++ ws' ++ post)) options =
      some (some astFile, none) := by
  obtain ⟨s1, hs1⟩ : ∃ s1, s1 = pre ++ ".define".data ++ ws ++ post := ⟨_, rfl⟩
  obtain ⟨s2, hs2⟩ : ∃ s2, s2 = pre ++ ".define".data ++ ws ++ kw ++ ws' ++ post := ⟨_, rfl⟩
  rw [← hs1] at hacc hlines
  rw [← hs2]
  obtain ⟨hdef1, hag0, hagd⟩ := texts_agree pre ws kw ws' post s1 s2 hs1 hs2 hws hwsb hkw
  have hwspos : 0 < ws.length := List.length_pos.mpr hws
  have hsimA := before_stepSim s1 s2 pre.length (pre.length + 7 + ws.length) hdef1 hag0
    (by omega)
  have hsimC := after_stepSim s1 s2 (6 + ws'.length) (pre.length + 7 + ws.length) hagd
  obtain ⟨m, T, hrun, hat⟩ := directive_arrival (String.mk s1) pre.length hdef1 fuel k c hlines
    l0 (l1 :: toks) cn hline h0 hq
  have hreach : reaches pre.length c.lex :=
    ⟨m, by rw [← silentSteps_steps m _ _ hrun]; exact hat⟩
  have hinv0 : beforeInv s1 s2 pre.length (compiler.new (String.mk s1)).lex (lex s2) :=
    ⟨rfl, ⟨rfl, rfl, rfl, rfl, rfl, Iff.rfl⟩, placed_lex s1 pre.length⟩
  obtain ⟨h2k, ps', fs', hinvk, run1, run2⟩ :=
    firstLines_sim hsimA (reaches_back _) fuel k _ (lex s2) c [] [] hinv0 hlines hreach
  obtain ⟨ps, fs, cfin, hloop, hast⟩ := Compile_ok hacc
  have hk := afterLines_lt fuel k fuel _ c [] [] _ hloop hlines
  obtain ⟨j, hj⟩ : ∃ j, fuel = k + j := ⟨fuel - k, by omega⟩
  have hloop1 : compiler.parseFileLoop fuel j c ps' fs' = Res.ok (ps, fs, cfin) := by
    rw [← run1 j, ← hj]
    exact hloop
  obtain ⟨j', ast, ct, hj', hparse⟩ := parseFileLoop_first fuel j c ps' fs' _ hloop1
  subst hj'
  obtain ⟨h2t, hparse2, hsuf⟩ := define_line pre ws kw ws' post s1 s2 hs1 hs2 hws hwsb hws'
    hwsb' hkw c h2k hinvk m T hrun hat fuel l0 l1 toks cn hline h1 ast ct hparse F hF
  have hend : ∃ cfin2, compiler.parseFileLoop F (j' + 1) (c.withLex h2k) ps' fs' =
      Res.ok (ps, fs, cfin2) ∧ cfin2.heap = cfin.heap := by
    cases ast with
    | none =>
      rw [parseFileLoop_end fuel j' c ct ps' fs' hparse] at hloop1
      simp only [Res.ok.injEq, Prod.mk.injEq] at hloop1
      obtain ⟨rfl, rfl, rfl⟩ := hloop1
      exact ⟨ct.withLex h2t, parseFileLoop_end F j' _ _ _ _ hparse2, rfl⟩
    | some a =>
      obtain ⟨ps1, fs1, hline1⟩ := parseFileLoop_line a ps' fs'
      rw [hline1 fuel j' c ct hparse] at hloop1
      obtain ⟨h2fin, hrun3⟩ := parseFileLoop_sim hsimC true_back fuel j' ct h2t ps1 fs1 ps fs
        cfin hsuf hloop1 trivial
      refine ⟨cfin.withLex h2fin, ?_, rfl⟩
      rw [hline1 F j' _ _ hparse2]
      exact parseFileLoop_ok_mono (by omega) (le_refl _) hrun3
  obtain ⟨cfin2, hloop2, hheap⟩ := hend
  have hloop2' : compiler.parseFileLoop F (k + (j' + 1)) (compiler.new (String.mk s2)) [] [] =
      Res.ok (ps, fs, cfin2) := by
    have := run2 F (j' + 1) (by omega)
    rw [hloop2] at this
    exact this
  have hfinal := @Compile_of_loop F (String.mk s2) options ps fs cfin2
    (parseFileLoop_ok_mono (le_refl F) (show k + (j' + 1) ≤ F by omega) hloop2')
  rw [hfinal, hast, hheap]

theorem defineLineAt_spec {fuel k : Nat} {source : String} {q : Nat}
    (h : defineLineAt fuel k source q = true) :
    ∃ c cn l0 l1 toks, (compiler.new source).afterLines fuel k = some c ∧
      c.nextLine fuel = Res.ok (l0 :: l1 :: toks, cn) ∧ l0.typ = itemDirDefine ∧
      l0.start = q ∧ l1.typ = itemSymbol := by
  unfold defineLineAt at h
  cases hc : (compiler.new source).afterLines fuel k with
  | none => rw [hc] at h; cases h
  | some c =>
    rw [hc] at h
    dsimp only at h
    cases hl : c.nextLine fuel with
    | ok res =>
      obtain ⟨l, cn⟩ := res
      rw [hl] at h
      cases l with
      | nil => cases h
      | cons l0 rest =>
        cases rest with
        | nil => cases h
        | cons l1 toks =>
          dsimp only at h
          have := of_decide_eq_true h
          exact ⟨c, cn, l0, l1, toks, rfl, hl, this.1, this.2.1, this.2.2⟩
    | raise e => rw [hl] at h; cases h
    | crash => rw [hl] at h; cases h
    | timeout => rw [hl] at h; cases h

theorem regenerate_of_Compile {fuel : Nat} {source : String} {options : Options}
    {astFile : AstFile} (h : Compile fuel source options = some (some astFile, none)) :
    regenerate fuel source = some astFile.ToSource := by
  have h' : Compile fuel source { evalDefine := false } = some (some astFile, none) := h
  unfold regenerate
  rw [h']

theorem toSource_shape (a : AstDefine) :
    a.ToSource = ".define " ++ a.name ++ " " ++ a.expr.ToSource ∨
      a.ToSource =
        ".define " ++ a.name ++ " " ++ a.expr.ToSource ++ " ; = " ++ toString a.value := by
  unfold AstDefine.ToSource
  dsimp only
  split
  · exact Or.inr rfl
  · exact Or.inl rfl

/-! ## Byte offsets in an ASCII source -/

theorem utf8Size_ascii (c : Char) (h : c.toNat < 128) : c.utf8Size = 1 := by
  have hv : c.val ≤ 127 := by
    rw [UInt32.le_def]
    show c.val.toNat ≤ 127
    have : c.toNat = c.val.toNat := rfl
    omega
  unfold Char.utf8Size
  exact if_pos hv

theorem utf8Len_ascii : ∀ (cs : List Char), (∀ c ∈ cs, c.toNat < 128) →
    String.utf8Len cs = cs.length
  | [], _ => rfl
  | c :: cs, h => by
    rw [String.utf8Len_cons, utf8Len_ascii cs (fun x hx => h x (List.mem_cons_of_mem _ hx)),
      utf8Size_ascii c (h c (List.mem_cons_self _ _)), List.length_cons]

theorem extract_ascii (input : List Char) (hascii : ∀ c ∈ input, c.toNat < 128)
    (a b : Nat) (hab : a ≤ b) (hb : b ≤ input.length) :
    (String.mk input).extract ⟨a⟩ ⟨b⟩ = String.mk ((input.drop a).take (b - a)) := by
  have h1 : String.utf8Len (input.take a) = a := by
    rw [utf8Len_ascii _ (fun c hc => hascii c (List.mem_of_mem_take hc)), List.length_take]
    omega
  have h2 : String.utf8Len ((input.drop a).take (b - a)) = b - a := by
    rw [utf8Len_ascii _ (fun c hc => hascii c (List.mem_of_mem_drop (List.mem_of_mem_take hc))),
      List.length_take, List.length_drop]
    omega
  have hsplit : input =
      input.take a ++ (input.drop a).take (b - a) ++ (input.drop a).drop (b - a) := by
    rw [List.append_assoc, List.take_append_drop, List.take_append_drop]
  have := String.extract_of_valid (input.take a) ((input.drop a).take (b - a))
    ((input.drop a).drop (b - a))
  rw [← hsplit, h1, h2] at this
  have e : a + (b - a) = b := by omega
  rw [e] at this
  exact this

/-! ## Statements of the claims on the lexer and on lines -/

/-- C11, as claimed, fails at an end-of-line token: on the source `a`, newline, newline, `b`
the end-of-line token starts at offset 1, on line 1 (no newline lies before it), and
`position` reports line 2 for it; the tokens `a` and `b` get their lines 1 and 3. -/
theorem position_line_eol :
    ((lex "a\n\nb".data).receiveMany 10 3).map (fun r => r.1.map (fun item =>
        (item.typ, item.start, (r.2.lex.position item.start).1,
          1 + (("a\n\nb".data.take item.start).count '\n' : Int)))) =
      some [(itemSymbol, 0, 1, 1), (itemEOL, 1, 2, 1), (itemSymbol, 3, 3, 3)] := by
  decide!

/-- C11, amended: for every source of ASCII characters, in which a rune is one byte and an
index into the source is a byte offset, and every token received from the lexer other than
an end-of-line token, the line `position` reports for the token's start offset, at any later
moment of the run and hence in every error raised at the token, is the token's exact
1-based line number: one plus the number of newline characters of the source before that
offset, blank lines counted.  The index `lines` holds, in strictly increasing order, the
offsets of all newlines below some offset that the lexer has reached.  The text before the
offset is as many bytes as characters. -/
theorem position_line (input : List Char) (hascii : ∀ c ∈ input, c.toNat < 128)
    (fuel n : Nat) (items : List lexItem)
    (h : lexHandle) (hrun : (lex input).receiveMany fuel n = some (items, h))
    (item : lexItem) (hmem : item ∈ items) (hne : item.typ ≠ itemEOL) :
    (h.lex.position item.start).1 = 1 + ((input.take item.start).count '\n' : Nat) ∧
    (∀ (c : compiler) (message : String), c.lex = h →
      (c.errorAt message item).line = 1 + ((input.take item.start).count '\n' : Nat)) ∧
    (∃ hi, item.start ≤ hi ∧ h.lex.pos ≤ hi ∧ h.lex.lines = newlinesBelow input hi) ∧
    h.lex.lines.Pairwise (· < ·) ∧
    String.utf8Len (input.take item.start) = (input.take item.start).length := by
  obtain ⟨_, hitems⟩ := lexInv_receiveMany input fuel n 0 _ h items (lexInv_lex input) hrun
  obtain ⟨⟨hin, hlines, _⟩, hoff⟩ := hitems item hmem
  have hline : (h.lex.position item.start).1 =
      1 + ((input.take item.start).count '\n' : Nat) := by
    have := position_fst h.lex item.start hlines (by rw [hin]; exact hoff hne)
    rw [hin] at this
    exact this
  obtain ⟨hi, h1, _, h3, h4⟩ := hlines
  rw [hin] at h4
  refine ⟨hline, ?_, ⟨hi, h1, h3, h4⟩, ?_,
    utf8Len_ascii _ (fun c hc => hascii c (List.mem_of_mem_take hc))⟩
  · intro c message hc
    subst hc
    exact hline
  · rw [h4]
    unfold newlinesBelow
    exact List.Pairwise.filter _ (List.pairwise_lt_range hi)

/-- C11, amended, at the source `a`, newline, newline, `b`: the token `b`, after a blank
line, is reported on line 3. -/
theorem position_line_witness :
    ((lexHandle.mk (some stateFn.lexContent)
        { input := "a\n\nb".data, lines := [1, 2], start := 4, pos := 4, width := 0,
          lastItem := some { typ := itemSymbol, val := "b", start := 3, end_ := 4 } }).lex.position
      3).1 = 3 :=
  (position_line "a\n\nb".data (by decide) 10 3
    [{ typ := itemSymbol, val := "a", start := 0, end_ := 1 },
     { typ := itemEOL, val := "\n", start := 1, end_ := 2 },
     { typ := itemSymbol, val := "b", start := 3, end_ := 4 }]
    (lexHandle.mk (some stateFn.lexContent)
      { input := "a\n\nb".data, lines := [1, 2], start := 4, pos := 4, width := 0,
        lastItem := some { typ := itemSymbol, val := "b", start := 3, end_ := 4 } })
    (by decide!) { typ := itemSymbol, val := "b", start := 3, end_ := 4 }
    (by decide) (by decide)).1

/-- C12: when the line `nextLine` returns is not empty and its first token is neither
`.program`, `.define` nor end-of-file (a symbol, a number, an instruction, a directive such
as `.origin`, the error token), `parseLine` raises `Unexpected item` positioned at that
first token and the loop of `parseFile` stops with this error.  If the line is reached
after `k` lines that each gave a define or a program, `Compile` returns this error and no
AST. -/
theorem parseLine_unexpected (fuel : Nat) (before c : compiler) (item : lexItem) (rest : line)
    (hnext : before.nextLine fuel = Res.ok (item :: rest, c))
    (hprogram : item.typ ≠ itemDirProgram) (hdefine : item.typ ≠ itemDirDefine)
    (heof : item.typ ≠ itemEOF) :
    before.parseLine fuel = Res.raise (c.errorAt "Unexpected item" item) ∧
    (∀ n programs fileDefines, compiler.parseFileLoop fuel (n + 1) before programs fileDefines =
      Res.raise (c.errorAt "Unexpected item" item)) ∧
    (∀ (source : String) (options : Options) (k : Nat),
      (compiler.new source).afterLines fuel k = some before → k < fuel →
      Compile fuel source options = some (none, some (c.errorAt "Unexpected item" item))) := by
  have hline : before.parseLine fuel = Res.raise (c.errorAt "Unexpected item" item) := by
    simp [compiler.parseLine, hnext, Res.bind_def, Res.bind, hprogram, hdefine, heof,
      raiseError_eq]
  have hloop : ∀ n programs fileDefines,
      compiler.parseFileLoop fuel (n + 1) before programs fileDefines =
        Res.raise (c.errorAt "Unexpected item" item) := by
    intro n programs fileDefines
    simp [compiler.parseFileLoop, hline, Res.bind_def, Res.bind]
  refine ⟨hline, hloop, ?_⟩
  intro source options k hafter hk
  obtain ⟨n, rfl⟩ : ∃ n, fuel = k + (n + 1) := ⟨fuel - k - 1, by omega⟩
  have := parseFileLoop_raise_after (k + (n + 1)) _ k _ before n [] [] hafter
    (fun programs' fileDefines' => hloop n programs' fileDefines')
  simp [Compile, compiler.parseFile, this, Res.bind_def, Res.bind]

/-- C12, at the source `x`: the only line starts with a symbol, and `Compile` returns
`Unexpected item` at line 1, column 1. -/
theorem parseLine_unexpected_witness :
    Compile 10 "x" { evalDefine := false } =
      some (none, some { line := 1, offset := 1, message := "Unexpected item" }) :=
  (parseLine_unexpected 10 (compiler.new "x")
    { compiler.new "x" with
        lex := lexHandle.mk none
          { input := "x".data, lines := [], start := 1, pos := 1, width := 0,
            lastItem := some { typ := itemEOF, val := "", start := 1, end_ := 1 } } }
    { typ := itemSymbol, val := "x", start := 0, end_ := 1 }
    [{ typ := itemEOF, val := "", start := 1, end_ := 1 }]
    (by decide!) (by decide) (by decide) (by decide)).2.2 "x" { evalDefine := false } 0 rfl
    (by decide)

/-- C13: on the source `.foo`, whose `.`-prefixed name is not a directive keyword, and on
the source `@`, a character outside the token alphabet, the lexer never sends an item and
never closes the channel, whatever the number of steps; `Compile` does not return on
either. -/
theorem lexer_never_halts :
    (∀ fuel, (lex ".foo".data).receive fuel = none) ∧
    (∀ fuel, (lex "@".data).receive fuel = none) ∧
    (∀ fuel, Compile fuel ".foo" { evalDefine := false } = none) ∧
    (∀ fuel, Compile fuel "@" { evalDefine := false } = none) := by
  have h1 : ∀ fuel, (lex ".foo".data).receive fuel = none :=
    receive_lasso _
      { state := some stateFn.lexDirective,
        lex := { input := ".foo".data, lines := [], start := 0, pos := 1, width := 1,
                 lastItem := none } } 1 4 (by decide!) (by decide!)
  have h2 : ∀ fuel, (lex "@".data).receive fuel = none :=
    receive_lasso _
      { state := some stateFn.lexContent,
        lex := { input := "@".data, lines := [], start := 0, pos := 1, width := 1,
                 lastItem := none } } 1 0 (by decide!) (by decide!)
  exact ⟨h1, h2, Compile_none_of_receive _ _ h1, Compile_none_of_receive _ _ h2⟩

/-- C14, as claimed, fails on the sources `.define A 1 2` and `.define A 1 B`: a second
number or a further symbol remains after the expression `1`, and `Compile` returns the AST
with `A` defined as `1` and no error. -/
theorem define_leftover_accepted :
    Compile 100 ".define A 1 2" { evalDefine := false } =
      some (some { defines := [{ name := "A", expr := AstValue false 1, evaluated := true,
                                 value := 1 }],
                   programs := [] }, none) ∧
    Compile 100 ".define A 1 B" { evalDefine := false } =
      some (some { defines := [{ name := "A", expr := AstValue false 1, evaluated := true,
                                 value := 1 }],
                   programs := [] }, none) := by
  decide!

/-- C14, amended: on a `.define` line (with or without `PUBLIC`), let the expression parser,
started by `parseExpr` on the tokens `toks` after the name, return the tree `e` and be left
with the tokens `rest` (the value of `ep.line` when `parseExprBinOr(false)` returns).  Then
`rest` does not start with an operator and is dropped: `parseExpr` returns `e`, and `toks`
is a complete expression `expr` followed by `rest`, where `expr` parsed on its own gives the
same tree `e` and leaves no token.  The line gives the same result as the line without the
tokens `rest`: the define whose expression is `e`, evaluated and registered, or the error of
that evaluation or registration; and so does every line with other tokens that do not start
with an operator in the place of `rest`.  When `nextLine` reads the line from the source,
`parseLine` returns what `parseDefine` returns on the line without `rest`. -/
theorem parseDefine_leftover (fuel : Nat) (c : compiler) (l0 l1 : lexItem)
    (toks rest l : line) (e : AstExpr)
    (hl : l = l0 :: l1 :: toks ∨ ∃ pub, pub.typ = itemPublic ∧ l = l0 :: pub :: l1 :: toks)
    (h0 : l0.typ = itemDirDefine) (h1 : l1.typ = itemSymbol)
    (hparse : exprParser.parseExprBinOr (toks.length + 1) c false toks = Res.ok (e, rest)) :
    headOp rest = none ∧ c.parseExpr toks = Res.ok e ∧
    ∃ expr, toks = expr ++ rest ∧
      exprParser.parseExprBinOr (expr.length + 1) c false expr = Res.ok (e, []) ∧
      c.parseExpr expr = Res.ok e ∧
      c.parseDefine fuel l = c.parseDefine fuel (l0 :: l1 :: expr) ∧
      c.parseDefine fuel l =
        Res.bind (compiler.evaluateDefine fuel
          { c with heap := c.heap ++
              [{ name := l1.val, expr := e, evaluated := false, value := 0 }] }
          c.heap.length) (fun c1 =>
            Res.bind (c1.registerDefine c.heap.length l0) (fun c2 =>
              Res.ok (lineAst.define c.heap.length, c2))) ∧
      (∀ rest' l', headOp rest' = none →
        (l' = l0 :: l1 :: (expr ++ rest') ∨
          ∃ pub, pub.typ = itemPublic ∧ l' = l0 :: pub :: l1 :: (expr ++ rest')) →
        c.parseDefine fuel l' = c.parseDefine fuel l) ∧
      ∀ before : compiler, before.nextLine fuel = Res.ok (l, c) →
        before.parseLine fuel =
          Res.bind (c.parseDefine fuel (l0 :: l1 :: expr)) (fun r => Res.ok (some r.1, r.2)) := by
  obtain ⟨hnone, expr, hsplit, hfull, hany⟩ := parseExprBinOr_split c toks rest e hparse
  have htoks := parseExpr_of_binOr c toks rest e hparse
  have hexpr : c.parseExpr expr = Res.ok e := parseExpr_of_binOr c expr [] e hfull
  have hsame : c.parseDefine fuel l = c.parseDefine fuel (l0 :: l1 :: expr) :=
    (parseDefine_of_parseExpr fuel c l0 l1 toks expr l (l0 :: l1 :: expr) hl (Or.inl rfl)
      h0 h1 (hexpr.trans htoks.symm)).symm
  refine ⟨hnone, htoks, expr, hsplit, hfull, hexpr, hsame, ?_, ?_, ?_⟩
  · rw [parseDefine_of_parseExpr fuel c l0 l1 toks toks (l0 :: l1 :: toks) l (Or.inl rfl) hl
      h0 h1 rfl, parseDefine_plain fuel c l0 l1 toks h0 h1, htoks]
    rfl
  · intro rest' l' hrest' hl'
    exact parseDefine_of_parseExpr fuel c l0 l1 toks (expr ++ rest') l l' hl hl' h0 h1
      ((parseExpr_of_binOr c _ rest' e (hany rest' hrest')).trans htoks.symm)
  · intro before hnext
    rw [← hsame]
    rcases hl with rfl | ⟨pub, _, rfl⟩
    · exact parseLine_define hnext h0
    · exact parseLine_define hnext h0

/-- C14, amended, at the line `.define A 1 2`: the parser returns the tree of `1` and is
left with the token `2`; the line gives the same result as the line `.define A 1`, the
define of `A` as `1`. -/
theorem parseDefine_leftover_witness :
    (compiler.new "").parseDefine 0 leftoverSample =
      (compiler.new "").parseDefine 0
        [{ typ := itemDirDefine, val := ".define", start := 0, end_ := 7 },
         { typ := itemSymbol, val := "A", start := 8, end_ := 9 },
         { typ := itemNumber, val := "1", start := 10, end_ := 11 }] ∧
    (compiler.new "").parseDefine 0 leftoverSample =
      Res.ok (lineAst.define 0,
        { compiler.new "" with
            globalSymbols := [("A", 0)],
            heap := [{ name := "A", expr := AstValue false 1, evaluated := true,
                       value := 1 }] }) := by
  obtain ⟨_, _, expr, hsplit, _, _, hsame, _, _, _⟩ :=
    parseDefine_leftover 0 (compiler.new "")
      { typ := itemDirDefine, val := ".define", start := 0, end_ := 7 }
      { typ := itemSymbol, val := "A", start := 8, end_ := 9 }
      [{ typ := itemNumber, val := "1", start := 10, end_ := 11 },
       { typ := itemNumber, val := "2", start := 12, end_ := 13 }]
      [{ typ := itemNumber, val := "2", start := 12, end_ := 13 }]
      leftoverSample (AstValue false 1) (Or.inl rfl) rfl rfl (by decide!)
  have hexpr : expr = [{ typ := itemNumber, val := "1", start := 10, end_ := 11 }] :=
    (List.append_cancel_right
      (show [({ typ := itemNumber, val := "1", start := 10, end_ := 11 } : lexItem)] ++
          [{ typ := itemNumber, val := "2", start := 12, end_ := 13 }] =
        expr ++ [{ typ := itemNumber, val := "2", start := 12, end_ := 13 }] from hsplit)).symm
  subst hexpr
  exact ⟨hsame, by decide!⟩

/-- C15: when `Compile` returns an AST, the lines of the file, read one after the other by
`parseLine` up to the end of the file, are defines and programs, every define stored at the
address its line returned, and the AST lists as global defines exactly the defines of the
lines before the first `.program` line, in order, and the programs in order, each with
exactly the defines of the lines between its `.program` line and the next.  `ToSource`
renders the global defines, one per line, then each program as `.program NAME` on a line
followed by its defines, one per line. -/
theorem compile_assembly (fuel : Nat) (source : String) (options : Options)
    (astFile : AstFile) (h : Compile fuel source options = some (some astFile, none)) :
    ∃ asts c, (compiler.new source).parseLines fuel fuel = Res.ok (asts, c) ∧
      (∀ v, lineAst.define v ∈ asts → ∃ d, c.heap[v]? = some d) ∧
      (∀ name defines, lineAst.program name defines ∈ asts → defines = []) ∧
      astFile.defines = compiler.deref c.heap (definesBeforeProgram asts) ∧
      astFile.programs = (programsOf asts).map
        (fun p => { name := p.1, defines := compiler.deref c.heap p.2 }) ∧
      astFile.ToSource = definesText astFile.defines ++
        String.join (astFile.programs.map
          (fun p => ".program " ++ p.name ++ "\n" ++ definesText p.defines)) := by
  unfold Compile compiler.parseFile at h
  rw [(parseFileLoop_eq fuel fuel (compiler.new source)).1 []] at h
  cases hlines : (compiler.new source).parseLines fuel fuel with
  | ok r =>
    obtain ⟨asts, c⟩ := r
    simp only [hlines, Res.bind_def, Res.bind, Res.pure_def, List.nil_append,
      Option.some.injEq, Prod.mk.injEq, and_true] at h
    obtain ⟨_, h2, h3⟩ := parseLines_heap fuel fuel _ asts c hlines
    refine ⟨asts, c, rfl, ?_, h3, ?_, ?_, ?_⟩
    · intro v hv
      exact ⟨_, List.getElem?_eq_getElem (h2 v hv)⟩
    · rw [← h]
    · rw [← h]
    · unfold AstFile.ToSource AstProgram.ToSource definesText
      simp only [foldl_append_join]
      congr 1
  | raise e => simp [hlines, Res.bind_def, Res.bind] at h
  | crash => simp [hlines, Res.bind_def, Res.bind] at h
  | timeout => simp [hlines, Res.bind_def, Res.bind] at h

/-- C15, at a source of a global define, a program with a define, and a second program:
the AST returned is assembled from the lines in this way, and its text is the source with a
final newline. -/
theorem compile_assembly_witness :
    (∃ asts c, (compiler.new assemblySource).parseLines 20 20 = Res.ok (asts, c) ∧
      (∀ v, lineAst.define v ∈ asts → ∃ d, c.heap[v]? = some d) ∧
      (∀ name defines, lineAst.program name defines ∈ asts → defines = []) ∧
      assemblySample.defines = compiler.deref c.heap (definesBeforeProgram asts) ∧
      assemblySample.programs = (programsOf asts).map
        (fun p => { name := p.1, defines := compiler.deref c.heap p.2 }) ∧
      assemblySample.ToSource = definesText assemblySample.defines ++
        String.join (assemblySample.programs.map
          (fun p => ".program " ++ p.name ++ "\n" ++ definesText p.defines))) ∧
    assemblySample.ToSource = ".define A 1\n.program p\n.define B A\n.program q\n" :=
  ⟨compile_assembly 20 assemblySource { evalDefine := false } assemblySample (by decide!),
    by decide!⟩

/-- C16: `AstDefine.ToSource` renders `.define NAME EXPR` and appends ` ; = VALUE`, the
value in decimal, exactly when the define is evaluated and its expression is a binary
operation; a define whose expression is a literal or an identifier is rendered without the
annotation, evaluated or not. -/
theorem astDefine_toSource (a : AstDefine) :
    a.ToSource = ".define " ++ a.name ++ " " ++ a.expr.ToSource ++
      (if a.evaluated = true ∧ a.expr.isBinOp = true then " ; = " ++ toString a.value else "") ∧
    (a.ToSource ≠ ".define " ++ a.name ++ " " ++ a.expr.ToSource ↔
      a.evaluated = true ∧ a.expr.isBinOp = true) ∧
    (∀ p value, a.expr = AstValue p value →
      a.ToSource = ".define " ++ a.name ++ " " ++ toString value) ∧
    (∀ p name, a.expr = AstIdentifier p name →
      a.ToSource = ".define " ++ a.name ++ " " ++ name) := by
  have hnil : ∀ s : String, s ++ "" = s := by
    intro s; apply String.ext; simp [String.data_append]
  have hmain : a.ToSource = ".define " ++ a.name ++ " " ++ a.expr.ToSource ++
      (if a.evaluated = true ∧ a.expr.isBinOp = true then " ; = " ++ toString a.value
        else "") := by
    obtain ⟨name, expr, evaluated, value⟩ := a
    cases expr <;> cases evaluated <;>
      simp [AstDefine.ToSource, AstExpr.isBinOp, hnil, String.append_assoc]
  refine ⟨hmain, ?_, ?_, ?_⟩
  · constructor
    · intro hne
      by_contra hcond
      rw [hmain, if_neg hcond, hnil] at hne
      exact hne rfl
    · intro hcond heq
      rw [hmain, if_pos hcond] at heq
      have hlen := congrArg String.length heq
      simp only [String.length_append] at hlen
      have : (" ; = " : String).length = 5 := by decide
      omega
  · intro p value hexpr
    rw [hmain, hexpr]
    simp [AstExpr.isBinOp, AstExpr.ToSource, hnil]
  · intro p name hexpr
    rw [hmain, hexpr]
    simp [AstExpr.isBinOp, AstExpr.ToSource, hnil]

/-- C16, at the evaluated defines `A` with the expression `1 + 2` and `B` with the
identifier `A`: only the first is annotated. -/
theorem astDefine_toSource_witness :
    sumDefineSample.ToSource = ".define A 1 + 2 ; = 3" ∧
    aliasDefineSample.ToSource = ".define B A" :=
  ⟨(astDefine_toSource sumDefineSample).1,
   (astDefine_toSource aliasDefineSample).2.2.2 false "A" rfl⟩

/-- C17 fails on a define line that has the qualifier already: the source
`.define PUBLIC A 1` is accepted, and with `PUBLIC` and a space inserted between `.define`
and the name it is rejected with a syntax error, since `parseDefine` takes a name as the
second or, after one qualifier, as the third token.  It fails also when the white space
after the inserted word is a newline, which ends the line: `.define A 1` is accepted, and
`.define PUBLIC` followed by `A 1` on the next line returns neither an AST nor an error. -/
theorem define_public_twice :
    regenerate 30 ".define PUBLIC A 1" = some ".define A 1\n" ∧
    Compile 30 ".define PUBLIC PUBLIC A 1" { evalDefine := false } =
      some (none, some { message := "Syntax error near `.define`", line := 1, offset := 1 }) ∧
    regenerate 30 ".define A 1" = some ".define A 1\n" ∧
    Compile 30 ".define PUBLIC\nA 1" { evalDefine := false } = some (none, none) := by
  decide!

/-- C17, amended: the qualifier `PUBLIC` has no effect on a define line that has none yet.
Take an accepted source that holds `.define` at the offset of the end of `pre`, followed by
the blanks `ws` and by `post`, such that line `k + 1` of the source is read as a define line
whose directive is this `.define` and whose second token is the name.  Insert before
`post`, that is between the directive and the name, the word `PUBLIC` in any letter case
(`kw`) followed by the blanks `ws'` (spaces, tabs, carriage returns).  Then the new source
is accepted with the same AST, with any fuel that leaves room for the inserted blanks, so
that its regenerated text is that of the source without the qualifier.  The text of a
define is `.define`, the name and the expression, with the value after a binary operation:
nothing stands between `.define` and the name.  On the tokens of any such line, with any
compiler, the line with the qualifier token gives what the line without it gives, a
failure included. -/
theorem define_public_no_effect (pre ws kw ws' post : List Char) (fuel k : Nat)
    (options : Options) (astFile : AstFile)
    (hws : ws ≠ [] ∧ ∀ x ∈ ws, x = ' ' ∨ x = '\t' ∨ x = '\r')
    (hws' : ws' ≠ [] ∧ ∀ x ∈ ws', x = ' ' ∨ x = '\t' ∨ x = '\r')
    (hkw : kw.map unicodeToUpper = "PUBLIC".data)
    (haccepted : Compile fuel (String.mk (pre ++ ".define".data ++ ws ++ post)) options =
      some (some astFile, none))
    (hline : defineLineAt fuel k (String.mk (pre ++ ".define".data ++ ws ++ post))
      pre.length = true)
    (fuel' : Nat) (hfuel : fuel + ws'.length ≤ fuel') :
    Compile fuel' (String.mk (pre ++ ".define".data ++ ws ++ kw ++ ws' ++ post)) options =
      some (some astFile, none) ∧
    regenerate fuel' (String.mk (pre ++ ".define".data ++ ws ++ kw ++ ws' ++ post)) =
      regenerate fuel (String.mk (pre ++ ".define".data ++ ws ++ post)) ∧
    regenerate fuel (String.mk (pre ++ ".define".data ++ ws ++ post)) =
      some astFile.ToSource ∧
    (∀ a : AstDefine,
      a.ToSource = ".define " ++ a.name ++ " " ++ a.expr.ToSource ∨
        a.ToSource =
          ".define " ++ a.name ++ " " ++ a.expr.ToSource ++ " ; = " ++ toString a.value) ∧
    (∀ (c : compiler) (l0 pub l1 : lexItem) (toks : line), l0.typ = itemDirDefine →
      pub.typ = itemPublic → l1.typ = itemSymbol →
      c.parseDefine fuel (l0 :: pub :: l1 :: toks) = c.parseDefine fuel (l0 :: l1 :: toks)) := by
  obtain ⟨c, cn, l0, l1, toks, hlines, hnext, h0, hq, h1⟩ := defineLineAt_spec hline
  have hcompile := public_insert pre ws kw ws' post hws.1 hws.2 hws'.1 hws'.2 hkw fuel k options
    astFile c cn l0 l1 toks haccepted hlines hnext h0 hq h1 fuel' hfuel
  refine ⟨hcompile, ?_, regenerate_of_Compile haccepted, toSource_shape, ?_⟩
  · rw [regenerate_of_Compile hcompile, regenerate_of_Compile haccepted]
  · intro c l0 pub l1 toks h0 hpub h1
    exact parseDefine_public_eq fuel c l0 pub l1 toks h0 hpub h1

/-- C17, at the source `.define A 1 + 2`, `.program p`, `.define B A * 2`, with `PuBlIc`,
a space and a tab inserted in its third line: the source is accepted with the AST of the
source without the qualifier. -/
theorem define_public_no_effect_witness :
    Compile 62 ".define A 1 + 2\n.program p\n.define PuBlIc \tB A * 2" { evalDefine := false } =
      some (some publicSample, none) :=
  (define_public_no_effect ".define A 1 + 2\n.program p\n".data " ".data "PuBlIc".data
    " \t".data "B A * 2".data 60 2 { evalDefine := false } publicSample
    ⟨by decide, by decide⟩ ⟨by decide, by decide⟩ (by decide) (by decide!) (by decide!) 62
    (by decide)).1

/-- C18: for every source, the items received from the lexer never begin with an
end-of-line token and never hold two adjacent end-of-line tokens.  Hence, from the fresh
compiler on and after every line read or parsed, `nextLine` returns an empty line only when
the lexer has closed the channel.  A source made only of blanks (spaces, tabs, carriage
returns, newlines) and comments gives the single token end-of-file. -/
theorem eol_collapsed (source : String) :
    (∀ fuel n items h, (lex source.data).receiveMany fuel n = some (items, h) →
      (∀ item, items.head? = some item → item.typ ≠ itemEOL) ∧
        List.Chain' notBothEOL items) ∧
    lineReady (compiler.new source) ∧
    (∀ fuel c r c', lineReady c → compiler.parseLine fuel c = Res.ok (r, c') → lineReady c') ∧
    (∀ fuel c l c', lineReady c → compiler.nextLine fuel c = Res.ok (l, c') →
      lineReady c' ∧ (l = [] → c'.lex.state = none)) ∧
    (blankOnly false source.data = true → ∀ fuel, 2 * source.data.length + 2 ≤ fuel →
      ∃ item, lexAll fuel fuel (lex source.data) = some [item] ∧ item.typ = itemEOF) := by
  have hfresh : eolPending (lex source.data).lex := fun last hl => Option.noConfusion hl
  refine ⟨?_, Or.inl hfresh, ?_, ?_, ?_⟩
  · intro fuel n items h hrun
    obtain ⟨h1, h2⟩ := eol_receiveMany fuel n _ h items hrun
    exact ⟨h1 hfresh, h2⟩
  · intro fuel c r c' hready h
    exact lineReady_parseLine fuel c r c' hready h
  · intro fuel c l c' hready h
    exact lineReady_nextLine fuel c l c' hready h
  · intro hblank fuel hfuel
    obtain ⟨item, h', hr, htyp, hclosed⟩ :=
      blank_receive source.data false (lex source.data).lex rfl rfl hfresh hblank
    have hr' : (lex source.data).receive fuel = some (some item, h') :=
      receive_mono _ _ _ _ hfuel hr
    obtain ⟨k, rfl⟩ : ∃ k, fuel = k + 2 := ⟨fuel - 2, by omega⟩
    refine ⟨item, ?_, htyp⟩
    simp only [lexAll, hr', receive_closed (k + 1) h' hclosed, Option.map_some']

/-- C18, at a source of a comment and two newlines: the stream is the single token
end-of-file. -/
theorem eol_collapsed_witness :
    ∃ item, lexAll 12 12 (lex "; a\n\n".data) = some [item] ∧ item.typ = itemEOF :=
  (eol_collapsed "; a\n\n").2.2.2.2 (by decide) 12 (by decide)

/-- C19 fails on the source `jmp;c`, where a comment starts immediately after a keyword:
the stream is the symbol `jmp` and end-of-file, while the source without the comment, `jmp`,
gives the instruction token `jmp` and end-of-file, as does `jmp ;c` with a blank before the
comment.  After a symbol or a number a comment that starts immediately is discarded:
`A;c` and `1//c` give the streams of `A` and `1`. -/
theorem comment_after_keyword :
    lexKinds 100 "jmp;c" = some [(itemSymbol, "jmp"), (itemEOF, "")] ∧
    lexKinds 100 "jmp" = some [(itemInstrJMP, "jmp"), (itemEOF, "")] ∧
    lexKinds 100 "jmp ;c" = some [(itemInstrJMP, "jmp"), (itemEOF, "")] ∧
    lexKinds 100 "A;c" = lexKinds 100 "A" ∧
    lexKinds 100 "1//c" = lexKinds 100 "1" := by
  decide!

/-- C20: when the lexer, at the start of a token, meets a run of digits immediately followed
by a symbol character (a letter or `_`), it sends one error token whose text is the digits
plus that character, and then closes the channel: whatever follows in the source, no further
token is sent, not even end-of-file.  In particular a source that starts with such a run
gives a stream of exactly that one token. -/
theorem lexValue_error (l : lexer) (digits : List Char) (c : Char) (rest : List Char)
    (hpos : l.pos = l.start) (hrest : l.input.drop l.pos = digits ++ c :: rest)
    (hne : digits ≠ []) (hdigits : ∀ d ∈ digits, isValue d = true) (hc : isSymbol c = true) :
    (∃ h', (lexHandle.mk (some stateFn.lexContent) l).receive (digits.length + 1) =
        some (some { typ := itemError, val := String.mk (digits ++ [c]), start := l.pos,
                     end_ := l.pos + digits.length + 1 }, h') ∧
      h'.state = none ∧ ∀ fuel, h'.receive (fuel + 1) = some (none, h')) ∧
    (l = (lex (digits ++ c :: rest)).lex →
      lexAll (digits.length + 1) 2 (lex (digits ++ c :: rest)) =
        some [{ typ := itemError, val := String.mk (digits ++ [c]), start := 0,
                end_ := digits.length + 1 }]) := by
  have hmain : ∃ h', (lexHandle.mk (some stateFn.lexContent) l).receive (digits.length + 1) =
        some (some { typ := itemError, val := String.mk (digits ++ [c]), start := l.pos,
                     end_ := l.pos + digits.length + 1 }, h') ∧
      h'.state = none ∧ ∀ fuel, h'.receive (fuel + 1) = some (none, h') := by
    cases digits with
    | nil => exact absurd rfl hne
    | cons d ds =>
      obtain ⟨hd1, hdrop⟩ := drop_cons_pos hrest
      obtain ⟨_, hn2, hn3, hn4, _⟩ := next_of_some l d hd1
      have hd : isValue l.peek = true := by
        rw [peek_eq l d hd1]; exact hdigits d (List.mem_cons_self _ _)
      obtain ⟨h', hr, hclosed⟩ := lexValue_run ds l.next.2 c rest
        (by rw [hn3, hn2]; exact hdrop) (fun x hx => hdigits x (List.mem_cons_of_mem _ hx)) hc
      refine ⟨h', ?_, hclosed, fun fuel => receive_closed fuel h' hclosed⟩
      rw [List.length_cons,
        receive_step_silent _ stateFn.lexContent l _ (lexContent_digit l hpos hd) rfl]
      rw [hr, hn2, hn3, hn4, ← hpos, hrest]
      have h1 : l.pos + 1 + ds.length + 1 - l.pos = (d :: ds).length + 1 := by
        simp only [List.length_cons]; omega
      have h2 : l.pos + 1 + ds.length + 1 = l.pos + (ds.length + 1) + 1 := by omega
      rw [h1, h2, List.take_append_eq_append_take]
      simp [List.take_of_length_le (Nat.le_succ ds.length)]
  refine ⟨hmain, ?_⟩
  intro hl
  obtain ⟨h', hr, hclosed, hrec⟩ := hmain
  subst hl
  have hr' : (lex (digits ++ c :: rest)).receive (digits.length + 1) =
      some (some { typ := itemError, val := String.mk (digits ++ [c]), start := 0,
                   end_ := digits.length + 1 }, h') := by
    simpa [lex] using hr
  have hrec' := hrec digits.length
  simp only [lexAll, hr', hrec', Option.map_some']

/-- C20, at the source `12ab c`: the stream is the single error token `12a`. -/
theorem lexValue_error_witness :
    lexAll 3 2 (lex "12ab c".data) =
      some [{ typ := itemError, val := "12a", start := 0, end_ := 3 }] :=
  (lexValue_error (lex "12ab c".data).lex ['1', '2'] 'a' ['b', ' ', 'c'] rfl rfl
    (by decide) (by decide) (by decide)).2 rfl

/-! ## Parenthesis flags and evaluation -/

theorem eval_unmarked (g : compiler → String → Res (pioInt × compiler)) (e : AstExpr) :
    ∀ c, e.unmarked.eval g c = e.eval g c := by
  induction e with
  | AstValue p v => intro c; rfl
  | AstBinOp p name left right ihl ihr =>
    intro c
    simp only [AstExpr.unmarked, AstExpr.eval, ihl]
    congr 1
    funext r
    simp only [ihr]
  | AstIdentifier p name => intro c; rfl

theorem substEval_unmarked (c : compiler) (e : AstExpr) :
    substEval c e.unmarked = substEval c e := by
  induction e with
  | AstValue p v => rfl
  | AstBinOp p name left right ihl ihr => simp only [AstExpr.unmarked, substEval, ihl, ihr]
  | AstIdentifier p name => rfl

/-! ## Statements of the claims on short lines and on dropped parentheses -/

/-- C21: a directive line that is cut short and ends at a newline makes the parser index
past the end of its token list.  On each of the six sources `.program`, `.define`,
`.define PUBLIC`, `.define A`, `.define A 1 +` and `.define A (1` followed by a newline,
`Compile` returns neither an AST nor a `CompileError`: the runtime panic is recovered and
dropped.  The same lines at the end of the file, where the end-of-file token closes the
line, give the syntax error the claim describes.  On the parser alone: `parseProgram` and
`parseDefine` on a line made of the directive only, `parseDefine` on the directive and
`PUBLIC`, and `parseExpr` on no token at all end in a runtime panic. -/
theorem short_line_out_of_range :
    (Compile 50 ".program\n" { evalDefine := false } = some (none, none) ∧
     Compile 50 ".define\n" { evalDefine := false } = some (none, none) ∧
     Compile 50 ".define PUBLIC\n" { evalDefine := false } = some (none, none) ∧
     Compile 50 ".define A\n" { evalDefine := false } = some (none, none) ∧
     Compile 50 ".define A 1 +\n" { evalDefine := false } = some (none, none) ∧
     Compile 50 ".define A (1\n" { evalDefine := false } = some (none, none)) ∧
    (Compile 50 ".program" { evalDefine := false } =
       some (none, some { line := 1, offset := 1, message := "Syntax error near .program" }) ∧
     Compile 50 ".define" { evalDefine := false } =
       some (none, some { line := 1, offset := 1, message := "Syntax error near `.define`" }) ∧
     Compile 50 ".define PUBLIC" { evalDefine := false } =
       some (none, some { line := 1, offset := 1, message := "Syntax error near `.define`" }) ∧
     Compile 50 ".define A" { evalDefine := false } =
       some (none, some { line := 1, offset := 10, message := "Syntax error in expression" }) ∧
     Compile 50 ".define A 1 +" { evalDefine := false } =
       some (none, some { line := 1, offset := 14, message := "Syntax error in expression" }) ∧
     Compile 50 ".define A (1" { evalDefine := false } =
       some (none, some { line := 1, offset := 13, message := "Syntax error in expression" })) ∧
    (∀ (c : compiler) (val : String) (s e : Nat),
      c.parseProgram [{ typ := itemDirProgram, val := val, start := s, end_ := e }] =
        Res.crash) ∧
    (∀ (c : compiler) (fuel : Nat) (val : String) (s e : Nat),
      c.parseDefine fuel [{ typ := itemDirDefine, val := val, start := s, end_ := e }] =
        Res.crash) ∧
    (∀ (c : compiler) (fuel : Nat) (val val' : String) (s e s' e' : Nat),
      c.parseDefine fuel [{ typ := itemDirDefine, val := val, start := s, end_ := e },
          { typ := itemPublic, val := val', start := s', end_ := e' }] = Res.crash) ∧
    (∀ c : compiler, c.parseExpr [] = Res.crash) := by
  refine ⟨by decide!, by decide!, ?_, ?_, ?_, ?_⟩
  · intro c val s e; rfl
  · intro c fuel val s e; rfl
  · intro c fuel val val' s e s' e'; rfl
  · intro c; rfl

/-- C22: parentheses around a product or a quotient are dropped by regeneration although
they change the value.  The source `.define A 12 / (2 * 3)` is accepted with the value 2
and regenerated as `.define A 12 / 2 * 3 ; = 2`; parsing that text again, with or without
its annotation, gives an expression whose value is 18.  The second half of the claim
holds: clearing every parenthesis flag of a tree changes neither what `eval` returns nor
the value of the expression. -/
theorem dropped_parentheses_value :
    regenerate 100 ".define A 12 / (2 * 3)" = some ".define A 12 / 2 * 3 ; = 2\n" ∧
    regenerate 100 ".define A 12 / 2 * 3" = some ".define A 12 / 2 * 3 ; = 18\n" ∧
    regenerate 100 ".define A 12 / 2 * 3 ; = 2\n" = some ".define A 12 / 2 * 3 ; = 18\n" ∧
    Compile 100 ".define A 12 / (2 * 3)" { evalDefine := false } =
      some (some { defines :=
                     [{ name := "A",
                        expr := AstBinOp false opDiv (AstValue false 12)
                          (AstBinOp false opMul (AstValue false 2) (AstValue false 3)),
                        evaluated := true, value := 2 }],
                   programs := [] }, none) ∧
    Compile 100 ".define A 12 / 2 * 3" { evalDefine := false } =
      some (some { defines :=
                     [{ name := "A",
                        expr := AstBinOp false opMul
                          (AstBinOp false opDiv (AstValue false 12) (AstValue false 2))
                          (AstValue false 3),
                        evaluated := true, value := 18 }],
                   programs := [] }, none) ∧
    (∀ (g : compiler → String → Res (pioInt × compiler)) (e : AstExpr) (c : compiler),
      e.unmarked.eval g c = e.eval g c) ∧
    (∀ (c : compiler) (e : AstExpr), substEval c e.unmarked = substEval c e) := by
  refine ⟨by decide!, by decide!, by decide!, by decide!, by decide!, ?_, ?_⟩
  · intro g e c; exact eval_unmarked g e c
  · intro c e; exact substEval_unmarked c e

/-! ## The value of every stored define -/

theorem tablesValued_evaluated {c : compiler} (h : tablesValued c) : tablesEvaluated c := by
  constructor
  · intro name define hg
    obtain ⟨d, hd, he, _⟩ := h.1 name define hg
    exact ⟨d, hd, he⟩
  · intro program symbols name define hp hn
    obtain ⟨d, hd, he, _⟩ := h.2.1 program symbols name define hp hn
    exact ⟨d, hd, he⟩

theorem substEval_binOp_some {c : compiler} {p : Bool} {name : operator} {left right : AstExpr}
    {v : Int} (h : substEval c (AstBinOp p name left right) = some v) :
    ∃ a b, substEval c left = some a ∧ substEval c right = some b ∧
      binOpEval name a b = Res.ok v := by
  unfold substEval at h
  cases hl : substEval c left with
  | none => simp [hl] at h
  | some a =>
    cases hr : substEval c right with
    | none => simp [hl, hr] at h
    | some b =>
      simp only [hl, hr] at h
      cases hb : binOpEval name a b with
      | ok w =>
        simp only [hb, Option.some.injEq] at h
        exact ⟨a, b, rfl, rfl, by rw [← h]; exact hb⟩
      | raise e => simp [hb] at h
      | crash => simp [hb] at h
      | timeout => simp [hb] at h

theorem substEval_binOp_of {c : compiler} (p : Bool) {name : operator} {left right : AstExpr}
    {a b v : Int} (hl : substEval c left = some a) (hr : substEval c right = some b)
    (hb : binOpEval name a b = Res.ok v) :
    substEval c (AstBinOp p name left right) = some v := by
  unfold substEval
  simp only [hl, hr, hb]

/-- The value of an expression stays the same in a compiler that resolves every name the
first compiler resolves, to the same value. -/
theorem substEval_mono {cA cB : compiler}
    (h : ∀ name x, scopeValue cA name = some x → scopeValue cB name = some x) (e : AstExpr) :
    ∀ v, substEval cA e = some v → substEval cB e = some v := by
  induction e with
  | AstValue p w => intro v hv; exact hv
  | AstIdentifier p name => intro v hv; exact h name v hv
  | AstBinOp p name left right ihl ihr =>
    intro v hv
    obtain ⟨a, b, hl, hr, hb⟩ := substEval_binOp_some hv
    exact substEval_binOp_of p (ihl a hl) (ihr b hr) hb

theorem valuedAt_mono {c c' : compiler} {program : Option String} {define : Nat}
    (hv : valuedAt c program define)
    (hheap : ∀ d, c.heap[define]? = some d → c'.heap[define]? = some d)
    (h : ∀ name x, scopeValue (c.inScope program) name = some x →
      scopeValue (c'.inScope program) name = some x) :
    valuedAt c' program define := by
  obtain ⟨d, hd, he, hval⟩ := hv
  exact ⟨d, hheap d hd, he, substEval_mono h d.expr d.value hval⟩

theorem getElem?_append_some {α : Type} {l : List α} {i : Nat} {a : α} (extra : List α)
    (h : l[i]? = some a) : (l ++ extra)[i]? = some a := by
  have hlt : i < l.length := by
    by_contra hge
    rw [List.getElem?_eq_none (Nat.le_of_not_lt hge)] at h
    cases h
  rw [List.getElem?_append_left hlt]
  exact h

/-- The value a name stands for, when a compiler differs from another in the heap alone,
which is longer. -/
theorem scopeValue_heap {c c' : compiler} (extra : List AstDefine)
    (hheap : c'.heap = c.heap ++ extra) (hg : c'.globalSymbols = c.globalSymbols)
    (hp : c'.programSymbols = c.programSymbols) (program : Option String) (name : String)
    (x : Int) (h : scopeValue (c.inScope program) name = some x) :
    scopeValue (c'.inScope program) name = some x := by
  unfold scopeValue compiler.inScope at h ⊢
  simp only [hg, hp, hheap] at h ⊢
  have key : ∀ define : Nat,
      Option.map (fun d : AstDefine => d.value) c.heap[define]? = some x →
      Option.map (fun d : AstDefine => d.value) (c.heap ++ extra)[define]? = some x := by
    intro define hm
    cases hd : c.heap[define]? with
    | none => rw [hd] at hm; cases hm
    | some d => rw [getElem?_append_some extra hd]; rw [hd] at hm; exact hm
  cases hgl : c.globalSymbols.get name with
  | some define =>
    simp only [hgl] at h ⊢
    exact key define h
  | none =>
    simp only [hgl] at h ⊢
    cases program with
    | none => simp at h
    | some q =>
      simp only at h ⊢
      cases hq : c.programSymbols.get q with
      | none => simp [hq] at h
      | some symbols =>
        simp only [hq] at h ⊢
        cases hn : symbols.get name with
        | none => simp [hn] at h
        | some define =>
          simp only [hn] at h ⊢
          exact key define h

theorem tablesValued_append {c : compiler} (h : tablesValued c) (c' : compiler)
    (extra : List AstDefine) (hheap : c'.heap = c.heap ++ extra) (hs : sameTables c c') :
    tablesValued c' := by
  obtain ⟨_, _, hcur, hg, hp⟩ := hs
  refine ⟨?_, ?_, ?_⟩
  · intro name define hgl
    rw [hg] at hgl
    refine valuedAt_mono (h.1 name define hgl) ?_ (scopeValue_heap extra hheap hg hp none)
    intro d hd
    rw [hheap]
    exact getElem?_append_some extra hd
  · intro program symbols name define hq hn
    rw [hp] at hq
    refine valuedAt_mono (h.2.1 program symbols name define hq hn) ?_
      (scopeValue_heap extra hheap hg hp (some program))
    intro d hd
    rw [hheap]
    exact getElem?_append_some extra hd
  · intro hnone
    rw [hp]
    exact h.2.2 (by rw [← hcur]; exact hnone)

theorem goMap.get_nil {V : Type} (k : String) : goMap.get ([] : goMap V) k = none := rfl

/-- A name entered in the global scope, before the first program, leaves the names that
were resolved as they were. -/
theorem scopeValue_set_global {c : compiler} (n : String) (a : Nat)
    (hn : c.globalSymbols.get n = none) (hps : c.programSymbols = [])
    (program : Option String) (name : String) (x : Int)
    (h : scopeValue (c.inScope program) name = some x) :
    scopeValue (({ c with globalSymbols := c.globalSymbols.set n a } : compiler).inScope program)
      name = some x := by
  unfold scopeValue compiler.inScope at h ⊢
  simp only at h ⊢
  cases hgl : c.globalSymbols.get name with
  | some define =>
    have hne : name ≠ n := by
      intro heq; rw [heq, hn] at hgl; cases hgl
    rw [goMap.get_set_other _ _ _ _ hne, hgl]
    simp only [hgl] at h
    exact h
  | none =>
    simp only [hgl, hps] at h
    cases program with
    | none => simp at h
    | some q => simp [goMap.get_nil] at h

/-- A name entered in the scope of a program, where it was not declared, leaves the names
that were resolved as they were. -/
theorem scopeValue_set_program {c : compiler} (q n : String) (a : Nat)
    (hn : ((c.programSymbols.get q).getD []).get n = none)
    (program : Option String) (name : String) (x : Int)
    (h : scopeValue (c.inScope program) name = some x) :
    scopeValue
      (compiler.inScope
        { c with
          programSymbols :=
            c.programSymbols.set q (((c.programSymbols.get q).getD []).set n a) }
        program)
      name = some x := by
  unfold scopeValue compiler.inScope at h ⊢
  simp only at h ⊢
  cases hgl : c.globalSymbols.get name with
  | some define =>
    simp only [hgl] at h ⊢
    exact h
  | none =>
    simp only [hgl] at h ⊢
    cases program with
    | none => simp at h
    | some r =>
      simp only at h ⊢
      by_cases hrq : r = q
      · subst hrq
        rw [goMap.get_set_self]
        simp only
        cases hold : c.programSymbols.get r with
        | none => simp [hold] at h
        | some symbols =>
          simp only [hold] at h hn ⊢
          have hne : name ≠ n := by
            intro heq
            rw [heq] at h
            simp only [Option.getD_some] at hn
            rw [hn] at h
            cases h
          simp only [Option.getD_some]
          rw [goMap.get_set_other _ _ _ _ hne]
          exact h
      · rw [goMap.get_set_other _ _ _ _ hrq]
        exact h

theorem not_declared {c : compiler} {name : String}
    (h : ¬ (c.getDefineDeclared name).isSome = true) :
    c.globalSymbols.get name = none ∧
      ∀ q, c.currentProgram = some q → ((c.programSymbols.get q).getD []).get name = none := by
  unfold compiler.getDefineDeclared at h
  cases hgl : c.globalSymbols.get name with
  | some define => simp [hgl] at h
  | none =>
    refine ⟨rfl, ?_⟩
    intro q hq
    simp only [hgl, hq] at h
    cases hold : c.programSymbols.get q with
    | none => rfl
    | some symbols =>
      simp only [hold] at h
      simp only [Option.getD_some]
      cases hs : symbols.get name with
      | none => rfl
      | some define => simp [hs] at h

/-- Registration keeps the invariant of the symbol tables, when the define registered is
evaluated and holds the value of its expression in the current scope. -/
theorem registerDefine_tablesValued {c : compiler} (h : tablesValued c) {define : Nat}
    (he : valuedAt c c.currentProgram define) {item : lexItem} {c' : compiler}
    (hr : c.registerDefine define item = Res.ok c') : tablesValued c' := by
  unfold compiler.registerDefine at hr
  split at hr
  · cases hr
  · next d hd =>
    split at hr
    · cases hr
    · next hdecl =>
      obtain ⟨hglobal, hscope⟩ := not_declared hdecl
      split at hr
      · next program hp =>
        cases hr
        have hn := hscope program hp
        have hmono : ∀ (r : Option String) (a : Nat), valuedAt c r a →
            valuedAt
              { c with
                programSymbols :=
                  c.programSymbols.set program
                    (((c.programSymbols.get program).getD []).set d.name define) }
              r a :=
          fun r a hv => valuedAt_mono hv (fun _ hx => hx)
            (scopeValue_set_program program d.name define hn r)
        refine ⟨?_, ?_, ?_⟩
        · intro name a hg
          exact hmono none a (h.1 name a hg)
        · intro q symbols name a hq hsym
          by_cases hqp : q = program
          · subst hqp
            simp only [goMap.get_set_self] at hq
            cases hq
            by_cases hname : name = d.name
            · subst hname
              rw [goMap.get_set_self] at hsym
              cases hsym
              rw [hp] at he
              exact hmono (some q) _ he
            · rw [goMap.get_set_other _ _ _ _ hname] at hsym
              rcases Option.eq_none_or_eq_some (c.programSymbols.get q) with hold | ⟨old, hold⟩
              · rw [hold] at hsym
                cases hsym
              · rw [hold] at hsym
                exact hmono (some q) a (h.2.1 q old name a hold hsym)
          · simp only [goMap.get_set_other _ _ _ _ hqp] at hq
            exact hmono (some q) a (h.2.1 q symbols name a hq hsym)
        · intro hnone
          rw [hp] at hnone
          cases hnone
      · next hcur =>
        cases hr
        have hps := h.2.2 hcur
        have hmono : ∀ (r : Option String) (a : Nat), valuedAt c r a →
            valuedAt ({ c with globalSymbols := c.globalSymbols.set d.name define } : compiler)
              r a :=
          fun r a hv => valuedAt_mono hv (fun _ hx => hx)
            (scopeValue_set_global d.name define hglobal hps r)
        refine ⟨?_, ?_, ?_⟩
        · intro name a hg
          by_cases hname : name = d.name
          · subst hname
            simp only [goMap.get_set_self] at hg
            cases hg
            rw [hcur] at he
            exact hmono none _ he
          · simp only [goMap.get_set_other _ _ _ _ hname] at hg
            exact hmono none a (h.1 name a hg)
        · intro q symbols name a hq hsym
          simp only [hps, goMap.get_nil] at hq
          cases hq
        · intro _
          exact hps

/-- Evaluation of a define that was just appended to the heap: the value of its expression
is stored, or the evaluation panics; the fuel plays no part. -/
theorem evaluateDefine_new (fuel : Nat) {c : compiler} (h : tablesEvaluated c) (name : String)
    (e : AstExpr) :
    compiler.evaluateDefine fuel
        { c with heap := c.heap ++ [{ name := name, expr := e, evaluated := false, value := 0 }] }
        c.heap.length =
      match substEval c e with
      | some v =>
        Res.ok { c with
                 heap := c.heap ++ [{ name := name, expr := e, evaluated := true, value := v }] }
      | none => Res.crash := by
  let d0 : AstDefine := { name := name, expr := e, evaluated := false, value := 0 }
  let c1 : compiler := { c with heap := c.heap ++ [d0] }
  have hc1 : sameTables c c1 := ⟨rfl, rfl, rfl, rfl, rfl⟩
  have hinv1 : tablesEvaluated c1 := tablesEvaluated_append h c1 [d0] rfl hc1
  have hv1 : substEval c1 e = substEval c e := substEval_append h c1 [d0] rfl hc1 e
  show c1.evaluateDefine fuel c.heap.length = _
  unfold compiler.evaluateDefine evaluateDefineWith
  have hget : c1.heap[c.heap.length]? = some d0 := getElem?_append_singleton_length _ _
  rw [hget]
  simp only [Res.bind_def]
  rw [eval_evaluated fuel hinv1, hv1]
  cases hs : substEval c e with
  | none => rfl
  | some v =>
    show Res.ok _ = Res.ok _
    congr 1
    show ({ c with heap := (c.heap ++ [d0]).modify _ c.heap.length } : compiler) = _
    rw [modify_append_singleton]

theorem parseDefine_shape {fuel : Nat} {c : compiler} {l : line} {r : lineAst} {c' : compiler}
    (hinv : tablesEvaluated c) (h : c.parseDefine fuel l = Res.ok (r, c')) :
    ∃ l0 name e v,
      substEval c e = some v ∧
      compiler.registerDefine
        { c with heap := c.heap ++ [{ name := name, expr := e, evaluated := true, value := v }] }
        c.heap.length l0 = Res.ok c' ∧
      r = lineAst.define c.heap.length := by
  obtain ⟨l0, name, e, c2, _, heval, hreg, hr⟩ := parseDefine_ok h
  rw [evaluateDefine_new fuel hinv name e] at heval
  cases hs : substEval c e with
  | none => rw [hs] at heval; cases heval
  | some v =>
    rw [hs] at heval
    cases heval
    exact ⟨l0, name, e, v, hs, hreg, hr⟩

/-- A define line keeps the invariant of the symbol tables, and the define it stores holds
the value its expression has when it is registered. -/
theorem parseDefine_tablesValued {fuel : Nat} {c : compiler} {l : line} {r : lineAst}
    {c' : compiler} (hinv : tablesValued c) (h : c.parseDefine fuel l = Res.ok (r, c')) :
    tablesValued c' ∧
    ∃ d, r = lineAst.define c.heap.length ∧ c'.heap = c.heap ++ [d] ∧
      c'.getDefineDeclared d.name = some c.heap.length ∧ d.evaluated = true ∧
      substEval c d.expr = some d.value := by
  obtain ⟨l0, name, e, v, hv, hreg, hr⟩ := parseDefine_shape (tablesValued_evaluated hinv) h
  let d1 : AstDefine := { name := name, expr := e, evaluated := true, value := v }
  let c2 : compiler := { c with heap := c.heap ++ [d1] }
  have hc2 : sameTables c c2 := ⟨rfl, rfl, rfl, rfl, rfl⟩
  have hinv2 : tablesValued c2 := tablesValued_append hinv c2 [d1] rfl hc2
  have hget2 : c2.heap[c.heap.length]? = some d1 := getElem?_append_singleton_length _ _
  have hval : valuedAt c2 c2.currentProgram c.heap.length := by
    refine ⟨d1, hget2, rfl, ?_⟩
    have := substEval_append (tablesValued_evaluated hinv) c2 [d1] rfl hc2 e
    show substEval c2 e = some v
    rw [this]
    exact hv
  refine ⟨registerDefine_tablesValued hinv2 hval hreg, d1, hr, ?_, ?_, rfl, hv⟩
  · exact (registerDefine_frame hreg).2.2.2
  · have hnew : ¬ declaredInScope c2 d1.name := by
      intro hdecl
      have := ((registerDefine_spec c2 c.heap.length d1 l0 hget2).1).2 hdecl
      rw [this] at hreg
      cases hreg
    obtain ⟨c'', hreg', _, _, hdecl, _⟩ :=
      (registerDefine_spec c2 c.heap.length d1 l0 hget2).2.1 hnew
    rw [hreg'] at hreg
    cases hreg
    exact hdecl

theorem substEval_congr {c c' : compiler} (hg : c'.globalSymbols = c.globalSymbols)
    (hc : c'.currentProgram = c.currentProgram) (hp : c'.programSymbols = c.programSymbols)
    (hh : c'.heap = c.heap) (e : AstExpr) : substEval c' e = substEval c e := by
  induction e with
  | AstValue p v => rfl
  | AstIdentifier p name =>
    show scopeValue c' name = scopeValue c name
    unfold scopeValue
    rw [hg, hc, hp, hh]
  | AstBinOp p name left right ihl ihr => simp only [substEval, ihl, ihr]

/-- The invariant of the symbol tables does not depend on the lexer or on the list of
programs, and holds again when a program becomes the current one. -/
theorem tablesValued_congr {c c' : compiler} (h : tablesValued c)
    (hg : c'.globalSymbols = c.globalSymbols) (hp : c'.programSymbols = c.programSymbols)
    (hh : c'.heap = c.heap)
    (hc : c'.currentProgram = c.currentProgram ∨ ∃ q, c'.currentProgram = some q) :
    tablesValued c' := by
  have key : ∀ r a, valuedAt c r a → valuedAt c' r a := by
    intro r a ⟨d, hd, he, hv⟩
    refine ⟨d, by rw [hh]; exact hd, he, ?_⟩
    rw [← hv]
    exact @substEval_congr (c.inScope r) (c'.inScope r) hg rfl hp hh d.expr
  refine ⟨?_, ?_, ?_⟩
  · intro name a hgl
    rw [hg] at hgl
    exact key none a (h.1 name a hgl)
  · intro q symbols name a hq hn
    rw [hp] at hq
    exact key (some q) a (h.2.1 q symbols name a hq hn)
  · intro hnone
    rw [hp]
    rcases hc with hc | ⟨q, hq⟩
    · exact h.2.2 (by rw [← hc]; exact hnone)
    · rw [hq] at hnone; cases hnone

theorem registerProgram_tables {c : compiler} {name : String} {item : lexItem} {c' : compiler}
    (h : c.registerProgram name item = Res.ok c') :
    c'.globalSymbols = c.globalSymbols ∧ c'.programSymbols = c.programSymbols ∧
      c'.heap = c.heap ∧ c'.currentProgram = some name := by
  unfold compiler.registerProgram at h
  split at h
  · simp [raiseError_eq] at h
  · cases h; exact ⟨rfl, rfl, rfl, rfl⟩

theorem parseProgram_tables {c : compiler} {l : line} {r : lineAst} {c' : compiler}
    (h : c.parseProgram l = Res.ok (r, c')) :
    c'.globalSymbols = c.globalSymbols ∧ c'.programSymbols = c.programSymbols ∧
      c'.heap = c.heap ∧ ∃ q, c'.currentProgram = some q := by
  unfold compiler.parseProgram at h
  simp only [Res.bind_def, Res.bind_eq_ok, Res.pure_def] at h
  obtain ⟨l0, _, cond, _, id, _, c1, h1, h2⟩ := h
  cases h2
  obtain ⟨a, b, d, e⟩ := registerProgram_tables h1
  exact ⟨a, b, d, _, e⟩

/-- Every call of `parseLine` keeps the invariant of the symbol tables. -/
theorem parseLine_tablesValued {fuel : Nat} {c : compiler} {r : Option lineAst} {c' : compiler}
    (hinv : tablesValued c) (h : c.parseLine fuel = Res.ok (r, c')) : tablesValued c' := by
  unfold compiler.parseLine at h
  simp only [Res.bind_def, Res.bind_eq_ok, Res.pure_def] at h
  obtain ⟨⟨l, c1⟩, h1, h2⟩ := h
  obtain ⟨_, f2, f3, f4, f5⟩ := nextLineLoop_frame fuel fuel c [] l c1 h1
  have hinv1 : tablesValued c1 := tablesValued_congr hinv f3 f4 f5 (Or.inl f2)
  cases l with
  | nil => cases h2; exact hinv1
  | cons item rest =>
    simp only at h2
    split at h2
    · simp only [Res.bind_eq_ok] at h2
      obtain ⟨⟨ast, c2⟩, h3, h4⟩ := h2
      cases h4
      obtain ⟨a, b, d, e⟩ := parseProgram_tables h3
      exact tablesValued_congr hinv1 a b d (Or.inr e)
    · split at h2
      · simp only [Res.bind_eq_ok] at h2
        obtain ⟨⟨ast, c2⟩, h3, h4⟩ := h2
        cases h4
        exact (parseDefine_tablesValued hinv1 h3).1
      · split at h2
        · cases h2; exact hinv1
        · simp [raiseError_eq] at h2

theorem tablesValued_new (source : String) : tablesValued (compiler.new source) := by
  refine ⟨?_, ?_, ?_⟩
  · intro name a h; cases h
  · intro q symbols name a h; cases h
  · intro _; rfl

theorem afterLines_tablesValued (fuel : Nat) : ∀ (k : Nat) (c c' : compiler),
    tablesValued c → c.afterLines fuel k = some c' → tablesValued c' := by
  intro k
  induction k with
  | zero =>
    intro c c' hinv h
    simp only [compiler.afterLines, Option.some.injEq] at h
    subst h
    exact hinv
  | succ k ih =>
    intro c c' hinv h
    obtain ⟨ast, c1, h1, h2⟩ := afterLines_succ fuel k c c' h
    exact ih c1 c' (parseLine_tablesValued hinv h1) h2

/-! ## The identifiers of a parsed expression are declared -/

theorem yields_primary (Q : AstExpr → Prop) (c : compiler)
    (sub : Bool → line → Res (AstExpr × line)) (hsub : ∀ b, yields Q (sub b))
    (hvalue : ∀ p v, Q (AstValue p v))
    (hident : ∀ p name, (c.getDefineDeclared name).isSome → Q (AstIdentifier p name)) :
    yields Q (exprParser.parseExprSymbolsConsParens sub c) := by
  intro l e rest h
  cases l with
  | nil => simp [exprParser.parseExprSymbolsConsParens, line.index, Res.bind_def, Res.bind] at h
  | cons head tail =>
    by_cases hnum : head.typ = itemNumber
    · simp [exprParser.parseExprSymbolsConsParens, line.index, hnum, exprParser.next,
        Res.bind_def, Res.bind, Res.pure_def] at h
      obtain ⟨rfl, rfl⟩ := h
      exact hvalue _ _
    · by_cases hsym : head.typ = itemSymbol
      · simp only [exprParser.parseExprSymbolsConsParens, line.index, hnum, hsym,
          exprParser.next, Res.bind_def, Res.bind, Res.pure_def, List.getElem?_cons_zero,
          if_true, if_false, reduceCtorEq] at h
        split at h
        · cases h
        · next hd =>
          cases h
          apply hident
          cases hg : c.getDefineDeclared head.val with
          | none => exact absurd hg hd
          | some a => rfl
      · by_cases hlp : head.typ = itemLParent
        · rw [primary_paren sub c head tail hlp, Res.bind_eq_ok] at h
          obtain ⟨⟨e1, l1⟩, hs, hrest⟩ := h
          have hq := hsub true tail e1 l1 hs
          cases l1 with
          | nil => cases hrest
          | cons rp r =>
            simp only at hrest
            split at hrest
            · cases hrest; exact hq
            · cases hrest
        · simp [exprParser.parseExprSymbolsConsParens, line.index, hnum, hsym, hlp,
            exprParser.next, exprParser.expect, Res.bind_def, Res.bind, Res.pure_def,
            raiseError_eq] at h

theorem yields_levelLoop (Q : AstExpr → Prop)
    (hbin : ∀ p name left right, Q left → Q right → Q (AstBinOp p name left right))
    (isOp : itemType → Option operator) (flag : Bool)
    (operand : line → Res (AstExpr × line)) (hop : yields Q operand) :
    ∀ fuel left l e rest, Q left →
      levelLoop isOp flag operand fuel left l = Res.ok (e, rest) → Q e := by
  intro fuel
  induction fuel with
  | zero => intro left l e rest _ h; cases h
  | succ fuel ih =>
    intro left l e rest hleft h
    cases l with
    | nil => cases h; exact hleft
    | cons head tail =>
      unfold levelLoop at h
      simp only at h
      cases hisop : isOp head.typ with
      | none =>
        simp only [hisop] at h
        cases h
        exact hleft
      | some name =>
        simp only [hisop] at h
        rw [Res.bind_eq_ok] at h
        obtain ⟨⟨e1, l1⟩, h1, h2⟩ := h
        exact ih _ _ _ _ (hbin _ _ _ _ hleft (hop tail e1 l1 h1)) h2

theorem yields_levelParse (Q : AstExpr → Prop)
    (hbin : ∀ p name left right, Q left → Q right → Q (AstBinOp p name left right))
    (isOp : itemType → Option operator) (flag : Bool)
    (operand : line → Res (AstExpr × line)) (hop : yields Q operand) :
    yields Q (levelParse isOp flag operand) := by
  intro l e rest h
  unfold levelParse at h
  rw [Res.bind_eq_ok] at h
  obtain ⟨⟨e1, l1⟩, h1, h2⟩ := h
  exact yields_levelLoop Q hbin isOp flag operand hop _ _ _ _ _ (hop l e1 l1 h1) h2

theorem yields_binOrWith (Q : AstExpr → Prop) (c : compiler)
    (hbin : ∀ p name left right, Q left → Q right → Q (AstBinOp p name left right))
    (hvalue : ∀ p v, Q (AstValue p v))
    (hident : ∀ p name, (c.getDefineDeclared name).isSome → Q (AstIdentifier p name))
    (sub : Bool → line → Res (AstExpr × line)) (hsub : ∀ b, yields Q (sub b))
    (inParent : Bool) : yields Q (exprParser.parseExprBinOrWith sub c inParent) := by
  have h5 := yields_primary Q c sub hsub hvalue hident
  have h4 : yields Q (exprParser.parseExprMulDiv sub c) := by
    have := yields_levelParse Q hbin mulDivOp false _ h5
    simpa only [← mulDiv_eq, yields] using this
  have h3 : yields Q (exprParser.parseExprPlusMinus sub c inParent) := by
    have := yields_levelParse Q hbin plusMinusOp inParent _ h4
    simpa only [← plusMinus_eq, yields] using this
  have h2 : yields Q (exprParser.parseExprBinAnd sub c inParent) := by
    have := yields_levelParse Q hbin binAndOp inParent _ h3
    simpa only [← binAnd_eq, yields] using this
  have h1 : yields Q (exprParser.parseExprBinXor sub c inParent) := by
    have := yields_levelParse Q hbin binXorOp inParent _ h2
    simpa only [← binXor_eq, yields] using this
  have := yields_levelParse Q hbin binOrOp inParent _ h1
  simpa only [← binOrWith_eq, yields] using this

theorem yields_binOr (Q : AstExpr → Prop) (c : compiler)
    (hbin : ∀ p name left right, Q left → Q right → Q (AstBinOp p name left right))
    (hvalue : ∀ p v, Q (AstValue p v))
    (hident : ∀ p name, (c.getDefineDeclared name).isSome → Q (AstIdentifier p name)) :
    ∀ n inParent, yields Q (exprParser.parseExprBinOr n c inParent) := by
  intro n
  induction n with
  | zero => intro inParent l e rest h; cases h
  | succ n ih => intro inParent; exact yields_binOrWith Q c hbin hvalue hident _ ih inParent

/-- Every identifier of a tree `parseExpr` returns is declared in scope. -/
theorem parseExpr_declared {c : compiler} {l : line} {e : AstExpr}
    (h : c.parseExpr l = Res.ok e) : declaredIn c e := by
  unfold compiler.parseExpr at h
  simp only [Res.bind_def, Res.bind_eq_ok, Res.pure_def] at h
  obtain ⟨⟨e1, rest1⟩, h1, h2⟩ := h
  cases h2
  refine yields_binOr (declaredIn c) c ?_ ?_ ?_ _ false l e1 rest1 h1
  · intro p name left right hl hr x hx
    simp only [AstExpr.identifiers, List.mem_append] at hx
    rcases hx with hx | hx
    · exact hl x hx
    · exact hr x hx
  · intro p v x hx
    simp [AstExpr.identifiers] at hx
  · intro p name hdecl x hx
    simp only [AstExpr.identifiers, List.mem_singleton] at hx
    rw [hx]
    exact hdecl

/-! ## Division by zero -/

theorem substEval_dividesByZero (c : compiler) (e : AstExpr) :
    dividesByZero c e = true → substEval c e = none := by
  induction e with
  | AstValue p v => intro h; cases h
  | AstIdentifier p name => intro h; cases h
  | AstBinOp p name left right ihl ihr =>
    intro h
    simp only [dividesByZero, Bool.or_eq_true, Bool.and_eq_true, decide_eq_true_eq] at h
    unfold substEval
    rcases h with (h | h) | ⟨hname, hzero⟩
    · rw [ihl h]
    · rw [ihr h]
      cases substEval c left <;> rfl
    · rw [hzero, hname]
      cases substEval c left with
      | none => rfl
      | some a => simp [binOpEval]

theorem scopeValue_declared {c : compiler} (h : tablesEvaluated c) {name : String}
    (hd : (c.getDefineDeclared name).isSome) : ∃ v, scopeValue c name = some v := by
  rw [scopeValue_eq]
  cases hg : c.getDefineDeclared name with
  | none => rw [hg] at hd; cases hd
  | some define =>
    obtain ⟨d, hd1, _⟩ := tablesEvaluated_declared h hg
    exact ⟨d.value, by simp [hd1]⟩

/-- With every identifier declared, an expression has no value exactly when it divides by
a sub-expression that evaluates to zero. -/
theorem substEval_none_iff {c : compiler} (h : tablesEvaluated c) (e : AstExpr) :
    declaredIn c e → (substEval c e = none ↔ dividesByZero c e = true) := by
  induction e with
  | AstValue p v => intro _; simp [substEval, dividesByZero]
  | AstIdentifier p name =>
    intro hd
    obtain ⟨v, hv⟩ := scopeValue_declared h (hd name (by simp [AstExpr.identifiers]))
    simp [substEval, dividesByZero, hv]
  | AstBinOp p name left right ihl ihr =>
    intro hd
    have hdl : declaredIn c left := fun x hx =>
      hd x (by simp only [AstExpr.identifiers, List.mem_append]; exact Or.inl hx)
    have hdr : declaredIn c right := fun x hx =>
      hd x (by simp only [AstExpr.identifiers, List.mem_append]; exact Or.inr hx)
    refine ⟨?_, substEval_dividesByZero c _⟩
    intro hnone
    simp only [dividesByZero, Bool.or_eq_true, Bool.and_eq_true, decide_eq_true_eq]
    cases hl : substEval c left with
    | none => exact Or.inl (Or.inl ((ihl hdl).1 hl))
    | some a =>
      cases hr : substEval c right with
      | none => exact Or.inl (Or.inr ((ihr hdr).1 hr))
      | some b =>
        right
        unfold substEval at hnone
        simp only [hl, hr] at hnone
        cases name <;> simp [binOpEval] at hnone
        by_cases hb : b = 0
        · exact ⟨rfl, by rw [hb]⟩
        · simp [hb] at hnone

theorem parseFileLoop_crash_after (fuel : Nat) :
    ∀ (k : Nat) (c before : compiler) (n : Nat) (programs : List (String × List Nat))
      (fileDefines : List Nat), c.afterLines fuel k = some before →
      before.parseLine fuel = Res.crash →
      compiler.parseFileLoop fuel (k + (n + 1)) c programs fileDefines = Res.crash := by
  intro k
  induction k with
  | zero =>
    intro c before n programs fileDefines hafter hcrash
    simp only [compiler.afterLines, Option.some.injEq] at hafter
    subst hafter
    rw [Nat.zero_add]
    simp [compiler.parseFileLoop, hcrash, Res.bind_def, Res.bind]
  | succ k ih =>
    intro c before n programs fileDefines hafter hcrash
    obtain ⟨ast, c1, hline, hrest⟩ := afterLines_succ fuel k c before hafter
    have hk : k + 1 + (n + 1) = (k + (n + 1)) + 1 := by omega
    rw [hk]
    unfold compiler.parseFileLoop
    simp only [hline, Res.bind_def, Res.bind]
    cases ast with
    | program name defines => exact ih c1 before n _ _ hrest hcrash
    | define v =>
      dsimp only
      split
      · exact ih c1 before n _ _ hrest hcrash
      · exact ih c1 before n _ _ hrest hcrash

theorem nextLine_tablesValued {fuel : Nat} {c : compiler} {l : line} {c' : compiler}
    (hinv : tablesValued c) (h : c.nextLine fuel = Res.ok (l, c')) : tablesValued c' := by
  obtain ⟨_, f2, f3, f4, f5⟩ := nextLineLoop_frame fuel fuel c [] l c' h
  exact tablesValued_congr hinv f3 f4 f5 (Or.inl f2)

theorem parseProgram_tablesValued {c : compiler} {l : line} {r : lineAst} {c' : compiler}
    (hinv : tablesValued c) (h : c.parseProgram l = Res.ok (r, c')) : tablesValued c' := by
  obtain ⟨a, b, d, e⟩ := parseProgram_tables h
  exact tablesValued_congr hinv a b d (Or.inr e)

/-! ## Statements of the claims on evaluation -/

/-- C23: when the first line that fails is a define line whose expression divides by a
sub-expression that evaluates to zero, `Compile` returns neither an AST nor a
`CompileError`.  The line is reached after `k` lines that each gave a define or a program;
it starts with `.define`, an optional `PUBLIC` and a name, and `parseExpr` returns the tree
`e` for its remaining tokens.  The evaluation of `e` in `parseDefine` ends in the runtime
panic of the division, before the name is registered; `parseLine` and the loop of
`parseFile` pass the panic on, and the deferred function of `Compile`, which only keeps a
recovered `*CompileError`, leaves both results `nil`. -/
theorem division_by_zero_swallowed (fuel : Nat) (source : String) (options : Options)
    (k : Nat) (before c : compiler) (l0 l1 : lexItem) (toks l : line) (e : AstExpr)
    (hafter : (compiler.new source).afterLines fuel k = some before) (hk : k < fuel)
    (hnext : before.nextLine fuel = Res.ok (l, c))
    (hl : l = l0 :: l1 :: toks ∨ ∃ pub, pub.typ = itemPublic ∧ l = l0 :: pub :: l1 :: toks)
    (h0 : l0.typ = itemDirDefine) (h1 : l1.typ = itemSymbol)
    (hexpr : c.parseExpr toks = Res.ok e) (hzero : dividesByZero c e = true) :
    c.parseDefine fuel l = Res.crash ∧ before.parseLine fuel = Res.crash ∧
    Compile fuel source options = some (none, none) := by
  have hbefore : tablesValued before :=
    afterLines_tablesValued fuel k _ before (tablesValued_new source) hafter
  obtain ⟨_, f2, f3, f4, f5⟩ := nextLineLoop_frame fuel fuel before [] l c hnext
  have hinv : tablesEvaluated c :=
    tablesValued_evaluated (tablesValued_congr hbefore f3 f4 f5 (Or.inl f2))
  have heval : compiler.evaluateDefine fuel
      { c with heap := c.heap ++
          [{ name := l1.val, expr := e, evaluated := false, value := 0 }] }
      c.heap.length = Res.crash := by
    rw [evaluateDefine_new fuel hinv, substEval_dividesByZero c e hzero]
  have hdefine : c.parseDefine fuel l = Res.crash := by
    rcases hl with rfl | ⟨pub, hpub, rfl⟩
    · simp [compiler.parseDefine, line.index, h0, h1, hexpr, Res.bind_def, Res.bind,
        Res.pure_def, compiler.parseSymbol, heval]
    · simp [compiler.parseDefine, line.index, h0, h1, hpub, hexpr, Res.bind_def, Res.bind,
        Res.pure_def, compiler.parseSymbol, heval]
  have hline : before.parseLine fuel = Res.crash := by
    rcases hl with rfl | ⟨pub, hpub, rfl⟩
    · simp [compiler.parseLine, hnext, Res.bind_def, Res.bind, h0, hdefine]
    · simp [compiler.parseLine, hnext, Res.bind_def, Res.bind, h0, hdefine]
  refine ⟨hdefine, hline, ?_⟩
  obtain ⟨n, rfl⟩ : ∃ n, fuel = k + (n + 1) := ⟨fuel - k - 1, by omega⟩
  have := parseFileLoop_crash_after (k + (n + 1)) k _ before n [] [] hafter hline
  simp [Compile, compiler.parseFile, this, Res.bind_def, Res.bind]

/-- C24: the symbol tables satisfy the invariant `tablesValued`: every define stored in the
global scope or in the scope of a program is evaluated and holds the value of its
expression.  The invariant holds in the compiler that `Compile` builds and after any
number of lines, and every step keeps it: `nextLine`, `parseProgram`, `parseDefine` and
`parseLine`; the define that a define line stores holds the value its expression has when
it is registered.  Therefore, in a compiler that satisfies the invariant, for every
identifier of an expression `parseExpr` returns, `getValueByIdentifier` finds a define
that is evaluated and returns its stored value whatever the fuel, which only its
re-evaluation branch uses, and leaves the compiler as it is; and the evaluation of a new
define, whatever the fuel, ends at once with the value of the expression stored, or with
the panic of a division by zero. -/
theorem stored_defines_evaluated (c : compiler) (hinv : tablesValued c) :
    (∀ source : String, tablesValued (compiler.new source)) ∧
    (∀ (source : String) (fuel k : Nat) (c' : compiler),
      (compiler.new source).afterLines fuel k = some c' → tablesValued c') ∧
    (∀ (fuel : Nat) (l : line) (c' : compiler),
      c.nextLine fuel = Res.ok (l, c') → tablesValued c') ∧
    (∀ (l : line) (r : lineAst) (c' : compiler),
      c.parseProgram l = Res.ok (r, c') → tablesValued c') ∧
    (∀ (fuel : Nat) (l : line) (r : lineAst) (c' : compiler),
      c.parseDefine fuel l = Res.ok (r, c') →
      tablesValued c' ∧
      ∃ d, r = lineAst.define c.heap.length ∧ c'.heap = c.heap ++ [d] ∧
        c'.getDefineDeclared d.name = some c.heap.length ∧ d.evaluated = true ∧
        substEval c d.expr = some d.value) ∧
    (∀ (fuel : Nat) (r : Option lineAst) (c' : compiler),
      c.parseLine fuel = Res.ok (r, c') → tablesValued c') ∧
    (∀ (l : line) (e : AstExpr), c.parseExpr l = Res.ok e →
      ∀ (extra : List AstDefine) (name : String), name ∈ e.identifiers →
        ∃ define d, c.getDefineDeclared name = some define ∧ c.heap[define]? = some d ∧
          d.evaluated = true ∧
          ∀ fuel, compiler.getValueByIdentifier fuel { c with heap := c.heap ++ extra } name =
            Res.ok (d.value, { c with heap := c.heap ++ extra })) ∧
    (∀ (fuel : Nat) (name : String) (e : AstExpr),
      compiler.evaluateDefine fuel
          { c with
            heap := c.heap ++ [{ name := name, expr := e, evaluated := false, value := 0 }] }
          c.heap.length =
        match substEval c e with
        | some v =>
          Res.ok { c with
                   heap := c.heap ++
                     [{ name := name, expr := e, evaluated := true, value := v }] }
        | none => Res.crash) ∧
    (∀ (l : line) (e : AstExpr), c.parseExpr l = Res.ok e →
      (substEval c e = none ↔ dividesByZero c e = true)) := by
  have hev : tablesEvaluated c := tablesValued_evaluated hinv
  refine ⟨tablesValued_new, ?_, ?_, ?_, ?_, ?_, ?_, ?_, ?_⟩
  · intro source fuel k c' h
    exact afterLines_tablesValued fuel k _ c' (tablesValued_new source) h
  · intro fuel l c' h
    exact nextLine_tablesValued hinv h
  · intro l r c' h
    exact parseProgram_tablesValued hinv h
  · intro fuel l r c' h
    exact parseDefine_tablesValued hinv h
  · intro fuel r c' h
    exact parseLine_tablesValued hinv h
  · intro l e hexpr extra name hmem
    have hdecl := parseExpr_declared hexpr name hmem
    cases hg : c.getDefineDeclared name with
    | none => rw [hg] at hdecl; cases hdecl
    | some define =>
      obtain ⟨d, hd1, hd2⟩ := tablesEvaluated_declared hev hg
      refine ⟨define, d, rfl, hd1, hd2, ?_⟩
      intro fuel
      have hg' : compiler.getDefineDeclared { c with heap := c.heap ++ extra } name =
          some define := hg
      unfold compiler.getValueByIdentifier
      simp [hg', getElem?_append_some extra hd1, hd2]
  · intro fuel name e
    exact evaluateDefine_new fuel hev name e
  · intro l e hexpr
    exact substEval_none_iff hev e (parseExpr_declared hexpr)

/-- C23, at the source `.define Z 0` followed by `.define A 8 / (Z * 3)`: the divisor
`Z * 3` evaluates to zero and `Compile` returns neither an AST nor an error. -/
theorem division_by_zero_swallowed_witness :
    Compile 40 zeroDivisorSource { evalDefine := false } = some (none, none) :=
  (division_by_zero_swallowed 40 zeroDivisorSource { evalDefine := false } 1
    zeroDivisorBefore zeroDivisorAfter
    { typ := itemDirDefine, val := ".define", start := 12, end_ := 19 }
    { typ := itemSymbol, val := "A", start := 20, end_ := 21 }
    zeroDivisorTokens _
    (AstBinOp false opDiv (AstValue false 8)
      (AstBinOp false opMul (AstIdentifier false "Z") (AstValue false 3)))
    (by decide!) (by decide) (by decide!) (Or.inl rfl) rfl rfl (by decide!) (by decide!)).2.2

/-- C24, at the source `.define A 1 + 2`, `.program p`, `.define B A * 2`: after the three
lines the tables hold `A` with the value 3 and `B`, in the scope of `p`, with the value 6,
and the evaluation of a new define `C` with the expression `A + B` stores the value 9
without any fuel. -/
theorem stored_defines_evaluated_witness :
    compiler.evaluateDefine 0
        { valuedSample with
          heap := valuedSample.heap ++
            [{ name := "C",
               expr := AstBinOp false opPlus (AstIdentifier false "A") (AstIdentifier false "B"),
               evaluated := false, value := 0 }] }
        2 =
      Res.ok
        { valuedSample with
          heap := valuedSample.heap ++
            [{ name := "C",
               expr := AstBinOp false opPlus (AstIdentifier false "A") (AstIdentifier false "B"),
               evaluated := true, value := 9 }] } :=
  (stored_defines_evaluated valuedSample
    (afterLines_tablesValued 40 3 _ _ (tablesValued_new valuedSource) (by decide!))).2.2.2.2.2.2.2.1
    0 "C" (AstBinOp false opPlus (AstIdentifier false "A") (AstIdentifier false "B"))

/-! ## The span of every token -/

theorem scans_pos_le {l l' : lexer} (h : scans l l') (hs : l.start ≤ l.input.length)
    (hp : l.pos ≤ l.input.length) : l'.pos ≤ l.input.length := by
  induction h with
  | refl => exact hp
  | @next l1 h1 ih =>
    rw [next_pos]
    have hin := (scans_fields h1).1
    split
    · next hsome =>
      obtain ⟨c, hc⟩ := Option.isSome_iff_exists.mp hsome
      have := (List.getElem?_eq_some_iff.mp hc).1
      rw [hin] at this
      omega
    · exact ih
  | @back l1 h1 ih =>
    show l1.start ≤ _
    rw [(scans_fields h1).2.1]
    exact hs
  | @backup l1 h1 ih =>
    show l1.pos - l1.width ≤ _
    omega

/-- A call of a state function keeps the lexer inside its input, and the token it sends,
if any, starts at the former `start`, ends at the new `start` and carries the slice of the
input between the two. -/
theorem step_span (input : List Char) (state : stateFn) (l : lexer)
    (h : spanInv input { state := some state, lex := l }) :
    spanInv input { state := (state.step l).state, lex := (state.step l).lex } ∧
    l.start ≤ (state.step l).lex.start ∧
    ∀ item, (state.step l).sent = some item →
      item.start = l.start ∧ item.end_ = (state.step l).lex.start ∧ spanOf input item := by
  obtain ⟨hin, hle, hlen⟩ := h
  simp only at hin hle hlen
  obtain ⟨hw1, hw2, _⟩ := step_where state l hle
  obtain ⟨l0, hscan, hshape⟩ := step_shape state l
  obtain ⟨f1, f2, _⟩ := scans_fields hscan
  have hpos0 : l0.pos ≤ input.length := by
    have := scans_pos_le hscan (by rw [hin]; omega) (by rw [hin]; exact hlen)
    rw [hin] at this
    exact this
  have hpos : (state.step l).lex.pos = l0.pos := by
    rcases hshape with ⟨h1, _⟩ | ⟨h1, _, _⟩ | ⟨t, h1, _, _⟩
    · rw [h1]
    · rw [h1]; rfl
    · rw [h1]; rfl
  refine ⟨⟨?_, hw2, ?_⟩, hw1, ?_⟩
  · show (state.step l).lex.input = input
    rw [step_input, hin]
  · show (state.step l).lex.pos ≤ input.length
    rw [hpos]; exact hpos0
  · intro item hsent
    rcases hshape with ⟨_, hnone⟩ | ⟨_, hnone, _⟩ | ⟨t, h1, h2, _⟩
    · rw [hnone] at hsent; cases hsent
    · rw [hnone] at hsent; cases hsent
    · rw [h2] at hsent
      obtain ⟨_, e2, e3, e4⟩ := emit_sent l0 t item hsent
      have hstart : (state.step l).lex.start = l0.pos := by rw [h1]; exact (emit_fields l0 t).2.2.1
      have hle0 : l.start ≤ l0.pos := by rw [← hstart]; exact hw1
      refine ⟨e2.trans f2, by rw [e3, hstart], ?_, ?_, ?_⟩
      · rw [e2, e3, f2]; exact hle0
      · rw [e3]; exact hpos0
      · rw [e4, e2, e3, f1, hin]

theorem span_receive (input : List Char) :
    ∀ (fuel : Nat) (h h' : lexHandle) (r : Option lexItem), spanInv input h →
      h.receive fuel = some (r, h') →
      spanInv input h' ∧ h.lex.start ≤ h'.lex.start ∧
      ∀ item, r = some item →
        h.lex.start ≤ item.start ∧ item.end_ = h'.lex.start ∧ spanOf input item := by
  intro fuel
  induction fuel with
  | zero => intro h h' r _ hr; cases hr
  | succ fuel ih =>
    intro h h' r hinv hr
    unfold lexHandle.receive at hr
    cases hst : h.state with
    | none =>
      simp only [hst, Option.some.injEq, Prod.mk.injEq] at hr
      obtain ⟨rfl, rfl⟩ := hr
      exact ⟨hinv, Nat.le_refl _, fun item hitem => Option.noConfusion hitem⟩
    | some state =>
      have hinv' : spanInv input { state := some state, lex := h.lex } := hinv
      obtain ⟨h1, h2, h3⟩ := step_span input state h.lex hinv'
      simp only [hst] at hr
      cases hsent : (state.step h.lex).sent with
      | none =>
        simp only [hsent] at hr
        obtain ⟨a, b, c⟩ := ih _ _ _ h1 hr
        refine ⟨a, Nat.le_trans h2 b, ?_⟩
        intro item hitem
        obtain ⟨c1, c2, c3⟩ := c item hitem
        exact ⟨Nat.le_trans h2 c1, c2, c3⟩
      | some item =>
        simp only [hsent, Option.some.injEq, Prod.mk.injEq] at hr
        obtain ⟨rfl, rfl⟩ := hr
        refine ⟨h1, h2, ?_⟩
        intro item' hitem'
        cases hitem'
        obtain ⟨c1, c2, c3⟩ := h3 item hsent
        exact ⟨by rw [c1], c2, c3⟩

theorem span_receiveMany (input : List Char) (fuel : Nat) :
    ∀ (n : Nat) (h h' : lexHandle) (items : List lexItem), spanInv input h →
      h.receiveMany fuel n = some (items, h') →
      spanInv input h' ∧ (∀ item ∈ items, h.lex.start ≤ item.start ∧ spanOf input item) ∧
      items.Chain' (fun a b => a.end_ ≤ b.start) := by
  intro n
  induction n with
  | zero =>
    intro h h' items hinv hr
    simp only [lexHandle.receiveMany, Option.some.injEq, Prod.mk.injEq] at hr
    obtain ⟨rfl, rfl⟩ := hr
    exact ⟨hinv, fun item hitem => absurd hitem (List.not_mem_nil _), List.chain'_nil⟩
  | succ n ih =>
    intro h h' items hinv hr
    unfold lexHandle.receiveMany at hr
    cases hrec : h.receive fuel with
    | none => simp [hrec] at hr
    | some r =>
      obtain ⟨r1, h1⟩ := r
      obtain ⟨hinv1, hmono1, hitem1⟩ := span_receive input fuel h h1 r1 hinv hrec
      cases r1 with
      | none =>
        simp only [hrec, Option.some.injEq, Prod.mk.injEq] at hr
        obtain ⟨rfl, rfl⟩ := hr
        exact ⟨hinv1, fun item hitem => absurd hitem (List.not_mem_nil _), List.chain'_nil⟩
      | some item =>
        simp only [hrec, Option.map_eq_some'] at hr
        obtain ⟨⟨items', h2⟩, hrest, heq⟩ := hr
        simp only [Prod.mk.injEq] at heq
        obtain ⟨rfl, rfl⟩ := heq
        obtain ⟨hinv2, hitems2, hchain2⟩ := ih h1 h2 items' hinv1 hrest
        obtain ⟨c1, c2, c3⟩ := hitem1 item rfl
        refine ⟨hinv2, ?_, ?_⟩
        · intro item' hmem
          rcases List.mem_cons.mp hmem with rfl | hmem
          · exact ⟨c1, c3⟩
          · exact ⟨Nat.le_trans hmono1 (hitems2 item' hmem).1, (hitems2 item' hmem).2⟩
        · rw [List.chain'_cons']
          refine ⟨?_, hchain2⟩
          intro b hb
          have hbmem : b ∈ items' := List.mem_of_mem_head? hb
          rw [c2]
          exact (hitems2 b hbmem).1

theorem spanInv_lex (input : List Char) : spanInv input (lex input) :=
  ⟨rfl, Nat.le_refl _, Nat.zero_le _⟩

theorem spanInv_steps (input : List Char) : ∀ (n : Nat) (h : lexHandle), spanInv input h →
    spanInv input (h.steps n) := by
  intro n
  induction n with
  | zero => intro h hinv; exact hinv
  | succ n ih =>
    intro h hinv
    show spanInv input (h.step.steps n)
    apply ih
    cases hst : h.state with
    | none => rw [step_closed hst]; exact hinv
    | some state =>
      rw [step_some hst]
      exact (step_span input state h.lex hinv).1

/-! ## Statement of the claim on token spans -/

/-- C26: every token received from the lexer of a source of ASCII characters, in which a
rune is one byte and an index into the source is a byte offset, carries its exact source
span: its text is the slice of the input from its offset `start` to its offset `end`, which
is the byte slice `input[start:end]` of the source string, with `start` at most `end` and
`end` at most the length of the input in characters and in bytes; the tokens come in source
order with spans that do not overlap, each starting at or after the end of the one before.
At every call made by `run` the lexer has `start` at most `pos` and `pos` at most the
length of the input, so the slice taken by `emit` always exists. -/
theorem token_spans (input : List Char) (hascii : ∀ c ∈ input, c.toNat < 128)
    (fuel n : Nat) (items : List lexItem)
    (h : lexHandle) (hrun : (lex input).receiveMany fuel n = some (items, h)) :
    (∀ item ∈ items, item.start ≤ item.end_ ∧ item.end_ ≤ input.length ∧
      item.val = String.mk ((input.drop item.start).take (item.end_ - item.start)) ∧
      item.end_ ≤ (String.mk input).utf8ByteSize ∧
      item.val = (String.mk input).extract ⟨item.start⟩ ⟨item.end_⟩) ∧
    items.Chain' (fun a b => a.end_ ≤ b.start) ∧
    (∀ j, ((lex input).steps j).lex.input = input ∧
      ((lex input).steps j).lex.start ≤ ((lex input).steps j).lex.pos ∧
      ((lex input).steps j).lex.pos ≤ input.length) := by
  obtain ⟨_, hitems, hchain⟩ :=
    span_receiveMany input fuel n _ h items (spanInv_lex input) hrun
  refine ⟨fun item hmem => ?_, hchain, fun j => spanInv_steps input j _ (spanInv_lex input)⟩
  obtain ⟨h1, h2, h3⟩ := (hitems item hmem).2
  refine ⟨h1, h2, h3, ?_, ?_⟩
  · rw [String.utf8ByteSize_mk, utf8Len_ascii input hascii]
    exact h2
  · rw [extract_ascii input hascii _ _ h1 h2]
    exact h3

/-- C26, at the source `a`, newline, newline, `b`: the three tokens span the offsets 0 to 1,
1 to 2 and 3 to 4. -/
theorem token_spans_witness :
    List.Chain' (fun a b : lexItem => a.end_ ≤ b.start)
      [{ typ := itemSymbol, val := "a", start := 0, end_ := 1 },
       { typ := itemEOL, val := "\n", start := 1, end_ := 2 },
       { typ := itemSymbol, val := "b", start := 3, end_ := 4 }] :=
  (token_spans "a\n\nb".data (by decide) 10 3
    [{ typ := itemSymbol, val := "a", start := 0, end_ := 1 },
     { typ := itemEOL, val := "\n", start := 1, end_ := 2 },
     { typ := itemSymbol, val := "b", start := 3, end_ := 4 }]
    (lexHandle.mk (some stateFn.lexContent)
      { input := "a\n\nb".data, lines := [1, 2], start := 4, pos := 4, width := 0,
        lastItem := some { typ := itemSymbol, val := "b", start := 3, end_ := 4 } })
    (by decide!)).2.1

/-! ## The text of a tree without parentheses -/

theorem joinSpaced_cons (s : String) {rest : List String} (h : rest ≠ []) :
    joinSpaced (s :: rest) = s ++ " " ++ joinSpaced rest := by
  cases rest with
  | nil => exact absurd rfl h
  | cons t rest => rfl

theorem joinSpaced_append : ∀ (a b : List String), a ≠ [] → b ≠ [] →
    joinSpaced (a ++ b) = joinSpaced a ++ " " ++ joinSpaced b
  | [], _, ha, _ => absurd rfl ha
  | [s], b, _, hb => by
    show joinSpaced (s :: b) = _
    rw [joinSpaced_cons s hb]
    rfl
  | s :: t :: a, b, _, hb => by
    have ih := joinSpaced_append (t :: a) b (List.cons_ne_nil _ _) hb
    show joinSpaced (s :: (t :: a ++ b)) = _
    rw [joinSpaced_cons s (by simp), ih]
    show _ = s ++ " " ++ joinSpaced (t :: a) ++ " " ++ joinSpaced b
    simp only [String.append_assoc]

/-- The text of a tree that holds no parenthesis flag is the texts of its leaves and
operators, from left to right, joined by single spaces. -/
theorem toSource_inorder (t : AstExpr) :
    precTree t → t.ToSource = joinSpaced ((inorder t).map exprSym.text) := by
  induction t with
  | AstValue p v => intro _; rfl
  | AstIdentifier p name => intro _; rfl
  | AstBinOp p name left right ihl ihr =>
    intro h
    obtain ⟨hp, _, _, hl, hr⟩ := h
    subst hp
    have hne : ∀ e : AstExpr, (inorder e).map exprSym.text ≠ [] := by
      intro e hnil
      exact inorder_ne_nil e (List.map_eq_nil_iff.mp hnil)
    show left.ToSource ++ " " ++ name.text ++ " " ++ right.ToSource = _
    rw [ihl hl, ihr hr]
    show _ = joinSpaced ((inorder left ++ exprSym.op name :: inorder right).map exprSym.text)
    rw [List.map_append, List.map_cons, joinSpaced_append _ _ (hne left) (List.cons_ne_nil _ _),
      joinSpaced_cons _ (hne right)]
    show _ = _ ++ " " ++ (name.text ++ " " ++ _)
    simp only [String.append_assoc]

/-! ## Canonical decimal literals -/

theorem isValue_bounds {c : Char} (h : isValue c = true) : 48 ≤ c.toNat ∧ c.toNat ≤ 57 := by
  simpa [isValue, unicodeIsNumber] using h

theorem digitChar_digit (c : Char) (h : isValue c = true) : Nat.digitChar (c.toNat - 48) = c := by
  obtain ⟨h1, h2⟩ := isValue_bounds h
  have hc := Char.ofNat_toNat c
  generalize c.toNat = k at *
  subst hc
  interval_cases k <;> rfl

theorem toDigitsCore_append : ∀ (fuel n : Nat) (ds : List Char),
    Nat.toDigitsCore 10 fuel n ds = Nat.toDigitsCore 10 fuel n [] ++ ds := by
  intro fuel
  induction fuel with
  | zero => intro n ds; rfl
  | succ fuel ih =>
    intro n ds
    simp only [Nat.toDigitsCore]
    split
    · rfl
    · rw [ih (n / 10) (Nat.digitChar (n % 10) :: ds), ih (n / 10) [Nat.digitChar (n % 10)]]
      simp

theorem toDigitsCore_fuel : ∀ (fuel fuel' n : Nat) (ds : List Char), n < fuel → n < fuel' →
    Nat.toDigitsCore 10 fuel n ds = Nat.toDigitsCore 10 fuel' n ds := by
  intro fuel
  induction fuel with
  | zero => intro fuel' n ds h; omega
  | succ fuel ih =>
    intro fuel' n ds h h'
    cases fuel' with
    | zero => omega
    | succ fuel' =>
      simp only [Nat.toDigitsCore]
      split
      · rfl
      · next hne =>
        have : n / 10 < n := Nat.div_lt_self (by omega) (by norm_num)
        exact ih fuel' (n / 10) _ (by omega) (by omega)

theorem toDigits_small {n : Nat} (h : n < 10) : Nat.toDigits 10 n = [Nat.digitChar n] := by
  unfold Nat.toDigits
  simp only [Nat.toDigitsCore]
  have h1 : n / 10 = 0 := by omega
  have h2 : n % 10 = n := by omega
  simp [h1, h2]

theorem toDigits_step {n : Nat} (h : 10 ≤ n) :
    Nat.toDigits 10 n = Nat.toDigits 10 (n / 10) ++ [Nat.digitChar (n % 10)] := by
  have h1 : ¬ n / 10 = 0 := by omega
  have hL : Nat.toDigits 10 n = Nat.toDigitsCore 10 n (n / 10) [Nat.digitChar (n % 10)] := by
    show Nat.toDigitsCore 10 (n + 1) n [] = _
    rw [Nat.toDigitsCore]
    simp only [h1, if_false]
  rw [hL, toDigitsCore_append]
  congr 1
  exact toDigitsCore_fuel n (n / 10 + 1) (n / 10) [] (by omega) (by omega)

theorem decimalValue_append (s : List Char) (c : Char) :
    decimalValue (s ++ [c]) = decimalValue s * 10 + (c.toNat - 48) := by
  unfold decimalValue
  rw [List.foldl_append]
  rfl

/-- A run of digits without a leading zero is the decimal text of its value. -/
theorem toDigits_decimalValue (s : List Char) :
    s ≠ [] → (∀ c ∈ s, isValue c = true) → s.head? ≠ some '0' →
      Nat.toDigits 10 (decimalValue s) = s ∧ 1 ≤ decimalValue s := by
  induction s using List.reverseRecOn with
  | nil => intro h; exact absurd rfl h
  | append_singleton init c ih =>
    intro _ hall hhead
    have hc : isValue c = true := hall c (by simp)
    obtain ⟨b1, b2⟩ := isValue_bounds hc
    have hd := digitChar_digit c hc
    rw [decimalValue_append]
    by_cases hinit : init = []
    · subst hinit
      have hne : c ≠ '0' := by
        intro heq
        apply hhead
        rw [heq]
        rfl
      have hne' : c.toNat ≠ 48 := by
        intro h48
        apply hne
        rw [← Char.ofNat_toNat c, h48]
      have hv : decimalValue [] = 0 := rfl
      rw [hv]
      refine ⟨?_, by omega⟩
      rw [toDigits_small (by omega)]
      simp only [Nat.zero_mul, Nat.zero_add, List.nil_append]
      rw [hd]
    · have hhead' : init.head? ≠ some '0' := by
        cases init with
        | nil => exact absurd rfl hinit
        | cons a rest => simpa using hhead
      obtain ⟨ih1, ih2⟩ := ih hinit (fun x hx => hall x (by simp [hx])) hhead'
      refine ⟨?_, by omega⟩
      rw [toDigits_step (by omega)]
      have e1 : (decimalValue init * 10 + (c.toNat - 48)) / 10 = decimalValue init := by omega
      have e2 : (decimalValue init * 10 + (c.toNat - 48)) % 10 = c.toNat - 48 := by omega
      rw [e1, e2, ih1, hd]

theorem foldl_digits_le (s : List Char) : ∀ n : Nat,
    n ≤ s.foldl (fun n c => n * 10 + (c.toNat - 48)) n := by
  induction s with
  | nil => intro n; exact Nat.le_refl _
  | cons c cs ih =>
    intro n
    have := ih (n * 10 + (c.toNat - 48))
    simp only [List.foldl_cons]
    omega

theorem parseUintLoop_decimal (s : List Char) : ∀ (n : Nat) (u : Bool),
    (∀ c ∈ s, isValue c = true) →
    s.foldl (fun n c => n * 10 + (c.toNat - 48)) n ≤ 2147483647 →
    parseUintLoop 10 true s n u = (s.foldl (fun n c => n * 10 + (c.toNat - 48)) n, none, u) := by
  induction s with
  | nil => intro n u _ _; rfl
  | cons c cs ih =>
    intro n u hall hle
    obtain ⟨b1, b2⟩ := isValue_bounds (hall c (by simp))
    have hge := foldl_digits_le cs (n * 10 + (c.toNat - 48))
    simp only [List.foldl_cons] at hle ⊢
    have hn : n * 10 + (c.toNat - 48) ≤ 2147483647 := Nat.le_trans hge hle
    unfold parseUintLoop
    have h95 : ¬ c.toNat = 95 := by omega
    simp only [h95, decide_False, Bool.false_and, Bool.false_eq_true, if_false]
    have hdig : (decide (48 ≤ c.toNat) && decide (c.toNat ≤ 57)) = true := by simp [b1, b2]
    simp only [hdig, if_true]
    have h1 : ¬ c.toNat - 48 ≥ 10 := by omega
    have h2 : ¬ n ≥ (2 ^ 64 - 1) / 10 + 1 := by
      have : (2 ^ 64 - 1) / 10 + 1 = 1844674407370955162 := by norm_num
      omega
    have h3 : ¬ n * 10 + (c.toNat - 48) > 2 ^ 64 - 1 := by
      have : (2 : Nat) ^ 64 - 1 = 18446744073709551615 := by norm_num
      omega
    simp only [h1, h2, h3, if_false]
    exact ih _ u (fun x hx => hall x (by simp [hx])) hle

theorem canonicalDecimal_spec {s : String} (h : canonicalDecimal s = true) :
    ∃ first rest, s.data = first :: rest ∧ (∀ c ∈ s.data, isValue c = true) ∧
      (first ≠ '0' ∨ rest = []) ∧ decimalValue s.data ≤ 2147483647 := by
  unfold canonicalDecimal at h
  cases hs : s.data with
  | nil => simp [hs] at h
  | cons first rest =>
    simp only [hs, Bool.and_eq_true, Bool.or_eq_true, decide_eq_true_eq, List.all_eq_true,
      bne_iff_ne, ne_eq, List.isEmpty_iff] at h
    obtain ⟨⟨h1, h2⟩, h3⟩ := h
    exact ⟨first, rest, rfl, h1, h2, h3⟩

theorem parseInt_canonical {s : String} (h : canonicalDecimal s = true) :
    parseInt s = (decimalValue s.data : Nat) := by
  obtain ⟨first, rest, hs, hall, hzero, hle⟩ := canonicalDecimal_spec h
  obtain ⟨b1, b2⟩ := isValue_bounds (hall first (by rw [hs]; simp))
  have hplus : first ≠ '+' := by intro e; rw [e] at b1; revert b1; decide
  have hminus : first ≠ '-' := by intro e; rw [e] at b1; revert b1; decide
  by_cases h0 : first = '0'
  · have hrest : rest = [] := by
      rcases hzero with hz | hz
      · exact absurd h0 hz
      · exact hz
    subst h0 hrest
    have : s = "0" := String.ext hs
    subst this
    rfl
  · have hloop := parseUintLoop_decimal s.data 0 false hall hle
    have hu : parseUint s.data = (decimalValue s.data, none) := by
      unfold parseUint
      rw [hs]
      simp only [h0, if_false]
      rw [← hs, hloop]
      rfl
    unfold parseInt
    rw [hs]
    simp only [hplus, hminus, decide_False, Bool.or_self, Bool.false_eq_true, if_false]
    rw [← hs, hu]
    have hlt : ¬ decimalValue s.data ≥ 2 ^ (intSize - 1) := by
      have : (2 : Nat) ^ (intSize - 1) = 9223372036854775808 := by norm_num [intSize]
      omega
    have hlt' : decimalValue s.data < 2 ^ 63 := by
      have : (2 : Nat) ^ 63 = 9223372036854775808 := by norm_num
      omega
    simp [hlt, parseInt.toInt64, hlt']
    omega

/-- The literal node of a canonical decimal prints as the literal was written. -/
theorem toString_canonical {s : String} (h : canonicalDecimal s = true) :
    toString (toInt32 (parseInt s)) = s := by
  obtain ⟨first, rest, hs, hall, hzero, hle⟩ := canonicalDecimal_spec h
  rw [parseInt_canonical h, toInt32_of_inInt32 (by unfold inInt32; omega)]
  show Nat.repr (decimalValue s.data) = s
  unfold Nat.repr
  by_cases h0 : first = '0'
  · have hrest : rest = [] := by
      rcases hzero with hz | hz
      · exact absurd h0 hz
      · exact hz
    subst h0 hrest
    have : s = "0" := String.ext hs
    subst this
    rfl
  · have := (toDigits_decimalValue s.data (by rw [hs]; simp) hall
      (by rw [hs]; simpa using h0)).1
    rw [this]
    rfl

theorem lineSyms_text (c : compiler) : ∀ (l : line), validExpr c l →
    (∀ t ∈ l, t.typ = itemNumber → canonicalDecimal t.val = true) →
    (∀ t ∈ l, ∀ name, opOf t.typ = some name → t.val = name.text) →
    (lineSyms l).map exprSym.text = l.map (fun t => t.val)
  | [], h, _, _ => absurd h (by simp [validExpr])
  | [t], h, hnum, _ => by
    have hoperand : isOperand c t := h
    have hop := opOf_operand hoperand
    simp only [lineSyms, List.map_cons, List.map_nil, hop, exprSym.text, List.cons.injEq,
      and_true]
    unfold leafOf
    by_cases hn : t.typ = itemNumber
    · simp only [hn, if_true, AstExpr.ToSource]
      exact toString_canonical (hnum t (by simp) hn)
    · simp only [hn, if_false, AstExpr.ToSource]
  | t :: o :: rest, h, hnum, hopt => by
    obtain ⟨hoperand, hisop, hrest⟩ := h
    have hop := opOf_operand hoperand
    obtain ⟨name, hname⟩ := Option.isSome_iff_exists.mp hisop
    have ih := lineSyms_text c rest hrest (fun x hx => hnum x (by simp [hx]))
      (fun x hx => hopt x (by simp [hx]))
    have ih' : List.map exprSym.text (lineSyms rest) = List.map (fun t => t.val) rest := ih
    simp only [lineSyms, List.map_cons, hop, hname, exprSym.text, List.cons.injEq] at ih' ⊢
    refine ⟨?_, (hopt o (by simp) name hname).symm, ih'⟩
    unfold leafOf
    by_cases hn : t.typ = itemNumber
    · simp only [hn, if_true, AstExpr.ToSource]
      exact toString_canonical (hnum t (by simp) hn)
    · simp only [hn, if_false, AstExpr.ToSource]

/-! ## Characters of keywords and word ends -/

theorem isSymbol_bounds {r : Char} (h : isSymbol r = true) : 65 ≤ r.toNat ∧ r.toNat ≤ 122 := by
  unfold isSymbol unicodeIsLetter at h
  simp only [Bool.or_eq_true, Bool.and_eq_true, decide_eq_true_eq] at h
  rcases h with (h | h) | h
  · omega
  · omega
  · subst h; decide

theorem isWordEnd_cases {w : Char} (h : isWordEnd w = true) :
    w = eof ∨ w = '\n' ∨ w = '\t' ∨ w = '\r' ∨ w = ' ' := by
  unfold isWordEnd isWhite whites eol at h
  by_cases h1 : w = eof
  · exact Or.inl h1
  by_cases h2 : w = '\n'
  · exact Or.inr (Or.inl h2)
  simp [h1, h2] at h
  rcases h with h | h | h
  · exact Or.inr (Or.inr (Or.inl h))
  · exact Or.inr (Or.inr (Or.inr (Or.inl h)))
  · exact Or.inr (Or.inr (Or.inr (Or.inr h)))

theorem upper_symbol_facts (r : Char) (h : isSymbol r = true) :
    isSymbol (unicodeToUpper r) = true ∧ unicodeToUpper r ≠ eof ∧ unicodeToUpper r ≠ '\n' ∧
      unicodeToUpper r ≠ '\t' ∧ unicodeToUpper r ≠ '\r' ∧ unicodeToUpper r ≠ ' ' := by
  obtain ⟨b1, b2⟩ := isSymbol_bounds h
  have hc := Char.ofNat_toNat r
  generalize r.toNat = k at *
  subst hc
  revert h
  interval_cases k <;> decide

/-- A word end is no character of a keyword, whatever the letter case. -/
theorem upper_wordEnd_ne {w r : Char} (hw : isWordEnd w = true) (hr : isSymbol r = true) :
    unicodeToUpper w ≠ unicodeToUpper r := by
  obtain ⟨_, f1, f2, f3, f4, f5⟩ := upper_symbol_facts r hr
  rcases isWordEnd_cases hw with rfl | rfl | rfl | rfl | rfl
  · exact fun h => f1 h.symm
  · exact fun h => f2 h.symm
  · exact fun h => f3 h.symm
  · exact fun h => f4 h.symm
  · exact fun h => f5 h.symm

theorem sameUpper_isSymbol {a r : Char} (h : unicodeToUpper a = unicodeToUpper r)
    (hr : isSymbol r = true) : isSymbol a = true := by
  by_cases ha : 97 ≤ a.toNat ∧ a.toNat ≤ 122
  · unfold isSymbol unicodeIsLetter
    simp [ha.1, ha.2]
  · have hup : unicodeToUpper a = a := by
      unfold unicodeToUpper
      rw [if_neg]
      simpa using ha
    rw [hup] at h
    rw [h]
    exact (upper_symbol_facts r hr).1

theorem sameUpper_not_wordEnd {a r : Char} (h : unicodeToUpper a = unicodeToUpper r)
    (hr : isSymbol r = true) : isWordEnd a = false := by
  cases hw : isWordEnd a with
  | false => rfl
  | true => exact absurd h (upper_wordEnd_ne hw hr)

theorem keywords_symbols : ∀ k ∈ keywords, ∀ r ∈ k.1.data, isSymbol r = true := by
  have hall : keywords.all (fun k => k.1.data.all isSymbol) = true := by decide
  intro k hk r hr
  exact List.all_eq_true.mp (List.all_eq_true.mp hall k hk) r hr

theorem keywords_upper_injective : ∀ k ∈ keywords, ∀ k' ∈ keywords,
    k.1.data.map unicodeToUpper = k'.1.data.map unicodeToUpper → k = k' := by
  have hall : keywords.all (fun k => keywords.all (fun k' =>
      !decide (k.1.data.map unicodeToUpper = k'.1.data.map unicodeToUpper) ||
        decide (k = k'))) = true := by decide
  intro k hk k' hk' h
  have := List.all_eq_true.mp (List.all_eq_true.mp hall k hk) k' hk'
  simpa [h] using this

theorem keywords_longer : ∀ k ∈ keywords, ∀ k' ∈ keywords,
    k.1.data.length < k'.1.data.length →
    (k'.1.data.take k.1.data.length).map unicodeToUpper = k.1.data.map unicodeToUpper →
    (k.1 = "OPT" ∧ k'.1 = "OPTIONAL") ∨ (k.1 = "SIDE" ∧ (k'.1 = "SIDESET" ∨ k'.1 = "SIDE_SET")) := by
  have hall : keywords.all (fun k => keywords.all (fun k' =>
      !(decide (k.1.data.length < k'.1.data.length) &&
        decide ((k'.1.data.take k.1.data.length).map unicodeToUpper =
          k.1.data.map unicodeToUpper)) ||
        decide ((k.1 = "OPT" ∧ k'.1 = "OPTIONAL") ∨
          (k.1 = "SIDE" ∧ (k'.1 = "SIDESET" ∨ k'.1 = "SIDE_SET"))))) = true := by decide
  intro k hk k' hk' h1 h2
  have := List.all_eq_true.mp (List.all_eq_true.mp hall k hk) k' hk'
  simp only [Bool.or_eq_true, Bool.not_eq_true', Bool.and_eq_false_iff, decide_eq_false_iff_not,
    decide_eq_true_eq] at this
  rcases this with (h | h) | h
  · exact absurd h1 h
  · exact absurd h2 h
  · exact h

/-! ## The keyword chain, told on the text -/

theorem peek_headD (l : lexer) : l.peek = (l.input.drop l.pos).headD eof := by
  unfold lexer.peek
  cases h : l.input.drop l.pos with
  | nil => rw [drop_nil_pos h]; rfl
  | cons c rest => rw [(drop_cons_pos h).1]; rfl

theorem next_drop_nil (l : lexer) (h : l.input.drop l.pos = []) :
    l.next.2.input.drop l.next.2.pos = [] := by
  rw [next_input, next_pos, drop_nil_pos h]
  exact h

theorem next_pos_nil (l : lexer) (h : l.input.drop l.pos = []) : l.next.2.pos = l.pos := by
  rw [next_pos, drop_nil_pos h]
  rfl

theorem next_drop_cons (l : lexer) (c : Char) (t : List Char)
    (h : l.input.drop l.pos = c :: t) :
    l.next.2.input.drop l.next.2.pos = t ∧ l.next.2.pos = l.pos + 1 := by
  obtain ⟨h1, h2⟩ := drop_cons_pos h
  obtain ⟨_, hp, hi, _⟩ := next_of_some l c h1
  rw [hi, hp]
  exact ⟨h2, rfl⟩

theorem matchCI_nil_symbol {r : Char} (rs : List Char) (hr : isSymbol r = true) :
    matchCI (r :: rs) [] = false := by
  unfold matchCI
  have := upper_wordEnd_ne (show isWordEnd eof = true by decide) hr
  simp [this]

/-- What `acceptStringCI` does, told by `matchCI` on the text at the position of the
lexer. -/
theorem acceptLoop_spec : ∀ (s : List Char) (l : lexer), (∀ r ∈ s, isSymbol r = true) →
    ∃ L, scans l L ∧
      (matchCI s (l.input.drop l.pos) = true →
        lexer.acceptStringCILoop s l = (true, L) ∧ L.pos = l.pos + s.length) ∧
      (matchCI s (l.input.drop l.pos) = false →
        lexer.acceptStringCILoop s l = (false, L.back)) := by
  intro s
  induction s with
  | nil =>
    intro l _
    refine ⟨l, scans.refl, ?_, ?_⟩
    · intro h
      rw [acceptLoop_nil, peek_headD]
      unfold matchCI at h
      rw [if_pos h]
      exact ⟨rfl, rfl⟩
    · intro h
      rw [acceptLoop_nil, peek_headD]
      unfold matchCI at h
      rw [if_neg (by rw [h]; decide)]
  | cons r rs ih =>
    intro l hs
    have hr : isSymbol r = true := hs r (List.mem_cons_self _ _)
    have hrs : ∀ x ∈ rs, isSymbol x = true := fun x hx => hs x (List.mem_cons_of_mem _ hx)
    cases htext : l.input.drop l.pos with
    | nil =>
      refine ⟨l.next.2, scans.next scans.refl, ?_, ?_⟩
      · intro h
        rw [matchCI_nil_symbol rs hr] at h
        cases h
      · intro _
        rw [acceptLoop_cons, next_char, peek_headD, htext]
        have := upper_wordEnd_ne (show isWordEnd eof = true by decide) hr
        exact if_pos this
    | cons c t =>
      obtain ⟨hd, hp⟩ := next_drop_cons l c t htext
      have hnext : l.next.1 = c := by rw [next_char, peek_headD, htext]; rfl
      by_cases hcr : unicodeToUpper c = unicodeToUpper r
      · obtain ⟨L, hscan, h1, h2⟩ := ih l.next.2 hrs
        rw [hd] at h1 h2
        refine ⟨L, scans_after_next hscan, ?_, ?_⟩
        · intro h
          have ht : matchCI rs t = true := by
            unfold matchCI at h
            simpa [hcr] using h
          obtain ⟨a, b⟩ := h1 ht
          rw [acceptLoop_cons, hnext, if_neg (by rw [hcr]; exact fun h => h rfl)]
          refine ⟨a, ?_⟩
          rw [b, hp, List.length_cons]
          omega
        · intro h
          have ht : matchCI rs t = false := by
            unfold matchCI at h
            simpa [hcr] using h
          rw [acceptLoop_cons, hnext, if_neg (by rw [hcr]; exact fun h => h rfl)]
          exact h2 ht
      · refine ⟨l.next.2, scans.next scans.refl, ?_, ?_⟩
        · intro h
          unfold matchCI at h
          simp [hcr] at h
        · intro _
          rw [acceptLoop_cons, hnext, if_pos hcr]

/-- What the keyword chain does at the start of a token, told by the first entry that the
text matches. -/
theorem acceptKeyword_spec : ∀ (ks : List (String × itemType)) (l : lexer),
    (∀ k ∈ ks, ∀ r ∈ k.1.data, isSymbol r = true) → l.pos = l.start →
    ∃ L, L.input = l.input ∧ L.start = l.start ∧ L.lastItem = l.lastItem ∧
      ((∀ k, ks.find? (fun k => matchCI k.1.data (l.input.drop l.pos)) = some k →
          acceptKeyword ks l = (some k.2, L) ∧ L.pos = l.pos + k.1.data.length) ∧
       (ks.find? (fun k => matchCI k.1.data (l.input.drop l.pos)) = none →
          acceptKeyword ks l = (none, L) ∧ L.pos = l.start)) := by
  intro ks
  induction ks with
  | nil =>
    intro l _ hpos
    refine ⟨l, rfl, rfl, rfl, ?_, ?_⟩
    · intro k hk; cases hk
    · intro _; exact ⟨rfl, hpos⟩
  | cons k0 ks ih =>
    intro l hks hpos
    obtain ⟨s, t⟩ := k0
    obtain ⟨L0, hscan, h1, h2⟩ := acceptLoop_spec s.data l (hks (s, t) (List.mem_cons_self _ _))
    obtain ⟨f1, f2, f3⟩ := scans_fields hscan
    cases hm : matchCI s.data (l.input.drop l.pos) with
    | true =>
      obtain ⟨a, b⟩ := h1 hm
      refine ⟨L0, f1, f2, f3, ?_, ?_⟩
      · intro k hk
        rw [List.find?_cons] at hk
        simp only [hm] at hk
        cases hk
        rw [acceptKeyword_cons, a]
        exact ⟨rfl, b⟩
      · intro hnone
        rw [List.find?_cons] at hnone
        simp only [hm] at hnone
        cases hnone
    | false =>
      have a := h2 hm
      have hdrop : L0.back.input.drop L0.back.pos = l.input.drop l.pos := by
        show L0.input.drop L0.start = _
        rw [f1, f2, hpos]
      obtain ⟨L, g1, g2, g3, g4, g5⟩ := ih L0.back
        (fun k hk => hks k (List.mem_cons_of_mem _ hk)) rfl
      rw [hdrop] at g4 g5
      have hstart : L0.back.start = l.start := f2
      have hposb : L0.back.pos = l.pos := by
        show L0.start = l.pos
        rw [f2, hpos]
      refine ⟨L, by rw [g1]; exact f1, by rw [g2]; exact f2, by rw [g3]; exact f3, ?_, ?_⟩
      · intro k hk
        rw [List.find?_cons] at hk
        simp only [hm] at hk
        obtain ⟨c1, c2⟩ := g4 k hk
        rw [acceptKeyword_cons, a]
        simp only [Bool.false_eq_true, if_false]
        exact ⟨c1, by rw [c2, hposb]⟩
      · intro hnone
        rw [List.find?_cons] at hnone
        simp only [hm] at hnone
        obtain ⟨c1, c2⟩ := g5 hnone
        rw [acceptKeyword_cons, a]
        simp only [Bool.false_eq_true, if_false]
        exact ⟨c1, by rw [c2, hstart]⟩

theorem matchCI_append : ∀ (kw s rest : List Char), (∀ a ∈ kw, isWordEnd a = false) →
    matchCI s (kw ++ rest) = true →
    kw.length ≤ s.length ∧
      (s.take kw.length).map unicodeToUpper = kw.map unicodeToUpper ∧
      matchCI (s.drop kw.length) rest = true := by
  intro kw
  induction kw with
  | nil => intro s rest _ h; exact ⟨Nat.zero_le _, rfl, h⟩
  | cons a kw ih =>
    intro s rest hkw h
    cases s with
    | nil =>
      have h' : isWordEnd a = true := h
      rw [hkw a (List.mem_cons_self _ _)] at h'
      cases h'
    | cons r rs =>
      have h' : (unicodeToUpper a == unicodeToUpper r && matchCI rs (kw ++ rest)) = true := h
      rw [Bool.and_eq_true, beq_iff_eq] at h'
      have h := h'
      obtain ⟨h1, h2, h3⟩ := ih rs rest (fun x hx => hkw x (List.mem_cons_of_mem _ hx)) h.2
      refine ⟨by simp only [List.length_cons]; omega, ?_, ?_⟩
      · simp only [List.length_cons, List.take_succ_cons, List.map_cons, h2, h.1]
      · simpa using h3

theorem matchCI_same : ∀ (kw s rest : List Char),
    s.map unicodeToUpper = kw.map unicodeToUpper →
    matchCI s (kw ++ rest) = isWordEnd (rest.headD eof) := by
  intro kw
  induction kw with
  | nil =>
    intro s rest h
    have hs : s = [] := by simpa using h
    subst hs
    rfl
  | cons a kw ih =>
    intro s rest h
    cases s with
    | nil => simp at h
    | cons r rs =>
      simp only [List.map_cons, List.cons.injEq] at h
      show (unicodeToUpper a == unicodeToUpper r && matchCI rs (kw ++ rest)) = _
      rw [ih rs rest h.2, h.1]
      simp

theorem find?_unique {α : Type} (p : α → Bool) : ∀ (l : List α) (x : α), x ∈ l → p x = true →
    (∀ y ∈ l, p y = true → y = x) → l.find? p = some x := by
  intro l
  induction l with
  | nil => intro x hx; cases hx
  | cons a l ih =>
    intro x hx hp huniq
    rw [List.find?_cons]
    cases hpa : p a with
    | true =>
      have := huniq a (List.mem_cons_self _ _) hpa
      simp [this]
    | false =>
      simp only
      rcases List.mem_cons.mp hx with rfl | hx'
      · rw [hp] at hpa; cases hpa
      · exact ih x hx' hp (fun y hy => huniq y (List.mem_cons_of_mem _ hy))

theorem spelling_not_wordEnd {K : String} {t : itemType} {kw : List Char}
    (hK : (K, t) ∈ keywords) (hkw : kw.map unicodeToUpper = K.data.map unicodeToUpper) :
    (∀ a ∈ kw, isWordEnd a = false) ∧ (∀ a ∈ kw, isSymbol a = true) ∧
      kw.length = K.data.length := by
  have hlen : kw.length = K.data.length := by
    have := congrArg List.length hkw
    simpa using this
  have key : ∀ a ∈ kw, ∃ r ∈ K.data, unicodeToUpper a = unicodeToUpper r := by
    intro a ha
    have : unicodeToUpper a ∈ K.data.map unicodeToUpper := by
      rw [← hkw]
      exact List.mem_map_of_mem _ ha
    obtain ⟨r, hr, he⟩ := List.mem_map.mp this
    exact ⟨r, hr, he.symm⟩
  refine ⟨?_, ?_, hlen⟩
  · intro a ha
    obtain ⟨r, hr, he⟩ := key a ha
    exact sameUpper_not_wordEnd he (keywords_symbols _ hK r hr)
  · intro a ha
    obtain ⟨r, hr, he⟩ := key a ha
    exact sameUpper_isSymbol he (keywords_symbols _ hK r hr)

theorem matchCI_wordEnd_nil {s rest : List Char} (hs : ∀ r ∈ s, isSymbol r = true)
    (hend : isWordEnd (rest.headD eof) = true) (h : matchCI s rest = true) : s = [] := by
  cases s with
  | nil => rfl
  | cons r rs =>
    have hr := hs r (List.mem_cons_self _ _)
    cases rest with
    | nil => rw [matchCI_nil_symbol rs hr] at h; cases h
    | cons c t =>
      have hstep : matchCI (r :: rs) (c :: t) =
          (unicodeToUpper c == unicodeToUpper r && matchCI rs t) := rfl
      rw [hstep, Bool.and_eq_true, beq_iff_eq] at h
      exact absurd h.1 (upper_wordEnd_ne hend hr)

/-- A keyword spelling, in any letter case, followed by a word end is what the keyword
chain matches, at the entry of that spelling. -/
theorem keywordAt_exact {K : String} {t : itemType} {kw rest : List Char}
    (hK : (K, t) ∈ keywords) (hkw : kw.map unicodeToUpper = K.data.map unicodeToUpper)
    (hend : isWordEnd (rest.headD eof) = true) : keywordAt (kw ++ rest) = some (K, t) := by
  obtain ⟨hnw, _, hlen⟩ := spelling_not_wordEnd hK hkw
  unfold keywordAt
  apply find?_unique _ _ _ hK
  · show matchCI K.data (kw ++ rest) = true
    rw [matchCI_same kw K.data rest hkw.symm, hend]
  · intro y hy hm
    obtain ⟨h1, h2, h3⟩ := matchCI_append kw y.1.data rest hnw hm
    have hdrop : y.1.data.drop kw.length = [] :=
      matchCI_wordEnd_nil
        (fun r hr => keywords_symbols y hy r (List.mem_of_mem_drop hr)) hend h3
    have hle : y.1.data.length ≤ kw.length := List.drop_eq_nil_iff.mp hdrop
    have htake : y.1.data.take kw.length = y.1.data := List.take_of_length_le hle
    rw [htake, hkw] at h2
    exact keywords_upper_injective y hy (K, t) hK h2

/-- A keyword spelling followed by a character that is no word end is not matched at its
entry of the chain; the chain matches the text only at a longer spelling. -/
theorem keywordAt_longer {K : String} {t : itemType} {kw rest : List Char}
    (hK : (K, t) ∈ keywords) (hkw : kw.map unicodeToUpper = K.data.map unicodeToUpper)
    (hend : isWordEnd (rest.headD eof) = false) :
    matchCI K.data (kw ++ rest) = false ∧
    ∀ k', keywordAt (kw ++ rest) = some k' →
      (K = "OPT" ∧ k'.1 = "OPTIONAL") ∨
        (K = "SIDE" ∧ (k'.1 = "SIDESET" ∨ k'.1 = "SIDE_SET")) := by
  obtain ⟨hnw, _, hlen⟩ := spelling_not_wordEnd hK hkw
  refine ⟨by rw [matchCI_same kw K.data rest hkw.symm, hend], ?_⟩
  intro k' hk'
  unfold keywordAt at hk'
  have hmem := List.mem_of_find?_eq_some hk'
  have hm : matchCI k'.1.data (kw ++ rest) = true :=
    @List.find?_some _ (fun k : String × itemType => matchCI k.1.data (kw ++ rest)) _ _ hk'
  obtain ⟨h1, h2, h3⟩ := matchCI_append kw k'.1.data rest hnw hm
  have hlt : K.data.length < k'.1.data.length := by
    rcases Nat.lt_or_ge kw.length k'.1.data.length with hlt | hge
    · omega
    · have hdrop : k'.1.data.drop kw.length = [] := List.drop_eq_nil_iff.mpr hge
      rw [hdrop] at h3
      have : matchCI [] rest = isWordEnd (rest.headD eof) := rfl
      rw [this, hend] at h3
      cases h3
  rw [hlen, hkw] at h2
  exact keywords_longer (K, t) hK k' hmem hlt h2

/-! ## `lexContent` at a keyword and at a symbol -/

theorem keywords_not_eol : ∀ k ∈ keywords, k.2 ≠ itemEOL := by
  have hall : keywords.all (fun k => !decide (k.2 = itemEOL)) = true := by decide
  intro k hk
  simpa using List.all_eq_true.mp hall k hk

theorem emit_some (l : lexer) (t : itemType) (ht : t ≠ itemEOL) :
    (l.emit t).1 =
      some
        { typ := t, val := String.mk ((l.input.drop l.start).take (l.pos - l.start)),
          start := l.start, end_ := l.pos } := by
  unfold lexer.emit
  simp [ht]

/-- At the start of a token, on a text that the keyword chain matches at the entry `k`,
`lexContent` sends the token of `k` with the matched text as literal. -/
theorem lexContent_keyword (l : lexer) (text : List Char) (k : String × itemType)
    (hpos : l.pos = l.start) (hdrop : l.input.drop l.pos = text)
    (hk : keywordAt text = some k) :
    ∃ l', lexContent l =
        { state := some stateFn.lexContent,
          sent := some { typ := k.2, val := String.mk (text.take k.1.data.length),
                         start := l.pos, end_ := l.pos + k.1.data.length },
          lex := l' } ∧
      l'.input = l.input ∧ l'.start = l.pos + k.1.data.length ∧
      l'.pos = l.pos + k.1.data.length := by
  obtain ⟨L, g1, g2, g3, g4, _⟩ := acceptKeyword_spec keywords l keywords_symbols hpos
  obtain ⟨hacc, hLpos⟩ := g4 k (by rw [hdrop]; exact hk)
  have hmem : k ∈ keywords := List.mem_of_find?_eq_some hk
  refine ⟨(L.emit k.2).2, ?_, ?_, ?_, ?_⟩
  · unfold lexContent
    rw [hacc]
    dsimp only
    rw [emitThen_eq, emit_some L k.2 (keywords_not_eol k hmem), g1, g2, hLpos, ← hpos, hdrop]
    have : l.pos + k.1.data.length - l.pos = k.1.data.length := by omega
    rw [this]
  · exact ((emit_fields L k.2).1).trans g1
  · rw [(emit_fields L k.2).2.2.1, hLpos]
  · rw [(emit_fields L k.2).2.2.2.1, hLpos]

theorem symbol_char_facts (a : Char) (h : isSymbol a = true) :
    isEOF a = false ∧ isEOL a = false ∧ a ≠ ';' ∧ a ≠ '/' ∧ a ≠ eol ∧ isWhite a = false ∧
      isSymbolChar a = true ∧ a ≠ ':' := by
  obtain ⟨b1, b2⟩ := isSymbol_bounds h
  have hc := Char.ofNat_toNat a
  generalize a.toNat = k at *
  subst hc
  revert h
  interval_cases k <;> decide

/-- At the start of a token, on a letter or `_` where the keyword chain matches nothing,
`lexContent` goes on in `lexSymbolOrLabel` behind that character. -/
theorem lexContent_symbol (l : lexer) (a : Char) (t : List Char) (hpos : l.pos = l.start)
    (hdrop : l.input.drop l.pos = a :: t) (hnone : keywordAt (a :: t) = none)
    (ha : isSymbol a = true) :
    ∃ l1, lexContent l = { state := some stateFn.lexSymbolOrLabel, sent := none, lex := l1 } ∧
      l1.input = l.input ∧ l1.start = l.start ∧ l1.pos = l.pos + 1 ∧
      l1.lastItem = l.lastItem := by
  obtain ⟨L, g1, g2, g3, _, g5⟩ := acceptKeyword_spec keywords l keywords_symbols hpos
  obtain ⟨hacc, hLpos⟩ := g5 (by rw [hdrop]; exact hnone)
  have hLdrop : L.input.drop L.pos = a :: t := by rw [g1, hLpos, ← hpos]; exact hdrop
  obtain ⟨hin, _⟩ := drop_cons_pos hLdrop
  obtain ⟨hn, hp, hi, hst, hlast⟩ := next_of_some L a hin
  obtain ⟨f1, f2, f3, f4, f5, f6, _, _⟩ := symbol_char_facts a ha
  refine ⟨L.next.2, ?_, by rw [hi, g1], by rw [hst, g2], by rw [hp, hLpos, hpos],
    by rw [hlast, g3]⟩
  unfold lexContent
  rw [hacc]
  dsimp only
  rw [hn]
  simp only [f1, f2, f3, f4, f5, f6, ha, Bool.false_eq_true, if_false, if_true, decide_False,
    Bool.false_and, Bool.or_self]

/-- Over a run of symbol characters that ends before a character of another kind,
`lexSymbolOrLabel` sends one token: a label that takes in the `:` that follows the run, or
else a symbol that ends with the run. -/
theorem symbol_run : ∀ (run : List Char) (l : lexer) (after : List Char),
    l.input.drop l.pos = run ++ after → (∀ c ∈ run, isSymbolChar c = true) →
    isSymbolChar (after.headD eof) = false →
    ∃ h', (lexHandle.mk (some stateFn.lexSymbolOrLabel) l).receive (run.length + 1) =
      some (some (if after.head? = some ':' then
          { typ := itemLabel,
            val := String.mk ((l.input.drop l.start).take (l.pos + run.length + 1 - l.start)),
            start := l.start, end_ := l.pos + run.length + 1 }
        else
          { typ := itemSymbol,
            val := String.mk ((l.input.drop l.start).take (l.pos + run.length - l.start)),
            start := l.start, end_ := l.pos + run.length }), h') ∧
      h'.state = some stateFn.lexContent := by
  intro run
  induction run with
  | nil =>
    intro l after hdrop _ hafter
    rw [List.nil_append] at hdrop
    have hnext : l.next.1 = after.headD eof := by rw [next_char, peek_headD, hdrop]
    have hcond : (l.next.1 ≠ '.' && !unicodeIsNumber l.next.1 && !isSymbol l.next.1) = true := by
      rw [hnext]
      unfold isSymbolChar at hafter
      generalize after.headD eof = x at hafter
      simp only [Bool.or_eq_false_iff, decide_eq_false_iff_not] at hafter
      simp [hafter.1.1, hafter.1.2, hafter.2]
    by_cases hcolon : after.head? = some ':'
    · obtain ⟨t, rfl⟩ : ∃ t, after = ':' :: t := by
        cases after with
        | nil => cases hcolon
        | cons c t => simp only [List.head?_cons, Option.some.injEq] at hcolon; exact ⟨t, by rw [hcolon]⟩
      obtain ⟨_, hp⟩ := next_drop_cons l ':' t hdrop
      have hstep : lexSymbolOrLabel l = emitThen l.next.2 itemLabel (some stateFn.lexContent) := by
        unfold lexSymbolOrLabel
        dsimp only
        have hn : l.next.1 = ':' := hnext
        rw [if_pos hcond, if_pos hn]
      refine ⟨{ state := some stateFn.lexContent, lex := (l.next.2.emit itemLabel).2 }, ?_, rfl⟩
      show lexHandle.receive (0 + 1) _ = _
      rw [receive_step_sent 0 stateFn.lexSymbolOrLabel l _ _ hstep
        (by rw [emitThen_eq]; exact emit_some l.next.2 itemLabel (by decide))]
      rw [if_pos hcolon, next_input, next_start, hp]
      rfl
    · have hn : ¬ l.next.1 = ':' := by
        rw [hnext]
        intro h
        apply hcolon
        cases after with
        | nil => revert h; decide
        | cons c t => simp only [List.headD_cons] at h; rw [h]; rfl
      have hstep : lexSymbolOrLabel l =
          emitThen l.next.2.backup itemSymbol (some stateFn.lexContent) := by
        unfold lexSymbolOrLabel
        dsimp only
        rw [if_pos hcond, if_neg hn]
      refine ⟨{ state := some stateFn.lexContent, lex := (l.next.2.backup.emit itemSymbol).2 },
        ?_, rfl⟩
      show lexHandle.receive (0 + 1) _ = _
      rw [receive_step_sent 0 stateFn.lexSymbolOrLabel l _ _ hstep
        (by rw [emitThen_eq]; exact emit_some l.next.2.backup itemSymbol (by decide))]
      rw [if_neg hcolon, next_backup_pos]
      have e1 : l.next.2.backup.input = l.input := next_input l
      have e2 : l.next.2.backup.start = l.start := next_start l
      rw [e1, e2]
      rfl
  | cons c run ih =>
    intro l after hdrop hrun hafter
    rw [List.cons_append] at hdrop
    obtain ⟨hd, hp⟩ := next_drop_cons l c (run ++ after) hdrop
    have hnext : l.next.1 = c := by rw [next_char, peek_headD, hdrop]; rfl
    have hc := hrun c (List.mem_cons_self _ _)
    have hcond : (l.next.1 ≠ '.' && !unicodeIsNumber l.next.1 && !isSymbol l.next.1) = false := by
      rw [hnext]
      unfold isSymbolChar at hc
      simp only [Bool.or_eq_true, decide_eq_true_eq] at hc
      rcases hc with (h | h) | h
      · simp [h]
      · simp [h]
      · simp [h]
    have hstep : lexSymbolOrLabel l =
        { state := some stateFn.lexSymbolOrLabel, sent := none, lex := l.next.2 } := by
      unfold lexSymbolOrLabel
      dsimp only
      rw [if_neg (by rw [hcond]; decide)]
    obtain ⟨h', hr, hst⟩ := ih l.next.2 after hd
      (fun x hx => hrun x (List.mem_cons_of_mem _ hx)) hafter
    refine ⟨h', ?_, hst⟩
    rw [List.length_cons, receive_step_silent _ stateFn.lexSymbolOrLabel l _ hstep rfl, hr,
      next_input, next_start, hp]
    have e1 : l.pos + 1 + run.length + 1 = l.pos + (run.length + 1) + 1 := by omega
    have e2 : l.pos + 1 + run.length = l.pos + (run.length + 1) := by omega
    rw [e1, e2]

/-! ## Statement of the claim on keywords -/

/-- C25, as claimed, fails on a spelling followed by `:` and on a spelling that a longer
spelling continues: `jmp:` is lexed as the label `jmp:`, not as a symbol, and in `SIDE_SET`
and `OPTional` the spellings `SIDE` and `OPT` are followed by `_` and by a letter, yet a
keyword token is sent. -/
theorem keyword_before_colon :
    lexKinds 50 "jmp:" = some [(itemLabel, "jmp:"), (itemEOF, "")] ∧
    lexKinds 50 "SIDE_SET" = some [(itemSide, "SIDE_SET"), (itemEOF, "")] ∧
    lexKinds 50 "OPTional x" =
      some [(itemOptional, "OPTional"), (itemSymbol, "x"), (itemEOF, "")] := by
  decide!

/-- C25, amended: let the lexer stand at the start of a token of a source of ASCII
characters, in which a rune is one byte and the character classes of the code are the ASCII
ones, on a text that begins with `kw`, a spelling of an entry `K` of the keyword chain (the
ten mnemonics and the nine qualifier spellings) in any mix of upper and lower case, as many
bytes as characters.  If a blank, a newline or the end of the input follows, `lexContent`
sends the keyword token of `K` with `kw` as its text.
If any other character follows, the entry `K` is not matched; the chain matches the text
only when `K` is `OPT` or `SIDE` and the text goes on to spell `OPTIONAL`, `SIDESET` or
`SIDE_SET`; and when the chain matches nothing, the lexer sends one token for the whole run
of letters, digits, `_` and `.` that starts there: the label made of the run and the `:`
that follows it, or else the symbol made of the run. -/
theorem keyword_or_symbol (l : lexer) (K : String) (t : itemType) (kw rest : List Char)
    (hascii : ∀ c ∈ l.input, c.toNat < 128)
    (hK : (K, t) ∈ keywords) (hkw : kw.map unicodeToUpper = K.data.map unicodeToUpper)
    (hpos : l.pos = l.start) (hdrop : l.input.drop l.pos = kw ++ rest) :
    String.utf8Len kw = kw.length ∧
    (isWordEnd (rest.headD eof) = true →
      ∃ h', (lexHandle.mk (some stateFn.lexContent) l).receive 1 =
          some (some { typ := t, val := String.mk kw, start := l.pos,
                       end_ := l.pos + kw.length }, h') ∧
        h'.state = some stateFn.lexContent ∧ h'.lex.start = l.pos + kw.length ∧
        h'.lex.pos = l.pos + kw.length) ∧
    (isWordEnd (rest.headD eof) = false →
      (l.acceptStringCI K).1 = false ∧
      (∀ k', keywordAt (kw ++ rest) = some k' →
        (K = "OPT" ∧ k'.1 = "OPTIONAL") ∨
          (K = "SIDE" ∧ (k'.1 = "SIDESET" ∨ k'.1 = "SIDE_SET"))) ∧
      (K ≠ "OPT" → K ≠ "SIDE" → keywordAt (kw ++ rest) = none) ∧
      (keywordAt (kw ++ rest) = none →
        ∀ run after, kw ++ rest = run ++ after → (∀ c ∈ run, isSymbolChar c = true) →
          isSymbolChar (after.headD eof) = false →
          ∃ h', (lexHandle.mk (some stateFn.lexContent) l).receive (run.length + 1) =
            some (some (if after.head? = some ':' then
                { typ := itemLabel, val := String.mk (run ++ [':']), start := l.pos,
                  end_ := l.pos + run.length + 1 }
              else
                { typ := itemSymbol, val := String.mk run, start := l.pos,
                  end_ := l.pos + run.length }), h'))) := by
  obtain ⟨hnw, hsym, hlen⟩ := spelling_not_wordEnd hK hkw
  refine ⟨utf8Len_ascii kw (fun c hc => hascii c (List.mem_of_mem_drop
    (by rw [hdrop]; exact List.mem_append_left _ hc))), ?_, ?_⟩
  · intro hend
    obtain ⟨l', hstep, _, f2, f3⟩ :=
      lexContent_keyword l (kw ++ rest) (K, t) hpos hdrop (keywordAt_exact hK hkw hend)
    refine ⟨{ state := some stateFn.lexContent, lex := l' }, ?_, rfl, f2.trans (by rw [hlen]),
      f3.trans (by rw [hlen])⟩
    show lexHandle.receive (0 + 1) _ = _
    rw [receive_step_sent 0 stateFn.lexContent l _ _ hstep rfl]
    dsimp only
    rw [← hlen, List.take_left]
  · intro hend
    obtain ⟨hno, hlonger⟩ := keywordAt_longer hK hkw hend
    refine ⟨?_, hlonger, ?_, ?_⟩
    · obtain ⟨L, _, _, h2⟩ := acceptLoop_spec K.data l (keywords_symbols (K, t) hK)
      rw [hdrop] at h2
      unfold lexer.acceptStringCI
      rw [h2 hno]
    · intro h1 h2
      cases hk : keywordAt (kw ++ rest) with
      | none => rfl
      | some k' =>
        rcases hlonger k' hk with ⟨h, _⟩ | ⟨h, _⟩
        · exact absurd h h1
        · exact absurd h h2
    · intro hnone run after hsplit hrun hafter
      obtain ⟨r0, rs0, hK0, _⟩ := keywords_start_letter (K, t) hK
      cases kw with
      | nil =>
        rw [hK0] at hlen
        simp at hlen
      | cons a kw' =>
        have ha : isSymbol a = true := hsym a (List.mem_cons_self _ _)
        cases run with
        | nil =>
          rw [List.nil_append] at hsplit
          rw [← hsplit] at hafter
          have := (symbol_char_facts a ha).2.2.2.2.2.2.1
          rw [List.cons_append, List.headD_cons, this] at hafter
          cases hafter
        | cons a' run' =>
          rw [List.cons_append, List.cons_append, List.cons.injEq] at hsplit
          obtain ⟨haa, htail⟩ := hsplit
          subst haa
          rw [List.cons_append, htail] at hdrop hnone
          obtain ⟨l1, hstep, g1, g2, g3, _⟩ :=
            lexContent_symbol l a (run' ++ after) hpos hdrop hnone ha
          obtain ⟨_, hdrop1⟩ := drop_cons_pos hdrop
          obtain ⟨h', hr, _⟩ := symbol_run run' l1 after (by rw [g1, g3]; exact hdrop1)
            (fun x hx => hrun x (List.mem_cons_of_mem _ hx)) hafter
          refine ⟨h', ?_⟩
          rw [List.length_cons, receive_step_silent _ stateFn.lexContent l _ hstep rfl, hr, g1,
            g2, g3, ← hpos, hdrop]
          by_cases hcolon : after.head? = some ':'
          · obtain ⟨tl, rfl⟩ : ∃ tl, after = ':' :: tl := by
              cases after with
              | nil => cases hcolon
              | cons c tl =>
                simp only [List.head?_cons, Option.some.injEq] at hcolon
                exact ⟨tl, by rw [hcolon]⟩
            rw [if_pos hcolon, if_pos hcolon]
            have e1 : l.pos + 1 + run'.length + 1 - l.pos = (a :: run' ++ [':']).length := by
              simp only [List.length_cons, List.length_append, List.length_nil]
              omega
            have e2 : a :: (run' ++ ':' :: tl) = (a :: run' ++ [':']) ++ tl := by simp
            have e3 : l.pos + 1 + run'.length + 1 = l.pos + (run'.length + 1) + 1 := by omega
            rw [e1, e2, List.take_left, e3]
          · rw [if_neg hcolon, if_neg hcolon]
            have e1 : l.pos + 1 + run'.length - l.pos = (a :: run').length := by
              simp only [List.length_cons]
              omega
            have e2 : a :: (run' ++ after) = (a :: run') ++ after := rfl
            have e3 : l.pos + 1 + run'.length = l.pos + (run'.length + 1) := by omega
            rw [e1, e2, List.take_left, e3]

/-- C25, amended, at the source `PuBlIc x`: the first token is the qualifier `PUBLIC` with
the text as written. -/
theorem keyword_or_symbol_witness :
    ∃ h', (lexHandle.mk (some stateFn.lexContent) (lex "PuBlIc x".data).lex).receive 1 =
        some (some { typ := itemPublic, val := "PuBlIc", start := 0, end_ := 6 }, h') ∧
      h'.state = some stateFn.lexContent ∧ h'.lex.start = 6 ∧ h'.lex.pos = 6 :=
  (keyword_or_symbol (lex "PuBlIc x".data).lex "PUBLIC" itemPublic "PuBlIc".data " x".data
    (by decide) (by decide) (by decide) rfl rfl).2.1 (by decide)

/-! ## The text of operator tokens -/

theorem operatorText_ite {p : Prop} [Decidable p] {a b : lexStep}
    (ha : p → sendsOperatorText a) (hb : ¬ p → sendsOperatorText b) :
    sendsOperatorText (if p then a else b) := by
  by_cases h : p
  · rw [if_pos h]; exact ha h
  · rw [if_neg h]; exact hb h

theorem operatorText_silent (state : Option stateFn) (l : lexer) :
    sendsOperatorText { state := state, sent := none, lex := l } := by
  intro item h
  cases h

theorem operatorText_other (l : lexer) (t : itemType) (state : Option stateFn)
    (ht : opOf t = none) : sendsOperatorText (emitThen l t state) := by
  intro item h name hname
  rw [emitThen_eq] at h
  rw [(emit_sent l t item h).1, ht] at hname
  cases hname

theorem operatorText_char (L : lexer) (t : itemType) (state : Option stateFn) (ch : Char)
    (name : operator) (hpos : L.pos = L.start) (hnext : L.next.1 = ch) (hch : ch ≠ eof)
    (hop : opOf t = some name) (htext : name.text = String.mk [ch]) :
    sendsOperatorText (emitThen L.next.2 t state) := by
  intro item h name' hname
  rw [emitThen_eq] at h
  obtain ⟨e1, _, _, e4⟩ := emit_sent L.next.2 t item h
  rw [e1, hop] at hname
  cases hname
  rw [e4, htext, next_input, next_start, ← hpos]
  cases hd : L.input.drop L.pos with
  | nil =>
    rw [next_char, peek_headD, hd] at hnext
    exact absurd hnext.symm hch
  | cons c rest =>
    rw [(next_drop_cons L c rest hd).2]
    rw [next_char, peek_headD, hd] at hnext
    have hc : c = ch := hnext
    rw [hc]
    have : L.pos + 1 - L.pos = 1 := by omega
    rw [this]
    rfl

theorem acceptLoop_false : ∀ (s : List Char) (l : lexer),
    (lexer.acceptStringCILoop s l).1 = false →
    (lexer.acceptStringCILoop s l).2.pos = (lexer.acceptStringCILoop s l).2.start := by
  intro s
  induction s with
  | nil =>
    intro l h
    rw [acceptLoop_nil] at h ⊢
    split at h
    · cases h
    · next hw => rw [if_neg hw]; rfl
  | cons r rs ih =>
    intro l h
    rw [acceptLoop_cons] at h ⊢
    split at h
    · next hne => rw [if_pos hne]; rfl
    · next hne => rw [if_neg hne]; exact ih _ h

theorem acceptKeyword_none : ∀ (ks : List (String × itemType)) (l L : lexer), ks ≠ [] →
    acceptKeyword ks l = (none, L) → L.pos = L.start := by
  intro ks
  induction ks with
  | nil => intro l L h; exact absurd rfl h
  | cons k ks ih =>
    intro l L _ h
    obtain ⟨s, t⟩ := k
    rw [acceptKeyword_cons] at h
    split at h
    · cases h
    · next hfalse =>
      have hf : (lexer.acceptStringCILoop s.data l).1 = false := by
        cases hb : (lexer.acceptStringCILoop s.data l).1 with
        | false => rfl
        | true => exact absurd hb hfalse
      by_cases hks : ks = []
      · subst hks
        rw [acceptKeyword_nil] at h
        cases h
        exact acceptLoop_false s.data l hf
      · exact ih _ L hks h

theorem acceptKeyword_some : ∀ (ks : List (String × itemType)) (l L : lexer) (t : itemType),
    acceptKeyword ks l = (some t, L) → ∃ k ∈ ks, k.2 = t := by
  intro ks
  induction ks with
  | nil => intro l L t h; cases h
  | cons k ks ih =>
    intro l L t h
    obtain ⟨s, t0⟩ := k
    rw [acceptKeyword_cons] at h
    split at h
    · simp only [Prod.mk.injEq, Option.some.injEq] at h
      exact ⟨(s, t0), List.mem_cons_self _ _, h.1⟩
    · obtain ⟨k, hk, ht⟩ := ih _ L t h
      exact ⟨k, List.mem_cons_of_mem _ hk, ht⟩

theorem keywords_not_operator : ∀ k ∈ keywords, opOf k.2 = none := by
  have hall : keywords.all (fun k => decide (opOf k.2 = none)) = true := by decide!
  intro k hk
  simpa using List.all_eq_true.mp hall k hk

theorem directiveType_not_operator {d : String} {t : itemType}
    (h : directiveType d = some t) : opOf t = none := by
  unfold directiveType at h
  split_ifs at h <;> cases h <;> rfl

theorem lexContent_operatorText (l : lexer) : sendsOperatorText (lexContent l) := by
  unfold lexContent
  cases hacc : acceptKeyword keywords l with
  | mk r L =>
    cases r with
    | some t =>
      obtain ⟨k, hk, ht⟩ := acceptKeyword_some keywords l L t hacc
      exact operatorText_other L t _ (by rw [← ht]; exact keywords_not_operator k hk)
    | none =>
      have hpos : L.pos = L.start := acceptKeyword_none keywords l L (by decide) hacc
      dsimp only
      repeat' first
        | refine operatorText_ite (fun h => ?_) (fun h => ?_)
        | exact operatorText_silent _ _
        | exact operatorText_other _ _ _ rfl
        | exact operatorText_char L _ _ '+' opPlus hpos (by assumption) (by decide) rfl rfl
        | exact operatorText_char L _ _ '-' opMinus hpos (by assumption) (by decide) rfl rfl
        | exact operatorText_char L _ _ '*' opMul hpos (by assumption) (by decide) rfl rfl
        | exact operatorText_char L _ _ '/' opDiv hpos (by assumption) (by decide) rfl rfl
        | exact operatorText_char L _ _ '&' opBinAnd hpos (by assumption) (by decide) rfl rfl
        | exact operatorText_char L _ _ '|' opBinOr hpos (by assumption) (by decide) rfl rfl
        | exact operatorText_char L _ _ '^' opBinXor hpos (by assumption) (by decide) rfl rfl

theorem step_operatorText (state : stateFn) (l : lexer) : sendsOperatorText (state.step l) := by
  cases state with
  | lexContent => exact lexContent_operatorText l
  | lexSymbolOrLabel =>
    show sendsOperatorText (lexSymbolOrLabel l)
    unfold lexSymbolOrLabel
    dsimp only
    repeat' first
      | refine operatorText_ite (fun h => ?_) (fun h => ?_)
      | exact operatorText_silent _ _
      | exact operatorText_other _ _ _ rfl
  | lexDirective =>
    show sendsOperatorText (lexDirective l)
    unfold lexDirective
    dsimp only
    refine operatorText_ite (fun h => ?_) (fun h => ?_)
    · split
      · next t ht => exact operatorText_other _ t _ (directiveType_not_operator ht)
      · exact operatorText_silent _ _
    · exact operatorText_silent _ _
  | lexValue =>
    show sendsOperatorText (lexValue l)
    unfold lexValue
    dsimp only
    repeat' first
      | refine operatorText_ite (fun h => ?_) (fun h => ?_)
      | exact operatorText_silent _ _
      | exact operatorText_other _ _ _ rfl
  | lexComment =>
    show sendsOperatorText (lexComment l)
    unfold lexComment
    dsimp only
    repeat' first
      | refine operatorText_ite (fun h => ?_) (fun h => ?_)
      | exact operatorText_silent _ _

theorem receive_operatorText : ∀ (fuel : Nat) (h h' : lexHandle) (item : lexItem),
    h.receive fuel = some (some item, h') → operatorText item := by
  intro fuel
  induction fuel with
  | zero => intro h h' item hr; cases hr
  | succ fuel ih =>
    intro h h' item hr
    unfold lexHandle.receive at hr
    cases hst : h.state with
    | none => simp [hst] at hr
    | some state =>
      simp only [hst] at hr
      cases hsent : (state.step h.lex).sent with
      | none =>
        simp only [hsent] at hr
        exact ih _ _ _ hr
      | some item' =>
        simp only [hsent, Option.some.injEq, Prod.mk.injEq] at hr
        obtain ⟨rfl, _⟩ := hr
        exact step_operatorText state h.lex item' hsent

theorem receiveMany_operatorText (fuel : Nat) : ∀ (n : Nat) (h h' : lexHandle)
    (items : List lexItem), h.receiveMany fuel n = some (items, h') →
    ∀ item ∈ items, operatorText item := by
  intro n
  induction n with
  | zero =>
    intro h h' items hr
    simp only [lexHandle.receiveMany, Option.some.injEq, Prod.mk.injEq] at hr
    obtain ⟨rfl, _⟩ := hr
    intro item hitem
    cases hitem
  | succ n ih =>
    intro h h' items hr
    unfold lexHandle.receiveMany at hr
    cases hrec : h.receive fuel with
    | none => simp [hrec] at hr
    | some r =>
      obtain ⟨r1, h1⟩ := r
      cases r1 with
      | none =>
        simp only [hrec, Option.some.injEq, Prod.mk.injEq] at hr
        obtain ⟨rfl, _⟩ := hr
        intro item hitem
        cases hitem
      | some item0 =>
        simp only [hrec, Option.map_eq_some'] at hr
        obtain ⟨⟨items', h2⟩, hrest, heq⟩ := hr
        simp only [Prod.mk.injEq] at heq
        obtain ⟨rfl, _⟩ := heq
        intro item hmem
        rcases List.mem_cons.mp hmem with rfl | hmem
        · exact receive_operatorText fuel h h1 item hrec
        · exact ih h1 h2 items' hrest item hmem

/-! ## Statement of the claim on regenerated expressions -/

/-- C27: printing undoes parsing on parenthesis-free expressions.  Let `l` be a valid
expression token sequence without parentheses (operands separated by operators, every
identifier declared in scope) whose number tokens are canonical decimals (digits without a
leading zero, at most 2147483647) and whose operator tokens carry their character as text;
whatever follows it on the line, if it is no operator.  Then `parseExpr` returns a tree
whose `ToSource` is the texts of the tokens of `l`, in their order, joined by single
spaces.  Every operator token that the lexer sends, on any input, carries its character
as text. -/
theorem toSource_undoes_parse (c : compiler) (l tail : line) (hvalid : validExpr c l)
    (hstop : stopsExpr tail)
    (hnum : ∀ t ∈ l, t.typ = itemNumber → canonicalDecimal t.val = true)
    (hop : ∀ t ∈ l, operatorText t) :
    (∃ e, c.parseExpr (l ++ tail) = Res.ok e ∧
      e.ToSource = joinSpaced (l.map (fun t => t.val))) ∧
    (∀ (input : List Char) (fuel n : Nat) (items : List lexItem) (h : lexHandle),
      (lex input).receiveMany fuel n = some (items, h) →
      ∀ item ∈ items, operatorText item) := by
  constructor
  · obtain ⟨e, _, hparse, hin, hprec⟩ := parseExpr_good c l tail hvalid hstop
    refine ⟨e, hparse, ?_⟩
    rw [toSource_inorder e hprec, hin, lineSyms_text c l hvalid hnum hop]
  · intro input fuel n items h hrun
    exact receiveMany_operatorText fuel n _ h items hrun

/-- C27, at the tokens of `7 - 2 - 1 + 2 * 3 | 4 & 5`: the tree that `parseExpr` returns
prints as that text. -/
theorem toSource_undoes_parse_witness :
    ∃ e, (compiler.new "").parseExpr exprSample = Res.ok e ∧
      e.ToSource = "7 - 2 - 1 + 2 * 3 | 4 & 5" :=
  (toSource_undoes_parse (compiler.new "") exprSample []
    (by simp [validExpr, exprSample, isOperand, opOf]) (fun t ht => by cases ht)
    (by decide) (by
      intro t ht name
      simp only [exprSample, List.mem_cons, List.mem_singleton, List.not_mem_nil,
        or_false] at ht
      rcases ht with rfl | rfl | rfl | rfl | rfl | rfl | rfl | rfl | rfl | rfl | rfl | rfl | rfl <;>
        intro h <;> cases h <;> rfl)).1

end Pioasm
